import Mathlib

/-!
# TFProcessor: dual-channel transfer-function engine

Shallow embedding of `Source/Core/TransferFunction/TFProcessor.{h,cpp}`.

* `double`/`float` values are idealised as elements of a linearly ordered field `K`
  (instantiated with `ℝ` for the analytic statements, and usable with `ℚ` for evaluation);
  casts between `float` and `double` are the identity. Statements over `K` are statements
  in exact arithmetic.
* The part `Binary64 arithmetic` follows the averaging loop body, the delay smoothing and
  lock logic, the fallback smoothing and the phase-unwrapping loops in IEEE 754 binary64
  (`F64`, round to nearest, ties to even); it shows where the rounded program leaves the
  exact one.
* `std::complex<double>` is `Cplx K`, a pair of scalars with the operations used by the source.
* `<cmath>` functions are the fields of `Libm K`; `realLibm` is their real instance.
* `FFTAnalyzer` and `juce::dsp::FFT` are external collaborators, the fields of `Collab K`.
* `std::vector` is `List`; `v[k]` is `getD k 0`; a loop writing `v[k]` for `k < n` is `writeBins`.
* `int` is `Int`.
-/

set_option linter.unusedSectionVars false

namespace TFProcessor

/-- Value of type `std::complex<double>`: real and imaginary part. -/
@[ext] structure Cplx (K : Type) where
  re : K
  im : K

namespace Cplx

variable {K : Type} [LinearOrderedField K]

/-- Value `std::complex<double>(0.0, 0.0)`. -/
def zero : Cplx K := ⟨0, 0⟩

/-- Complex addition. -/
def add (a b : Cplx K) : Cplx K := ⟨a.re + b.re, a.im + b.im⟩

/-- Complex multiplication. -/
def mul (a b : Cplx K) : Cplx K := ⟨a.re * b.re - a.im * b.im, a.re * b.im + a.im * b.re⟩

/-- Conjugate, `std::conj`. -/
def conj (a : Cplx K) : Cplx K := ⟨a.re, -a.im⟩

/-- Product `double * complex`. -/
def smul (c : K) (a : Cplx K) : Cplx K := ⟨c * a.re, c * a.im⟩

/-- Quotient `complex / double`. -/
def divR (a : Cplx K) (c : K) : Cplx K := ⟨a.re / c, a.im / c⟩

/-- Squared magnitude, `std::norm`. -/
def norm (a : Cplx K) : K := a.re * a.re + a.im * a.im

end Cplx

/-- Functions of `<cmath>` used by the source, over the scalar type `K`. -/
structure Libm (K : Type) where
  exp : K → K
  log10 : K → K
  log2 : K → K
  sqrt : K → K
  atan2 : K → K → K
  cos : K → K
  sin : K → K
  pow : K → K → K
  pi : K

/-- External collaborators: `analyzerSize n fs` is `FFTAnalyzer::getFFTSize()` after
`FFTAnalyzer::prepare(n, fs)`, `analyze` is `FFTAnalyzer::processBlock` (frame to half-spectrum),
`ifft` is `juce::dsp::FFT::perform` with `inverse = true`. -/
structure Collab (K : Type) where
  analyzerSize : Int → K → Int
  analyze : List K → List (Cplx K)
  ifft : List (Cplx K) → List (Cplx K)

section Model

variable {K : Type} [LinearOrderedField K] [FloorRing K]

/-- Constant `eps = 1e-12`. -/
def eps : K := 1 / 10 ^ 12

/-- Constant `cohMinMath = 0.4`. -/
def cohMinMath : K := 2 / 5

/-- Constant `overlap = 0.75`. -/
def overlap : K := 3 / 4

/-- Constant `delayStabilityThreshold = 0.0001`. -/
def delayStabilityThreshold : K := 1 / 10000

/-- Constant `delayStabilityCount = 3`. -/
def delayStabilityCount : Int := 3

/-- Constant `fastAveragingFrames = 30`. -/
def fastAveragingFrames : Int := 30

/-- Magnitude `std::abs(z)` of a complex value. -/
def cabs (M : Libm K) (z : Cplx K) : K := M.sqrt (Cplx.norm z)

/-- Argument `std::arg(z) = atan2(imag, real)`. -/
def carg (M : Libm K) (z : Cplx K) : K := M.atan2 z.im z.re

/-- Value `std::polar(r, theta)`. -/
def polar (M : Libm K) (r theta : K) : Cplx K := ⟨r * M.cos theta, r * M.sin theta⟩

/-- Value `std::exp(std::complex<double>(0.0, phi))`. -/
def cexpI (M : Libm K) (phi : K) : Cplx K := polar M (M.exp 0) phi

/-- Conversion `static_cast<int>(x)` of a `double`: truncation toward zero. -/
def truncToInt (x : K) : Int := if 0 ≤ x then Int.floor x else Int.ceil x

/-- Function `std::round`: nearest integer, halves away from zero. -/
def cRound (x : K) : Int := if 0 ≤ x then Int.floor (x + 1 / 2) else Int.ceil (x - 1 / 2)

/-- Clamp `juce::jlimit(lo, hi, x)`. -/
def jlimit (lo hi x : K) : K := if x < lo then lo else if hi < x then hi else x

/-- Loop `for (k = 0; k < n; ++k) v[k] = f k` on a vector `v`. -/
def writeBins {α : Type} (n : Nat) (f : Nat → α) (xs : List α) : List α :=
  xs.mapIdx (fun k old => if k < n then f k else old)

/-- Call `v.resize(n, x)`. -/
def resize {α : Type} (xs : List α) (n : Nat) (x : α) : List α :=
  xs.take n ++ List.replicate (n - xs.length) x

/-- Call `std::fill(v.begin(), v.end(), x)`. -/
def fill {α : Type} (xs : List α) (x : α) : List α := xs.map (fun _ => x)

/-- Member variables of `TFProcessor`. `phatFFT` records whether the `unique_ptr` is non-null. -/
structure TFState (K : Type) where
  referenceBuffer : List K
  measurementBuffer : List K
  X : List (Cplx K)
  Y : List (Cplx K)
  Gxx : List K
  Gyy : List K
  Gxy : List (Cplx K)
  H : List (Cplx K)
  H_compensated : List (Cplx K)
  H_smoothed : List (Cplx K)
  gamma2 : List K
  magnitudeDb : List K
  phaseDegrees : List K
  coherence : List K
  frequencies : List K
  magnitudeDbBuffer : List K
  phaseDegreesBuffer : List K
  coherenceBuffer : List K
  averagingAlpha : K
  averagingTime : K
  frameDt : K
  frameCount : Int
  estimatedDelay : K
  smoothedDelay : K
  delayUpdateCounter : Int
  phatFFT : Bool
  phatFftOrder : Int
  phatFftBuffer : List (Cplx K)
  phatTime : List K
  lastDelaySec : K
  stableDelayCount : Int
  delayLocked : Bool
  smoothingOctaves : K
  fftSize : Int
  sampleRate : K
  hopSize : Int
  ready : Bool
  newDataAvailable : Bool

/-- State of a freshly constructed `TFProcessor` (the in-class member initialisers). -/
def initial : TFState K :=
  { referenceBuffer := [], measurementBuffer := [], X := [], Y := [], Gxx := [], Gyy := [],
    Gxy := [], H := [], H_compensated := [], H_smoothed := [], gamma2 := [],
    magnitudeDb := [], phaseDegrees := [], coherence := [], frequencies := [],
    magnitudeDbBuffer := [], phaseDegreesBuffer := [], coherenceBuffer := [],
    averagingAlpha := 0, averagingTime := 3 / 2, frameDt := 0, frameCount := 0,
    estimatedDelay := 0, smoothedDelay := 0, delayUpdateCounter := 0,
    phatFFT := false, phatFftOrder := 0, phatFftBuffer := [], phatTime := [],
    lastDelaySec := 0, stableDelayCount := 0, delayLocked := false,
    smoothingOctaves := 1 / 12, fftSize := 16384, sampleRate := 48000, hopSize := 0,
    ready := false, newDataAvailable := false }

/-- Method `TFProcessor::reset`. -/
def reset (s : TFState K) : TFState K :=
  { s with
    Gxx := fill s.Gxx 0
    Gyy := fill s.Gyy 0
    Gxy := fill s.Gxy Cplx.zero
    H := fill s.H Cplx.zero
    H_compensated := fill s.H_compensated Cplx.zero
    H_smoothed := fill s.H_smoothed Cplx.zero
    gamma2 := fill s.gamma2 0
    magnitudeDb := fill s.magnitudeDb (-60)
    phaseDegrees := fill s.phaseDegrees 0
    coherence := fill s.coherence 0
    estimatedDelay := 0
    smoothedDelay := 0
    delayUpdateCounter := 0
    frameCount := 0
    referenceBuffer := []
    measurementBuffer := []
    magnitudeDbBuffer := fill s.magnitudeDbBuffer (-60)
    phaseDegreesBuffer := fill s.phaseDegreesBuffer 0
    coherenceBuffer := fill s.coherenceBuffer 0
    newDataAvailable := false }

/-- Method `TFProcessor::prepare(newFFTSize, newSampleRate)`. -/
def prepare (M : Libm K) (J : Collab K) (s : TFState K) (newFFTSize : Int) (newSampleRate : K) :
    TFState K :=
  let hopSize := truncToInt ((newFFTSize : K) * (1 - overlap))
  let frameDt := (hopSize : K) / newSampleRate
  let Tavg := s.averagingTime
  let averagingAlpha := M.exp (-frameDt / Tavg)
  let actualFFTSize := J.analyzerSize newFFTSize newSampleRate
  let fftSize := if actualFFTSize ≠ newFFTSize then actualFFTSize else newFFTSize
  let spectrumSize := (Int.tdiv fftSize 2 + 1).toNat
  let phatFftOrder := cRound (M.log2 (fftSize : K))
  let checkSize : Int := 2 ^ phatFftOrder.toNat
  let fast : Bool := decide (checkSize = fftSize)
  let s1 : TFState K :=
    { s with
      fftSize := fftSize
      sampleRate := newSampleRate
      hopSize := hopSize
      frameDt := frameDt
      averagingAlpha := averagingAlpha
      magnitudeDbBuffer := resize s.magnitudeDbBuffer spectrumSize (-60)
      phaseDegreesBuffer := resize s.phaseDegreesBuffer spectrumSize 0
      coherenceBuffer := resize s.coherenceBuffer spectrumSize 0
      frameCount := 0
      X := resize s.X spectrumSize Cplx.zero
      Y := resize s.Y spectrumSize Cplx.zero
      Gxx := resize s.Gxx spectrumSize 0
      Gyy := resize s.Gyy spectrumSize 0
      Gxy := resize s.Gxy spectrumSize Cplx.zero
      H := resize s.H spectrumSize Cplx.zero
      H_compensated := resize s.H_compensated spectrumSize Cplx.zero
      H_smoothed := resize s.H_smoothed spectrumSize Cplx.zero
      gamma2 := resize s.gamma2 spectrumSize 0
      magnitudeDb := resize s.magnitudeDb spectrumSize (-60)
      phaseDegrees := resize s.phaseDegrees spectrumSize 0
      coherence := resize s.coherence spectrumSize 0
      frequencies :=
        writeBins spectrumSize (fun i => (i : K) * newSampleRate / (fftSize : K))
          (resize s.frequencies spectrumSize 0)
      referenceBuffer := []
      measurementBuffer := []
      phatFftOrder := phatFftOrder
      phatFFT := fast
      phatFftBuffer := if fast then List.replicate fftSize.toNat Cplx.zero else []
      phatTime := if fast then List.replicate fftSize.toNat 0 else []
      lastDelaySec := 0
      stableDelayCount := 0
      delayLocked := false
      estimatedDelay := 0
      smoothedDelay := 0
      delayUpdateCounter := 0 }
  { reset s1 with ready := true }

/-- Values computed for one bin by one iteration of the loop of `updateAverages`. -/
structure BinAvg (K : Type) where
  gxx : K
  gyy : K
  gxy : Cplx K
  h : Cplx K
  g2 : K

/-- Body of the loop of `TFProcessor::updateAverages` for one bin, in exact arithmetic
(`averageBinF64` is the same body in binary64). -/
def averageBin (alpha : K) (x y : Cplx K) (gxx gyy : K) (gxy : Cplx K) : BinAvg K :=
  let Gxx_k := Cplx.norm x
  let Gxy_k := Cplx.mul y (Cplx.conj x)
  let gxx1 := alpha * gxx + (1 - alpha) * Gxx_k
  let gxy1 := Cplx.add (Cplx.smul alpha gxy) (Cplx.smul (1 - alpha) Gxy_k)
  let Gyy_k := Cplx.norm y
  let gyy1 := alpha * gyy + (1 - alpha) * Gyy_k
  let denom := gxx1 + eps
  let h := Cplx.divR gxy1 denom
  let num := Cplx.norm gxy1
  let denom_coh := gxx1 * gyy1 + eps
  ⟨gxx1, gyy1, gxy1, h, num / denom_coh⟩

/-- Values of bin `k` after `updateAverages`, from the state before it. -/
def averagedBin (s : TFState K) (k : Nat) : BinAvg K :=
  averageBin s.averagingAlpha (s.X.getD k Cplx.zero) (s.Y.getD k Cplx.zero)
    (s.Gxx.getD k 0) (s.Gyy.getD k 0) (s.Gxy.getD k Cplx.zero)

/-- Method `TFProcessor::updateAverages`. -/
def updateAverages (s : TFState K) : TFState K :=
  let spectrumSize := s.X.length
  { s with
    Gxx := writeBins spectrumSize (fun k => (averagedBin s k).gxx) s.Gxx
    Gyy := writeBins spectrumSize (fun k => (averagedBin s k).gyy) s.Gyy
    Gxy := writeBins spectrumSize (fun k => (averagedBin s k).gxy) s.Gxy
    H := writeBins spectrumSize (fun k => (averagedBin s k).h) s.H
    gamma2 := writeBins spectrumSize (fun k => (averagedBin s k).g2) s.gamma2 }

/-- Loop `while (d > pi) { curr -= 2 pi; d -= 2 pi; }`, at most `fuel` iterations. -/
def wrapDown (pi : K) : Nat → K → K → K × K
  | 0, curr, d => (curr, d)
  | fuel + 1, curr, d =>
    if d > pi then wrapDown pi fuel (curr - 2 * pi) (d - 2 * pi) else (curr, d)

/-- Loop `while (d < -pi) { curr += 2 pi; d += 2 pi; }`, at most `fuel` iterations. -/
def wrapUp (pi : K) : Nat → K → K → K × K
  | 0, curr, d => (curr, d)
  | fuel + 1, curr, d =>
    if d < -pi then wrapUp pi fuel (curr + 2 * pi) (d + 2 * pi) else (curr, d)

/-- Number of iterations that suffices for either wrapping loop started at difference `d`. -/
def wrapFuel (pi d : K) : Nat := Nat.ceil (|d| / (2 * pi)) + 1

/-- The two wrapping loops in sequence: the phase `curr` and difference `d` they leave. -/
def wrapPhase (pi curr d : K) : K × K :=
  let r := wrapDown pi (wrapFuel pi d) curr d
  wrapUp pi (wrapFuel pi r.2) r.1 r.2

/-- Steps 8 and 9 of `TFProcessor::estimateDelay`: smoothing, lock logic and safety clamp,
given the raw delay `delaySec` of this update; exact arithmetic (`smoothAndLockF64` is the
same code in binary64). -/
def smoothAndLock (s : TFState K) (delaySec : K) : TFState K :=
  let s1 : TFState K :=
    if s.delayLocked = false then
      let a : K := 1 / 2
      let est := a * s.estimatedDelay + (1 - a) * delaySec
      let cnt : Int :=
        if |est - s.lastDelaySec| < delayStabilityThreshold then s.stableDelayCount + 1 else 0
      { s with
        estimatedDelay := est
        stableDelayCount := cnt
        lastDelaySec := est
        delayLocked := if cnt ≥ delayStabilityCount then true else s.delayLocked }
    else
      let a2 : K := 9 / 10
      { s with estimatedDelay := a2 * s.estimatedDelay + (1 - a2) * delaySec }
  { s1 with estimatedDelay := jlimit (-(1 / 20)) (1 / 20) s1.estimatedDelay }

/-- Step 1 of `estimateDelay`: phase-only instantaneous cross-spectrum `C_phat`. -/
def phatSpectrum (M : Libm K) (s : TFState K) : List (Cplx K) :=
  (List.range s.X.length).map (fun k =>
    let C_k := Cplx.mul (s.Y.getD k Cplx.zero) (Cplx.conj (s.X.getD k Cplx.zero))
    let mag := cabs M C_k
    if mag > eps then Cplx.divR C_k mag else Cplx.zero)

/-- Step 2 of `estimateDelay`: the value written to `phatFftBuffer[k]`. -/
def hermitianBin (C_phat : List (Cplx K)) (N : Int) (N_half : Int) (k : Nat) : Cplx K :=
  if (k : Int) ≤ N_half then C_phat.getD k Cplx.zero
  else
    let k_mirror : Int := N - k
    if k_mirror ≤ N_half then Cplx.conj (C_phat.getD k_mirror.toNat Cplx.zero) else Cplx.zero

/-- Step 5 of `estimateDelay`: index of the first maximum of `|phatTime[n]|`. -/
def peakIndex (phatTime : List K) (N : Nat) : Nat :=
  ((List.range' 1 (N - 1)).foldl
    (fun (acc : Nat × K) n =>
      let absVal := |phatTime.getD n 0|
      if absVal > acc.2 then (n, absVal) else acc)
    (0, |phatTime.getD 0 0|)).1

/-- Steps 1 to 7 of `estimateDelay`: new `phatFftBuffer`, new `phatTime`, raw delay. -/
def gccPhat (M : Libm K) (J : Collab K) (s : TFState K) : List (Cplx K) × List K × K :=
  let spectrumSize : Int := s.X.length
  let C_phat := phatSpectrum M s
  let N := s.fftSize
  let N_half := spectrumSize - 1
  let buf := writeBins N.toNat (hermitianBin C_phat N N_half) s.phatFftBuffer
  let buf1 := J.ifft buf
  let time := writeBins N.toNat (fun n => (buf1.getD n Cplx.zero).re / (N : K)) s.phatTime
  let peak : Int := peakIndex time N.toNat
  let lag : Int := if peak > Int.tdiv N 2 then peak - N else peak
  (buf1, time, (lag : K) / s.sampleRate)

/-- Selection loop of `estimateDelayPhaseBased`: the pushed `(freqs[i], phases[i])` pairs. -/
def selectBins (M : Libm K) (s : TFState K) : List (K × K) :=
  (List.range' 1 (s.H.length - 1)).filterMap (fun k =>
    if s.gamma2.getD k 0 > cohMinMath then
      let f := s.frequencies.getD k 0
      if f ≥ 200 ∧ f ≤ 8000 then some (f, carg M (s.H.getD k Cplx.zero)) else none
    else none)

/-- Unwrapping loop of `estimateDelayPhaseBased` from index 1 on; `prev` is `phases[i - 1]`. -/
def unwrapFrom (pi : K) : K → List K → List K
  | _, [] => []
  | prev, p :: ps =>
    let q := (wrapPhase pi p (p - prev)).1
    q :: unwrapFrom pi q ps

/-- Unwrapping loop of `estimateDelayPhaseBased` over the whole `phases` vector. -/
def unwrapPhases (pi : K) : List K → List K
  | [] => []
  | p :: ps => p :: unwrapFrom pi p ps

/-- Accumulated sums `sum_f`, `sum_phase`, `sum_f2`, `sum_f_phase` of the linear fit. -/
def fitSums (pts : List (K × K)) : K × K × K × K :=
  pts.foldl (fun acc fp =>
    (acc.1 + fp.1, acc.2.1 + fp.2, acc.2.2.1 + fp.1 * fp.1, acc.2.2.2 + fp.1 * fp.2))
    (0, 0, 0, 0)

/-- Method `TFProcessor::estimateDelayPhaseBased`, in exact arithmetic (`fallbackSmoothF64`
is its tail, from the fitted slope on, in binary64). -/
def estimateDelayPhaseBased (M : Libm K) (s : TFState K) : TFState K :=
  let sel := selectBins M s
  let freqs := sel.map Prod.fst
  if freqs.length < 20 then s
  else
    let phases := unwrapPhases M.pi (sel.map Prod.snd)
    let sums := fitSums (freqs.zip phases)
    let sum_f := sums.1
    let sum_phase := sums.2.1
    let sum_f2 := sums.2.2.1
    let sum_f_phase := sums.2.2.2
    let n : K := (freqs.length : K)
    let denom := n * sum_f2 - sum_f * sum_f
    if |denom| > eps then
      let m := (n * sum_f_phase - sum_f * sum_phase) / denom
      let tau_new := max (-(1 / 10)) (min (1 / 10) (-m / (2 * M.pi)))
      let smoothed := (4 / 5) * s.smoothedDelay + (1 / 5) * tau_new
      { s with smoothedDelay := smoothed, estimatedDelay := smoothed }
    else s

/-- Method `TFProcessor::estimateDelay`. -/
def estimateDelay (M : Libm K) (J : Collab K) (s : TFState K) : TFState K :=
  if s.phatFFT = false then estimateDelayPhaseBased M s
  else
    let r := gccPhat M J s
    smoothAndLock { s with phatFftBuffer := r.1, phatTime := r.2.1 } r.2.2

/-- Method `TFProcessor::applyDelayCompensation`. -/
def applyDelayCompensation (M : Libm K) (s : TFState K) : TFState K :=
  let spectrumSize := s.H.length
  let suspicious : Bool := decide (|s.estimatedDelay| > 1 / 10)
  let s1 : TFState K := if suspicious then { s with estimatedDelay := 0, smoothedDelay := 0 } else s
  let tau : K := if suspicious then 0 else s.estimatedDelay
  { s1 with
    H_compensated :=
      writeBins spectrumSize (fun k =>
        let f := s.frequencies.getD k 0
        let phase_comp := 2 * M.pi * f * tau
        Cplx.mul (s.H.getD k Cplx.zero) (cexpI M phase_comp)) s.H_compensated }

/-- Inner loop of `applySmoothing` for centre frequency band `[f1, f2]`:
the triple `(sum_H, sum_w, count)`. -/
def bandSums (s : TFState K) (f1 f2 : K) : Cplx K × K × Int :=
  (List.range s.H_compensated.length).foldl
    (fun acc i =>
      let f := s.frequencies.getD i 0
      if f ≥ f1 ∧ f ≤ f2 then
        let w := max 0 (min 1 (s.gamma2.getD i 0))
        (Cplx.add acc.1 (Cplx.smul w (s.H_compensated.getD i Cplx.zero)), acc.2.1 + w,
          acc.2.2 + 1)
      else acc)
    (Cplx.zero, 0, 0)

/-- Body of the outer loop of `applySmoothing`: the value written to `H_smoothed[k]`. -/
def smoothBin (M : Libm K) (s : TFState K) (oct : K) (k : Nat) : Cplx K :=
  let f0 := s.frequencies.getD k 0
  if f0 < 20 ∨ f0 > 20000 then s.H_compensated.getD k Cplx.zero
  else
    let f1 := f0 * M.pow 2 (-oct / 2)
    let f2 := f0 * M.pow 2 (oct / 2)
    let sums := bandSums s f1 f2
    if sums.2.1 > eps ∧ sums.2.2 ≥ 3 then Cplx.divR sums.1 sums.2.1
    else s.H_compensated.getD k Cplx.zero

/-- Method `TFProcessor::applySmoothing`. -/
def applySmoothing (M : Libm K) (s : TFState K) : TFState K :=
  let oct := s.smoothingOctaves
  if oct < 1 / 96 then { s with H_smoothed := s.H_compensated }
  else { s with H_smoothed := writeBins s.H_compensated.length (smoothBin M s oct) s.H_smoothed }

/-- Local state of `unwrapPhase`: `prev_phase`, `unwrapped_phases` and `H_smoothed`. -/
structure UnwrapAcc (K : Type) where
  prev : K
  phases : List K
  hs : List (Cplx K)

/-- Body of the forward loop of `unwrapPhase` at bin `k`, in exact arithmetic
(`unwrapForwardStepF64` is the same body on the phase vector in binary64). -/
def unwrapForwardStep (M : Libm K) (gamma2 : List K) (a : UnwrapAcc K) (k : Nat) : UnwrapAcc K :=
  let hk := a.hs.getD k Cplx.zero
  let curr0 := carg M hk
  let curr := (wrapPhase M.pi curr0 (curr0 - a.prev)).1
  if gamma2.getD k 0 ≥ cohMinMath then
    ⟨curr, a.phases.set k curr, a.hs.set k (polar M (cabs M hk) curr)⟩
  else
    ⟨a.prev, a.phases.set k a.prev, a.hs.set k (polar M (cabs M hk) a.prev)⟩

/-- Body of the backward loop of `unwrapPhase` at bin `k`, in exact arithmetic
(`unwrapBackwardStepF64` is the same body on the phase vector in binary64). -/
def unwrapBackwardStep (M : Libm K) (a : UnwrapAcc K) (k : Nat) : UnwrapAcc K :=
  let curr := a.phases.getD k 0
  let next := a.phases.getD (k + 1) 0
  let d := next - curr
  if |d| > M.pi then
    let curr1 := if d > M.pi then curr + 2 * M.pi else curr - 2 * M.pi
    ⟨a.prev, a.phases.set k curr1, a.hs.set k (polar M (cabs M (a.hs.getD k Cplx.zero)) curr1)⟩
  else a

/-- Forward pass of `unwrapPhase` (bins `2 .. spectrumSize - 1`), from `startBin = 1`, in
exact arithmetic (`unwrapForwardF64` is the pass on the phase vector in binary64). -/
def unwrapForward (M : Libm K) (s : TFState K) : UnwrapAcc K :=
  let spectrumSize := s.H_smoothed.length
  let prev_phase := carg M (s.H_smoothed.getD 1 Cplx.zero)
  (List.range' 2 (spectrumSize - 2)).foldl (unwrapForwardStep M s.gamma2)
    ⟨prev_phase, (List.replicate spectrumSize 0).set 1 prev_phase, s.H_smoothed⟩

/-- Method `TFProcessor::unwrapPhase`. -/
def unwrapPhase (M : Libm K) (s : TFState K) : TFState K :=
  let spectrumSize := s.H_smoothed.length
  if spectrumSize < 2 then s
  else
    let fwd := unwrapForward M s
    let bwd := (List.range' 1 (spectrumSize - 2)).reverse.foldl (unwrapBackwardStep M) fwd
    { s with H_smoothed := bwd.hs }

/-- Method `TFProcessor::extractMagnitudeAndPhase` (the diagnostic logging is not modelled). -/
def extractMagnitudeAndPhase (M : Libm K) (s : TFState K) : TFState K :=
  let spectrumSize := s.H_smoothed.length
  { s with
    magnitudeDb :=
      writeBins spectrumSize (fun k =>
        let mag := cabs M (s.H_smoothed.getD k Cplx.zero)
        20 * M.log10 (max mag eps)) s.magnitudeDb
    phaseDegrees :=
      writeBins spectrumSize (fun k =>
        let phase_rad :=
          M.atan2 (s.H_smoothed.getD k Cplx.zero).im (s.H_smoothed.getD k Cplx.zero).re
        phase_rad * 180 / M.pi) s.phaseDegrees
    coherence :=
      writeBins spectrumSize (fun k => max 0 (min 1 (s.gamma2.getD k 0))) s.coherence }

/-- Step 1 of `processFrame`: adaptive averaging. -/
def averagingStep (M : Libm K) (s : TFState K) : TFState K :=
  if s.frameCount ≤ fastAveragingFrames then
    let fastAlpha := M.exp (-s.frameDt / (3 / 10))
    let oldAlpha := s.averagingAlpha
    { updateAverages { s with averagingAlpha := fastAlpha } with averagingAlpha := oldAlpha }
  else updateAverages s

/-- Step 2 of `processFrame`: delay update cadence. -/
def delayStep (M : Libm K) (J : Collab K) (s : TFState K) : TFState K :=
  let s1 : TFState K := { s with delayUpdateCounter := s.delayUpdateCounter + 1 }
  let delayPeriod : Int := if s1.delayLocked then 20 else 2
  if s1.delayUpdateCounter ≥ delayPeriod then estimateDelay M J { s1 with delayUpdateCounter := 0 }
  else s1

/-- Step 3 of `processFrame`: delay compensation, or a plain copy for a negligible delay. -/
def compensationStep (M : Libm K) (s : TFState K) : TFState K :=
  if |s.estimatedDelay| > 1 / 10 ^ 6 then applyDelayCompensation M s
  else { s with H_compensated := s.H }

/-- Step 7 of `processFrame`: copy of the results into the double buffer. -/
def publish (s : TFState K) : TFState K :=
  { s with
    magnitudeDbBuffer := s.magnitudeDb
    phaseDegreesBuffer := s.phaseDegrees
    coherenceBuffer := s.coherence
    newDataAvailable := true }

/-- Method `TFProcessor::processFrame`. -/
def processFrame (M : Libm K) (J : Collab K) (s : TFState K) : TFState K :=
  let s1 : TFState K := { s with frameCount := s.frameCount + 1 }
  let s2 := averagingStep M s1
  let s3 := delayStep M J s2
  let s4 := compensationStep M s3
  let s5 := applySmoothing M s4
  let s6 := unwrapPhase M s5
  let s7 := extractMagnitudeAndPhase M s6
  publish s7

/-- Loop `for (i = 0; i < n; ++i) v[i] = src[i]` with `n` bounded by the three sizes. -/
def copySpectrum (dst src : List (Cplx K)) (n : Nat) : List (Cplx K) :=
  writeBins n (fun i => src.getD i Cplx.zero) dst

/-- Conversion loop of `tryProcessSynchronizedFrames`: the spectra returned by the two
analyzers are copied into `X` and `Y`. -/
def acceptSpectra (s : TFState K) (refSpectrum measSpectrum : List (Cplx K)) : TFState K :=
  let n := min s.X.length (min refSpectrum.length measSpectrum.length)
  { s with X := copySpectrum s.X refSpectrum n, Y := copySpectrum s.Y measSpectrum n }

/-- Body of the loop of `tryProcessSynchronizedFrames`: the emitted frame pair and the state
after the iteration. `erase(begin, begin + hopSize)` is `List.drop`. -/
def frameIteration (M : Libm K) (J : Collab K) (s : TFState K) : (List K × List K) × TFState K :=
  let refFrame := s.referenceBuffer.take s.fftSize.toNat
  let measFrame := s.measurementBuffer.take s.fftSize.toNat
  let refSpectrum := J.analyze refFrame
  let measSpectrum := J.analyze measFrame
  let s1 := acceptSpectra s refSpectrum measSpectrum
  let s2 : TFState K :=
    { s1 with
      referenceBuffer := s1.referenceBuffer.drop s1.hopSize.toNat
      measurementBuffer := s1.measurementBuffer.drop s1.hopSize.toNat }
  ((refFrame, measFrame), processFrame M J s2)

/-- One processed frame for which the analyzers returned the spectra `X` and `Y`: the
conversion loop followed by `processFrame`. -/
def processSpectra (M : Libm K) (J : Collab K) (s : TFState K) (Xs Ys : List (Cplx K)) :
    TFState K :=
  processFrame M J (acceptSpectra s Xs Ys)

/-- Loop condition of `tryProcessSynchronizedFrames`. -/
def framesAvailable (s : TFState K) : Bool :=
  decide ((s.referenceBuffer.length : Int) ≥ s.fftSize ∧
    (s.measurementBuffer.length : Int) ≥ s.fftSize)

/-- Method `TFProcessor::tryProcessSynchronizedFrames` run for at most `fuel` iterations:
`none` when the loop is still running after `fuel` iterations, otherwise the emitted frame
pairs in order and the final state. -/
def tryProcessSynchronizedFrames (M : Libm K) (J : Collab K) :
    Nat → TFState K → Option (List (List K × List K) × TFState K)
  | 0, s => if framesAvailable s then none else some ([], s)
  | fuel + 1, s =>
    if framesAvailable s then
      let r := frameIteration M J s
      match tryProcessSynchronizedFrames M J fuel r.2 with
      | none => none
      | some (frames, t) => some (r.1 :: frames, t)
    else some ([], s)

/-- Method `TFProcessor::processBlock(ref, meas, numSamples)`; the pointers `ref` and `meas`
are the lists of samples they point to. -/
def processBlock (M : Libm K) (J : Collab K) (fuel : Nat) (s : TFState K)
    (ref meas : List K) (numSamples : Int) : Option (List (List K × List K) × TFState K) :=
  if s.ready = false ∨ numSamples ≤ 0 then some ([], s)
  else
    tryProcessSynchronizedFrames M J fuel
      { s with
        referenceBuffer := s.referenceBuffer ++ ref.take numSamples.toNat
        measurementBuffer := s.measurementBuffer ++ meas.take numSamples.toNat }

/-- Fields that `processFrame` only reads: `t` agrees with `s` on every one of them. -/
def SameConfig (s t : TFState K) : Prop :=
  t.referenceBuffer = s.referenceBuffer ∧ t.measurementBuffer = s.measurementBuffer ∧
  t.fftSize = s.fftSize ∧ t.hopSize = s.hopSize ∧ t.ready = s.ready ∧
  t.sampleRate = s.sampleRate ∧ t.frameDt = s.frameDt ∧
  t.averagingAlpha = s.averagingAlpha ∧ t.averagingTime = s.averagingTime ∧
  t.smoothingOctaves = s.smoothingOctaves ∧ t.frequencies = s.frequencies ∧
  t.phatFFT = s.phatFFT ∧ t.X = s.X ∧ t.Y = s.Y

/-- Number of frames the synchronizer releases from a stream of `L` samples with frame
length `F` and hop `h`: none below `F`, else `floor((L - F) / h) + 1`. -/
def expectedFrameCount (F h L : Nat) : Nat := if L < F then 0 else (L - F) / h + 1

/-- Samples `[i * h, i * h + F)` of a stream. -/
def window {α : Type} (F h : Nat) (xs : List α) (i : Nat) : List α := (xs.drop (i * h)).take F

/-- Frame pairs released from the reference stream `rs` and the measurement stream `ms`:
the `i`-th pair is made of the samples `[i * h, i * h + F)` of each stream. -/
def expectedFrames {α : Type} (F h : Nat) (rs ms : List α) : List (List α × List α) :=
  (List.range (expectedFrameCount F h rs.length)).map (fun i => (window F h rs i, window F h ms i))

end Model

/-- Real instance of the `<cmath>` functions. -/
noncomputable def realLibm : Libm ℝ :=
  { exp := Real.exp
    log10 := fun x => Real.log x / Real.log 10
    log2 := fun x => Real.logb 2 x
    sqrt := Real.sqrt
    atan2 := fun y x => Complex.arg ⟨x, y⟩
    cos := Real.cos
    sin := Real.sin
    pow := fun b x => b ^ x
    pi := Real.pi }

section Examples

variable {K : Type} [LinearOrderedField K] [FloorRing K]

/-- Analyzer that accepts every requested size as it is; it returns no spectrum. -/
def exactCollab : Collab K :=
  { analyzerSize := fun n _ => n, analyze := fun _ => [], ifft := fun x => x }

/-- Analyzer that uses 1024 points when 1000 are requested (and accepts other sizes). -/
def roundingCollab : Collab K :=
  { analyzerSize := fun n _ => if n = 1000 then 1024 else n
    analyze := fun _ => []
    ifft := fun x => x }

/-- Prepared state in which three delay updates measured a raw delay of zero. -/
def lockedExample (M : Libm K) : TFState K :=
  smoothAndLock (smoothAndLock (smoothAndLock (prepare M exactCollab initial 16 48000) 0) 0) 0

end Examples

section WitnessInputs

/-- Prepared processor with frame length 4 and hop 1 (real scalars). -/
noncomputable def preparedFour : TFState ℝ := prepare realLibm exactCollab initial 4 48000

end WitnessInputs

section Shapes

variable {K : Type} [LinearOrderedField K] [FloorRing K]

/-- Every per-bin sequence of the state has length `n` (the `spectrumSize` of `prepare`). -/
def Sized (s : TFState K) (n : Nat) : Prop :=
  s.X.length = n ∧ s.Y.length = n ∧ s.Gxx.length = n ∧ s.Gyy.length = n ∧ s.Gxy.length = n ∧
  s.H.length = n ∧ s.H_compensated.length = n ∧ s.H_smoothed.length = n ∧ s.gamma2.length = n ∧
  s.magnitudeDb.length = n ∧ s.phaseDegrees.length = n ∧ s.coherence.length = n ∧
  s.frequencies.length = n ∧ s.magnitudeDbBuffer.length = n ∧
  s.phaseDegreesBuffer.length = n ∧ s.coherenceBuffer.length = n

/-- State of `processFrame` after steps 1 to 5 (averaging, delay, compensation, smoothing,
unwrapping), before the extraction and publication of the results. -/
def unwrappedStage (M : Libm K) (J : Collab K) (s : TFState K) : TFState K :=
  unwrapPhase M (applySmoothing M (compensationStep M (delayStep M J
    (averagingStep M { s with frameCount := s.frameCount + 1 }))))

end Shapes

section Runs

variable {K : Type} [LinearOrderedField K] [FloorRing K]

/-- Fields written by `updateAverages`: `t` agrees with `s` on every one of them. -/
def SameAverages (s t : TFState K) : Prop :=
  t.Gxx = s.Gxx ∧ t.Gyy = s.Gyy ∧ t.Gxy = s.Gxy ∧ t.H = s.H ∧ t.gamma2 = s.gamma2

/-- Frames processed one after the other; each frame is the pair of spectra returned by
the two analyzers. -/
def runSpectra (M : Libm K) (J : Collab K) (s : TFState K)
    (frames : List (List (Cplx K) × List (Cplx K))) : TFState K :=
  frames.foldl (fun u f => processSpectra M J u f.1 f.2) s

/-- In every bin the averaged auto-spectra are non-negative, the averaged cross-spectrum
satisfies `|Gxy|^2 ≤ Gxx * Gyy`, and the stored coherence is `|Gxy|^2 / (Gxx * Gyy + eps)`. -/
def AveragesCoherent (s : TFState K) : Prop :=
  ∀ k, 0 ≤ s.Gxx.getD k 0 ∧ 0 ≤ s.Gyy.getD k 0 ∧
    Cplx.norm (s.Gxy.getD k Cplx.zero) ≤ s.Gxx.getD k 0 * s.Gyy.getD k 0 ∧
    s.gamma2.getD k 0 =
      Cplx.norm (s.Gxy.getD k Cplx.zero) / (s.Gxx.getD k 0 * s.Gyy.getD k 0 + eps)

end Runs

section Coefficients

variable {K : Type} [LinearOrderedField K] [FloorRing K]

/-- Averaging coefficient that `processFrame` uses for the next frame: the fast one while
the incremented frame counter is at most `fastAveragingFrames`, else `averagingAlpha`. -/
def frameAlpha (M : Libm K) (s : TFState K) : K :=
  if s.frameCount + 1 ≤ fastAveragingFrames then M.exp (-s.frameDt / (3 / 10))
  else s.averagingAlpha

/-- Every frame of the run is averaged with a coefficient in `[0, 1]`. -/
def AlphasInUnit (M : Libm K) (J : Collab K) :
    TFState K → List (List (Cplx K) × List (Cplx K)) → Prop
  | _, [] => True
  | s, f :: fs =>
    (0 ≤ frameAlpha M s ∧ frameAlpha M s ≤ 1) ∧ AlphasInUnit M J (processSpectra M J s f.1 f.2) fs

end Coefficients

section SelfMeasurement

variable {K : Type} [LinearOrderedField K] [FloorRing K]

/-- State of the averages when the measurement spectrum has always equalled the reference
spectrum: in every bin `Gyy = Gxx ≥ 0`, `Gxy = Gxx` (real), `H = Gxx / (Gxx + eps)` (real)
and `gamma2 = Gxx^2 / (Gxx^2 + eps)`. -/
def SelfAveraged (s : TFState K) : Prop :=
  ∀ k, 0 ≤ s.Gxx.getD k 0 ∧ s.Gyy.getD k 0 = s.Gxx.getD k 0 ∧
    s.Gxy.getD k Cplx.zero = ⟨s.Gxx.getD k 0, 0⟩ ∧
    s.H.getD k Cplx.zero = ⟨s.Gxx.getD k 0 / (s.Gxx.getD k 0 + eps), 0⟩ ∧
    s.gamma2.getD k 0 = s.Gxx.getD k 0 ^ 2 / (s.Gxx.getD k 0 ^ 2 + eps)

end SelfMeasurement

section DelayMachine

variable {K : Type} [LinearOrderedField K] [FloorRing K]

/-- Raw delay (seconds) that the fast path measures on the spectra held by the state. -/
def rawDelay (M : Libm K) (J : Collab K) (s : TFState K) : K := (gccPhat M J s).2.2

/-- Every frame of the run measures the raw delay `d` on the fast path. -/
def ConstantRawDelay (M : Libm K) (J : Collab K) (d : K) :
    TFState K → List (List (Cplx K) × List (Cplx K)) → Prop
  | _, [] => True
  | s, f :: fs =>
    rawDelay M J (acceptSpectra s f.1 f.2) = d ∧
      ConstantRawDelay M J d (processSpectra M J s f.1 f.2) fs

/-- Delay-estimator part of the state: `estimatedDelay`, `lastDelaySec`, `stableDelayCount`,
`delayLocked`, `delayUpdateCounter`. -/
structure DelayCore (K : Type) where
  est : K
  last : K
  cnt : Int
  locked : Bool
  counter : Int

/-- Delay-estimator fields of a state. -/
def delayCore (s : TFState K) : DelayCore K :=
  ⟨s.estimatedDelay, s.lastDelaySec, s.stableDelayCount, s.delayLocked, s.delayUpdateCounter⟩

/-- Effect of `smoothAndLock` (steps 8 and 9 of `estimateDelay`) on the delay-estimator
fields. -/
def coreUpdate (c : DelayCore K) (d : K) : DelayCore K :=
  if c.locked = false then
    ⟨jlimit (-(1 / 20)) (1 / 20) (1 / 2 * c.est + (1 - 1 / 2) * d),
      1 / 2 * c.est + (1 - 1 / 2) * d,
      if |1 / 2 * c.est + (1 - 1 / 2) * d - c.last| < delayStabilityThreshold then c.cnt + 1
      else 0,
      if (if |1 / 2 * c.est + (1 - 1 / 2) * d - c.last| < delayStabilityThreshold then c.cnt + 1
          else 0) ≥ delayStabilityCount then true else c.locked,
      c.counter⟩
  else
    ⟨jlimit (-(1 / 20)) (1 / 20) (9 / 10 * c.est + (1 - 9 / 10) * d), c.last, c.cnt, c.locked,
      c.counter⟩

/-- Effect of one processed frame of the fast path on the delay-estimator fields, when the
update (if it is due) measures the raw delay `d`. -/
def coreFrame (c : DelayCore K) (d : K) : DelayCore K :=
  if c.counter + 1 ≥ (if c.locked then 20 else 2) then
    coreUpdate ⟨c.est, c.last, c.cnt, c.locked, 0⟩ d
  else ⟨c.est, c.last, c.cnt, c.locked, c.counter + 1⟩

end DelayMachine

section DelayFrame

variable {K : Type} [LinearOrderedField K] [FloorRing K]

/-- Fields of the delay estimator that the steps other than the delay update and the
compensation leave alone: `t` agrees with `s` on every one of them. -/
def SameDelay (s t : TFState K) : Prop :=
  delayCore t = delayCore s ∧ t.smoothedDelay = s.smoothedDelay ∧
  t.phatFftBuffer = s.phatFftBuffer ∧ t.phatTime = s.phatTime

end DelayFrame

section DelayInvariant

variable {K : Type} [LinearOrderedField K] [FloorRing K]

/-- Invariant of the delay-estimator fields after `m` frames that all measured the raw
delay `d`, starting from the state left by `prepare`. -/
def CoreInv (d : K) (m : Nat) (c : DelayCore K) : Prop :=
  |c.est| ≤ 1 / 20 ∧
  (c.locked = true → |c.est - d| < 1 / 40000) ∧
  (c.locked = false →
    c.est = d * (1 - (1 / 2) ^ (m / 2)) ∧ c.last = c.est ∧ c.counter = ((m % 2 : Nat) : Int) ∧
    0 ≤ c.cnt ∧ c.cnt ≤ 2 ∧ ((m / 2 : Nat) : Int) - 8 ≤ c.cnt ∧
    (c.cnt = 1 → |d| * (1 / 2) ^ (m / 2) < delayStabilityThreshold) ∧
    (c.cnt = 2 → 2 * |d| * (1 / 2) ^ (m / 2) < delayStabilityThreshold))

end DelayInvariant

section SilentInput

/-- Half-spectrum of a silent frame for a frame length of 4 samples. -/
noncomputable def silentSpectrum : List (Cplx ℝ) := [Cplx.zero, Cplx.zero, Cplx.zero]

end SilentInput

section Reachability

variable {K : Type} [LinearOrderedField K] [FloorRing K]

/-- Method `TFProcessor::setAveragingTime`. -/
def setAveragingTime (s : TFState K) (seconds : K) : TFState K :=
  { s with averagingTime := seconds }

/-- Method `TFProcessor::setSmoothingOctaves`. -/
def setSmoothingOctaves (s : TFState K) (octaves : K) : TFState K :=
  { s with smoothingOctaves := octaves }

/-- States that the public operations can produce from a freshly constructed processor.
`frame` is one iteration of the frame loop in which the two analyzers returned the spectra
`Xs` and `Ys` (the sample buffers are left aside); `block` is a whole `processBlock` call
that returns. -/
inductive Reachable (M : Libm K) (J : Collab K) : TFState K → Prop
  | init : Reachable M J initial
  | prepare (s : TFState K) (n : Int) (fs : K) :
      Reachable M J s → Reachable M J (prepare M J s n fs)
  | reset (s : TFState K) : Reachable M J s → Reachable M J (reset s)
  | averagingTime (s : TFState K) (x : K) :
      Reachable M J s → Reachable M J (setAveragingTime s x)
  | smoothingOctaves (s : TFState K) (x : K) :
      Reachable M J s → Reachable M J (setSmoothingOctaves s x)
  | frame (s : TFState K) (Xs Ys : List (Cplx K)) :
      Reachable M J s → s.ready = true → Reachable M J (processSpectra M J s Xs Ys)
  | block (s t : TFState K) (fuel : Nat) (ref meas : List K) (n : Int)
      (frames : List (List K × List K)) :
      Reachable M J s → processBlock M J fuel s ref meas n = some (frames, t) →
      Reachable M J t

/-- Bounds on the delay estimate: 50 ms when the fast path is enabled, 100 ms for the
estimate and the smoothed delay in every case. -/
def DelayBounded (s : TFState K) : Prop :=
  (s.phatFFT = true → |s.estimatedDelay| ≤ 1 / 20) ∧ |s.estimatedDelay| ≤ 1 / 10 ∧
    |s.smoothedDelay| ≤ 1 / 10

end Reachability

section FallbackExample

/-- Phase of the measurement spectrum of the example in bin `k`: four levels of five bins. -/
noncomputable def cexLevel (k : Nat) : ℝ :=
  if k < 405 then Real.pi else if k < 410 then Real.pi / 2 else if k < 415 then 0
  else -(Real.pi / 2)

/-- Measurement spectrum of the example in bin `k`: a unit value of phase `cexLevel k`. -/
noncomputable def cexUnit (k : Nat) : Cplx ℝ :=
  if k < 405 then ⟨-1, 0⟩ else if k < 410 then ⟨0, 1⟩ else if k < 415 then ⟨1, 0⟩ else ⟨0, -1⟩

/-- Reference spectrum of the example: `1` in each of the 420 bins. -/
noncomputable def cexX : List (Cplx ℝ) := List.replicate 420 ⟨1, 0⟩

/-- Measurement spectrum of the example. -/
noncomputable def cexY : List (Cplx ℝ) := (List.range 420).map cexUnit

/-- Processor prepared with 838 points at 419 Hz: not a power of two, so the regression
fallback is in use; the bins are 0.5 Hz apart. -/
noncomputable def cexStart : TFState ℝ := prepare realLibm exactCollab initial 838 419

/-- State after eight frames of the example spectra. -/
noncomputable def cexState : TFState ℝ :=
  runSpectra realLibm exactCollab cexStart (List.replicate 8 (cexX, cexY))

/-- Frequencies and phases of the bins 400 to 419, the ones the regression selects. -/
noncomputable def cexSel : List (ℝ × ℝ) :=
  (List.range' 400 20).map (fun (k : Nat) => ((k : ℝ) * 419 / 838, cexLevel k))

/-- Invariant of the example run after `n` frames. -/
def CexInv (s : TFState ℝ) (n : Nat) : Prop :=
  Sized s 420 ∧ s.phatFFT = false ∧ s.delayLocked = false ∧ s.frameDt = 209 / 419 ∧
  s.averagingAlpha = Real.exp (-(209 / 419) / (3 / 2)) ∧
  (∀ k, k < 420 → s.frequencies.getD k 0 = (k : ℝ) * 419 / 838) ∧
  s.delayUpdateCounter = ((n % 2 : Nat) : Int) ∧
  s.estimatedDelay = 25 / 266 * (1 - (4 / 5) ^ (n / 2)) ∧
  s.smoothedDelay = s.estimatedDelay ∧ s.ready = true ∧
  ∃ c : ℝ, 0 ≤ c ∧ c ≤ 1 ∧ ∀ k, k < 420 →
    s.Gxx.getD k 0 = c ∧ s.Gyy.getD k 0 = c ∧ s.Gxy.getD k Cplx.zero = Cplx.smul c (cexUnit k)

end FallbackExample

section RetunedExample

/-- Processor prepared with four points at 48 kHz (`Tavg = 1.5 s`), then
`setAveragingTime(3.0)`. -/
noncomputable def tunedFour : TFState ℝ := setAveragingTime preparedFour 3

/-- The retuned processor after thirty silent frames, the whole fast-averaging window. -/
noncomputable def tunedRun : TFState ℝ :=
  runSpectra realLibm exactCollab tunedFour (List.replicate 30 (silentSpectrum, silentSpectrum))

end RetunedExample

section CallSequences

variable {K : Type} [LinearOrderedField K] [FloorRing K]

/-- States that calls of `reset`, `processBlock` (when it returns) and the two setters
produce from the state `s0`, with no further `prepare`. -/
inductive AfterCalls (M : Libm K) (J : Collab K) (s0 : TFState K) : TFState K → Prop
  | start : AfterCalls M J s0 s0
  | reset (s : TFState K) : AfterCalls M J s0 s → AfterCalls M J s0 (reset s)
  | averagingTime (s : TFState K) (x : K) :
      AfterCalls M J s0 s → AfterCalls M J s0 (setAveragingTime s x)
  | smoothingOctaves (s : TFState K) (x : K) :
      AfterCalls M J s0 s → AfterCalls M J s0 (setSmoothingOctaves s x)
  | block (s t : TFState K) (fuel : Nat) (ref meas : List K) (n : Int)
      (frames : List (List K × List K)) :
      AfterCalls M J s0 s → processBlock M J fuel s ref meas n = some (frames, t) →
      AfterCalls M J s0 t

end CallSequences

section Stages

variable {K : Type} [LinearOrderedField K] [FloorRing K]

/-- State of `processFrame` after steps 1 and 2 (averaging and delay update), where step 3
reads the delay `tau = estimatedDelay`. -/
def delayedStage (M : Libm K) (J : Collab K) (s : TFState K) : TFState K :=
  delayStep M J (averagingStep M { s with frameCount := s.frameCount + 1 })

end Stages

section SmoothingReference

variable {K : Type} [LinearOrderedField K] [FloorRing K]

/-- Sum of a list of complex numbers. -/
def Cplx.sum (zs : List (Cplx K)) : Cplx K := zs.foldr Cplx.add Cplx.zero

/-- Reference smoothing of bin `k` with bandwidth `B` octaves, stated on the frequency axis
`freqs`, the coherence `gamma2` and the compensated response `Hc`: the bin is kept when its
frequency `f0` is below 20 or above 20000; otherwise, over the bins `i` of the band
`f0 * 2^(-B/2) ≤ f_i ≤ f0 * 2^(B/2)` with weights `w_i = clamp(gamma2_i, 0, 1)`, the result
is `(sum w_i * Hc_i) / (sum w_i)` when `sum w_i > eps` and the band holds at least 3 bins,
and the bin is kept otherwise. -/
def smoothingReferenceBin (M : Libm K) (B : K) (freqs gamma2 : List K) (Hc : List (Cplx K))
    (k : Nat) : Cplx K :=
  let f0 := freqs.getD k 0
  if f0 < 20 ∨ f0 > 20000 then Hc.getD k Cplx.zero
  else
    let band := (List.range Hc.length).filter (fun i =>
      decide (f0 * M.pow 2 (-B / 2) ≤ freqs.getD i 0 ∧ freqs.getD i 0 ≤ f0 * M.pow 2 (B / 2)))
    let w : Nat → K := fun i => max 0 (min 1 (gamma2.getD i 0))
    let sumW := (band.map w).sum
    let sumH := Cplx.sum (band.map (fun i => Cplx.smul (w i) (Hc.getD i Cplx.zero)))
    if sumW > eps ∧ 3 ≤ band.length then Cplx.divR sumH sumW else Hc.getD k Cplx.zero

/-- Reference definition of the smoothing stage: the identity below 1/96 octave, otherwise
`smoothingReferenceBin` in every bin. -/
def smoothingReference (M : Libm K) (B : K) (freqs gamma2 : List K) (Hc : List (Cplx K)) :
    List (Cplx K) :=
  if B < 1 / 96 then Hc
  else (List.range Hc.length).map (smoothingReferenceBin M B freqs gamma2 Hc)

end SmoothingReference

section WrappedPhaseExample

end WrappedPhaseExample

section ClampedSearchExample

/-- Fast-path processor (16384 points at 48 kHz) after one Searching update that measured a
raw delay of 160 ms (a lag of 7680 samples): the estimate 80 ms is clamped to 50 ms. -/
noncomputable def clampedSearch : TFState ℝ :=
  smoothAndLock (prepare realLibm exactCollab initial 16384 48000) (4 / 25)

end ClampedSearchExample

section Cadence

variable {K : Type} [LinearOrderedField K] [FloorRing K]

end Cadence

section ForwardPass

variable {K : Type} [LinearOrderedField K] [FloorRing K]

/-- Phase that the forward loop of `unwrapPhase` computes at bin `k` before the coherence
test: the wrapped phase `arg(H_smoothed[k])` corrected by the two wrapping loops. -/
def correctedPhase (M : Libm K) (a : UnwrapAcc K) (k : Nat) : K :=
  (wrapPhase M.pi (carg M (a.hs.getD k Cplx.zero))
    (carg M (a.hs.getD k Cplx.zero) - a.prev)).1

/-- Description of the local state `a` of `unwrapPhase` once the forward loop has processed
the bins `2 .. j` of the state `s`: `prev_phase` is the phase stored for bin `j`; bin 1
holds its own phase; a processed bin holds `polar(|H_k|, phase_k)`, where `phase_k` is the
bin's own phase plus a multiple of `2 pi`, within `pi` of the phase of bin `k - 1`, when the
coherence test accepts the bin, and the phase of bin `k - 1` otherwise; the other bins are
untouched. -/
def ForwardDone (M : Libm K) (s : TFState K) (a : UnwrapAcc K) (j : Nat) : Prop :=
  a.phases.length = s.H_smoothed.length ∧ a.hs.length = s.H_smoothed.length ∧
  a.prev = a.phases.getD j 0 ∧
  a.phases.getD 1 0 = carg M (s.H_smoothed.getD 1 Cplx.zero) ∧
  (∀ i, 2 ≤ i → i ≤ j →
    a.hs.getD i Cplx.zero =
      polar M (cabs M (s.H_smoothed.getD i Cplx.zero)) (a.phases.getD i 0) ∧
    (s.gamma2.getD i 0 ≥ cohMinMath →
      ∃ n : Int, a.phases.getD i 0 = carg M (s.H_smoothed.getD i Cplx.zero) + 2 * M.pi * n ∧
        -M.pi ≤ a.phases.getD i 0 - a.phases.getD (i - 1) 0 ∧
        a.phases.getD i 0 - a.phases.getD (i - 1) 0 ≤ M.pi) ∧
    (¬ s.gamma2.getD i 0 ≥ cohMinMath → a.phases.getD i 0 = a.phases.getD (i - 1) 0)) ∧
  (∀ i, i < 2 ∨ j < i → a.hs.getD i Cplx.zero = s.H_smoothed.getD i Cplx.zero)

end ForwardPass
section UnwrapExamples

/-- Three-bin state whose smoothed response is `-1` in bin 1 and `1` in bin 2, with full
coherence: the phase steps from `pi` to `0`. -/
noncomputable def halfTurn : TFState ℝ :=
  { (initial : TFState ℝ) with
    H_smoothed := [Cplx.zero, ⟨-1, 0⟩, ⟨1, 0⟩]
    gamma2 := [1, 1, 1] }

/-- Three-bin state whose smoothed response is `-j` in bin 1 (coherence 1) and exactly zero
in bin 2 (coherence 0). -/
noncomputable def nullBin : TFState ℝ :=
  { (initial : TFState ℝ) with
    H_smoothed := [Cplx.zero, ⟨0, -1⟩, Cplx.zero]
    gamma2 := [0, 1, 0] }

/-- Three-bin state whose smoothed response is `-j` in bin 1 (coherence 1) and `1` in bin 2
(coherence 0). -/
noncomputable def carriedBin : TFState ℝ :=
  { (initial : TFState ℝ) with
    H_smoothed := [Cplx.zero, ⟨0, -1⟩, ⟨1, 0⟩]
    gamma2 := [0, 1, 0] }

end UnwrapExamples

section RegressionSlope

variable {K : Type} [LinearOrderedField K] [FloorRing K]

/-- Least-squares slope `m` that `estimateDelayPhaseBased` computes from the selected bins
(the quotient formed after the test `|denom| > eps`). -/
def regressionSlope (M : Libm K) (s : TFState K) : K :=
  let sel := selectBins M s
  let freqs := sel.map Prod.fst
  let phases := unwrapPhases M.pi (sel.map Prod.snd)
  let sums := fitSums (freqs.zip phases)
  let n : K := (freqs.length : K)
  (n * sums.2.2.2 - sums.1 * sums.2.1) / (n * sums.2.2.1 - sums.1 * sums.1)

end RegressionSlope

section RegressionExample

/-- State with 21 bins 400 Hz apart, response 1 and coherence 1 in every bin: the bins
1 to 20 (400 Hz to 8000 Hz) are the ones the regression selects. -/
noncomputable def flatResponse : TFState ℝ :=
  { (initial : TFState ℝ) with
    H := List.replicate 21 ⟨1, 0⟩
    gamma2 := List.replicate 21 1
    frequencies := (List.range 21).map (fun (k : Nat) => (k : ℝ) * 400) }

end RegressionExample

section SilentInvariants

/-- State of the averages under silent input: every averaged spectrum, the transfer
function and the coherence are zero in every bin. -/
def SilentAverages (s : TFState ℝ) : Prop :=
  ∀ k, s.Gxx.getD k 0 = 0 ∧ s.Gyy.getD k 0 = 0 ∧ s.Gxy.getD k Cplx.zero = Cplx.zero ∧
    s.H.getD k Cplx.zero = Cplx.zero ∧ s.gamma2.getD k 0 = 0

/-- Delay-estimator fields after `m` silent frames from the state left by `prepare`: the
estimate is zero; before frame 6 the estimator is Searching with `m / 2` stable updates
counted; from frame 6 on it is Locked. -/
def SilentCore (m : Nat) (c : DelayCore ℝ) : Prop :=
  c.est = 0 ∧ c.last = 0 ∧
  (m < 6 → c.locked = false ∧ c.cnt = ((m / 2 : Nat) : Int) ∧ c.counter = ((m % 2 : Nat) : Int)) ∧
  (6 ≤ m → c.locked = true ∧ c.cnt = 3)

end SilentInvariants

section InverseTransform

variable {K : Type} [LinearOrderedField K] [FloorRing K]

/-- Exact inverse discrete Fourier transform of a buffer of `N` values,
`x[n] = (1 / N) * sum_k buf[k] * exp(2 pi i k n / N)`: the transform that the
specification takes for `juce::dsp::FFT::perform(..., inverse = true)`, a library call whose
code is outside the repository. -/
def inverseDFT (M : Libm K) (buf : List (Cplx K)) : List (Cplx K) :=
  (List.range buf.length).map (fun (n : Nat) =>
    Cplx.divR
      (Cplx.sum ((List.range buf.length).map (fun (k : Nat) =>
        Cplx.mul (buf.getD k Cplx.zero)
          (cexpI M (2 * M.pi * (k : K) * (n : K) / (buf.length : K))))))
      (buf.length : K))

end InverseTransform

section PureDelayExample

/-- Collaborators whose inverse transform is the exact inverse DFT. -/
noncomputable def dftCollab : Collab ℝ :=
  { analyzerSize := fun n _ => n, analyze := fun _ => [], ifft := inverseDFT realLibm }

/-- State with frame length 2 at 48 kHz holding the spectra `X = [1, 1]` and
`Y = [1, -1]`: the measurement is the reference delayed by one sample. -/
noncomputable def pureDelayExample : TFState ℝ :=
  { (initial : TFState ℝ) with
    fftSize := 2
    sampleRate := 48000
    X := [⟨1, 0⟩, ⟨1, 0⟩]
    Y := [⟨1, 0⟩, ⟨-1, 0⟩]
    phatFFT := true
    phatFftBuffer := [Cplx.zero, Cplx.zero]
    phatTime := [0, 0] }

end PureDelayExample

/-! ## Binary64 arithmetic

The definitions above idealise `double` as an exact ordered field. The definitions of this
part follow the same source lines in IEEE 754 binary64 arithmetic: every finite `double` is an
integer multiple of `2^-1074`, and a value is kept as that integer. Each operation computes
the exact result and rounds it to the nearest representable value, ties to even; every
operation is rounded on its own (no fused multiply-add). Signed zeros, infinities and NaN
are not represented: the runs considered stay far from overflow. Results of `<cmath>`
functions (`exp`, `atan2`) enter as `double` constants. -/

section Binary64

/-- Finite value of type `double`: `units * 2^-1074`. -/
structure F64 where
  units : Int

/-- Number of binary digits of `n`, for `n < 2^4096`. -/
def bitLength (n : Nat) : Nat :=
  if n = 0 then 0
  else
    ([2048, 1024, 512, 256, 128, 64, 32, 16, 8, 4, 2, 1].foldl
      (fun (acc : Nat × Nat) (k : Nat) =>
        if acc.1 >>> k = 0 then acc else (acc.1 >>> k, acc.2 + k)) (n, 0)).2 + 1

/-- Nearest integer with at most 53 significant binary digits to the quotient `num / den`,
ties to the even significand: rounding of a non-negative number of units to a `double`. -/
def F64.round (num den : Nat) : Nat :=
  let sh := bitLength (num / den) - 53
  let m := num / (den <<< sh)
  let r := num % (den <<< sh)
  (if 2 * r > den <<< sh ∨ (2 * r = den <<< sh ∧ m % 2 = 1) then m + 1 else m) <<< sh

/-- Rounding of the signed quotient `num / den` of units, `den > 0`. -/
def F64.ofQuotient (num : Int) (den : Nat) : F64 :=
  ⟨Int.sign num * (F64.round num.natAbs den : Nat)⟩

/-- Decimal literal `num / den` of the source, such as `0.8` or `1e-12`. -/
def F64.lit (num den : Nat) : F64 := F64.ofQuotient ((num <<< 1074 : Nat) : Int) den

/-- Integer `n` as a `double` (`static_cast<double>(n)`), exact for `|n| ≤ 2^53`. -/
def F64.ofInt (n : Int) : F64 := F64.ofQuotient (n * ((1 <<< 1074 : Nat) : Int)) 1

/-- Value `m * 2^-e`, exact for `|m| ≤ 2^53` and `e ≤ 1074`: a `double` given by its
significand and binary exponent. -/
def F64.scaled (m : Int) (e : Nat) : F64 := ⟨m * ((1 <<< (1074 - e) : Nat) : Int)⟩

/-- Operator `a + b` on `double`. -/
def F64.add (a b : F64) : F64 := F64.ofQuotient (a.units + b.units) 1

/-- Operator `a - b` on `double`. -/
def F64.sub (a b : F64) : F64 := F64.ofQuotient (a.units - b.units) 1

/-- Operator `a * b` on `double`. -/
def F64.mul (a b : F64) : F64 := F64.ofQuotient (a.units * b.units) (1 <<< 1074)

/-- Operator `a / b` on `double`, `b` not zero. -/
def F64.div (a b : F64) : F64 :=
  F64.ofQuotient (Int.sign b.units * a.units * ((1 <<< 1074 : Nat) : Int)) b.units.natAbs

/-- Unary minus on `double`. -/
def F64.neg (a : F64) : F64 := ⟨-a.units⟩

/-- Function `std::abs` on `double`. -/
def F64.abs (a : F64) : F64 := ⟨(a.units.natAbs : Int)⟩

/-- Comparison `a < b` on `double`. -/
def F64.lt (a b : F64) : Bool := decide (a.units < b.units)

/-- Value of type `std::complex<double>` in binary64. -/
structure CplxF64 where
  re : F64
  im : F64

/-- Function `std::norm`: `re * re + im * im`. -/
def CplxF64.norm (a : CplxF64) : F64 := F64.add (F64.mul a.re a.re) (F64.mul a.im a.im)

/-- Function `std::conj`. -/
def CplxF64.conj (a : CplxF64) : CplxF64 := ⟨a.re, F64.neg a.im⟩

/-- Complex product `a * b`. -/
def CplxF64.mul (a b : CplxF64) : CplxF64 :=
  ⟨F64.sub (F64.mul a.re b.re) (F64.mul a.im b.im),
    F64.add (F64.mul a.re b.im) (F64.mul a.im b.re)⟩

/-- Complex sum `a + b`. -/
def CplxF64.add (a b : CplxF64) : CplxF64 := ⟨F64.add a.re b.re, F64.add a.im b.im⟩

/-- Product `c * a` of a `double` and a complex value. -/
def CplxF64.smul (c : F64) (a : CplxF64) : CplxF64 := ⟨F64.mul c a.re, F64.mul c a.im⟩

/-- Quotient `a / c` of a complex value by a `double`. -/
def CplxF64.divR (a : CplxF64) (c : F64) : CplxF64 := ⟨F64.div a.re c, F64.div a.im c⟩

/-- Constant `eps = 1e-12` as a `double`. -/
def epsF64 : F64 := F64.lit 1 (10 ^ 12)

/-- Constant `juce::MathConstants<double>::pi`, the `double` nearest to pi:
`884279719003555 * 2^-48`. -/
def piF64 : F64 := F64.scaled 884279719003555 48

/-- Values computed for one bin by one iteration of the loop of `updateAverages`, in
binary64. -/
structure BinAvgF64 where
  gxx : F64
  gyy : F64
  gxy : CplxF64
  h : CplxF64
  g2 : F64

/-- Body of the loop of `TFProcessor::updateAverages` for one bin, in binary64. -/
def averageBinF64 (alpha : F64) (x y : CplxF64) (gxx gyy : F64) (gxy : CplxF64) : BinAvgF64 :=
  let Gxx_k := CplxF64.norm x
  let Gxy_k := CplxF64.mul y (CplxF64.conj x)
  let gxx1 := F64.add (F64.mul alpha gxx) (F64.mul (F64.sub (F64.ofInt 1) alpha) Gxx_k)
  let gxy1 :=
    CplxF64.add (CplxF64.smul alpha gxy) (CplxF64.smul (F64.sub (F64.ofInt 1) alpha) Gxy_k)
  let Gyy_k := CplxF64.norm y
  let gyy1 := F64.add (F64.mul alpha gyy) (F64.mul (F64.sub (F64.ofInt 1) alpha) Gyy_k)
  let denom := F64.add gxx1 epsF64
  let h := CplxF64.divR gxy1 denom
  let num := CplxF64.norm gxy1
  let denom_coh := F64.add (F64.mul gxx1 gyy1) epsF64
  ⟨gxx1, gyy1, gxy1, h, F64.div num denom_coh⟩

/-- Delay-estimator fields written by steps 8 and 9 of `estimateDelay`, in binary64. -/
structure DelayCoreF64 where
  est : F64
  last : F64
  count : Int
  locked : Bool

/-- Function `juce::jlimit (lo, hi, x)` on `double`. -/
def jlimitF64 (lo hi x : F64) : F64 := if F64.lt x lo then lo else if F64.lt hi x then hi else x

/-- Steps 8 and 9 of `TFProcessor::estimateDelay` in binary64: smoothing, lock logic and
safety clamp, given the raw delay `delaySec` of this update. -/
def smoothAndLockF64 (c : DelayCoreF64) (delaySec : F64) : DelayCoreF64 :=
  let c1 : DelayCoreF64 :=
    if c.locked = false then
      let a := F64.lit 50 100
      let est := F64.add (F64.mul a c.est) (F64.mul (F64.sub (F64.ofInt 1) a) delaySec)
      let cnt : Int :=
        if F64.lt (F64.abs (F64.sub est c.last)) (F64.lit 1 10000) then c.count + 1 else 0
      ⟨est, est, cnt, if cnt ≥ 3 then true else c.locked⟩
    else
      let a2 := F64.lit 90 100
      ⟨F64.add (F64.mul a2 c.est) (F64.mul (F64.sub (F64.ofInt 1) a2) delaySec), c.last,
        c.count, c.locked⟩
  { c1 with est := jlimitF64 (F64.neg (F64.lit 5 100)) (F64.lit 5 100) c1.est }

/-- Delay updates of `estimateDelay` in binary64, each measuring the raw delay `delaySec`. -/
def delayUpdatesF64 (delaySec : F64) : Nat → DelayCoreF64 → DelayCoreF64
  | 0, c => c
  | n + 1, c => delayUpdatesF64 delaySec n (smoothAndLockF64 c delaySec)

/-- Tail of `TFProcessor::estimateDelayPhaseBased` in binary64, from the fitted slope `m`:
the clamped delay `tau_new` and the new value of `smoothedDelay` (and `estimatedDelay`). -/
def fallbackSmoothF64 (smoothedDelay m : F64) : F64 :=
  let tau0 := F64.div (F64.neg m) (F64.mul (F64.ofInt 2) piF64)
  let inner := if F64.lt tau0 (F64.lit 1 10) then tau0 else F64.lit 1 10
  let tau_new := if F64.lt (F64.neg (F64.lit 1 10)) inner then inner else F64.neg (F64.lit 1 10)
  F64.add (F64.mul (F64.lit 8 10) smoothedDelay) (F64.mul (F64.lit 2 10) tau_new)

/-- Fallback updates in binary64, each with the fitted slope `m`. -/
def fallbackUpdatesF64 (m : F64) : Nat → F64 → F64
  | 0, s => s
  | n + 1, s => fallbackUpdatesF64 m n (fallbackSmoothF64 s m)

/-- Test `std::abs(tau) > 0.1` of `TFProcessor::applyDelayCompensation` in binary64. -/
def suspiciousF64 (tau : F64) : Bool := F64.lt (F64.lit 1 10) (F64.abs tau)

/-- Loop `while (d > pi) { curr -= 2 pi; d -= 2 pi; }` in binary64, at most `fuel`
iterations; `none` when the loop has not ended by then. -/
def wrapDownF64 : Nat → F64 → F64 → Option (F64 × F64)
  | 0, _, _ => none
  | fuel + 1, curr, d =>
    if F64.lt piF64 d then
      wrapDownF64 fuel (F64.sub curr (F64.mul (F64.ofInt 2) piF64))
        (F64.sub d (F64.mul (F64.ofInt 2) piF64))
    else some (curr, d)

/-- Loop `while (d < -pi) { curr += 2 pi; d += 2 pi; }` in binary64, at most `fuel`
iterations; `none` when the loop has not ended by then. -/
def wrapUpF64 : Nat → F64 → F64 → Option (F64 × F64)
  | 0, _, _ => none
  | fuel + 1, curr, d =>
    if F64.lt d (F64.neg piF64) then
      wrapUpF64 fuel (F64.add curr (F64.mul (F64.ofInt 2) piF64))
        (F64.add d (F64.mul (F64.ofInt 2) piF64))
    else some (curr, d)

/-- Body of the forward loop of `unwrapPhase` in binary64 on the phase vector: `arg` is
`std::arg(H_smoothed[k])`, `coherent` is the test `gamma2[k] >= cohMinMath`; the state is
`prev_phase` and the part of `unwrapped_phases` written so far. -/
def unwrapForwardStepF64 (fuel : Nat) (a : Option (F64 × List F64)) (bin : F64 × Bool) :
    Option (F64 × List F64) :=
  match a with
  | none => none
  | some (prev, phases) =>
    match wrapDownF64 fuel bin.1 (F64.sub bin.1 prev) with
    | none => none
    | some r =>
      match wrapUpF64 fuel r.1 r.2 with
      | none => none
      | some q => if bin.2 then some (q.1, phases ++ [q.1]) else some (prev, phases ++ [prev])

/-- Forward pass of `unwrapPhase` in binary64: `unwrapped_phases` for the bins from
`startBin = 1` on, from the principal phases of these bins and their coherence tests. -/
def unwrapForwardF64 (fuel : Nat) (start : F64) (bins : List (F64 × Bool)) :
    Option (List F64) :=
  ((bins.foldl (unwrapForwardStepF64 fuel) (some (start, [start]))).map Prod.snd)

/-- Test `std::abs(next_phase - curr_phase) > pi` of the backward loop of `unwrapPhase` in
binary64, at position `i` of the phase vector. -/
def backwardJumpF64 (phases : List F64) (i : Nat) : Bool :=
  F64.lt piF64
    (F64.abs (F64.sub (phases.getD (i + 1) (F64.ofInt 0)) (phases.getD i (F64.ofInt 0))))

/-- Body of the backward loop of `unwrapPhase` in binary64 on the phase vector. -/
def unwrapBackwardStepF64 (phases : List F64) (i : Nat) : List F64 :=
  let curr := phases.getD i (F64.ofInt 0)
  let d := F64.sub (phases.getD (i + 1) (F64.ofInt 0)) curr
  if F64.lt piF64 (F64.abs d) then
    phases.set i
      (if F64.lt piF64 d then F64.add curr (F64.mul (F64.ofInt 2) piF64)
        else F64.sub curr (F64.mul (F64.ofInt 2) piF64))
  else phases

/-- Backward pass of `unwrapPhase` in binary64 on the phase vector (positions
`length - 2` down to `0`, the bins `spectrumSize - 2` down to `startBin`). -/
def unwrapBackwardF64 (phases : List F64) : List F64 :=
  (List.range (phases.length - 1)).reverse.foldl unwrapBackwardStepF64 phases

/-- Fast averaging coefficient `exp(-frameDt / 0.3)` after `prepare(4096, 48000.0)`
(`frameDt = 1024 / 48000`): the `double` `0x1.dcdb022bd89d3p-1 = 0.931358402111352`, plus
`j` units in the last place. -/
def alphaFast4096 (j : Int) : F64 := F64.scaled (8388930705394131 + j) 53

/-- Fast averaging coefficient `exp(-frameDt / 0.3)` after `prepare(2048, 48000.0)`
(`frameDt = 512 / 48000`): the `double` `0x1.ee1d8a16928f4p-1 = 0.9650691177896804`. -/
def alphaFast2048 : F64 := F64.scaled 8692569838528756 53

/-- Averages of one bin after `reset` or `prepare`: `Gxx = Gyy = 0`, `Gxy = 0`; the first
frame `x`, `y` averaged onto them with coefficient `alpha`, in binary64. -/
def firstFrameF64 (alpha : F64) (x y : CplxF64) : BinAvgF64 :=
  averageBinF64 alpha x y (F64.ofInt 0) (F64.ofInt 0) ⟨F64.ofInt 0, F64.ofInt 0⟩

/-- Delay fields left by `prepare`: both delays zero, counter zero, Searching. -/
def searchingStartF64 : DelayCoreF64 := ⟨F64.ofInt 0, F64.ofInt 0, 0, false⟩

/-- Raw delay `static_cast<double>(lag) / sampleRate` for `lag = 64` at 40 kHz: the
`double` nearest to 1.6 ms. -/
def delay64at40k : F64 := F64.div (F64.ofInt 64) (F64.ofInt 40000)

/-- Principal phases `std::arg` of the responses `-2 - j`, `1 + j`, `-1 - 2j`, `1 + 2j`
(bins 1 to 4 of `H_smoothed = [0, -2 - j, 1 + j, -1 - 2j, 1 + 2j]`), as `double`:
`-2.677945044588987`, `0.7853981633974483`, `-2.0344439357957027`, `1.1071487177940904`. -/
def examplePhasesF64 : List F64 :=
  [F64.scaled (-6030196152464814) 51, F64.scaled 7074237752028440 53,
    F64.scaled (-4581160475577846) 51, F64.scaled 4986154552901188 52]

/-- Vector `unwrapped_phases` (bins 1 to 4) that the forward pass leaves on
`examplePhasesF64`: `-2.677945044588987`, `-5.497787143782138`, `-8.31762924297529`,
`-5.176036589385496`. -/
def exampleForwardF64 : List F64 :=
  [F64.scaled (-6030196152464814) 51, F64.scaled (-6189958033024885) 50,
    F64.scaled (-4682408994908682) 49, F64.scaled (-5827699113803143) 50]

end Binary64

section SmoothedStage

variable {K : Type} [LinearOrderedField K] [FloorRing K]

end SmoothedStage

section DelayedPairExample

/-- Processor prepared with frame length 128 at 40 kHz, the inverse transform of the
correlation being the exact inverse DFT. -/
noncomputable def preparedDelay : TFState ℝ := prepare realLibm dftCollab initial 128 40000

/-- Spectra of one frame (65 bins) in which the reference has a flat unit spectrum and the
measurement is the reference delayed by 64 samples: `Y[k] = X[k] * exp(-2 pi i k 64 / 128)`. -/
noncomputable def delayedPair : List (Cplx ℝ) × List (Cplx ℝ) :=
  (List.replicate 65 ⟨1, 0⟩,
    (List.range 65).map (fun (k : Nat) =>
      Cplx.mul ⟨1, 0⟩
        (cexpI realLibm (-(2 * Real.pi * (k : ℝ) * ((64 : Int) : ℝ) / ((128 : Nat) : ℝ))))))

end DelayedPairExample

/-! ## Theorems -/

section Basics

variable {K : Type} [LinearOrderedField K] [FloorRing K]

theorem length_writeBins {α : Type} (n : Nat) (f : Nat → α) (xs : List α) :
    (writeBins n f xs).length = xs.length := by
  simp [writeBins]

theorem getD_writeBins {α : Type} (n : Nat) (f : Nat → α) (xs : List α) (k : Nat) (d : α)
    (hk : k < n) (hx : k < xs.length) : (writeBins n f xs).getD k d = f k := by
  simp [writeBins, List.getD_eq_getElem?_getD, List.getElem?_mapIdx, hk, hx]

theorem getD_writeBins_ge {α : Type} (n : Nat) (f : Nat → α) (xs : List α) (k : Nat) (d : α)
    (hk : n ≤ k) : (writeBins n f xs).getD k d = xs.getD k d := by
  simp only [writeBins, List.getD_eq_getElem?_getD, List.getElem?_mapIdx]
  cases h : xs[k]? with
  | none => simp
  | some v => simp [Nat.not_lt.mpr hk]

theorem fill_eq_replicate {α : Type} (xs : List α) (x : α) :
    fill xs x = List.replicate xs.length x := by
  simp [fill, List.map_const']

theorem length_fill {α : Type} (xs : List α) (x : α) : (fill xs x).length = xs.length := by
  simp [fill]

theorem length_resize {α : Type} (xs : List α) (n : Nat) (x : α) :
    (resize xs n x).length = n := by
  simp [resize]
  omega

end Basics

section ResetAndPrepare

variable {K : Type} [LinearOrderedField K] [FloorRing K]

/-- C7: `reset` zeroes the running averages, the transfer-function stages, the coherence
(stored and published) in every bin and empties both sample buffers; it leaves `fftSize`,
`sampleRate`, `hopSize`, `frameDt`, the frequency axis, the length of every per-bin sequence
and the ready flag unchanged. -/
theorem reset_zeroes_and_preserves (s : TFState K) :
    ((reset s).Gxx = List.replicate s.Gxx.length 0 ∧
      (reset s).Gyy = List.replicate s.Gyy.length 0 ∧
      (reset s).Gxy = List.replicate s.Gxy.length Cplx.zero ∧
      (reset s).H = List.replicate s.H.length Cplx.zero ∧
      (reset s).H_compensated = List.replicate s.H_compensated.length Cplx.zero ∧
      (reset s).H_smoothed = List.replicate s.H_smoothed.length Cplx.zero ∧
      (reset s).gamma2 = List.replicate s.gamma2.length 0) ∧
    ((reset s).coherenceBuffer = List.replicate s.coherenceBuffer.length 0 ∧
      (reset s).coherence = List.replicate s.coherence.length 0) ∧
    ((reset s).referenceBuffer = [] ∧ (reset s).measurementBuffer = []) ∧
    ((reset s).fftSize = s.fftSize ∧ (reset s).sampleRate = s.sampleRate ∧
      (reset s).hopSize = s.hopSize ∧ (reset s).frameDt = s.frameDt ∧
      (reset s).frequencies = s.frequencies ∧ (reset s).ready = s.ready) ∧
    ((reset s).X.length = s.X.length ∧ (reset s).Y.length = s.Y.length ∧
      (reset s).Gxx.length = s.Gxx.length ∧ (reset s).Gyy.length = s.Gyy.length ∧
      (reset s).Gxy.length = s.Gxy.length ∧ (reset s).H.length = s.H.length ∧
      (reset s).H_compensated.length = s.H_compensated.length ∧
      (reset s).H_smoothed.length = s.H_smoothed.length ∧
      (reset s).gamma2.length = s.gamma2.length ∧
      (reset s).magnitudeDb.length = s.magnitudeDb.length ∧
      (reset s).phaseDegrees.length = s.phaseDegrees.length ∧
      (reset s).coherence.length = s.coherence.length ∧
      (reset s).magnitudeDbBuffer.length = s.magnitudeDbBuffer.length ∧
      (reset s).phaseDegreesBuffer.length = s.phaseDegreesBuffer.length ∧
      (reset s).coherenceBuffer.length = s.coherenceBuffer.length) := by
  simp [reset, fill_eq_replicate]

theorem jlimit_of_mem (lo hi x : K) (h1 : lo ≤ x) (h2 : x ≤ hi) : jlimit lo hi x = x := by
  simp [jlimit, not_lt.mpr h1, not_lt.mpr h2]

theorem jlimit_mem (lo hi x : K) (h : lo ≤ hi) : lo ≤ jlimit lo hi x ∧ jlimit lo hi x ≤ hi := by
  unfold jlimit
  split_ifs with h1 h2
  · exact ⟨le_refl _, h⟩
  · exact ⟨h, le_refl _⟩
  · exact ⟨not_lt.mp h1, not_lt.mp h2⟩

theorem smoothAndLock_zero (s : TFState K) (hl : s.delayLocked = false)
    (he : s.estimatedDelay = 0) (hd : s.lastDelaySec = 0) :
    (smoothAndLock s 0).estimatedDelay = 0 ∧ (smoothAndLock s 0).lastDelaySec = 0 ∧
    (smoothAndLock s 0).stableDelayCount = s.stableDelayCount + 1 ∧
    (smoothAndLock s 0).delayLocked = decide (3 ≤ s.stableDelayCount + 1) := by
  have hj : jlimit (-(1 / 20)) (1 / 20) (0 : K) = 0 :=
    jlimit_of_mem _ _ _ (by norm_num) (by norm_num)
  have ht : |(0 : K) - 0| < delayStabilityThreshold := by
    simp only [delayStabilityThreshold]
    norm_num
  simp only [smoothAndLock, hl, he, hd, if_true, mul_zero, add_zero, ht, hj,
    delayStabilityCount, ge_iff_le]
  refine ⟨trivial, trivial, trivial, ?_⟩
  by_cases h3 : (3 : Int) ≤ s.stableDelayCount + 1 <;> simp [h3]

/-- C6: `reset` does not touch the lock flag, the stability counter or the last delay:
from the Locked state `lockedExample` it returns a state that is still Locked with
stability counter 3, whereas `prepare` from the same state returns to Searching. -/
theorem reset_leaves_lock (M : Libm K) :
    (lockedExample M).delayLocked = true ∧
    (reset (lockedExample M)).delayLocked = true ∧
    (reset (lockedExample M)).stableDelayCount = 3 ∧
    (reset (lockedExample M)).estimatedDelay = 0 ∧
    (prepare M exactCollab (lockedExample M) 16 48000).delayLocked = false ∧
    (prepare M exactCollab (lockedExample M) 16 48000).stableDelayCount = 0 := by
  have h0 := smoothAndLock_zero (prepare M exactCollab (initial : TFState K) 16 48000)
    (by simp [prepare, reset]) (by simp [prepare, reset]) (by simp [prepare, reset])
  have c0 : (prepare M exactCollab (initial : TFState K) 16 48000).stableDelayCount = 0 := by
    simp [prepare, reset]
  rw [c0] at h0
  obtain ⟨e1, d1, c1, l1⟩ := h0
  have h1 := smoothAndLock_zero _ (by rw [l1]; decide) e1 d1
  rw [c1] at h1
  obtain ⟨e2, d2, c2, l2⟩ := h1
  have h2 := smoothAndLock_zero _ (by rw [l2]; decide) e2 d2
  rw [c2] at h2
  obtain ⟨e3, d3, c3, l3⟩ := h2
  have hl : (lockedExample M).delayLocked = true := by
    unfold lockedExample
    rw [l3]
    decide
  have hc : (lockedExample M).stableDelayCount = 3 := by
    unfold lockedExample
    rw [c3]
    norm_num
  refine ⟨hl, ?_, ?_, ?_, ?_, ?_⟩
  · simpa [reset] using hl
  · simpa [reset] using hc
  · simp [reset]
  · simp [prepare, reset]
  · simp [prepare, reset]

theorem prepare_hopSize (M : Libm K) (J : Collab K) (s : TFState K) (n : Int) (fs : K) :
    (prepare M J s n fs).hopSize = truncToInt ((n : K) * (1 - overlap)) := rfl

theorem prepare_fftSize (M : Libm K) (J : Collab K) (s : TFState K) (n : Int) (fs : K) :
    (prepare M J s n fs).fftSize = J.analyzerSize n fs := by
  show (if J.analyzerSize n fs ≠ n then J.analyzerSize n fs else n) = _
  split_ifs with h
  · rfl
  · exact (not_not.mp h).symm

theorem prepare_frameDt (M : Libm K) (J : Collab K) (s : TFState K) (n : Int) (fs : K) :
    (prepare M J s n fs).frameDt = ((prepare M J s n fs).hopSize : K) / fs := rfl

theorem prepare_ready (M : Libm K) (J : Collab K) (s : TFState K) (n : Int) (fs : K) :
    (prepare M J s n fs).ready = true := rfl

theorem prepare_buffers (M : Libm K) (J : Collab K) (s : TFState K) (n : Int) (fs : K) :
    (prepare M J s n fs).referenceBuffer = [] ∧ (prepare M J s n fs).measurementBuffer = [] :=
  ⟨rfl, rfl⟩

/-- C9: with 1000 points requested and 1024 used by the analyzer, `prepare` leaves
`fftSize = 1024` and `hopSize = 250` (a quarter of the requested size), while a quarter of
the frame length in use is 256; `frameDt` is the hop of 250 samples over the sample rate. -/
theorem prepare_hop_from_requested_size (M : Libm K) (s : TFState K) :
    (prepare M roundingCollab s 1000 48000).fftSize = 1024 ∧
    (prepare M roundingCollab s 1000 48000).hopSize = 250 ∧
    truncToInt (((1024 : Int) : K) * (1 - overlap)) = 256 ∧
    (prepare M roundingCollab s 1000 48000).frameDt = 250 / 48000 := by
  have h1 : truncToInt (((1000 : Int) : K) * (1 - overlap)) = 250 := by
    simp only [truncToInt, overlap]
    norm_num
  have h2 : truncToInt (((1024 : Int) : K) * (1 - overlap)) = 256 := by
    simp only [truncToInt, overlap]
    norm_num
  refine ⟨?_, ?_, h2, ?_⟩
  · rw [prepare_fftSize]
    simp [roundingCollab]
  · rw [prepare_hopSize]
    exact h1
  · rw [prepare_frameDt, prepare_hopSize, h1]
    norm_num

end ResetAndPrepare

section FrameCondition

variable {K : Type} [LinearOrderedField K] [FloorRing K]

theorem sameConfig_refl (s : TFState K) : SameConfig s s := by
  simp [SameConfig]

theorem sameConfig_trans {s t u : TFState K} (h1 : SameConfig s t) (h2 : SameConfig t u) :
    SameConfig s u := by
  obtain ⟨a1, a2, a3, a4, a5, a6, a7, a8, a9, a10, a11, a12, a13, a14⟩ := h1
  obtain ⟨b1, b2, b3, b4, b5, b6, b7, b8, b9, b10, b11, b12, b13, b14⟩ := h2
  exact ⟨b1.trans a1, b2.trans a2, b3.trans a3, b4.trans a4, b5.trans a5, b6.trans a6,
    b7.trans a7, b8.trans a8, b9.trans a9, b10.trans a10, b11.trans a11, b12.trans a12,
    b13.trans a13, b14.trans a14⟩

theorem sameConfig_updateAverages (s : TFState K) : SameConfig s (updateAverages s) := by
  simp [SameConfig, updateAverages]

theorem sameConfig_averagingStep (M : Libm K) (s : TFState K) :
    SameConfig s (averagingStep M s) := by
  unfold averagingStep
  split_ifs <;> simp [SameConfig, updateAverages]

theorem sameConfig_smoothAndLock (s : TFState K) (d : K) : SameConfig s (smoothAndLock s d) := by
  simp only [smoothAndLock]
  split_ifs <;> simp [SameConfig]

theorem sameConfig_estimateDelayPhaseBased (M : Libm K) (s : TFState K) :
    SameConfig s (estimateDelayPhaseBased M s) := by
  simp only [estimateDelayPhaseBased]
  split_ifs <;> simp [SameConfig]

theorem sameConfig_estimateDelay (M : Libm K) (J : Collab K) (s : TFState K) :
    SameConfig s (estimateDelay M J s) := by
  simp only [estimateDelay]
  split_ifs
  · exact sameConfig_estimateDelayPhaseBased M s
  · refine sameConfig_trans ?_ (sameConfig_smoothAndLock _ _)
    simp [SameConfig]

theorem sameConfig_delayStep (M : Libm K) (J : Collab K) (s : TFState K) :
    SameConfig s (delayStep M J s) := by
  simp only [delayStep]
  split_ifs
  all_goals
    first
    | (refine sameConfig_trans ?_ (sameConfig_estimateDelay M J _)
       simp [SameConfig])
    | simp [SameConfig]

theorem sameConfig_applyDelayCompensation (M : Libm K) (s : TFState K) :
    SameConfig s (applyDelayCompensation M s) := by
  simp only [applyDelayCompensation]
  split_ifs <;> simp [SameConfig]

theorem sameConfig_compensationStep (M : Libm K) (s : TFState K) :
    SameConfig s (compensationStep M s) := by
  simp only [compensationStep]
  split_ifs
  · exact sameConfig_applyDelayCompensation M s
  · simp [SameConfig]

theorem sameConfig_applySmoothing (M : Libm K) (s : TFState K) :
    SameConfig s (applySmoothing M s) := by
  simp only [applySmoothing]
  split_ifs <;> simp [SameConfig]

theorem sameConfig_unwrapPhase (M : Libm K) (s : TFState K) :
    SameConfig s (unwrapPhase M s) := by
  simp only [unwrapPhase]
  split_ifs <;> simp [SameConfig]

theorem sameConfig_extractMagnitudeAndPhase (M : Libm K) (s : TFState K) :
    SameConfig s (extractMagnitudeAndPhase M s) := by
  simp [SameConfig, extractMagnitudeAndPhase]

theorem sameConfig_publish (s : TFState K) : SameConfig s (publish s) := by
  simp [SameConfig, publish]

theorem sameConfig_processFrame (M : Libm K) (J : Collab K) (s : TFState K) :
    SameConfig s (processFrame M J s) := by
  simp only [processFrame]
  refine sameConfig_trans ?_ (sameConfig_publish _)
  refine sameConfig_trans ?_ (sameConfig_extractMagnitudeAndPhase M _)
  refine sameConfig_trans ?_ (sameConfig_unwrapPhase M _)
  refine sameConfig_trans ?_ (sameConfig_applySmoothing M _)
  refine sameConfig_trans ?_ (sameConfig_compensationStep M _)
  refine sameConfig_trans ?_ (sameConfig_delayStep M J _)
  refine sameConfig_trans ?_ (sameConfig_averagingStep M _)
  simp [SameConfig]

end FrameCondition

section FrameLoop

variable {K : Type} [LinearOrderedField K] [FloorRing K]

theorem frameIteration_fst (M : Libm K) (J : Collab K) (s : TFState K) :
    (frameIteration M J s).1 =
      (s.referenceBuffer.take s.fftSize.toNat, s.measurementBuffer.take s.fftSize.toNat) := rfl

theorem frameIteration_config (M : Libm K) (J : Collab K) (s : TFState K) :
    (frameIteration M J s).2.referenceBuffer = s.referenceBuffer.drop s.hopSize.toNat ∧
    (frameIteration M J s).2.measurementBuffer = s.measurementBuffer.drop s.hopSize.toNat ∧
    (frameIteration M J s).2.fftSize = s.fftSize ∧
    (frameIteration M J s).2.hopSize = s.hopSize ∧
    (frameIteration M J s).2.ready = s.ready := by
  obtain ⟨h1, h2, h3, h4, h5, _⟩ := sameConfig_processFrame M J
    { acceptSpectra s (J.analyze (s.referenceBuffer.take s.fftSize.toNat))
        (J.analyze (s.measurementBuffer.take s.fftSize.toNat)) with
      referenceBuffer := s.referenceBuffer.drop s.hopSize.toNat
      measurementBuffer := s.measurementBuffer.drop s.hopSize.toNat }
  exact ⟨h1, h2, h3, h4, h5⟩

theorem framesAvailable_iff (s : TFState K) (F : Nat) (hF : s.fftSize = (F : Int)) :
    framesAvailable s = true ↔
      F ≤ s.referenceBuffer.length ∧ F ≤ s.measurementBuffer.length := by
  simp [framesAvailable, hF]

theorem expectedFrameCount_of_lt (F h L : Nat) (hL : L < F) : expectedFrameCount F h L = 0 := by
  simp [expectedFrameCount, hL]

theorem expectedFrameCount_step (F h L : Nat) (hh : 1 ≤ h) (hF : 1 ≤ F) (hL : F ≤ L) :
    expectedFrameCount F h L = expectedFrameCount F h (L - h) + 1 := by
  unfold expectedFrameCount
  rw [if_neg (Nat.not_lt.mpr hL)]
  split_ifs with h1
  · have : (L - F) / h = 0 := Nat.div_eq_of_lt (by omega)
    omega
  · have e : L - F = (L - h - F) + h := by omega
    rw [e, Nat.add_div_right _ (by omega)]

theorem window_drop {α : Type} (F h : Nat) (xs : List α) (i : Nat) :
    window F h (xs.drop h) i = window F h xs (i + 1) := by
  simp only [window, List.drop_drop]
  congr 2
  ring

theorem window_zero {α : Type} (F h : Nat) (xs : List α) : window F h xs 0 = xs.take F := by
  simp [window]

theorem expectedFrames_of_lt {α : Type} (F h : Nat) (rs ms : List α) (hL : rs.length < F) :
    expectedFrames F h rs ms = [] := by
  simp [expectedFrames, expectedFrameCount_of_lt F h _ hL]

theorem expectedFrames_step {α : Type} (F h : Nat) (rs ms : List α) (hh : 1 ≤ h) (hF : 1 ≤ F)
    (hL : F ≤ rs.length) :
    expectedFrames F h rs ms =
      (rs.take F, ms.take F) :: expectedFrames F h (rs.drop h) (ms.drop h) := by
  unfold expectedFrames
  rw [expectedFrameCount_step F h _ hh hF hL, List.length_drop, List.range_succ_eq_map]
  simp [window_zero, window_drop, Function.comp_def]

theorem length_expectedFrames {α : Type} (F h : Nat) (rs ms : List α) :
    (expectedFrames F h rs ms).length = expectedFrameCount F h rs.length := by
  simp [expectedFrames]

/-- The loop of `tryProcessSynchronizedFrames` with a hop of at least one sample and a
frame of at least one sample: with fuel for every expected frame it returns, having emitted
the expected frames and dropped `count * h` samples from both buffers. -/
theorem tryProcess_spec (M : Libm K) (J : Collab K) (F h : Nat) (hh : 1 ≤ h) (hF : 1 ≤ F) :
    ∀ (fuel : Nat) (s : TFState K), s.fftSize = (F : Int) → s.hopSize = (h : Int) →
      s.referenceBuffer.length = s.measurementBuffer.length →
      expectedFrameCount F h s.referenceBuffer.length ≤ fuel →
      ∃ t, tryProcessSynchronizedFrames M J fuel s =
          some (expectedFrames F h s.referenceBuffer s.measurementBuffer, t) ∧
        t.referenceBuffer =
          s.referenceBuffer.drop (expectedFrameCount F h s.referenceBuffer.length * h) ∧
        t.measurementBuffer =
          s.measurementBuffer.drop (expectedFrameCount F h s.referenceBuffer.length * h) ∧
        t.fftSize = s.fftSize ∧ t.hopSize = s.hopSize ∧ t.ready = s.ready := by
  intro fuel
  induction fuel with
  | zero =>
    intro s hsF hsh hlen hc
    have hlt : s.referenceBuffer.length < F := by
      by_contra hge
      rw [expectedFrameCount_step F h _ hh hF (Nat.not_lt.mp hge)] at hc
      omega
    have hav : framesAvailable s = false := by
      rw [Bool.eq_false_iff, Ne, framesAvailable_iff s F hsF]
      omega
    refine ⟨s, ?_, ?_, ?_, rfl, rfl, rfl⟩
    · simp [tryProcessSynchronizedFrames, hav, expectedFrames_of_lt F h _ _ hlt]
    · simp [expectedFrameCount_of_lt F h _ hlt]
    · simp [expectedFrameCount_of_lt F h _ hlt]
  | succ fuel ih =>
    intro s hsF hsh hlen hc
    by_cases hge : F ≤ s.referenceBuffer.length
    · have hav : framesAvailable s = true := by
        rw [framesAvailable_iff s F hsF]
        omega
      obtain ⟨c1, c2, c3, c4, c5⟩ := frameIteration_config M J s
      have hhn : s.hopSize.toNat = h := by simp [hsh]
      have hFn : s.fftSize.toNat = F := by simp [hsF]
      rw [hhn] at c1 c2
      have hstep := expectedFrameCount_step F h _ hh hF hge
      have hlen1 : (frameIteration M J s).2.referenceBuffer.length =
          (frameIteration M J s).2.measurementBuffer.length := by
        rw [c1, c2, List.length_drop, List.length_drop, hlen]
      have hc1 : expectedFrameCount F h (frameIteration M J s).2.referenceBuffer.length ≤ fuel := by
        rw [c1, List.length_drop]
        omega
      obtain ⟨t, ht, hr, hm, tF, th, tr⟩ :=
        ih (frameIteration M J s).2 (c3.trans hsF) (c4.trans hsh) hlen1 hc1
      refine ⟨t, ?_, ?_, ?_, tF.trans c3, th.trans c4, tr.trans c5⟩
      · simp only [tryProcessSynchronizedFrames, hav, if_true, ht]
        rw [expectedFrames_step F h _ _ hh hF hge, frameIteration_fst, hFn, c1, c2]
      · rw [hr, c1, List.length_drop, List.drop_drop, hstep]
        congr 1
        ring
      · rw [hm, c1, c2, List.length_drop, List.drop_drop, hstep]
        congr 1
        ring
    · have hlt : s.referenceBuffer.length < F := Nat.not_le.mp hge
      have hav : framesAvailable s = false := by
        rw [Bool.eq_false_iff, Ne, framesAvailable_iff s F hsF]
        omega
      refine ⟨s, ?_, ?_, ?_, rfl, rfl, rfl⟩
      · simp [tryProcessSynchronizedFrames, hav, expectedFrames_of_lt F h _ _ hlt]
      · simp [expectedFrameCount_of_lt F h _ hlt]
      · simp [expectedFrameCount_of_lt F h _ hlt]

/-- The loop of `tryProcessSynchronizedFrames` with a hop of zero samples and a full frame
in both buffers is still running after any number of iterations. -/
theorem tryProcess_hop_zero (M : Libm K) (J : Collab K) :
    ∀ (fuel : Nat) (s : TFState K), s.hopSize.toNat = 0 → framesAvailable s = true →
      tryProcessSynchronizedFrames M J fuel s = none := by
  intro fuel
  induction fuel with
  | zero =>
    intro s _ hav
    simp [tryProcessSynchronizedFrames, hav]
  | succ fuel ih =>
    intro s hh hav
    obtain ⟨c1, c2, c3, c4, _⟩ := frameIteration_config M J s
    rw [hh, List.drop_zero] at c1 c2
    have hav1 : framesAvailable (frameIteration M J s).2 = true := by
      simp only [framesAvailable, c1, c2, c3] at hav ⊢
      exact hav
    have := ih (frameIteration M J s).2 (by rw [c4]; exact hh) hav1
    simp [tryProcessSynchronizedFrames, hav, this]

end FrameLoop

section Synchronizer

variable {K : Type} [LinearOrderedField K] [FloorRing K]

theorem tryProcess_fuel_succ (M : Libm K) (J : Collab K) :
    ∀ (fuel : Nat) (s : TFState K) (r : List (List K × List K) × TFState K),
      tryProcessSynchronizedFrames M J fuel s = some r →
      tryProcessSynchronizedFrames M J (fuel + 1) s = some r := by
  intro fuel
  induction fuel with
  | zero =>
    intro s r h
    by_cases hav : framesAvailable s = true
    · simp [tryProcessSynchronizedFrames, hav] at h
    · simpa [tryProcessSynchronizedFrames, hav] using h
  | succ fuel ih =>
    intro s r h
    by_cases hav : framesAvailable s = true
    · rw [tryProcessSynchronizedFrames] at h ⊢
      simp only [hav, if_true] at h ⊢
      cases hr : tryProcessSynchronizedFrames M J fuel (frameIteration M J s).2 with
      | none => simp [hr] at h
      | some q =>
        rw [ih _ q hr]
        simpa [hr] using h
    · rw [tryProcessSynchronizedFrames] at h ⊢
      simpa [hav] using h

theorem tryProcess_fuel_le (M : Libm K) (J : Collab K) (s : TFState K)
    (r : List (List K × List K) × TFState K) (a b : Nat) (hab : a ≤ b)
    (h : tryProcessSynchronizedFrames M J a s = some r) :
    tryProcessSynchronizedFrames M J b s = some r := by
  induction b, hab using Nat.le_induction with
  | base => exact h
  | succ n _ ih => exact tryProcess_fuel_succ M J n s r ih

theorem expectedFrameCount_mul_le (F h L : Nat) (hhF : h ≤ F) :
    expectedFrameCount F h L * h ≤ L := by
  unfold expectedFrameCount
  split_ifs with h1
  · simp
  · have := Nat.div_mul_le_self (L - F) h
    rw [Nat.add_mul]
    omega

theorem expectedFrameCount_mono (F h : Nat) (hh : 1 ≤ h) (hF : 1 ≤ F) :
    ∀ (n L L2 : Nat), L ≤ n → L ≤ L2 → expectedFrameCount F h L ≤ expectedFrameCount F h L2 := by
  intro n
  induction n with
  | zero =>
    intro L L2 h0 _
    have : L < F := by omega
    simp [expectedFrameCount_of_lt F h L this]
  | succ n ih =>
    intro L L2 hn hle
    by_cases hL : L < F
    · simp [expectedFrameCount_of_lt F h L hL]
    · rw [expectedFrameCount_step F h L hh hF (by omega),
        expectedFrameCount_step F h L2 hh hF (by omega)]
      have := ih (L - h) (L2 - h) (by omega) (by omega)
      omega

theorem expectedFrames_append {α : Type} (F h : Nat) (hh : 1 ≤ h) (hhF : h ≤ F) :
    ∀ (n : Nat) (xs ys r m : List α), xs.length ≤ n → xs.length = ys.length →
      expectedFrames F h (xs ++ r) (ys ++ m) =
        expectedFrames F h xs ys ++
          expectedFrames F h ((xs ++ r).drop (expectedFrameCount F h xs.length * h))
            ((ys ++ m).drop (expectedFrameCount F h xs.length * h)) := by
  intro n
  induction n with
  | zero =>
    intro xs ys r m hn _
    have hlt : xs.length < F := by omega
    simp [expectedFrames_of_lt F h xs ys hlt, expectedFrameCount_of_lt F h _ hlt]
  | succ n ih =>
    intro xs ys r m hn hxy
    by_cases hlt : xs.length < F
    · simp [expectedFrames_of_lt F h xs ys hlt, expectedFrameCount_of_lt F h _ hlt]
    · have hge : F ≤ xs.length := Nat.not_lt.mp hlt
      have hF : 1 ≤ F := le_trans hh hhF
      have hd : ∀ (zs : List α), List.drop (expectedFrameCount F h xs.length * h) zs =
          List.drop (expectedFrameCount F h (xs.drop h).length * h) (List.drop h zs) := by
        intro zs
        rw [List.drop_drop, List.length_drop, expectedFrameCount_step F h _ hh hF hge]
        congr 1
        ring
      rw [expectedFrames_step F h (xs ++ r) (ys ++ m) hh hF (by simp; omega),
        expectedFrames_step F h xs ys hh hF hge,
        List.drop_append_of_le_length (by omega : h ≤ xs.length),
        List.drop_append_of_le_length (by omega : h ≤ ys.length),
        List.take_append_of_le_length hge,
        List.take_append_of_le_length (by omega : F ≤ ys.length),
        ih (xs.drop h) (ys.drop h) r m (by simp; omega) (by simp [hxy]),
        hd (xs ++ r), hd (ys ++ m),
        List.drop_append_of_le_length (by omega : h ≤ xs.length),
        List.drop_append_of_le_length (by omega : h ≤ ys.length)]
      rfl

theorem processBlock_eq_loop (M : Libm K) (J : Collab K) (fuel : Nat) (s : TFState K)
    (ref meas : List K) (hr : s.ready = true) (hn : ref.length = meas.length)
    (hpos : 0 < ref.length) :
    processBlock M J fuel s ref meas (ref.length : Int) =
      tryProcessSynchronizedFrames M J fuel
        { s with
          referenceBuffer := s.referenceBuffer ++ ref
          measurementBuffer := s.measurementBuffer ++ meas } := by
  have h1 : ¬ ((ref.length : Int) ≤ 0) := by omega
  simp only [processBlock, hr, h1, Bool.true_eq_false, or_self, if_false, Int.toNat_ofNat,
    List.take_length]
  rw [hn, List.take_length]

/-- One `processBlock` call with hop `h` and frame length `F`, `1 ≤ h ≤ F`, on matched
buffers: the call returns, the emitted frames are the expected ones, the final buffers are
the streams without their first `count * h` samples. -/
theorem processBlock_run (M : Libm K) (J : Collab K) (s : TFState K) (ref meas : List K)
    (hr : s.ready = true) (hh : 1 ≤ s.hopSize) (hhF : s.hopSize ≤ s.fftSize)
    (hb : s.referenceBuffer.length = s.measurementBuffer.length)
    (hn : ref.length = meas.length) (hpos : 0 < ref.length) :
    ∃ t, (∀ fuel, expectedFrameCount s.fftSize.toNat s.hopSize.toNat
            (s.referenceBuffer ++ ref).length ≤ fuel →
          processBlock M J fuel s ref meas (ref.length : Int) =
            some (expectedFrames s.fftSize.toNat s.hopSize.toNat (s.referenceBuffer ++ ref)
              (s.measurementBuffer ++ meas), t)) ∧
      t.referenceBuffer = (s.referenceBuffer ++ ref).drop
        (expectedFrameCount s.fftSize.toNat s.hopSize.toNat (s.referenceBuffer ++ ref).length *
          s.hopSize.toNat) ∧
      t.measurementBuffer = (s.measurementBuffer ++ meas).drop
        (expectedFrameCount s.fftSize.toNat s.hopSize.toNat (s.referenceBuffer ++ ref).length *
          s.hopSize.toNat) ∧
      t.fftSize = s.fftSize ∧ t.hopSize = s.hopSize ∧ t.ready = s.ready := by
  have h1 : 1 ≤ s.hopSize.toNat := by omega
  have h2 : 1 ≤ s.fftSize.toNat := by omega
  obtain ⟨t, ht, p1, p2, p3, p4, p5⟩ := tryProcess_spec M J s.fftSize.toNat s.hopSize.toNat h1 h2
    (expectedFrameCount s.fftSize.toNat s.hopSize.toNat (s.referenceBuffer ++ ref).length)
    { s with
      referenceBuffer := s.referenceBuffer ++ ref
      measurementBuffer := s.measurementBuffer ++ meas }
    (by simp; omega) (by simp; omega) (by simp [hb, hn]) (le_refl _)
  refine ⟨t, ?_, p1, p2, p3, p4, p5⟩
  intro fuel hfuel
  rw [processBlock_eq_loop M J fuel s ref meas hr hn hpos]
  exact tryProcess_fuel_le M J _ _ _ _ hfuel ht

end Synchronizer

section SynchronizerClaims

variable {K : Type} [LinearOrderedField K] [FloorRing K]

theorem length_window {α : Type} (F h : Nat) (hh : 1 ≤ h) (xs : List α) (i : Nat)
    (hi : i < expectedFrameCount F h xs.length) : (window F h xs i).length = F := by
  unfold expectedFrameCount at hi
  split_ifs at hi with h1
  · omega
  · have h2 : i ≤ (xs.length - F) / h := by omega
    have h3 : i * h ≤ xs.length - F := (Nat.le_div_iff_mul_le (by omega)).mp h2
    simp only [window, List.length_take, List.length_drop]
    omega

theorem remaining_lt (F h L : Nat) (hh : 1 ≤ h) (hF : 1 ≤ F) :
    L - expectedFrameCount F h L * h < F := by
  unfold expectedFrameCount
  split_ifs with h1
  · omega
  · have h2 := Nat.div_add_mod (L - F) h
    have h3 := Nat.mod_lt (L - F) (by omega : h > 0)
    rw [Nat.add_mul, Nat.mul_comm ((L - F) / h) h]
    omega

theorem getD_expectedFrames {α : Type} (F h : Nat) (rs ms : List α) (i : Nat)
    (hi : i < expectedFrameCount F h rs.length) (d : List α × List α) :
    (expectedFrames F h rs ms).getD i d = (window F h rs i, window F h ms i) := by
  simp [expectedFrames, List.getD_eq_getElem?_getD, List.getElem?_map, List.getElem?_range hi]

/-- C8: one `processBlock` call with frame length `F = fftSize`, hop `h = hopSize`,
`1 ≤ h ≤ F`, both buffers holding `b` samples and `n > 0` new samples per channel returns
(given fuel for its iterations) having emitted `0` frame pairs if `b + n < F` and
`(b + n - F) / h + 1` otherwise; the `i`-th pair consists of the samples `[i*h, i*h + F)` of
the two buffer-plus-chunk streams, each exactly `F` long; afterwards the buffers have equal
length below `F`; and feeding the same samples as two consecutive chunks emits the same
frame sequence and leaves the same buffers. -/
theorem processBlock_frames (M : Libm K) (J : Collab K) (s : TFState K) (ref meas : List K)
    (hr : s.ready = true) (hh : 1 ≤ s.hopSize) (hhF : s.hopSize ≤ s.fftSize)
    (hb : s.referenceBuffer.length = s.measurementBuffer.length)
    (hn : ref.length = meas.length) (hpos : 0 < ref.length) :
    ∃ frames t,
      (∀ fuel, frames.length ≤ fuel →
        processBlock M J fuel s ref meas (ref.length : Int) = some (frames, t)) ∧
      frames.length =
        (if s.referenceBuffer.length + ref.length < s.fftSize.toNat then 0
         else (s.referenceBuffer.length + ref.length - s.fftSize.toNat) / s.hopSize.toNat + 1) ∧
      (∀ i, i < frames.length →
        frames.getD i ([], []) =
          (((s.referenceBuffer ++ ref).drop (i * s.hopSize.toNat)).take s.fftSize.toNat,
            ((s.measurementBuffer ++ meas).drop (i * s.hopSize.toNat)).take s.fftSize.toNat) ∧
        (((s.referenceBuffer ++ ref).drop (i * s.hopSize.toNat)).take s.fftSize.toNat).length =
          s.fftSize.toNat ∧
        (((s.measurementBuffer ++ meas).drop (i * s.hopSize.toNat)).take s.fftSize.toNat).length =
          s.fftSize.toNat) ∧
      t.referenceBuffer.length = t.measurementBuffer.length ∧
      t.referenceBuffer.length < s.fftSize.toNat ∧
      (∀ r1 r2 m1 m2 : List K, ref = r1 ++ r2 → meas = m1 ++ m2 → r1.length = m1.length →
        0 < r1.length → 0 < r2.length →
        ∃ f1 t1 f2 t2,
          (∀ fuel, frames.length ≤ fuel →
            processBlock M J fuel s r1 m1 (r1.length : Int) = some (f1, t1)) ∧
          (∀ fuel, frames.length ≤ fuel →
            processBlock M J fuel t1 r2 m2 (r2.length : Int) = some (f2, t2)) ∧
          f1 ++ f2 = frames ∧ t2.referenceBuffer = t.referenceBuffer ∧
          t2.measurementBuffer = t.measurementBuffer) := by
  have h1 : 1 ≤ s.hopSize.toNat := by omega
  have h2 : 1 ≤ s.fftSize.toNat := by omega
  have h3 : s.hopSize.toNat ≤ s.fftSize.toNat := by omega
  obtain ⟨t, ht, p1, p2, _, _, _⟩ := processBlock_run M J s ref meas hr hh hhF hb hn hpos
  have hSlen : (s.measurementBuffer ++ meas).length = (s.referenceBuffer ++ ref).length := by
    simp [hb, hn]
  refine ⟨expectedFrames s.fftSize.toNat s.hopSize.toNat (s.referenceBuffer ++ ref)
    (s.measurementBuffer ++ meas), t, ?_, ?_, ?_, ?_, ?_, ?_⟩
  · intro fuel hfuel
    rw [length_expectedFrames] at hfuel
    exact ht fuel hfuel
  · rw [length_expectedFrames, List.length_append]
    rfl
  · intro i hi
    rw [length_expectedFrames] at hi
    refine ⟨getD_expectedFrames _ _ _ _ i hi _, length_window _ _ h1 _ i hi, ?_⟩
    exact length_window _ _ h1 _ i (by rw [hSlen]; exact hi)
  · rw [p1, p2, List.length_drop, List.length_drop, hSlen]
  · rw [p1, List.length_drop]
    exact remaining_lt _ _ _ h1 h2
  · intro r1 r2 m1 m2 hre hme hl1 hp1 hp2
    have hl2 : r2.length = m2.length := by
      have := congrArg List.length hre
      have := congrArg List.length hme
      simp only [List.length_append] at *
      omega
    obtain ⟨t1, ht1, q1, q2, q3, q4, q5⟩ := processBlock_run M J s r1 m1 hr hh hhF hb hl1 hp1
    have hle := expectedFrameCount_mul_le s.fftSize.toNat s.hopSize.toNat
      (s.referenceBuffer ++ r1).length h3
    have hlen1 : (s.measurementBuffer ++ m1).length = (s.referenceBuffer ++ r1).length := by
      simp [hb, hl1]
    have hb1 : t1.referenceBuffer.length = t1.measurementBuffer.length := by
      rw [q1, q2, List.length_drop, List.length_drop, hlen1]
    obtain ⟨t2, ht2, w1, w2, _, _, _⟩ := processBlock_run M J t1 r2 m2 (q5.trans hr)
      (by rw [q4]; exact hh) (by rw [q3, q4]; exact hhF) hb1 hl2 hp2
    rw [q3, q4] at ht2 w1 w2
    have e1 : t1.referenceBuffer ++ r2 = (s.referenceBuffer ++ ref).drop
        (expectedFrameCount s.fftSize.toNat s.hopSize.toNat (s.referenceBuffer ++ r1).length *
          s.hopSize.toNat) := by
      rw [q1, hre, ← List.append_assoc, List.drop_append_of_le_length hle]
    have e2 : t1.measurementBuffer ++ m2 = (s.measurementBuffer ++ meas).drop
        (expectedFrameCount s.fftSize.toNat s.hopSize.toNat (s.referenceBuffer ++ r1).length *
          s.hopSize.toNat) := by
      rw [q2, hme, ← List.append_assoc, List.drop_append_of_le_length (hle.trans (le_of_eq hlen1.symm))]
    have happ := expectedFrames_append s.fftSize.toNat s.hopSize.toNat h1 h3 _
      (s.referenceBuffer ++ r1) (s.measurementBuffer ++ m1) r2 m2 (le_refl _) hlen1.symm
    rw [List.append_assoc, List.append_assoc, ← hre, ← hme, ← e1, ← e2] at happ
    have hcount := congrArg List.length happ
    rw [List.length_append] at hcount
    simp only [length_expectedFrames] at hcount
    refine ⟨_, t1, _, t2, ?_, ?_, happ.symm, ?_, ?_⟩
    · intro fuel hfuel
      rw [length_expectedFrames] at hfuel
      exact ht1 fuel (by omega)
    · intro fuel hfuel
      rw [length_expectedFrames] at hfuel
      exact ht2 fuel (by omega)
    · rw [w1, p1, hcount, e1, List.drop_drop]
      congr 1
      ring
    · rw [w2, p2, hcount, e1, e2, List.drop_drop]
      congr 1
      ring

/-- C10: after `prepare(2, 48000)` with an analyzer that keeps the size 2, the hop is
`static_cast<int>(2 * 0.25) = 0`, and a `processBlock` call with two samples per channel is
still in its frame-extraction loop after any number `fuel` of iterations. -/
theorem processBlock_never_returns_for_small_fft (M : Libm K) (fuel : Nat) (x0 x1 y0 y1 : K) :
    (prepare M exactCollab (initial : TFState K) 2 48000).fftSize = 2 ∧
    (prepare M exactCollab (initial : TFState K) 2 48000).hopSize = 0 ∧
    processBlock M exactCollab fuel (prepare M exactCollab (initial : TFState K) 2 48000)
      [x0, x1] [y0, y1] 2 = none := by
  have hF : (prepare M exactCollab (initial : TFState K) 2 48000).fftSize = 2 := by
    rw [prepare_fftSize]
    rfl
  have hh : (prepare M exactCollab (initial : TFState K) 2 48000).hopSize = 0 := by
    rw [prepare_hopSize]
    simp only [truncToInt, overlap]
    norm_num
  refine ⟨hF, hh, ?_⟩
  have e := processBlock_eq_loop M exactCollab fuel
    (prepare M exactCollab (initial : TFState K) 2 48000) [x0, x1] [y0, y1]
    (prepare_ready _ _ _ _ _) rfl (by simp)
  have e2 : processBlock M exactCollab fuel (prepare M exactCollab (initial : TFState K) 2 48000)
      [x0, x1] [y0, y1] 2 = _ := e
  rw [e2]
  apply tryProcess_hop_zero
  · show (prepare M exactCollab (initial : TFState K) 2 48000).hopSize.toNat = 0
    rw [hh]
    rfl
  · refine (framesAvailable_iff _ 2 (by exact hF)).mpr ?_
    obtain ⟨b1, b2⟩ := prepare_buffers M exactCollab (initial : TFState K) 2 48000
    show 2 ≤ ((prepare M exactCollab (initial : TFState K) 2 48000).referenceBuffer ++
        [x0, x1]).length ∧
      2 ≤ ((prepare M exactCollab (initial : TFState K) 2 48000).measurementBuffer ++
        [y0, y1]).length
    rw [b1, b2]
    simp

end SynchronizerClaims

section SynchronizerWitness

theorem preparedFour_config :
    preparedFour.ready = true ∧ preparedFour.hopSize = 1 ∧ preparedFour.fftSize = 4 ∧
    preparedFour.referenceBuffer = [] ∧ preparedFour.measurementBuffer = [] := by
  refine ⟨rfl, ?_, ?_, rfl, rfl⟩
  · show truncToInt (((4 : Int) : ℝ) * (1 - overlap)) = 1
    simp only [truncToInt, overlap]
    norm_num
  · unfold preparedFour
    rw [prepare_fftSize]
    rfl

theorem processBlock_frames_witness :
    ∃ frames t,
      (∀ fuel, frames.length ≤ fuel →
        processBlock realLibm exactCollab fuel preparedFour [1, 2, 3, 4, 5] [5, 4, 3, 2, 1] 5 =
          some (frames, t)) ∧
      frames.length = 2 ∧
      frames.getD 1 ([], []) = ([2, 3, 4, 5], [4, 3, 2, 1]) ∧
      t.referenceBuffer.length = t.measurementBuffer.length ∧ t.referenceBuffer.length < 4 := by
  obtain ⟨hr, hh, hF, hb1, hb2⟩ := preparedFour_config
  obtain ⟨frames, t, h1, h2, h3, h4, h5, _⟩ :=
    processBlock_frames realLibm exactCollab preparedFour [1, 2, 3, 4, 5] [5, 4, 3, 2, 1] hr
      (by rw [hh]) (by rw [hh, hF]; norm_num) (by rw [hb1, hb2]) rfl (by simp)
  rw [hb1, hF, hh] at h2
  have h2' : frames.length = 2 := by simpa using h2
  have h3' := (h3 1 (by omega)).1
  rw [hb1, hb2, hF, hh] at h3'
  rw [hF] at h5
  exact ⟨frames, t, h1, h2', by simpa using h3', h4, by simpa using h5⟩

end SynchronizerWitness

section Shapes

variable {K : Type} [LinearOrderedField K] [FloorRing K]

theorem processFrame_eq (M : Libm K) (J : Collab K) (s : TFState K) :
    processFrame M J s = publish (extractMagnitudeAndPhase M (unwrappedStage M J s)) := rfl

theorem sized_updateAverages (s : TFState K) (n : Nat) (h : Sized s n) :
    Sized (updateAverages s) n := by
  simpa [Sized, updateAverages, length_writeBins] using h

theorem sized_averagingStep (M : Libm K) (s : TFState K) (n : Nat) (h : Sized s n) :
    Sized (averagingStep M s) n := by
  unfold averagingStep
  split_ifs <;> simpa [Sized, updateAverages, length_writeBins] using h

theorem sized_smoothAndLock (s : TFState K) (d : K) (n : Nat) (h : Sized s n) :
    Sized (smoothAndLock s d) n := by
  simp only [smoothAndLock]
  split_ifs <;> simpa [Sized] using h

theorem sized_estimateDelayPhaseBased (M : Libm K) (s : TFState K) (n : Nat) (h : Sized s n) :
    Sized (estimateDelayPhaseBased M s) n := by
  simp only [estimateDelayPhaseBased]
  split_ifs <;> simpa [Sized] using h

theorem sized_estimateDelay (M : Libm K) (J : Collab K) (s : TFState K) (n : Nat)
    (h : Sized s n) : Sized (estimateDelay M J s) n := by
  simp only [estimateDelay]
  split_ifs
  · exact sized_estimateDelayPhaseBased M s n h
  · apply sized_smoothAndLock
    simpa [Sized] using h

theorem sized_delayStep (M : Libm K) (J : Collab K) (s : TFState K) (n : Nat)
    (h : Sized s n) : Sized (delayStep M J s) n := by
  simp only [delayStep]
  split_ifs
  all_goals
    first
    | (apply sized_estimateDelay
       simpa [Sized] using h)
    | simpa [Sized] using h

theorem sized_compensationStep (M : Libm K) (s : TFState K) (n : Nat) (h : Sized s n) :
    Sized (compensationStep M s) n := by
  simp only [compensationStep, applyDelayCompensation]
  split_ifs <;> simp [Sized, length_writeBins] at h ⊢ <;> simp [h]

theorem length_unwrapForwardStep (M : Libm K) (g : List K) (a : UnwrapAcc K) (k : Nat) :
    (unwrapForwardStep M g a k).hs.length = a.hs.length := by
  simp only [unwrapForwardStep]
  split_ifs <;> simp

theorem length_unwrapBackwardStep (M : Libm K) (a : UnwrapAcc K) (k : Nat) :
    (unwrapBackwardStep M a k).hs.length = a.hs.length := by
  simp only [unwrapBackwardStep]
  split_ifs <;> simp

theorem length_foldl_unwrapForward (M : Libm K) (g : List K) (l : List Nat) :
    ∀ a : UnwrapAcc K, (l.foldl (unwrapForwardStep M g) a).hs.length = a.hs.length := by
  induction l with
  | nil => intro a; rfl
  | cons k l ih =>
    intro a
    rw [List.foldl_cons, ih, length_unwrapForwardStep]

theorem length_foldl_unwrapBackward (M : Libm K) (l : List Nat) :
    ∀ a : UnwrapAcc K, (l.foldl (unwrapBackwardStep M) a).hs.length = a.hs.length := by
  induction l with
  | nil => intro a; rfl
  | cons k l ih =>
    intro a
    rw [List.foldl_cons, ih, length_unwrapBackwardStep]

theorem length_unwrapPhase (M : Libm K) (s : TFState K) :
    (unwrapPhase M s).H_smoothed.length = s.H_smoothed.length := by
  simp only [unwrapPhase]
  split_ifs
  · rfl
  · show (List.foldl (unwrapBackwardStep M) (unwrapForward M s) _).hs.length = _
    rw [length_foldl_unwrapBackward]
    unfold unwrapForward
    rw [length_foldl_unwrapForward]

theorem sized_applySmoothing (M : Libm K) (s : TFState K) (n : Nat) (h : Sized s n) :
    Sized (applySmoothing M s) n := by
  simp only [applySmoothing]
  split_ifs <;> simp [Sized, length_writeBins] at h ⊢ <;> simp [h]

theorem sized_unwrapPhase (M : Libm K) (s : TFState K) (n : Nat) (h : Sized s n) :
    Sized (unwrapPhase M s) n := by
  have hl := length_unwrapPhase M s
  simp only [unwrapPhase] at hl ⊢
  split_ifs at hl ⊢
  · exact h
  · simp only [Sized] at h ⊢
    obtain ⟨a1, a2, a3, a4, a5, a6, a7, a8, a9, a10, a11, a12, a13, a14, a15, a16⟩ := h
    exact ⟨a1, a2, a3, a4, a5, a6, a7, hl.trans a8, a9, a10, a11, a12, a13, a14, a15, a16⟩

theorem sized_extractMagnitudeAndPhase (M : Libm K) (s : TFState K) (n : Nat) (h : Sized s n) :
    Sized (extractMagnitudeAndPhase M s) n := by
  simpa [Sized, extractMagnitudeAndPhase, length_writeBins] using h

theorem sized_publish (s : TFState K) (n : Nat) (h : Sized s n) : Sized (publish s) n := by
  simp [Sized, publish] at h ⊢
  simp [h]

theorem sized_unwrappedStage (M : Libm K) (J : Collab K) (s : TFState K) (n : Nat)
    (h : Sized s n) : Sized (unwrappedStage M J s) n := by
  unfold unwrappedStage
  apply sized_unwrapPhase
  apply sized_applySmoothing
  apply sized_compensationStep
  apply sized_delayStep
  apply sized_averagingStep
  simpa [Sized] using h

theorem sized_processFrame (M : Libm K) (J : Collab K) (s : TFState K) (n : Nat)
    (h : Sized s n) : Sized (processFrame M J s) n := by
  rw [processFrame_eq]
  exact sized_publish _ n (sized_extractMagnitudeAndPhase M _ n (sized_unwrappedStage M J s n h))

theorem sized_reset (s : TFState K) (n : Nat) (h : Sized s n) : Sized (reset s) n := by
  simpa [Sized, reset, length_fill] using h

theorem sized_prepare (M : Libm K) (J : Collab K) (s : TFState K) (n : Int) (fs : K) :
    Sized (prepare M J s n fs) (Int.tdiv (J.analyzerSize n fs) 2 + 1).toNat := by
  have e : (if J.analyzerSize n fs ≠ n then J.analyzerSize n fs else n) = J.analyzerSize n fs := by
    split_ifs with h
    · rfl
    · exact (not_not.mp h).symm
  rw [← e]
  refine ⟨?_, ?_, ?_, ?_, ?_, ?_, ?_, ?_, ?_, ?_, ?_, ?_, ?_, ?_, ?_, ?_⟩
  · exact length_resize _ _ _
  · exact length_resize _ _ _
  · exact (length_fill _ _).trans (length_resize _ _ _)
  · exact (length_fill _ _).trans (length_resize _ _ _)
  · exact (length_fill _ _).trans (length_resize _ _ _)
  · exact (length_fill _ _).trans (length_resize _ _ _)
  · exact (length_fill _ _).trans (length_resize _ _ _)
  · exact (length_fill _ _).trans (length_resize _ _ _)
  · exact (length_fill _ _).trans (length_resize _ _ _)
  · exact (length_fill _ _).trans (length_resize _ _ _)
  · exact (length_fill _ _).trans (length_resize _ _ _)
  · exact (length_fill _ _).trans (length_resize _ _ _)
  · exact (length_writeBins _ _ _).trans (length_resize _ _ _)
  · exact (length_fill _ _).trans (length_resize _ _ _)
  · exact (length_fill _ _).trans (length_resize _ _ _)
  · exact (length_fill _ _).trans (length_resize _ _ _)

end Shapes

section Published

theorem eps_pos {K : Type} [LinearOrderedField K] : (0 : K) < eps := by
  unfold eps
  positivity

theorem log10_bound (x : ℝ) (hx : eps ≤ x) : -240 ≤ 20 * realLibm.log10 x := by
  have h10 : (0 : ℝ) < Real.log 10 := Real.log_pos (by norm_num)
  have he : Real.log (eps : ℝ) = -(12 * Real.log 10) := by
    unfold eps
    rw [one_div, Real.log_inv, Real.log_pow]
    norm_num
  have hl : Real.log (eps : ℝ) ≤ Real.log x := Real.log_le_log eps_pos hx
  have hq : -12 ≤ Real.log x / Real.log 10 := by
    rw [le_div_iff₀ h10]
    linarith
  show -240 ≤ 20 * (Real.log x / Real.log 10)
  linarith

/-- C1: after a processed frame, for every state whose per-bin sequences have the common
length `n` and every bin `k < n` (whatever the spectra `X`, `Y` held by the state, all-zero
included), the published coherence lies in `[0, 1]`, and the published magnitude is
`20 * log10 (max |H_smoothed[k]| eps)`, whose logarithm is taken of a positive number and
which is at least `-240`. -/
theorem published_values_bounded (J : Collab ℝ) (s : TFState ℝ) (n k : Nat) (hs : Sized s n)
    (hk : k < n) :
    Sized (processFrame realLibm J s) n ∧
    0 ≤ (processFrame realLibm J s).coherenceBuffer.getD k 0 ∧
    (processFrame realLibm J s).coherenceBuffer.getD k 0 ≤ 1 ∧
    (processFrame realLibm J s).magnitudeDbBuffer.getD k 0 =
      20 * realLibm.log10
        (max (cabs realLibm ((processFrame realLibm J s).H_smoothed.getD k Cplx.zero)) eps) ∧
    0 < max (cabs realLibm ((processFrame realLibm J s).H_smoothed.getD k Cplx.zero)) eps ∧
    -240 ≤ (processFrame realLibm J s).magnitudeDbBuffer.getD k 0 := by
  have hu := sized_unwrappedStage realLibm J s n hs
  obtain ⟨_, _, _, _, _, _, _, u8, _, u10, _, u12, _⟩ := hu
  have hc : (processFrame realLibm J s).coherenceBuffer.getD k 0 =
      max 0 (min 1 ((unwrappedStage realLibm J s).gamma2.getD k 0)) :=
    getD_writeBins _ _ _ k 0 (hk.trans_eq u8.symm) (hk.trans_eq u12.symm)
  have hm : (processFrame realLibm J s).magnitudeDbBuffer.getD k 0 =
      20 * realLibm.log10
        (max (cabs realLibm ((unwrappedStage realLibm J s).H_smoothed.getD k Cplx.zero)) eps) :=
    getD_writeBins _ _ _ k 0 (hk.trans_eq u8.symm) (hk.trans_eq u10.symm)
  have hH : (processFrame realLibm J s).H_smoothed =
      (unwrappedStage realLibm J s).H_smoothed := rfl
  refine ⟨sized_processFrame realLibm J s n hs, ?_, ?_, ?_, ?_, ?_⟩
  · rw [hc]
    exact le_max_left _ _
  · rw [hc]
    exact max_le (by norm_num) (min_le_left _ _)
  · rw [hm, hH]
  · exact lt_of_lt_of_le eps_pos (le_max_right _ _)
  · rw [hm]
    exact log10_bound _ (le_max_right _ _)

theorem preparedFour_sized : Sized preparedFour 3 := by
  have h := sized_prepare realLibm exactCollab (initial : TFState ℝ) 4 48000
  have e : (Int.tdiv ((exactCollab : Collab ℝ).analyzerSize 4 48000) 2 + 1).toNat = 3 := by
    show (Int.tdiv 4 2 + 1).toNat = 3
    decide
  rw [e] at h
  exact h

theorem published_values_bounded_witness :
    Sized preparedFour 3 ∧ 1 < 3 ∧
    0 ≤ (processFrame realLibm exactCollab preparedFour).coherenceBuffer.getD 1 0 ∧
    (processFrame realLibm exactCollab preparedFour).coherenceBuffer.getD 1 0 ≤ 1 ∧
    -240 ≤ (processFrame realLibm exactCollab preparedFour).magnitudeDbBuffer.getD 1 0 :=
  have h := published_values_bounded exactCollab preparedFour 3 1 preparedFour_sized (by decide)
  ⟨preparedFour_sized, by decide, h.2.1, h.2.2.1, h.2.2.2.2.2⟩

end Published

section AveragesFrame

variable {K : Type} [LinearOrderedField K] [FloorRing K]

theorem sameAverages_trans {s t u : TFState K} (h1 : SameAverages s t) (h2 : SameAverages t u) :
    SameAverages s u := by
  obtain ⟨a1, a2, a3, a4, a5⟩ := h1
  obtain ⟨b1, b2, b3, b4, b5⟩ := h2
  exact ⟨b1.trans a1, b2.trans a2, b3.trans a3, b4.trans a4, b5.trans a5⟩

theorem sameAverages_smoothAndLock (s : TFState K) (d : K) :
    SameAverages s (smoothAndLock s d) := by
  simp only [smoothAndLock]
  split_ifs <;> simp [SameAverages]

theorem sameAverages_estimateDelayPhaseBased (M : Libm K) (s : TFState K) :
    SameAverages s (estimateDelayPhaseBased M s) := by
  simp only [estimateDelayPhaseBased]
  split_ifs <;> simp [SameAverages]

theorem sameAverages_estimateDelay (M : Libm K) (J : Collab K) (s : TFState K) :
    SameAverages s (estimateDelay M J s) := by
  simp only [estimateDelay]
  split_ifs
  · exact sameAverages_estimateDelayPhaseBased M s
  · refine sameAverages_trans ?_ (sameAverages_smoothAndLock _ _)
    simp [SameAverages]

theorem sameAverages_delayStep (M : Libm K) (J : Collab K) (s : TFState K) :
    SameAverages s (delayStep M J s) := by
  simp only [delayStep]
  split_ifs
  all_goals
    first
    | (refine sameAverages_trans ?_ (sameAverages_estimateDelay M J _)
       simp [SameAverages])
    | simp [SameAverages]

theorem sameAverages_compensationStep (M : Libm K) (s : TFState K) :
    SameAverages s (compensationStep M s) := by
  simp only [compensationStep, applyDelayCompensation]
  split_ifs <;> simp [SameAverages]

theorem sameAverages_applySmoothing (M : Libm K) (s : TFState K) :
    SameAverages s (applySmoothing M s) := by
  simp only [applySmoothing]
  split_ifs <;> simp [SameAverages]

theorem sameAverages_unwrapPhase (M : Libm K) (s : TFState K) :
    SameAverages s (unwrapPhase M s) := by
  simp only [unwrapPhase]
  split_ifs <;> simp [SameAverages]

theorem sameAverages_extractMagnitudeAndPhase (M : Libm K) (s : TFState K) :
    SameAverages s (extractMagnitudeAndPhase M s) := by
  simp [SameAverages, extractMagnitudeAndPhase]

theorem sameAverages_publish (s : TFState K) : SameAverages s (publish s) := by
  simp [SameAverages, publish]

/-- Steps 2 to 7 of `processFrame` leave the averages, `H` and `gamma2` as step 1 wrote
them. -/
theorem sameAverages_processFrame (M : Libm K) (J : Collab K) (s : TFState K) :
    SameAverages (averagingStep M { s with frameCount := s.frameCount + 1 })
      (processFrame M J s) := by
  simp only [processFrame]
  refine sameAverages_trans ?_ (sameAverages_publish _)
  refine sameAverages_trans ?_ (sameAverages_extractMagnitudeAndPhase M _)
  refine sameAverages_trans ?_ (sameAverages_unwrapPhase M _)
  refine sameAverages_trans ?_ (sameAverages_applySmoothing M _)
  refine sameAverages_trans ?_ (sameAverages_compensationStep M _)
  exact sameAverages_delayStep M J _

end AveragesFrame

section CoherenceInvariant

variable {K : Type} [LinearOrderedField K] [FloorRing K]

theorem norm_nonneg (z : Cplx K) : 0 ≤ Cplx.norm z := by
  unfold Cplx.norm
  nlinarith [mul_self_nonneg z.re, mul_self_nonneg z.im]

/-- Cauchy-Schwarz step of the exponential average: if `|a|^2 ≤ p * q` and
`|c|^2 = P * Q`, the convex combination still has squared magnitude below the product of
the combined powers. -/
theorem cross_power_step (alpha beta a1 a2 c1 c2 p q P Q : K) (h0 : 0 ≤ alpha)
    (hb : 0 ≤ beta) (hp : 0 ≤ p) (hq : 0 ≤ q) (hP : 0 ≤ P) (hQ : 0 ≤ Q)
    (hc : a1 * a1 + a2 * a2 ≤ p * q) (hcc : c1 * c1 + c2 * c2 = P * Q) :
    (alpha * a1 + beta * c1) * (alpha * a1 + beta * c1) +
      (alpha * a2 + beta * c2) * (alpha * a2 + beta * c2) ≤
      (alpha * p + beta * P) * (alpha * q + beta * Q) := by
  have hv0 : 0 ≤ p * Q + q * P := by positivity
  have hPQ : 0 ≤ P * Q := mul_nonneg hP hQ
  have hu2 : (a1 * c1 + a2 * c2) * (a1 * c1 + a2 * c2) ≤ (p * q) * (P * Q) := by
    have e : (a1 * c1 + a2 * c2) * (a1 * c1 + a2 * c2) =
        (a1 * a1 + a2 * a2) * (c1 * c1 + c2 * c2) - (a1 * c2 - a2 * c1) ^ 2 := by ring
    rw [e, hcc]
    nlinarith [sq_nonneg (a1 * c2 - a2 * c1), mul_le_mul_of_nonneg_right hc hPQ]
  have hv2 : 4 * ((p * q) * (P * Q)) ≤ (p * Q + q * P) * (p * Q + q * P) := by
    nlinarith [sq_nonneg (p * Q - q * P)]
  have huv : 2 * (a1 * c1 + a2 * c2) ≤ p * Q + q * P := by
    by_contra hlt
    push_neg at hlt
    nlinarith
  have hab : 0 ≤ alpha * beta := mul_nonneg h0 hb
  have t1 : alpha * alpha * (a1 * a1 + a2 * a2) ≤ alpha * alpha * (p * q) :=
    mul_le_mul_of_nonneg_left hc (mul_nonneg h0 h0)
  have t2 : alpha * beta * (2 * (a1 * c1 + a2 * c2)) ≤ alpha * beta * (p * Q + q * P) :=
    mul_le_mul_of_nonneg_left huv hab
  have key : (alpha * a1 + beta * c1) * (alpha * a1 + beta * c1) +
      (alpha * a2 + beta * c2) * (alpha * a2 + beta * c2) =
      alpha * alpha * (a1 * a1 + a2 * a2) + alpha * beta * (2 * (a1 * c1 + a2 * c2)) +
        beta * beta * (c1 * c1 + c2 * c2) := by ring
  have key2 : (alpha * p + beta * P) * (alpha * q + beta * Q) =
      alpha * alpha * (p * q) + alpha * beta * (p * Q + q * P) + beta * beta * (P * Q) := by
    ring
  rw [key, key2, hcc]
  linarith

/-- One averaging step on one bin keeps `0 ≤ Gxx`, `0 ≤ Gyy` and `|Gxy|^2 ≤ Gxx * Gyy`
when the coefficient lies in `[0, 1]`. -/
theorem averageBin_coherent (alpha : K) (x y : Cplx K) (gxx gyy : K) (gxy : Cplx K)
    (h0 : 0 ≤ alpha) (h1 : alpha ≤ 1) (hx : 0 ≤ gxx) (hy : 0 ≤ gyy)
    (hc : Cplx.norm gxy ≤ gxx * gyy) :
    0 ≤ (averageBin alpha x y gxx gyy gxy).gxx ∧ 0 ≤ (averageBin alpha x y gxx gyy gxy).gyy ∧
    Cplx.norm (averageBin alpha x y gxx gyy gxy).gxy ≤
      (averageBin alpha x y gxx gyy gxy).gxx * (averageBin alpha x y gxx gyy gxy).gyy := by
  have hb : 0 ≤ 1 - alpha := by linarith
  have hP : 0 ≤ Cplx.norm x := norm_nonneg x
  have hQ : 0 ≤ Cplx.norm y := norm_nonneg y
  have hcc : (y.re * x.re - y.im * -x.im) * (y.re * x.re - y.im * -x.im) +
      (y.re * -x.im + y.im * x.re) * (y.re * -x.im + y.im * x.re) =
      Cplx.norm x * Cplx.norm y := by
    unfold Cplx.norm
    ring
  refine ⟨?_, ?_, ?_⟩
  · show 0 ≤ alpha * gxx + (1 - alpha) * Cplx.norm x
    positivity
  · show 0 ≤ alpha * gyy + (1 - alpha) * Cplx.norm y
    positivity
  · exact cross_power_step alpha (1 - alpha) gxy.re gxy.im _ _ gxx gyy _ _ h0 hb hx hy hP hQ
      hc hcc

theorem averageBin_g2 (alpha : K) (x y : Cplx K) (gxx gyy : K) (gxy : Cplx K) :
    (averageBin alpha x y gxx gyy gxy).g2 =
      Cplx.norm (averageBin alpha x y gxx gyy gxy).gxy /
        ((averageBin alpha x y gxx gyy gxy).gxx * (averageBin alpha x y gxx gyy gxy).gyy +
          eps) := rfl

theorem coherence_unit_interval (gxx gyy : K) (gxy : Cplx K) (hx : 0 ≤ gxx) (hy : 0 ≤ gyy)
    (hc : Cplx.norm gxy ≤ gxx * gyy) :
    0 ≤ Cplx.norm gxy / (gxx * gyy + eps) ∧ Cplx.norm gxy / (gxx * gyy + eps) ≤ 1 := by
  have hd : 0 < gxx * gyy + eps := add_pos_of_nonneg_of_pos (mul_nonneg hx hy) eps_pos
  refine ⟨div_nonneg (norm_nonneg _) hd.le, ?_⟩
  rw [div_le_one hd]
  linarith [eps_pos (K := K)]

theorem averagesCoherent_updateAverages (s : TFState K) (n : Nat) (hs : Sized s n)
    (h0 : 0 ≤ s.averagingAlpha) (h1 : s.averagingAlpha ≤ 1) (hc : AveragesCoherent s) :
    AveragesCoherent (updateAverages s) := by
  intro k
  obtain ⟨sX, _, sxx, syy, sxy, _, _, _, sg, _⟩ := hs
  obtain ⟨c1, c2, c3, c4⟩ := hc k
  by_cases hk : k < n
  · have e1 : (updateAverages s).Gxx.getD k 0 = (averagedBin s k).gxx :=
      getD_writeBins _ _ _ k 0 (hk.trans_eq sX.symm) (hk.trans_eq sxx.symm)
    have e2 : (updateAverages s).Gyy.getD k 0 = (averagedBin s k).gyy :=
      getD_writeBins _ _ _ k 0 (hk.trans_eq sX.symm) (hk.trans_eq syy.symm)
    have e3 : (updateAverages s).Gxy.getD k Cplx.zero = (averagedBin s k).gxy :=
      getD_writeBins _ _ _ k _ (hk.trans_eq sX.symm) (hk.trans_eq sxy.symm)
    have e4 : (updateAverages s).gamma2.getD k 0 = (averagedBin s k).g2 :=
      getD_writeBins _ _ _ k 0 (hk.trans_eq sX.symm) (hk.trans_eq sg.symm)
    rw [e1, e2, e3, e4]
    obtain ⟨r1, r2, r3⟩ := averageBin_coherent s.averagingAlpha (s.X.getD k Cplx.zero)
      (s.Y.getD k Cplx.zero) _ _ _ h0 h1 c1 c2 c3
    exact ⟨r1, r2, r3, rfl⟩
  · have hge : s.X.length ≤ k := by
      rw [sX]
      exact Nat.le_of_not_lt hk
    have e1 : (updateAverages s).Gxx.getD k 0 = s.Gxx.getD k 0 :=
      getD_writeBins_ge s.X.length (fun k => (averagedBin s k).gxx) s.Gxx k 0 hge
    have e2 : (updateAverages s).Gyy.getD k 0 = s.Gyy.getD k 0 :=
      getD_writeBins_ge s.X.length (fun k => (averagedBin s k).gyy) s.Gyy k 0 hge
    have e3 : (updateAverages s).Gxy.getD k Cplx.zero = s.Gxy.getD k Cplx.zero :=
      getD_writeBins_ge s.X.length (fun k => (averagedBin s k).gxy) s.Gxy k _ hge
    have e4 : (updateAverages s).gamma2.getD k 0 = s.gamma2.getD k 0 :=
      getD_writeBins_ge s.X.length (fun k => (averagedBin s k).g2) s.gamma2 k 0 hge
    rw [e1, e2, e3, e4]
    exact ⟨c1, c2, c3, c4⟩

theorem averagesCoherent_of_same (s t : TFState K) (h : SameAverages s t)
    (hc : AveragesCoherent s) : AveragesCoherent t := by
  obtain ⟨a1, a2, a3, _, a5⟩ := h
  intro k
  rw [a1, a2, a3, a5]
  exact hc k

theorem averagesCoherent_averagingStep (M : Libm K) (s : TFState K) (n : Nat) (hs : Sized s n)
    (ha : 0 ≤ (if s.frameCount ≤ fastAveragingFrames then M.exp (-s.frameDt / (3 / 10))
        else s.averagingAlpha) ∧
      (if s.frameCount ≤ fastAveragingFrames then M.exp (-s.frameDt / (3 / 10))
        else s.averagingAlpha) ≤ 1)
    (hc : AveragesCoherent s) : AveragesCoherent (averagingStep M s) := by
  unfold averagingStep
  split_ifs with hfc
  · rw [if_pos hfc] at ha
    have h := averagesCoherent_updateAverages
      { s with averagingAlpha := M.exp (-s.frameDt / (3 / 10)) } n (by simpa [Sized] using hs)
      ha.1 ha.2 (fun k => hc k)
    exact averagesCoherent_of_same _ _ (by simp [SameAverages]) h
  · rw [if_neg hfc] at ha
    exact averagesCoherent_updateAverages s n hs ha.1 ha.2 hc

theorem sized_acceptSpectra (s : TFState K) (Xs Ys : List (Cplx K)) (n : Nat) (hs : Sized s n) :
    Sized (acceptSpectra s Xs Ys) n := by
  simpa [Sized, acceptSpectra, copySpectrum, length_writeBins] using hs

theorem averagesCoherent_processSpectra (M : Libm K) (J : Collab K) (s : TFState K)
    (Xs Ys : List (Cplx K)) (n : Nat) (hs : Sized s n)
    (ha : 0 ≤ frameAlpha M s ∧ frameAlpha M s ≤ 1) (hc : AveragesCoherent s) :
    AveragesCoherent (processSpectra M J s Xs Ys) := by
  unfold processSpectra
  refine averagesCoherent_of_same _ _ (sameAverages_processFrame M J _) ?_
  exact averagesCoherent_averagingStep M _ n
    (by simpa [Sized] using sized_acceptSpectra s Xs Ys n hs) ha (fun k => hc k)

theorem sized_processSpectra (M : Libm K) (J : Collab K) (s : TFState K)
    (Xs Ys : List (Cplx K)) (n : Nat) (hs : Sized s n) :
    Sized (processSpectra M J s Xs Ys) n :=
  sized_processFrame M J _ n (sized_acceptSpectra s Xs Ys n hs)

theorem sameConfig_processSpectra (M : Libm K) (J : Collab K) (s : TFState K)
    (Xs Ys : List (Cplx K)) :
    (processSpectra M J s Xs Ys).frameDt = s.frameDt ∧
    (processSpectra M J s Xs Ys).averagingAlpha = s.averagingAlpha ∧
    (processSpectra M J s Xs Ys).phatFFT = s.phatFFT ∧
    (processSpectra M J s Xs Ys).sampleRate = s.sampleRate ∧
    (processSpectra M J s Xs Ys).fftSize = s.fftSize := by
  obtain ⟨_, _, h3, _, _, h6, h7, h8, _, _, _, h12, _⟩ :=
    sameConfig_processFrame M J (acceptSpectra s Xs Ys)
  exact ⟨h7, h8, h12, h6, h3⟩

theorem averagesCoherent_runSpectra (M : Libm K) (J : Collab K) (n : Nat)
    (frames : List (List (Cplx K) × List (Cplx K))) :
    ∀ s : TFState K, Sized s n → AlphasInUnit M J s frames → AveragesCoherent s →
      AveragesCoherent (runSpectra M J s frames) := by
  induction frames with
  | nil => intro s _ _ hc; exact hc
  | cons f fs ih =>
    intro s hs ha hc
    exact ih (processSpectra M J s f.1 f.2) (sized_processSpectra M J s _ _ n hs) ha.2
      (averagesCoherent_processSpectra M J s _ _ n hs ha.1 hc)

theorem averagesCoherent_reset (s : TFState K) : AveragesCoherent (reset s) := by
  intro k
  have z1 : ∀ (l : List K), (fill l (0 : K)).getD k 0 = 0 := by
    intro l
    rw [fill_eq_replicate, List.getD_eq_getElem?_getD, List.getElem?_replicate]
    split_ifs <;> rfl
  have z2 : ∀ (l : List (Cplx K)), (fill l (Cplx.zero : Cplx K)).getD k Cplx.zero = Cplx.zero := by
    intro l
    rw [fill_eq_replicate, List.getD_eq_getElem?_getD, List.getElem?_replicate]
    split_ifs <;> rfl
  have e1 : (reset s).Gxx.getD k 0 = 0 := z1 _
  have e2 : (reset s).Gyy.getD k 0 = 0 := z1 _
  have e3 : (reset s).Gxy.getD k Cplx.zero = Cplx.zero := z2 _
  have e4 : (reset s).gamma2.getD k 0 = 0 := z1 _
  rw [e1, e2, e3, e4]
  simp [Cplx.norm, Cplx.zero]

end CoherenceInvariant

section CoherenceClaim

variable {K : Type} [LinearOrderedField K] [FloorRing K]

theorem averagesCoherent_prepare (M : Libm K) (J : Collab K) (s : TFState K) (n : Int)
    (fs : K) : AveragesCoherent (prepare M J s n fs) := by
  intro k
  exact averagesCoherent_reset _ k

/-- C2 (amended): in exact arithmetic, for every run of frames processed from the state
left by `reset` or `prepare`, in which each frame is averaged with a coefficient in `[0, 1]`,
every bin keeps `Gxx ≥ 0`, `Gyy ≥ 0` and `|Gxy|^2 ≤ Gxx * Gyy`, and the stored coherence
`gamma2 = |Gxy|^2 / (Gxx * Gyy + eps)` lies in `[0, 1]` without any clamp. -/
theorem stored_coherence_in_unit_interval (M : Libm K) (J : Collab K) (s s0 : TFState K)
    (nreq : Int) (fs : K) (n : Nat) (frames : List (List (Cplx K) × List (Cplx K))) (k : Nat)
    (hstart : s0 = reset s ∨ s0 = prepare M J s nreq fs) (hsz : Sized s0 n)
    (ha : AlphasInUnit M J s0 frames) :
    0 ≤ (runSpectra M J s0 frames).Gxx.getD k 0 ∧
    0 ≤ (runSpectra M J s0 frames).Gyy.getD k 0 ∧
    Cplx.norm ((runSpectra M J s0 frames).Gxy.getD k Cplx.zero) ≤
      (runSpectra M J s0 frames).Gxx.getD k 0 * (runSpectra M J s0 frames).Gyy.getD k 0 ∧
    (runSpectra M J s0 frames).gamma2.getD k 0 =
      Cplx.norm ((runSpectra M J s0 frames).Gxy.getD k Cplx.zero) /
        ((runSpectra M J s0 frames).Gxx.getD k 0 * (runSpectra M J s0 frames).Gyy.getD k 0 +
          eps) ∧
    0 ≤ (runSpectra M J s0 frames).gamma2.getD k 0 ∧
    (runSpectra M J s0 frames).gamma2.getD k 0 ≤ 1 := by
  have h0 : AveragesCoherent s0 := by
    rcases hstart with h | h
    · rw [h]
      exact averagesCoherent_reset s
    · rw [h]
      exact averagesCoherent_prepare M J s nreq fs
  obtain ⟨c1, c2, c3, c4⟩ := averagesCoherent_runSpectra M J n frames s0 hsz ha h0 k
  obtain ⟨u1, u2⟩ := coherence_unit_interval _ _ _ c1 c2 c3
  exact ⟨c1, c2, c3, c4, c4 ▸ u1, c4 ▸ u2⟩

end CoherenceClaim

section CoherenceWitness

theorem preparedFour_frameDt : preparedFour.frameDt = 1 / 48000 := by
  show ((truncToInt (((4 : Int) : ℝ) * (1 - overlap)) : Int) : ℝ) / 48000 = 1 / 48000
  have h : truncToInt (((4 : Int) : ℝ) * (1 - overlap)) = 1 := by
    simp only [truncToInt, overlap]
    norm_num
  rw [h]
  norm_num

theorem preparedFour_alpha :
    0 ≤ frameAlpha realLibm preparedFour ∧ frameAlpha realLibm preparedFour ≤ 1 := by
  have hfc : preparedFour.frameCount = 0 := rfl
  have e : frameAlpha realLibm preparedFour = Real.exp (-preparedFour.frameDt / (3 / 10)) := by
    unfold frameAlpha
    rw [hfc, if_pos (by decide)]
    rfl
  rw [e, preparedFour_frameDt]
  exact ⟨(Real.exp_pos _).le, Real.exp_le_one_iff.mpr (by norm_num)⟩

theorem stored_coherence_in_unit_interval_witness :
    AlphasInUnit realLibm exactCollab preparedFour
      [([⟨1, 0⟩, ⟨0, 1⟩, ⟨1, 1⟩], [⟨0, 1⟩, ⟨1, 0⟩, ⟨2, 0⟩])] ∧
    0 ≤ (runSpectra realLibm exactCollab preparedFour
      [([⟨1, 0⟩, ⟨0, 1⟩, ⟨1, 1⟩], [⟨0, 1⟩, ⟨1, 0⟩, ⟨2, 0⟩])]).gamma2.getD 2 0 ∧
    (runSpectra realLibm exactCollab preparedFour
      [([⟨1, 0⟩, ⟨0, 1⟩, ⟨1, 1⟩], [⟨0, 1⟩, ⟨1, 0⟩, ⟨2, 0⟩])]).gamma2.getD 2 0 ≤ 1 :=
  have ha : AlphasInUnit realLibm exactCollab preparedFour
      [([⟨1, 0⟩, ⟨0, 1⟩, ⟨1, 1⟩], [⟨0, 1⟩, ⟨1, 0⟩, ⟨2, 0⟩])] := ⟨preparedFour_alpha, trivial⟩
  have h := stored_coherence_in_unit_interval realLibm exactCollab initial preparedFour 4 48000 3
    [([⟨1, 0⟩, ⟨0, 1⟩, ⟨1, 1⟩], [⟨0, 1⟩, ⟨1, 0⟩, ⟨2, 0⟩])] 2 (Or.inr rfl) preparedFour_sized ha
  ⟨ha, h.2.2.2.2.1, h.2.2.2.2.2⟩

end CoherenceWitness

section SelfMeasurement

variable {K : Type} [LinearOrderedField K] [FloorRing K]

theorem averageBin_self (alpha : K) (x : Cplx K) (g : K) :
    (averageBin alpha x x g g ⟨g, 0⟩).gyy = (averageBin alpha x x g g ⟨g, 0⟩).gxx ∧
    (averageBin alpha x x g g ⟨g, 0⟩).gxy = ⟨(averageBin alpha x x g g ⟨g, 0⟩).gxx, 0⟩ ∧
    (averageBin alpha x x g g ⟨g, 0⟩).h =
      ⟨(averageBin alpha x x g g ⟨g, 0⟩).gxx / ((averageBin alpha x x g g ⟨g, 0⟩).gxx + eps),
        0⟩ ∧
    (averageBin alpha x x g g ⟨g, 0⟩).g2 =
      (averageBin alpha x x g g ⟨g, 0⟩).gxx ^ 2 /
        ((averageBin alpha x x g g ⟨g, 0⟩).gxx ^ 2 + eps) := by
  have e : (averageBin alpha x x g g ⟨g, 0⟩).gxy =
      ⟨(averageBin alpha x x g g ⟨g, 0⟩).gxx, 0⟩ := by
    simp only [averageBin, Cplx.add, Cplx.smul, Cplx.mul, Cplx.conj, Cplx.norm]
    ext
    · show alpha * g + (1 - alpha) * (x.re * x.re - x.im * -x.im) =
        alpha * g + (1 - alpha) * (x.re * x.re + x.im * x.im)
      ring
    · show alpha * 0 + (1 - alpha) * (x.re * -x.im + x.im * x.re) = 0
      ring
  have hh : (averageBin alpha x x g g ⟨g, 0⟩).h =
      Cplx.divR (averageBin alpha x x g g ⟨g, 0⟩).gxy
        ((averageBin alpha x x g g ⟨g, 0⟩).gxx + eps) := rfl
  have hg : (averageBin alpha x x g g ⟨g, 0⟩).g2 =
      Cplx.norm (averageBin alpha x x g g ⟨g, 0⟩).gxy /
        ((averageBin alpha x x g g ⟨g, 0⟩).gxx * (averageBin alpha x x g g ⟨g, 0⟩).gxx +
          eps) := rfl
  refine ⟨rfl, e, ?_, ?_⟩
  · rw [hh, e]
    simp [Cplx.divR]
  · rw [hg, e]
    simp [Cplx.norm, pow_two]

theorem selfAveraged_updateAverages (s : TFState K) (n : Nat) (hs : Sized s n)
    (hxy : ∀ k, k < n → s.Y.getD k Cplx.zero = s.X.getD k Cplx.zero)
    (h0 : 0 ≤ s.averagingAlpha) (h1 : s.averagingAlpha ≤ 1) (hc : SelfAveraged s) :
    SelfAveraged (updateAverages s) := by
  intro k
  obtain ⟨sX, _, sxx, syy, sxy, sH, _, _, sg, _⟩ := hs
  obtain ⟨c1, c2, c3, c4, c5⟩ := hc k
  by_cases hk : k < n
  · have e1 : (updateAverages s).Gxx.getD k 0 = (averagedBin s k).gxx :=
      getD_writeBins s.X.length (fun k => (averagedBin s k).gxx) s.Gxx k 0
        (hk.trans_eq sX.symm) (hk.trans_eq sxx.symm)
    have e2 : (updateAverages s).Gyy.getD k 0 = (averagedBin s k).gyy :=
      getD_writeBins s.X.length (fun k => (averagedBin s k).gyy) s.Gyy k 0
        (hk.trans_eq sX.symm) (hk.trans_eq syy.symm)
    have e3 : (updateAverages s).Gxy.getD k Cplx.zero = (averagedBin s k).gxy :=
      getD_writeBins s.X.length (fun k => (averagedBin s k).gxy) s.Gxy k _
        (hk.trans_eq sX.symm) (hk.trans_eq sxy.symm)
    have e4 : (updateAverages s).H.getD k Cplx.zero = (averagedBin s k).h :=
      getD_writeBins s.X.length (fun k => (averagedBin s k).h) s.H k _
        (hk.trans_eq sX.symm) (hk.trans_eq sH.symm)
    have e5 : (updateAverages s).gamma2.getD k 0 = (averagedBin s k).g2 :=
      getD_writeBins s.X.length (fun k => (averagedBin s k).g2) s.gamma2 k 0
        (hk.trans_eq sX.symm) (hk.trans_eq sg.symm)
    rw [e1, e2, e3, e4, e5]
    unfold averagedBin
    rw [hxy k hk, c2, c3]
    obtain ⟨r1, r2, r3, r4⟩ := averageBin_self s.averagingAlpha (s.X.getD k Cplx.zero)
      (s.Gxx.getD k 0)
    refine ⟨?_, r1, r2, r3, r4⟩
    exact (averageBin_coherent s.averagingAlpha (s.X.getD k Cplx.zero) (s.X.getD k Cplx.zero)
      _ _ ⟨s.Gxx.getD k 0, 0⟩ h0 h1 c1 c1
      (by simp only [Cplx.norm]; nlinarith [c1])).1
  · have hge : s.X.length ≤ k := by
      rw [sX]
      exact Nat.le_of_not_lt hk
    have e1 : (updateAverages s).Gxx.getD k 0 = s.Gxx.getD k 0 :=
      getD_writeBins_ge s.X.length (fun k => (averagedBin s k).gxx) s.Gxx k 0 hge
    have e2 : (updateAverages s).Gyy.getD k 0 = s.Gyy.getD k 0 :=
      getD_writeBins_ge s.X.length (fun k => (averagedBin s k).gyy) s.Gyy k 0 hge
    have e3 : (updateAverages s).Gxy.getD k Cplx.zero = s.Gxy.getD k Cplx.zero :=
      getD_writeBins_ge s.X.length (fun k => (averagedBin s k).gxy) s.Gxy k _ hge
    have e4 : (updateAverages s).H.getD k Cplx.zero = s.H.getD k Cplx.zero :=
      getD_writeBins_ge s.X.length (fun k => (averagedBin s k).h) s.H k _ hge
    have e5 : (updateAverages s).gamma2.getD k 0 = s.gamma2.getD k 0 :=
      getD_writeBins_ge s.X.length (fun k => (averagedBin s k).g2) s.gamma2 k 0 hge
    rw [e1, e2, e3, e4, e5]
    exact ⟨c1, c2, c3, c4, c5⟩

theorem selfAveraged_of_same (s t : TFState K) (h : SameAverages s t) (hc : SelfAveraged s) :
    SelfAveraged t := by
  obtain ⟨a1, a2, a3, a4, a5⟩ := h
  intro k
  rw [a1, a2, a3, a4, a5]
  exact hc k

theorem selfAveraged_averagingStep (M : Libm K) (s : TFState K) (n : Nat) (hs : Sized s n)
    (hxy : ∀ k, k < n → s.Y.getD k Cplx.zero = s.X.getD k Cplx.zero)
    (ha : 0 ≤ (if s.frameCount ≤ fastAveragingFrames then M.exp (-s.frameDt / (3 / 10))
        else s.averagingAlpha) ∧
      (if s.frameCount ≤ fastAveragingFrames then M.exp (-s.frameDt / (3 / 10))
        else s.averagingAlpha) ≤ 1)
    (hc : SelfAveraged s) : SelfAveraged (averagingStep M s) := by
  unfold averagingStep
  split_ifs with hfc
  · rw [if_pos hfc] at ha
    have h := selfAveraged_updateAverages
      { s with averagingAlpha := M.exp (-s.frameDt / (3 / 10)) } n (by simpa [Sized] using hs)
      hxy ha.1 ha.2 (fun k => hc k)
    exact selfAveraged_of_same _ _ (by simp [SameAverages]) h
  · rw [if_neg hfc] at ha
    exact selfAveraged_updateAverages s n hs hxy ha.1 ha.2 hc

theorem acceptSpectra_same (s : TFState K) (Xs : List (Cplx K)) (n : Nat) (hs : Sized s n)
    (hl : Xs.length = n) (k : Nat) (hk : k < n) :
    (acceptSpectra s Xs Xs).Y.getD k Cplx.zero = (acceptSpectra s Xs Xs).X.getD k Cplx.zero := by
  obtain ⟨sX, sY, _⟩ := hs
  have hm : min s.X.length (min Xs.length Xs.length) = n := by
    rw [sX, hl]
    simp
  have e1 : (acceptSpectra s Xs Xs).X.getD k Cplx.zero = Xs.getD k Cplx.zero :=
    getD_writeBins (min s.X.length (min Xs.length Xs.length)) (fun i => Xs.getD i Cplx.zero) s.X
      k _ (hk.trans_eq hm.symm) (hk.trans_eq sX.symm)
  have e2 : (acceptSpectra s Xs Xs).Y.getD k Cplx.zero = Xs.getD k Cplx.zero :=
    getD_writeBins (min s.X.length (min Xs.length Xs.length)) (fun i => Xs.getD i Cplx.zero) s.Y
      k _ (hk.trans_eq hm.symm) (hk.trans_eq sY.symm)
  rw [e1, e2]

theorem selfAveraged_processSpectra (M : Libm K) (J : Collab K) (s : TFState K)
    (Xs : List (Cplx K)) (n : Nat) (hs : Sized s n) (hl : Xs.length = n)
    (ha : 0 ≤ frameAlpha M s ∧ frameAlpha M s ≤ 1) (hc : SelfAveraged s) :
    SelfAveraged (processSpectra M J s Xs Xs) := by
  unfold processSpectra
  refine selfAveraged_of_same _ _ (sameAverages_processFrame M J _) ?_
  exact selfAveraged_averagingStep M _ n
    (by simpa [Sized] using sized_acceptSpectra s Xs Xs n hs)
    (acceptSpectra_same s Xs n hs hl) ha (fun k => hc k)

theorem selfAveraged_runSpectra (M : Libm K) (J : Collab K) (n : Nat)
    (frames : List (List (Cplx K))) :
    ∀ s : TFState K, Sized s n → (∀ Xs ∈ frames, Xs.length = n) →
      AlphasInUnit M J s (frames.map (fun Xs => (Xs, Xs))) → SelfAveraged s →
      SelfAveraged (runSpectra M J s (frames.map (fun Xs => (Xs, Xs)))) := by
  induction frames with
  | nil => intro s _ _ _ hc; exact hc
  | cons f fs ih =>
    intro s hs hl ha hc
    exact ih (processSpectra M J s f f) (sized_processSpectra M J s _ _ n hs)
      (fun Xs hX => hl Xs (List.mem_cons_of_mem _ hX)) ha.2
      (selfAveraged_processSpectra M J s f n hs (hl f (List.mem_cons_self _ _)) ha.1 hc)

theorem selfAveraged_reset (s : TFState K) : SelfAveraged (reset s) := by
  intro k
  have z1 : ∀ (l : List K), (fill l (0 : K)).getD k 0 = 0 := by
    intro l
    rw [fill_eq_replicate, List.getD_eq_getElem?_getD, List.getElem?_replicate]
    split_ifs <;> rfl
  have z2 : ∀ (l : List (Cplx K)), (fill l (Cplx.zero : Cplx K)).getD k Cplx.zero = Cplx.zero := by
    intro l
    rw [fill_eq_replicate, List.getD_eq_getElem?_getD, List.getElem?_replicate]
    split_ifs <;> rfl
  have e1 : (reset s).Gxx.getD k 0 = 0 := z1 _
  have e2 : (reset s).Gyy.getD k 0 = 0 := z1 _
  have e3 : (reset s).Gxy.getD k Cplx.zero = Cplx.zero := z2 _
  have e4 : (reset s).H.getD k Cplx.zero = Cplx.zero := z2 _
  have e5 : (reset s).gamma2.getD k 0 = 0 := z1 _
  rw [e1, e2, e3, e4, e5]
  simp [Cplx.zero]

end SelfMeasurement

section SelfMeasurementClaim

theorem tendsto_ratio_one :
    Filter.Tendsto (fun x : ℝ => x / (x + eps)) Filter.atTop (nhds 1) := by
  have h1 : Filter.Tendsto (fun x : ℝ => 1 - eps / (x + eps)) Filter.atTop (nhds (1 - 0)) :=
    tendsto_const_nhds.sub
      (tendsto_const_nhds.div_atTop
        (Filter.tendsto_atTop_add_const_right Filter.atTop eps Filter.tendsto_id))
  rw [sub_zero] at h1
  refine h1.congr' ?_
  filter_upwards [Filter.eventually_gt_atTop (0 : ℝ)] with x hx
  have hne : x + eps ≠ 0 := (add_pos hx eps_pos).ne'
  field_simp

theorem tendsto_square_ratio_one :
    Filter.Tendsto (fun x : ℝ => x ^ 2 / (x ^ 2 + eps)) Filter.atTop (nhds 1) :=
  tendsto_ratio_one.comp (Filter.tendsto_pow_atTop (by norm_num))

theorem carg_real_nonneg (h : ℝ) (hh : 0 ≤ h) : carg realLibm ⟨h, 0⟩ = 0 := by
  show Complex.arg ⟨h, 0⟩ = 0
  exact Complex.arg_ofReal_of_nonneg hh

theorem cabs_real_nonneg (h : ℝ) (hh : 0 ≤ h) : cabs realLibm ⟨h, 0⟩ = h := by
  show Real.sqrt (h * h + 0 * 0) = h
  rw [mul_zero, add_zero]
  exact Real.sqrt_mul_self hh

end SelfMeasurementClaim

section DelayCoreLink

variable {K : Type} [LinearOrderedField K] [FloorRing K]

theorem delayCore_smoothAndLock (s : TFState K) (d : K) :
    delayCore (smoothAndLock s d) = coreUpdate (delayCore s) d := by
  simp only [smoothAndLock, coreUpdate, delayCore]
  split_ifs <;> rfl

theorem gccPhat_congr (M : Libm K) (J : Collab K) (s t : TFState K) (h1 : t.X = s.X)
    (h2 : t.Y = s.Y) (h3 : t.fftSize = s.fftSize) (h4 : t.sampleRate = s.sampleRate)
    (h5 : t.phatFftBuffer = s.phatFftBuffer) (h6 : t.phatTime = s.phatTime) :
    gccPhat M J t = gccPhat M J s := by
  simp only [gccPhat, phatSpectrum, h1, h2, h3, h4, h5, h6]

end DelayCoreLink

section DelayFrame

variable {K : Type} [LinearOrderedField K] [FloorRing K]

theorem sameDelay_trans {s t u : TFState K} (h1 : SameDelay s t) (h2 : SameDelay t u) :
    SameDelay s u := by
  obtain ⟨a1, a2, a3, a4⟩ := h1
  obtain ⟨b1, b2, b3, b4⟩ := h2
  exact ⟨b1.trans a1, b2.trans a2, b3.trans a3, b4.trans a4⟩

theorem sameDelay_averagingStep (M : Libm K) (s : TFState K) :
    SameDelay s (averagingStep M s) := by
  unfold averagingStep
  split_ifs <;> simp [SameDelay, delayCore, updateAverages]

theorem sameDelay_applySmoothing (M : Libm K) (s : TFState K) :
    SameDelay s (applySmoothing M s) := by
  simp only [applySmoothing]
  split_ifs <;> simp [SameDelay, delayCore]

theorem sameDelay_unwrapPhase (M : Libm K) (s : TFState K) :
    SameDelay s (unwrapPhase M s) := by
  simp only [unwrapPhase]
  split_ifs <;> simp [SameDelay, delayCore]

theorem sameDelay_extractMagnitudeAndPhase (M : Libm K) (s : TFState K) :
    SameDelay s (extractMagnitudeAndPhase M s) := by
  simp [SameDelay, delayCore, extractMagnitudeAndPhase]

theorem sameDelay_publish (s : TFState K) : SameDelay s (publish s) := by
  simp [SameDelay, delayCore, publish]

/-- Steps 4 to 7 of `processFrame` leave the delay estimator as step 3 left it. -/
theorem sameDelay_after_compensation (M : Libm K) (J : Collab K) (s : TFState K) :
    SameDelay
      (compensationStep M (delayStep M J (averagingStep M { s with frameCount := s.frameCount + 1 })))
      (processFrame M J s) := by
  simp only [processFrame]
  refine sameDelay_trans ?_ (sameDelay_publish _)
  refine sameDelay_trans ?_ (sameDelay_extractMagnitudeAndPhase M _)
  refine sameDelay_trans ?_ (sameDelay_unwrapPhase M _)
  exact sameDelay_applySmoothing M _

theorem delayCore_compensationStep (M : Libm K) (s : TFState K)
    (h : |s.estimatedDelay| ≤ 1 / 10) :
    delayCore (compensationStep M s) = delayCore s := by
  have hn : ¬ (|s.estimatedDelay| > 1 / 10) := not_lt.mpr h
  have hd : decide (|s.estimatedDelay| > 1 / 10) = false := decide_eq_false hn
  unfold compensationStep
  split_ifs
  · simp only [applyDelayCompensation, hd, Bool.false_eq_true, if_false]
    rfl
  · rfl

theorem delayStep_due (M : Libm K) (J : Collab K) (s : TFState K)
    (h : s.delayUpdateCounter + 1 ≥ (if s.delayLocked = true then 20 else 2)) :
    delayStep M J s = estimateDelay M J { s with delayUpdateCounter := 0 } := by
  simp only [delayStep]
  rw [if_pos h]

theorem delayStep_not_due (M : Libm K) (J : Collab K) (s : TFState K)
    (h : ¬ s.delayUpdateCounter + 1 ≥ (if s.delayLocked = true then 20 else 2)) :
    delayStep M J s = { s with delayUpdateCounter := s.delayUpdateCounter + 1 } := by
  simp only [delayStep]
  rw [if_neg h]

theorem estimateDelay_fast (M : Libm K) (J : Collab K) (s : TFState K) (hf : s.phatFFT = true) :
    estimateDelay M J s =
      smoothAndLock { s with phatFftBuffer := (gccPhat M J s).1, phatTime := (gccPhat M J s).2.1 }
        (gccPhat M J s).2.2 := by
  simp only [estimateDelay, hf, Bool.true_eq_false, if_false]

theorem delayCore_delayStep_fast (M : Libm K) (J : Collab K) (s : TFState K)
    (hf : s.phatFFT = true) :
    delayCore (delayStep M J s) = coreFrame (delayCore s) (rawDelay M J s) := by
  by_cases h : s.delayUpdateCounter + 1 ≥ (if s.delayLocked = true then 20 else 2)
  · have e2 : gccPhat M J { s with delayUpdateCounter := 0 } = gccPhat M J s :=
      gccPhat_congr M J s _ rfl rfl rfl rfl rfl rfl
    have e3 : coreFrame (delayCore s) (rawDelay M J s) =
        coreUpdate ⟨s.estimatedDelay, s.lastDelaySec, s.stableDelayCount, s.delayLocked, 0⟩
          (rawDelay M J s) := by
      unfold coreFrame
      exact if_pos h
    rw [delayStep_due M J s h, estimateDelay_fast M J { s with delayUpdateCounter := 0 } hf,
      delayCore_smoothAndLock, e2, e3]
    rfl
  · have e3 : coreFrame (delayCore s) (rawDelay M J s) =
        ⟨s.estimatedDelay, s.lastDelaySec, s.stableDelayCount, s.delayLocked,
          s.delayUpdateCounter + 1⟩ := by
      unfold coreFrame
      exact if_neg h
    rw [delayStep_not_due M J s h, e3]
    rfl

theorem coreUpdate_est_bound (c : DelayCore K) (d : K) : |(coreUpdate c d).est| ≤ 1 / 20 := by
  unfold coreUpdate
  split_ifs
  all_goals
    rw [abs_le]
    exact jlimit_mem _ _ _ (by norm_num)

theorem coreFrame_est_bound (c : DelayCore K) (d : K) (h : |c.est| ≤ 1 / 20) :
    |(coreFrame c d).est| ≤ 1 / 20 := by
  unfold coreFrame
  split_ifs
  all_goals
    first
    | exact coreUpdate_est_bound _ _
    | exact h

/-- One processed frame on the fast path acts on the delay-estimator fields as `coreFrame`
with the raw delay measured on the spectra of the frame. -/
theorem delayCore_processSpectra (M : Libm K) (J : Collab K) (s : TFState K)
    (Xs Ys : List (Cplx K)) (hf : s.phatFFT = true) (hb : |s.estimatedDelay| ≤ 1 / 20) :
    delayCore (processSpectra M J s Xs Ys) =
      coreFrame (delayCore s) (rawDelay M J (acceptSpectra s Xs Ys)) := by
  unfold processSpectra
  obtain ⟨p1, _⟩ := sameDelay_after_compensation M J (acceptSpectra s Xs Ys)
  obtain ⟨q1, _, q3, q4⟩ := sameDelay_averagingStep M
    { acceptSpectra s Xs Ys with frameCount := (acceptSpectra s Xs Ys).frameCount + 1 }
  obtain ⟨_, _, r3, _, _, r6, _, _, _, _, _, r12, r13, r14⟩ := sameConfig_averagingStep M
    { acceptSpectra s Xs Ys with frameCount := (acceptSpectra s Xs Ys).frameCount + 1 }
  have hfast := delayCore_delayStep_fast M J _ (r12.trans hf)
  have hraw : rawDelay M J (averagingStep M
      { acceptSpectra s Xs Ys with frameCount := (acceptSpectra s Xs Ys).frameCount + 1 }) =
      rawDelay M J (acceptSpectra s Xs Ys) := by
    unfold rawDelay
    rw [gccPhat_congr M J (acceptSpectra s Xs Ys) _ r13 r14 r3 r6 q3 q4]
  rw [q1, hraw] at hfast
  have hcore : delayCore
      { acceptSpectra s Xs Ys with frameCount := (acceptSpectra s Xs Ys).frameCount + 1 } =
      delayCore s := rfl
  rw [hcore] at hfast
  have hbound : |(delayStep M J (averagingStep M
      { acceptSpectra s Xs Ys with
        frameCount := (acceptSpectra s Xs Ys).frameCount + 1 })).estimatedDelay| ≤ 1 / 10 := by
    have h2 := coreFrame_est_bound (delayCore s) (rawDelay M J (acceptSpectra s Xs Ys)) hb
    rw [← hfast] at h2
    exact h2.trans (by norm_num)
  rw [p1, delayCore_compensationStep M _ hbound, hfast]

end DelayFrame

section DelayInvariant

variable {K : Type} [LinearOrderedField K] [FloorRing K]

theorem jlimit_nonexpansive (x d : K) (hd : |d| ≤ 1 / 20) :
    |jlimit (-(1 / 20)) (1 / 20) x - d| ≤ |x - d| := by
  obtain ⟨d1, d2⟩ := abs_le.mp hd
  unfold jlimit
  split_ifs with h1 h2
  · rw [abs_of_nonpos (by linarith), abs_of_nonpos (by linarith)]
    linarith
  · rw [abs_of_nonneg (by linarith), abs_of_nonneg (by linarith)]
    linarith
  · exact le_refl _

theorem coreUpdate_locked (c : DelayCore K) (d : K) (hl : c.locked = true) :
    coreUpdate c d =
      ⟨jlimit (-(1 / 20)) (1 / 20) (9 / 10 * c.est + (1 - 9 / 10) * d), c.last, c.cnt, c.locked,
        c.counter⟩ := by
  unfold coreUpdate
  rw [if_neg (by simp [hl])]

theorem coreUpdate_searching (c : DelayCore K) (d : K) (hl : c.locked = false) :
    coreUpdate c d =
      ⟨jlimit (-(1 / 20)) (1 / 20) (1 / 2 * c.est + (1 - 1 / 2) * d),
        1 / 2 * c.est + (1 - 1 / 2) * d,
        if |1 / 2 * c.est + (1 - 1 / 2) * d - c.last| < delayStabilityThreshold then c.cnt + 1
        else 0,
        if (if |1 / 2 * c.est + (1 - 1 / 2) * d - c.last| < delayStabilityThreshold then
            c.cnt + 1 else 0) ≥ delayStabilityCount then true else c.locked,
        c.counter⟩ := by
  unfold coreUpdate
  rw [if_pos hl]

theorem coreFrame_due (c : DelayCore K) (d : K)
    (h : c.counter + 1 ≥ (if c.locked = true then 20 else 2)) :
    coreFrame c d = coreUpdate ⟨c.est, c.last, c.cnt, c.locked, 0⟩ d := by
  unfold coreFrame
  exact if_pos h

theorem coreFrame_not_due (c : DelayCore K) (d : K)
    (h : ¬ c.counter + 1 ≥ (if c.locked = true then 20 else 2)) :
    coreFrame c d = ⟨c.est, c.last, c.cnt, c.locked, c.counter + 1⟩ := by
  unfold coreFrame
  exact if_neg h

theorem coreInv_locked_step (d : K) (hd : |d| ≤ 1 / 20) (m : Nat) (c : DelayCore K)
    (h : CoreInv d m c) (hl : c.locked = true) :
    CoreInv d (m + 1) (coreFrame c d) ∧ (coreFrame c d).locked = true := by
  obtain ⟨hb, hlk, _⟩ := h
  have herr := hlk hl
  by_cases h1 : c.counter + 1 ≥ (if c.locked = true then 20 else 2)
  · rw [coreFrame_due c d h1, coreUpdate_locked ⟨c.est, c.last, c.cnt, c.locked, 0⟩ d hl]
    refine ⟨⟨?_, ?_, ?_⟩, hl⟩
    · rw [abs_le]
      exact jlimit_mem _ _ _ (by norm_num)
    · intro _
      refine lt_of_le_of_lt (jlimit_nonexpansive _ d hd) ?_
      have e : 9 / 10 * c.est + (1 - 9 / 10) * d - d = 9 / 10 * (c.est - d) := by ring
      rw [e, abs_mul, abs_of_pos (by norm_num : (0 : K) < 9 / 10)]
      nlinarith [abs_nonneg (c.est - d)]
    · intro hf
      exact absurd (hl.symm.trans hf) (by decide)
  · rw [coreFrame_not_due c d h1]
    refine ⟨⟨hb, fun _ => herr, ?_⟩, hl⟩
    intro hf
    exact absurd (hl.symm.trans hf) (by decide)

end DelayInvariant

section DelaySearching

variable {K : Type} [LinearOrderedField K] [FloorRing K]

theorem half_pow_le_one (j : Nat) : ((1 : K) / 2) ^ j ≤ 1 :=
  pow_le_one₀ (by norm_num) (by norm_num)

theorem half_pow_pos (j : Nat) : (0 : K) < (1 / 2) ^ j := by positivity

theorem coreInv_searching_step (d : K) (hd : |d| ≤ 1 / 20) (m : Nat) (c : DelayCore K)
    (h : CoreInv d m c) (hl : c.locked = false) :
    CoreInv d (m + 1) (coreFrame c d) ∧
      (coreFrame c d).est = d * (1 - (1 / 2) ^ ((m + 1) / 2)) := by
  obtain ⟨hb, _, hs⟩ := h
  obtain ⟨he, hlast, hcnt, c0, c2, clow, q1, q2⟩ := hs hl
  have hperiod : (if c.locked = true then (20 : Int) else 2) = 2 := by
    rw [if_neg (by simp [hl])]
  rcases Nat.mod_two_eq_zero_or_one m with hr | hr
  · -- no update in this frame
    have hdiv : (m + 1) / 2 = m / 2 := by omega
    have hmod : (m + 1) % 2 = 1 := by omega
    have hnd : ¬ c.counter + 1 ≥ (if c.locked = true then 20 else 2) := by
      rw [hperiod, hcnt, hr]
      norm_num
    rw [coreFrame_not_due c d hnd]
    unfold CoreInv
    dsimp only
    rw [hdiv]
    refine ⟨⟨hb, ?_, ?_⟩, he⟩
    · intro hf
      exact absurd (hl.symm.trans hf) (by decide)
    · intro _
      refine ⟨he, hlast, ?_, c0, c2, clow, q1, q2⟩
      show c.counter + 1 = (((m + 1) % 2 : Nat) : Int)
      rw [hcnt, hr, hmod]
      rfl
  · -- update in this frame
    have hdiv : (m + 1) / 2 = m / 2 + 1 := by omega
    have hmod : (m + 1) % 2 = 0 := by omega
    have hdue : c.counter + 1 ≥ (if c.locked = true then 20 else 2) := by
      rw [hperiod, hcnt, hr]
      norm_num
    have ht0 : (0 : K) < (1 / 2) ^ (m / 2) := half_pow_pos _
    have ht1 : ((1 : K) / 2) ^ (m / 2 + 1) = (1 / 2) ^ (m / 2) / 2 := by
      rw [pow_succ]
      ring
    have ht1le : ((1 : K) / 2) ^ (m / 2 + 1) ≤ 1 := half_pow_le_one _
    have ht1pos : (0 : K) < (1 / 2) ^ (m / 2 + 1) := half_pow_pos _
    have hest : 1 / 2 * c.est + (1 - 1 / 2) * d = d * (1 - (1 / 2) ^ (m / 2 + 1)) := by
      rw [he, ht1]
      ring
    have hchange : |1 / 2 * c.est + (1 - 1 / 2) * d - c.last| = |d| * (1 / 2) ^ (m / 2 + 1) := by
      rw [hlast, hest, he, ht1]
      have e : d * (1 - (1 / 2) ^ (m / 2) / 2) - d * (1 - (1 / 2) ^ (m / 2)) =
          d * ((1 / 2) ^ (m / 2) / 2) := by ring
      rw [e, abs_mul, abs_of_pos (by positivity : (0 : K) < (1 / 2) ^ (m / 2) / 2)]
    have hbound : |d * (1 - (1 / 2) ^ (m / 2 + 1))| ≤ 1 / 20 := by
      rw [abs_mul, abs_of_nonneg (by linarith : (0 : K) ≤ 1 - (1 / 2) ^ (m / 2 + 1))]
      nlinarith [abs_nonneg d]
    have hjl : jlimit (-(1 / 20)) (1 / 20) (d * (1 - (1 / 2) ^ (m / 2 + 1))) =
        d * (1 - (1 / 2) ^ (m / 2 + 1)) :=
      jlimit_of_mem _ _ _ (abs_le.mp hbound).1 (abs_le.mp hbound).2
    have herr : |d * (1 - (1 / 2) ^ (m / 2 + 1)) - d| = |d| * (1 / 2) ^ (m / 2 + 1) := by
      have e : d * (1 - (1 / 2) ^ (m / 2 + 1)) - d = -(d * (1 / 2) ^ (m / 2 + 1)) := by ring
      rw [e, abs_neg, abs_mul, abs_of_pos ht1pos]
    rw [coreFrame_due c d hdue, coreUpdate_searching ⟨c.est, c.last, c.cnt, c.locked, 0⟩ d hl]
    unfold CoreInv
    dsimp only
    rw [hchange, hest, hjl, hdiv]
    simp only [delayStabilityCount]
    refine ⟨?_, trivial⟩
    by_cases hst : |d| * (1 / 2) ^ (m / 2 + 1) < delayStabilityThreshold
    · rw [if_pos hst]
      by_cases h3 : c.cnt + 1 ≥ 3
      · rw [if_pos h3]
        refine ⟨hbound, ?_, ?_⟩
        · intro _
          show |d * (1 - (1 / 2) ^ (m / 2 + 1)) - d| < 1 / 40000
          have hq := q2 (by omega)
          rw [herr, ht1]
          unfold delayStabilityThreshold at hq
          linarith
        · intro hf
          exact absurd hf (by decide)
      · rw [if_neg h3]
        refine ⟨hbound, ?_, ?_⟩
        · intro hf
          exact absurd (hl.symm.trans hf) (by decide)
        · intro _
          refine ⟨trivial, trivial, ?_, by omega, by omega, ?_, ?_, ?_⟩
          · show (0 : Int) = (((m + 1) % 2 : Nat) : Int)
            rw [hmod]
            rfl
          · show (((m / 2 + 1 : Nat) : Int)) - 8 ≤ c.cnt + 1
            push_cast
            omega
          · intro _
            exact hst
          · intro h2
            have hq := q1 (by omega)
            show 2 * |d| * (1 / 2) ^ (m / 2 + 1) < delayStabilityThreshold
            rw [ht1]
            linarith
    · rw [if_neg hst, if_neg (by norm_num)]
      refine ⟨hbound, ?_, ?_⟩
      · intro hf
        exact absurd (hl.symm.trans hf) (by decide)
      · intro _
        refine ⟨trivial, trivial, ?_, le_refl _, by norm_num, ?_, ?_, ?_⟩
        · show (0 : Int) = (((m + 1) % 2 : Nat) : Int)
          rw [hmod]
          rfl
        · show (((m / 2 + 1 : Nat) : Int)) - 8 ≤ 0
          by_contra hgt
          have h9 : 9 ≤ m / 2 + 1 := by omega
          have hp : ((1 : K) / 2) ^ (m / 2 + 1) ≤ (1 / 2) ^ 9 :=
            pow_le_pow_of_le_one (by norm_num) (by norm_num) h9
          apply hst
          unfold delayStabilityThreshold
          have : |d| * (1 / 2) ^ (m / 2 + 1) ≤ 1 / 20 * (1 / 2) ^ 9 :=
            mul_le_mul hd hp ht1pos.le (by norm_num)
          refine lt_of_le_of_lt this ?_
          norm_num
        · intro h1
          exact absurd h1 (by norm_num)
        · intro h2
          exact absurd h2 (by norm_num)

end DelaySearching

section DelayRun

variable {K : Type} [LinearOrderedField K] [FloorRing K]

theorem coreInv_step (d : K) (hd : |d| ≤ 1 / 20) (m : Nat) (c : DelayCore K)
    (h : CoreInv d m c) :
    CoreInv d (m + 1) (coreFrame c d) ∧
      (c.locked = false → (coreFrame c d).est = d * (1 - (1 / 2) ^ ((m + 1) / 2))) := by
  cases hl : c.locked with
  | true =>
    refine ⟨(coreInv_locked_step d hd m c h hl).1, ?_⟩
    intro hf
    exact absurd hf (by decide)
  | false =>
    obtain ⟨h1, h2⟩ := coreInv_searching_step d hd m c h hl
    exact ⟨h1, fun _ => h2⟩

theorem coreInv_prepare (M : Libm K) (J : Collab K) (s : TFState K) (nreq : Int) (fs d : K) :
    CoreInv d 0 (delayCore (prepare M J s nreq fs)) := by
  have e : delayCore (prepare M J s nreq fs) = ⟨0, 0, 0, false, 0⟩ := rfl
  rw [e]
  unfold CoreInv
  dsimp only
  refine ⟨by norm_num, ?_, ?_⟩
  · intro hf
    exact absurd hf (by decide)
  · intro _
    refine ⟨by norm_num, rfl, rfl, le_refl _, by norm_num, by norm_num, ?_, ?_⟩
    · intro h1
      exact absurd h1 (by norm_num)
    · intro h2
      exact absurd h2 (by norm_num)

theorem runSpectra_take_succ (M : Libm K) (J : Collab K) (s : TFState K)
    (frames : List (List (Cplx K) × List (Cplx K))) (m : Nat) (hm : m < frames.length) :
    runSpectra M J s (frames.take (m + 1)) =
      processSpectra M J (runSpectra M J s (frames.take m)) (frames.get ⟨m, hm⟩).1
        (frames.get ⟨m, hm⟩).2 := by
  unfold runSpectra
  rw [List.take_succ, List.foldl_append]
  simp [List.getElem?_eq_getElem hm]

theorem constantRawDelay_at (M : Libm K) (J : Collab K) (d : K) :
    ∀ (frames : List (List (Cplx K) × List (Cplx K))) (s : TFState K) (m : Nat)
      (hm : m < frames.length), ConstantRawDelay M J d s frames →
      rawDelay M J (acceptSpectra (runSpectra M J s (frames.take m)) (frames.get ⟨m, hm⟩).1
        (frames.get ⟨m, hm⟩).2) = d := by
  intro frames
  induction frames with
  | nil => intro s m hm; exact absurd hm (Nat.not_lt_zero _)
  | cons f fs ih =>
    intro s m hm hc
    cases m with
    | zero => exact hc.1
    | succ m => exact ih (processSpectra M J s f.1 f.2) m (Nat.lt_of_succ_lt_succ hm) hc.2

/-- Along a run of the fast path in which every frame measures the raw delay `d`, the
delay-estimator fields satisfy `CoreInv` after every number of frames. -/
theorem coreInv_run (M : Libm K) (J : Collab K) (s : TFState K) (nreq : Int) (fs d : K)
    (frames : List (List (Cplx K) × List (Cplx K)))
    (hfast : (prepare M J s nreq fs).phatFFT = true) (hd : |d| ≤ 1 / 20)
    (hraw : ConstantRawDelay M J d (prepare M J s nreq fs) frames) :
    ∀ m, m ≤ frames.length →
      CoreInv d m (delayCore (runSpectra M J (prepare M J s nreq fs) (frames.take m))) ∧
      (runSpectra M J (prepare M J s nreq fs) (frames.take m)).phatFFT = true := by
  intro m
  induction m with
  | zero =>
    intro _
    exact ⟨coreInv_prepare M J s nreq fs d, hfast⟩
  | succ m ih =>
    intro hm
    obtain ⟨hinv, hf⟩ := ih (Nat.le_of_succ_le hm)
    have hlt : m < frames.length := hm
    rw [runSpectra_take_succ M J _ frames m hlt]
    have hlink := delayCore_processSpectra M J _ (frames.get ⟨m, hlt⟩).1 (frames.get ⟨m, hlt⟩).2
      hf hinv.1
    rw [constantRawDelay_at M J d frames _ m hlt hraw] at hlink
    rw [hlink]
    exact ⟨(coreInv_step d hd m _ hinv).1,
      (sameConfig_processSpectra M J _ _ _).2.2.1.trans hf⟩

/-- C4 (amended): in exact arithmetic, on the fast path, from the state left by `prepare`,
if every frame measures the same raw delay `d` with `|d| ≤ 50 ms`, then after `m` frames: a
frame processed while Searching leaves `estimatedDelay = d * (1 - 2^-n)` with `n` the number
of updates so far (`n = (m + 1) / 2`, one update every second frame); the estimator is
Locked once 22 frames (11 updates) are processed; and in every Locked state
`|estimatedDelay - d| < 0.025 ms`. -/
theorem delay_converges_and_locks (M : Libm K) (J : Collab K) (s : TFState K) (nreq : Int)
    (fs d : K) (frames : List (List (Cplx K) × List (Cplx K))) (m : Nat)
    (hfast : (prepare M J s nreq fs).phatFFT = true) (hd : |d| ≤ 1 / 20)
    (hraw : ConstantRawDelay M J d (prepare M J s nreq fs) frames) (hm : m ≤ frames.length) :
    (m < frames.length →
      (runSpectra M J (prepare M J s nreq fs) (frames.take m)).delayLocked = false →
      (runSpectra M J (prepare M J s nreq fs) (frames.take (m + 1))).estimatedDelay =
        d * (1 - (1 / 2) ^ ((m + 1) / 2))) ∧
    ((runSpectra M J (prepare M J s nreq fs) (frames.take m)).delayLocked = false →
      (runSpectra M J (prepare M J s nreq fs) (frames.take m)).estimatedDelay =
        d * (1 - (1 / 2) ^ (m / 2))) ∧
    ((runSpectra M J (prepare M J s nreq fs) (frames.take m)).delayLocked = true →
      |(runSpectra M J (prepare M J s nreq fs) (frames.take m)).estimatedDelay - d| <
        1 / 40000) ∧
    (22 ≤ m → (runSpectra M J (prepare M J s nreq fs) (frames.take m)).delayLocked = true) := by
  obtain ⟨hinv, hf⟩ := coreInv_run M J s nreq fs d frames hfast hd hraw m hm
  refine ⟨?_, ?_, ?_, ?_⟩
  · intro hlt hl
    rw [runSpectra_take_succ M J _ frames m hlt]
    have hlink := delayCore_processSpectra M J _ (frames.get ⟨m, hlt⟩).1 (frames.get ⟨m, hlt⟩).2
      hf hinv.1
    rw [constantRawDelay_at M J d frames _ m hlt hraw] at hlink
    have h2 := (coreInv_step d hd m _ hinv).2 hl
    rw [← hlink] at h2
    exact h2
  · intro hl
    exact (hinv.2.2 hl).1
  · intro hl
    exact hinv.2.1 hl
  · intro h22
    by_contra hne
    have hl : (runSpectra M J (prepare M J s nreq fs) (frames.take m)).delayLocked = false := by
      simpa using hne
    obtain ⟨_, _, _, _, c2, clow, _⟩ := hinv.2.2 hl
    have c2' : (runSpectra M J (prepare M J s nreq fs) (frames.take m)).stableDelayCount ≤ 2 :=
      c2
    have clow' : ((m / 2 : Nat) : Int) - 8 ≤
        (runSpectra M J (prepare M J s nreq fs) (frames.take m)).stableDelayCount := clow
    omega

end DelayRun

section SilentInput

variable {K : Type} [LinearOrderedField K] [FloorRing K]

theorem peakIndex_foldl_zero (time : List K) (l : List Nat)
    (hl : ∀ n ∈ l, time.getD n 0 = 0) :
    ∀ acc : Nat × K, 0 ≤ acc.2 →
      (l.foldl (fun (acc : Nat × K) n =>
        if |time.getD n 0| > acc.2 then (n, |time.getD n 0|) else acc) acc).1 = acc.1 := by
  induction l with
  | nil => intro acc _; rfl
  | cons n l ih =>
    intro acc hacc
    rw [List.foldl_cons, hl n (List.mem_cons_self _ _), abs_zero, if_neg (not_lt.mpr hacc)]
    exact ih (fun k hk => hl k (List.mem_cons_of_mem _ hk)) acc hacc

theorem peakIndex_zero (time : List K) (N : Nat) (h : ∀ n, n < N → time.getD n 0 = 0) :
    peakIndex time N = 0 := by
  unfold peakIndex
  refine peakIndex_foldl_zero time _ ?_ (0, |time.getD 0 0|) (abs_nonneg _)
  intro n hn
  rw [List.mem_range'_1] at hn
  exact h n (by omega)

theorem phatSpectrum_silent (M : Libm K) (s : TFState K) (hsqrt : M.sqrt 0 = 0)
    (hX : ∀ k, s.X.getD k Cplx.zero = Cplx.zero) (hY : ∀ k, s.Y.getD k Cplx.zero = Cplx.zero)
    (k : Nat) : (phatSpectrum M s).getD k Cplx.zero = Cplx.zero := by
  unfold phatSpectrum
  rw [List.getD_eq_getElem?_getD, List.getElem?_map]
  by_cases hk : k < s.X.length
  · rw [List.getElem?_range hk]
    simp only [Option.map_some', Option.getD_some, hX k, hY k]
    have hc : cabs M (Cplx.mul (Cplx.zero : Cplx K) (Cplx.conj Cplx.zero)) = 0 := by
      simp [cabs, Cplx.mul, Cplx.conj, Cplx.zero, Cplx.norm, hsqrt]
    rw [hc, if_neg (not_lt.mpr eps_pos.le)]
  · have : (List.range s.X.length)[k]? = none := by
      rw [List.getElem?_eq_none_iff]
      simpa using hk
    rw [this]
    rfl

theorem hermitianBin_zero (C : List (Cplx K)) (N Nh : Int) (k : Nat)
    (hC : ∀ k, C.getD k Cplx.zero = Cplx.zero) : hermitianBin C N Nh k = Cplx.zero := by
  simp only [hermitianBin]
  split_ifs
  · exact hC k
  · rw [hC]
    simp [Cplx.conj, Cplx.zero]
  · rfl

theorem getD_writeBins_const {α : Type} (n : Nat) (f : Nat → α) (xs : List α) (k : Nat) (d : α)
    (hk : k < n) (hf : f k = d) : (writeBins n f xs).getD k d = d := by
  by_cases hx : k < xs.length
  · rw [getD_writeBins n f xs k d hk hx, hf]
  · rw [List.getD_eq_getElem?_getD, List.getElem?_eq_none_iff.mpr]
    · rfl
    · rw [length_writeBins]
      exact Nat.le_of_not_lt hx

/-- With silent spectra and an inverse transform that returns its input, the fast path
measures a raw delay of zero. -/
theorem rawDelay_silent (M : Libm K) (J : Collab K) (s : TFState K) (hsqrt : M.sqrt 0 = 0)
    (hJ : ∀ l, J.ifft l = l) (hX : ∀ k, s.X.getD k Cplx.zero = Cplx.zero)
    (hY : ∀ k, s.Y.getD k Cplx.zero = Cplx.zero) (hN : 0 ≤ s.fftSize) :
    rawDelay M J s = 0 := by
  have hpeak : peakIndex
      (writeBins s.fftSize.toNat
        (fun n => ((J.ifft (writeBins s.fftSize.toNat
          (hermitianBin (phatSpectrum M s) s.fftSize ((s.X.length : Int) - 1))
          s.phatFftBuffer)).getD n Cplx.zero).re / (s.fftSize : K)) s.phatTime)
      s.fftSize.toNat = 0 := by
    apply peakIndex_zero
    intro n hn
    apply getD_writeBins_const _ _ _ _ _ hn
    rw [hJ, getD_writeBins_const _ _ _ _ _ hn
      (hermitianBin_zero _ _ _ _ (phatSpectrum_silent M s hsqrt hX hY))]
    simp [Cplx.zero]
  have htd : ¬ (0 : Int) > Int.tdiv s.fftSize 2 := by
    have := Int.tdiv_nonneg hN (by norm_num : (0 : Int) ≤ 2)
    omega
  simp only [rawDelay, gccPhat, hpeak, Nat.cast_zero, htd, if_false, Int.cast_zero, zero_div]

theorem acceptSpectra_silent (s : TFState ℝ) (hs : Sized s 3) (k : Nat) :
    (acceptSpectra s silentSpectrum silentSpectrum).X.getD k Cplx.zero = Cplx.zero ∧
    (acceptSpectra s silentSpectrum silentSpectrum).Y.getD k Cplx.zero = Cplx.zero := by
  obtain ⟨sX, sY, _⟩ := hs
  have hz : silentSpectrum.getD k Cplx.zero = Cplx.zero := by
    unfold silentSpectrum
    rcases k with _ | _ | _ | k <;> rfl
  by_cases hk : k < 3
  · have hm : min s.X.length (min silentSpectrum.length silentSpectrum.length) = 3 := by
      rw [sX]
      rfl
    constructor
    · exact (getD_writeBins _ (fun i => silentSpectrum.getD i Cplx.zero) s.X k _
        (hk.trans_eq hm.symm) (hk.trans_eq sX.symm)).trans hz
    · exact (getD_writeBins _ (fun i => silentSpectrum.getD i Cplx.zero) s.Y k _
        (hk.trans_eq hm.symm) (hk.trans_eq sY.symm)).trans hz
  · have hX := (sized_acceptSpectra s silentSpectrum silentSpectrum 3
      ⟨sX, sY, ‹_›⟩).1
    have hY := (sized_acceptSpectra s silentSpectrum silentSpectrum 3
      ⟨sX, sY, ‹_›⟩).2.1
    constructor
    · rw [List.getD_eq_getElem?_getD, List.getElem?_eq_none_iff.mpr (by omega)]
      rfl
    · rw [List.getD_eq_getElem?_getD, List.getElem?_eq_none_iff.mpr (by omega)]
      rfl

end SilentInput

section DelayWitness

theorem cRound_two : cRound (2 : ℝ) = 2 := by
  simp only [cRound]
  norm_num

theorem preparedFour_fast : preparedFour.phatFFT = true := by
  have h : preparedFour.phatFFT =
      decide ((2 : Int) ^ (cRound (Real.logb 2 (((4 : Int) : ℝ)))).toNat = 4) := rfl
  have hl : Real.logb 2 (((4 : Int) : ℝ)) = 2 := by
    have e : (((4 : Int) : ℝ)) = (2 : ℝ) ^ (2 : ℕ) := by norm_num
    rw [e, Real.logb_pow, Real.logb_self_eq_one (by norm_num)]
    norm_num
  rw [h, hl, cRound_two]
  decide

theorem silent_raw_delay (s : TFState ℝ) (hs : Sized s 3) (hN : 0 ≤ s.fftSize) :
    rawDelay realLibm exactCollab (acceptSpectra s silentSpectrum silentSpectrum) = 0 :=
  rawDelay_silent realLibm exactCollab _ Real.sqrt_zero (fun _ => rfl)
    (fun k => (acceptSpectra_silent s hs k).1) (fun k => (acceptSpectra_silent s hs k).2) hN

theorem silent_run_constant :
    ConstantRawDelay realLibm exactCollab 0 preparedFour
      [(silentSpectrum, silentSpectrum), (silentSpectrum, silentSpectrum)] := by
  have hF := preparedFour_config.2.2.1
  refine ⟨silent_raw_delay preparedFour preparedFour_sized (by rw [hF]; norm_num), ?_, trivial⟩
  refine silent_raw_delay _ (sized_processSpectra realLibm exactCollab preparedFour _ _ 3
    preparedFour_sized) ?_
  rw [(sameConfig_processSpectra realLibm exactCollab preparedFour _ _).2.2.2.2, hF]
  norm_num

end DelayWitness

section DelayBounds

variable {K : Type} [LinearOrderedField K] [FloorRing K]

theorem delayBounded_of_same (s t : TFState K) (h : SameDelay s t) (hf : t.phatFFT = s.phatFFT)
    (hb : DelayBounded s) : DelayBounded t := by
  obtain ⟨h1, h2, _, _⟩ := h
  have he : t.estimatedDelay = s.estimatedDelay := congrArg DelayCore.est h1
  unfold DelayBounded
  rw [he, h2, hf]
  exact hb

theorem delayBounded_smoothAndLock (s : TFState K) (d : K) (hb : DelayBounded s) :
    DelayBounded (smoothAndLock s d) := by
  have he : |(smoothAndLock s d).estimatedDelay| ≤ 1 / 20 := by
    have h := coreUpdate_est_bound (delayCore s) d
    rw [← delayCore_smoothAndLock] at h
    exact h
  have hs : (smoothAndLock s d).smoothedDelay = s.smoothedDelay := by
    simp only [smoothAndLock]
    split_ifs <;> rfl
  exact ⟨fun _ => he, he.trans (by norm_num), hs ▸ hb.2.2⟩

theorem delayBounded_estimateDelayPhaseBased (M : Libm K) (s : TFState K)
    (hf : s.phatFFT = false) (hb : DelayBounded s) :
    DelayBounded (estimateDelayPhaseBased M s) := by
  have hp : ∀ t : TFState K, t.phatFFT = s.phatFFT → ¬ t.phatFFT = true := by
    intro t ht
    rw [ht, hf]
    decide
  simp only [estimateDelayPhaseBased]
  split_ifs
  · exact hb
  · have hbd : ∀ x : K, |(4 / 5) * s.smoothedDelay + (1 / 5) * max (-(1 / 10)) (min (1 / 10) x)| ≤
        1 / 10 := by
      intro x
      have h1 : -(1 / 10) ≤ max (-(1 / 10)) (min (1 / 10) x) := le_max_left _ _
      have h2 : max (-(1 / 10 : K)) (min (1 / 10) x) ≤ 1 / 10 :=
        max_le (by norm_num) (min_le_left _ _)
      obtain ⟨h3, h4⟩ := abs_le.mp hb.2.2
      rw [abs_le]
      constructor <;> linarith
    refine ⟨fun h => absurd h (hp _ rfl), hbd _, hbd _⟩
  · exact hb

theorem delayBounded_estimateDelay (M : Libm K) (J : Collab K) (s : TFState K)
    (hb : DelayBounded s) : DelayBounded (estimateDelay M J s) := by
  cases hf : s.phatFFT with
  | false =>
    have e : estimateDelay M J s = estimateDelayPhaseBased M s := by
      simp only [estimateDelay, hf, if_true]
    rw [e]
    exact delayBounded_estimateDelayPhaseBased M s hf hb
  | true =>
    rw [estimateDelay_fast M J s hf]
    exact delayBounded_smoothAndLock _ _ hb

theorem delayBounded_delayStep (M : Libm K) (J : Collab K) (s : TFState K)
    (hb : DelayBounded s) : DelayBounded (delayStep M J s) := by
  by_cases h : s.delayUpdateCounter + 1 ≥ (if s.delayLocked = true then 20 else 2)
  · rw [delayStep_due M J s h]
    exact delayBounded_estimateDelay M J _ hb
  · rw [delayStep_not_due M J s h]
    exact hb

theorem delayBounded_compensationStep (M : Libm K) (s : TFState K) (hb : DelayBounded s) :
    DelayBounded (compensationStep M s) := by
  unfold compensationStep
  split_ifs
  · simp only [applyDelayCompensation]
    split_ifs
    · refine ⟨fun _ => ?_, ?_, ?_⟩ <;> simp
    · exact hb
  · exact hb

theorem delayBounded_processFrame (M : Libm K) (J : Collab K) (s : TFState K)
    (hb : DelayBounded s) : DelayBounded (processFrame M J s) := by
  have h1 : DelayBounded (averagingStep M { s with frameCount := s.frameCount + 1 }) :=
    delayBounded_of_same _ _ (sameDelay_averagingStep M _)
      (sameConfig_averagingStep M _).2.2.2.2.2.2.2.2.2.2.2.1 hb
  have h2 := delayBounded_compensationStep M _ (delayBounded_delayStep M J _ h1)
  refine delayBounded_of_same _ _ (sameDelay_after_compensation M J s) ?_ h2
  have c1 := (sameConfig_processFrame M J s).2.2.2.2.2.2.2.2.2.2.2.1
  have c2 := (sameConfig_averagingStep M
    { s with frameCount := s.frameCount + 1 }).2.2.2.2.2.2.2.2.2.2.2.1
  have c3 := (sameConfig_delayStep M J
    (averagingStep M { s with frameCount := s.frameCount + 1 })).2.2.2.2.2.2.2.2.2.2.2.1
  have c4 := (sameConfig_compensationStep M (delayStep M J
    (averagingStep M { s with frameCount := s.frameCount + 1 }))).2.2.2.2.2.2.2.2.2.2.2.1
  rw [c1, c4, c3, c2]

theorem delayBounded_tryProcess (M : Libm K) (J : Collab K) :
    ∀ (fuel : Nat) (s t : TFState K) (frames : List (List K × List K)),
      DelayBounded s → tryProcessSynchronizedFrames M J fuel s = some (frames, t) →
      DelayBounded t := by
  intro fuel
  induction fuel with
  | zero =>
    intro s t frames hb h
    by_cases hav : framesAvailable s = true
    · simp [tryProcessSynchronizedFrames, hav] at h
    · simp only [tryProcessSynchronizedFrames, hav, Bool.false_eq_true, if_false,
        Option.some.injEq, Prod.mk.injEq] at h
      rw [← h.2]
      exact hb
  | succ fuel ih =>
    intro s t frames hb h
    by_cases hav : framesAvailable s = true
    · rw [tryProcessSynchronizedFrames] at h
      simp only [hav, if_true] at h
      cases hr : tryProcessSynchronizedFrames M J fuel (frameIteration M J s).2 with
      | none => simp [hr] at h
      | some q =>
        rw [hr] at h
        simp only [Option.some.injEq, Prod.mk.injEq] at h
        have hq : q = (q.1, t) := by rw [← h.2]
        rw [hq] at hr
        have hb2 : DelayBounded (frameIteration M J s).2 :=
          delayBounded_processFrame M J
            { acceptSpectra s (J.analyze (s.referenceBuffer.take s.fftSize.toNat))
                (J.analyze (s.measurementBuffer.take s.fftSize.toNat)) with
              referenceBuffer := s.referenceBuffer.drop s.hopSize.toNat
              measurementBuffer := s.measurementBuffer.drop s.hopSize.toNat } hb
        exact ih _ t q.1 hb2 hr
    · rw [tryProcessSynchronizedFrames] at h
      simp only [hav, Bool.false_eq_true, if_false, Option.some.injEq, Prod.mk.injEq] at h
      rw [← h.2]
      exact hb

theorem delayBounded_zero (s : TFState K) (he : s.estimatedDelay = 0) (hs : s.smoothedDelay = 0) :
    DelayBounded s := by
  unfold DelayBounded
  rw [he, hs]
  simp

theorem delayBounded_reachable (M : Libm K) (J : Collab K) (s : TFState K)
    (h : Reachable M J s) : DelayBounded s := by
  induction h with
  | init => exact delayBounded_zero _ rfl rfl
  | prepare s n fs _ _ => exact delayBounded_zero _ rfl rfl
  | reset s _ _ => exact delayBounded_zero _ rfl rfl
  | averagingTime s x _ ih => exact ih
  | smoothingOctaves s x _ ih => exact ih
  | frame s Xs Ys _ _ ih => exact delayBounded_processFrame M J _ ih
  | block s t fuel ref meas n frames _ hrun ih =>
    unfold processBlock at hrun
    split_ifs at hrun
    · simp only [Option.some.injEq, Prod.mk.injEq] at hrun
      rw [← hrun.2]
      exact ih
    · refine delayBounded_tryProcess M J fuel _ t frames ?_ hrun
      exact ih

/-- C5 (amended): in every reachable state the estimated delay satisfies
`|estimatedDelay| ≤ 0.05 s` when the fast correlation path is enabled, and
`|estimatedDelay| ≤ 0.1 s` when the regression fallback path is in use. -/
theorem estimated_delay_bounds (M : Libm K) (J : Collab K) (s : TFState K)
    (h : Reachable M J s) :
    (s.phatFFT = true → |s.estimatedDelay| ≤ 1 / 20) ∧
    (s.phatFFT = false → |s.estimatedDelay| ≤ 1 / 10) :=
  ⟨(delayBounded_reachable M J s h).1, fun _ => (delayBounded_reachable M J s h).2.1⟩

end DelayBounds

section FallbackExample

theorem exp_neg_le (x : ℝ) (hx : 0 ≤ x) : Real.exp (-x) ≤ 1 / (1 + x) := by
  rw [Real.exp_neg, inv_eq_one_div]
  exact one_div_le_one_div_of_le (by linarith) (by linarith [Real.add_one_le_exp x])

theorem cex_alpha_bounds (a : ℝ)
    (ha : a = Real.exp (-(209 / 419) / (3 / 10)) ∨ a = Real.exp (-(209 / 419) / (3 / 2))) :
    0 ≤ a ∧ a ≤ 4 / 5 := by
  rcases ha with h | h
  · rw [h]
    refine ⟨(Real.exp_pos _).le, ?_⟩
    have e : (-(209 / 419) / (3 / 10) : ℝ) = -(2090 / 1257) := by norm_num
    rw [e]
    refine (exp_neg_le _ (by norm_num)).trans ?_
    norm_num
  · rw [h]
    refine ⟨(Real.exp_pos _).le, ?_⟩
    have e : (-(209 / 419) / (3 / 2) : ℝ) = -(418 / 1257) := by norm_num
    rw [e]
    refine (exp_neg_le _ (by norm_num)).trans ?_
    norm_num

theorem cexUnit_norm (k : Nat) : Cplx.norm (cexUnit k) = 1 := by
  unfold cexUnit Cplx.norm
  split_ifs <;> norm_num

theorem averageBin_unit (a c : ℝ) (u : Cplx ℝ) (hu : Cplx.norm u = 1) :
    (averageBin a ⟨1, 0⟩ u c c (Cplx.smul c u)).gxx = a * c + (1 - a) ∧
    (averageBin a ⟨1, 0⟩ u c c (Cplx.smul c u)).gyy = a * c + (1 - a) ∧
    (averageBin a ⟨1, 0⟩ u c c (Cplx.smul c u)).gxy = Cplx.smul (a * c + (1 - a)) u ∧
    (averageBin a ⟨1, 0⟩ u c c (Cplx.smul c u)).h =
      Cplx.divR (Cplx.smul (a * c + (1 - a)) u) (a * c + (1 - a) + eps) ∧
    (averageBin a ⟨1, 0⟩ u c c (Cplx.smul c u)).g2 =
      (a * c + (1 - a)) ^ 2 / ((a * c + (1 - a)) ^ 2 + eps) := by
  have e1 : (averageBin a ⟨1, 0⟩ u c c (Cplx.smul c u)).gxx = a * c + (1 - a) := by
    show a * c + (1 - a) * Cplx.norm ⟨1, 0⟩ = _
    simp [Cplx.norm]
  have e2 : (averageBin a ⟨1, 0⟩ u c c (Cplx.smul c u)).gyy = a * c + (1 - a) := by
    show a * c + (1 - a) * Cplx.norm u = _
    rw [hu, mul_one]
  have e3 : (averageBin a ⟨1, 0⟩ u c c (Cplx.smul c u)).gxy =
      Cplx.smul (a * c + (1 - a)) u := by
    show Cplx.add (Cplx.smul a (Cplx.smul c u))
      (Cplx.smul (1 - a) (Cplx.mul u (Cplx.conj ⟨1, 0⟩))) = _
    simp only [Cplx.add, Cplx.smul, Cplx.mul, Cplx.conj]
    ext
    · show a * (c * u.re) + (1 - a) * (u.re * 1 - u.im * -0) = (a * c + (1 - a)) * u.re
      ring
    · show a * (c * u.im) + (1 - a) * (u.re * -0 + u.im * 1) = (a * c + (1 - a)) * u.im
      ring
  have hh : (averageBin a ⟨1, 0⟩ u c c (Cplx.smul c u)).h =
      Cplx.divR (averageBin a ⟨1, 0⟩ u c c (Cplx.smul c u)).gxy
        ((averageBin a ⟨1, 0⟩ u c c (Cplx.smul c u)).gxx + eps) := rfl
  have hg : (averageBin a ⟨1, 0⟩ u c c (Cplx.smul c u)).g2 =
      Cplx.norm (averageBin a ⟨1, 0⟩ u c c (Cplx.smul c u)).gxy /
        ((averageBin a ⟨1, 0⟩ u c c (Cplx.smul c u)).gxx *
          (averageBin a ⟨1, 0⟩ u c c (Cplx.smul c u)).gyy + eps) := rfl
  refine ⟨e1, e2, e3, ?_, ?_⟩
  · rw [hh, e3, e1]
  · rw [hg, e3, e1, e2]
    have hn : Cplx.norm (Cplx.smul (a * c + (1 - a)) u) = (a * c + (1 - a)) ^ 2 := by
      have : Cplx.norm (Cplx.smul (a * c + (1 - a)) u) =
          (a * c + (1 - a)) ^ 2 * Cplx.norm u := by
        simp only [Cplx.norm, Cplx.smul]
        ring
      rw [this, hu, mul_one]
    rw [hn, pow_two]

theorem carg_scaled_unit (t : ℝ) (d : ℝ) (ht : 0 < t) (hd : 0 < d) (k : Nat) :
    carg realLibm (Cplx.divR (Cplx.smul t (cexUnit k)) d) = cexLevel k := by
  have hq : 0 < t / d := div_pos ht hd
  unfold cexUnit cexLevel
  split_ifs
  · show Complex.arg ⟨t * -1 / d, t * 0 / d⟩ = Real.pi
    rw [Complex.arg_eq_pi_iff]
    constructor
    · show t * -1 / d < 0
      have : t * -1 / d = -(t / d) := by ring
      linarith
    · show t * 0 / d = 0
      simp
  · show Complex.arg ⟨t * 0 / d, t * 1 / d⟩ = Real.pi / 2
    rw [Complex.arg_eq_pi_div_two_iff]
    constructor
    · show t * 0 / d = 0
      simp
    · show 0 < t * 1 / d
      simpa using hq
  · show Complex.arg ⟨t * 1 / d, t * 0 / d⟩ = 0
    rw [Complex.arg_eq_zero_iff]
    constructor
    · show 0 ≤ t * 1 / d
      simpa using hq.le
    · show t * 0 / d = 0
      simp
  · show Complex.arg ⟨t * 0 / d, t * -1 / d⟩ = -(Real.pi / 2)
    rw [Complex.arg_eq_neg_pi_div_two_iff]
    constructor
    · show t * 0 / d = 0
      simp
    · show t * -1 / d < 0
      have : t * -1 / d = -(t / d) := by ring
      linarith

end FallbackExample

section FallbackRegression

variable {K : Type} [LinearOrderedField K] [FloorRing K]

theorem wrapDown_of_le (pi : K) (fuel : Nat) (curr d : K) (h : d ≤ pi) :
    wrapDown pi fuel curr d = (curr, d) := by
  cases fuel with
  | zero => rfl
  | succ n =>
    unfold wrapDown
    rw [if_neg (not_lt.mpr h)]

theorem wrapUp_of_ge (pi : K) (fuel : Nat) (curr d : K) (h : -pi ≤ d) :
    wrapUp pi fuel curr d = (curr, d) := by
  cases fuel with
  | zero => rfl
  | succ n =>
    unfold wrapUp
    rw [if_neg (not_lt.mpr h)]

theorem wrapPhase_of_mem (pi curr d : K) (h1 : -pi ≤ d) (h2 : d ≤ pi) :
    wrapPhase pi curr d = (curr, d) := by
  unfold wrapPhase
  rw [wrapDown_of_le pi _ curr d h2]
  exact wrapUp_of_ge pi _ curr d h1

theorem unwrapFrom_of_chain (pi : K) :
    ∀ (l : List K) (prev : K), List.Chain (fun a b => -pi ≤ b - a ∧ b - a ≤ pi) prev l →
      unwrapFrom pi prev l = l := by
  intro l
  induction l with
  | nil => intro _ _; rfl
  | cons p ps ih =>
    intro prev hc
    rw [List.chain_cons] at hc
    unfold unwrapFrom
    simp only [wrapPhase_of_mem pi p (p - prev) hc.1.1 hc.1.2]
    rw [ih p hc.2]

theorem filterMap_eq_nil_of_none {α β : Type} (f : α → Option β) :
    ∀ l : List α, (∀ x ∈ l, f x = none) → l.filterMap f = [] := by
  intro l
  induction l with
  | nil => intro _; rfl
  | cons a l ih =>
    intro h
    rw [List.filterMap_cons, h a (List.mem_cons_self _ _)]
    exact ih (fun x hx => h x (List.mem_cons_of_mem _ hx))

theorem filterMap_eq_map_of_some {α β : Type} (f : α → Option β) (g : α → β) :
    ∀ l : List α, (∀ x ∈ l, f x = some (g x)) → l.filterMap f = l.map g := by
  intro l
  induction l with
  | nil => intro _; rfl
  | cons a l ih =>
    intro h
    rw [List.filterMap_cons, h a (List.mem_cons_self _ _), List.map_cons]
    simp only
    rw [ih (fun x hx => h x (List.mem_cons_of_mem _ hx))]

end FallbackRegression

section FallbackExampleRegression

theorem cexSel_sums :
    fitSums cexSel = (4095, 5 * Real.pi, 1677235 / 2, 1985 / 2 * Real.pi) := by
  simp only [cexSel, fitSums, List.range', List.map, List.foldl, cexLevel]
  norm_num
  refine ⟨by ring, by ring⟩

theorem cexSel_length : cexSel.length = 20 := by
  simp [cexSel]

theorem cexSel_unwrap :
    unwrapPhases Real.pi (cexSel.map Prod.snd) = cexSel.map Prod.snd := by
  have hpi := Real.pi_pos
  simp only [cexSel, List.range', List.map, cexLevel]
  norm_num
  simp only [unwrapPhases]
  rw [unwrapFrom_of_chain]
  simp only [List.chain_cons, List.Chain.nil, and_true]
  refine ⟨?_, ?_, ?_, ?_, ?_, ?_, ?_, ?_, ?_, ?_, ?_, ?_, ?_, ?_, ?_, ?_, ?_, ?_, ?_⟩ <;>
    constructor <;> linarith

end FallbackExampleRegression

section FallbackExampleUpdate

theorem estimateDelayPhaseBased_cex (s : TFState ℝ) (h : selectBins realLibm s = cexSel) :
    estimateDelayPhaseBased realLibm s =
      { s with
        smoothedDelay := 4 / 5 * s.smoothedDelay + 1 / 5 * (25 / 266)
        estimatedDelay := 4 / 5 * s.smoothedDelay + 1 / 5 * (25 / 266) } := by
  have hpi := Real.pi_pos
  have hlen : ¬ (cexSel.map Prod.fst).length < 20 := by
    rw [List.length_map, cexSel_length]
    decide
  have hzip : (cexSel.map Prod.fst).zip (cexSel.map Prod.snd) = cexSel := by
    have hz : ∀ l : List (ℝ × ℝ), (l.map Prod.fst).zip (l.map Prod.snd) = l := by
      intro l
      induction l with
      | nil => rfl
      | cons a l ih => simp only [List.map_cons, List.zip_cons_cons, ih]
    exact hz cexSel
  have hpiM : realLibm.pi = Real.pi := rfl
  simp only [estimateDelayPhaseBased, h, hlen, if_false, hpiM, cexSel_unwrap, hzip, cexSel_sums,
    List.length_map, cexSel_length, lt_irrefl]
  have hden : |((20 : ℕ) : ℝ) * (1677235 / 2) - 4095 * 4095| > eps := by
    unfold eps
    norm_num
  rw [if_pos hden]
  have htau : -((((20 : ℕ) : ℝ) * (1985 / 2 * Real.pi) - 4095 * (5 * Real.pi)) /
      (((20 : ℕ) : ℝ) * (1677235 / 2) - 4095 * 4095)) / (2 * Real.pi) = 25 / 266 := by
    field_simp
    ring
  rw [htau]
  have hclamp : max (-(1 / 10 : ℝ)) (min (1 / 10) (25 / 266)) = 25 / 266 := by
    rw [min_eq_right (by norm_num), max_eq_right (by norm_num)]
  rw [hclamp]

theorem selectBins_cex (s : TFState ℝ) (hH : s.H.length = 420)
    (hf : ∀ k, k < 420 → s.frequencies.getD k 0 = (k : ℝ) * 419 / 838)
    (hg : ∀ k, 400 ≤ k → k < 420 → s.gamma2.getD k 0 > cohMinMath)
    (hp : ∀ k, 400 ≤ k → k < 420 → carg realLibm (s.H.getD k Cplx.zero) = cexLevel k) :
    selectBins realLibm s = cexSel := by
  unfold selectBins cexSel
  rw [hH]
  have hsplit : List.range' 1 (420 - 1) = List.range' 1 399 ++ List.range' 400 20 := by
    rw [List.range'_append]
  rw [hsplit, List.filterMap_append, filterMap_eq_nil_of_none, List.nil_append]
  · apply filterMap_eq_map_of_some
    intro k hk
    rw [List.mem_range'_1] at hk
    have hk1 : k < 420 := by omega
    have hfk := hf k hk1
    have hlo : (200 : ℝ) ≤ (k : ℝ) * 419 / 838 := by
      have : (400 : ℝ) ≤ (k : ℝ) := by exact_mod_cast hk.1
      linarith
    have hhi : (k : ℝ) * 419 / 838 ≤ 8000 := by
      have : (k : ℝ) ≤ 420 := by exact_mod_cast hk1.le
      linarith
    simp only [hg k hk.1 hk1, if_true, hfk, ge_iff_le, hlo, hhi, and_self, hp k hk.1 hk1]
  · intro k hk
    rw [List.mem_range'_1] at hk
    have hk1 : k < 420 := by omega
    have hlo : ¬ (200 : ℝ) ≤ (k : ℝ) * 419 / 838 := by
      have : (k : ℝ) ≤ 399 := by exact_mod_cast (by omega : k ≤ 399)
      intro h
      linarith
    simp only [hf k hk1, ge_iff_le, hlo, false_and, if_false, ite_self]

end FallbackExampleUpdate

section FallbackExampleFrame

theorem cexX_length : cexX.length = 420 := List.length_replicate _ _

theorem cexY_length : cexY.length = 420 := by
  unfold cexY
  rw [List.length_map, List.length_range]

theorem cexX_getD (k : Nat) (hk : k < 420) : cexX.getD k Cplx.zero = ⟨1, 0⟩ := by
  unfold cexX
  rw [List.getD_eq_getElem?_getD, List.getElem?_replicate, if_pos hk]
  rfl

theorem cexY_getD (k : Nat) (hk : k < 420) : cexY.getD k Cplx.zero = cexUnit k := by
  unfold cexY
  rw [List.getD_eq_getElem?_getD, List.getElem?_map, List.getElem?_range hk]
  rfl

theorem acceptSpectra_cex (s : TFState ℝ) (hs : Sized s 420) (k : Nat) (hk : k < 420) :
    (acceptSpectra s cexX cexY).X.getD k Cplx.zero = ⟨1, 0⟩ ∧
    (acceptSpectra s cexX cexY).Y.getD k Cplx.zero = cexUnit k := by
  obtain ⟨sX, sY, _⟩ := hs
  have hm : min s.X.length (min cexX.length cexY.length) = 420 := by
    rw [sX, cexX_length, cexY_length]
    rfl
  constructor
  · exact (getD_writeBins _ (fun i => cexX.getD i Cplx.zero) s.X k _
      (hk.trans_eq hm.symm) (hk.trans_eq sX.symm)).trans (cexX_getD k hk)
  · exact (getD_writeBins _ (fun i => cexY.getD i Cplx.zero) s.Y k _
      (hk.trans_eq hm.symm) (hk.trans_eq sY.symm)).trans (cexY_getD k hk)

theorem updateAverages_cex (s : TFState ℝ) (c : ℝ) (hs : Sized s 420)
    (hX : ∀ k, k < 420 → s.X.getD k Cplx.zero = ⟨1, 0⟩)
    (hY : ∀ k, k < 420 → s.Y.getD k Cplx.zero = cexUnit k)
    (hG : ∀ k, k < 420 →
      s.Gxx.getD k 0 = c ∧ s.Gyy.getD k 0 = c ∧ s.Gxy.getD k Cplx.zero = Cplx.smul c (cexUnit k))
    (k : Nat) (hk : k < 420) :
    (updateAverages s).Gxx.getD k 0 = s.averagingAlpha * c + (1 - s.averagingAlpha) ∧
    (updateAverages s).Gyy.getD k 0 = s.averagingAlpha * c + (1 - s.averagingAlpha) ∧
    (updateAverages s).Gxy.getD k Cplx.zero =
      Cplx.smul (s.averagingAlpha * c + (1 - s.averagingAlpha)) (cexUnit k) ∧
    (updateAverages s).H.getD k Cplx.zero =
      Cplx.divR (Cplx.smul (s.averagingAlpha * c + (1 - s.averagingAlpha)) (cexUnit k))
        (s.averagingAlpha * c + (1 - s.averagingAlpha) + eps) ∧
    (updateAverages s).gamma2.getD k 0 =
      (s.averagingAlpha * c + (1 - s.averagingAlpha)) ^ 2 /
        ((s.averagingAlpha * c + (1 - s.averagingAlpha)) ^ 2 + eps) := by
  obtain ⟨sX, _, sxx, syy, sxy, sH, _, _, sg, _⟩ := hs
  have e1 : (updateAverages s).Gxx.getD k 0 = (averagedBin s k).gxx :=
    getD_writeBins _ _ _ k 0 (hk.trans_eq sX.symm) (hk.trans_eq sxx.symm)
  have e2 : (updateAverages s).Gyy.getD k 0 = (averagedBin s k).gyy :=
    getD_writeBins _ _ _ k 0 (hk.trans_eq sX.symm) (hk.trans_eq syy.symm)
  have e3 : (updateAverages s).Gxy.getD k Cplx.zero = (averagedBin s k).gxy :=
    getD_writeBins _ _ _ k _ (hk.trans_eq sX.symm) (hk.trans_eq sxy.symm)
  have e4 : (updateAverages s).H.getD k Cplx.zero = (averagedBin s k).h :=
    getD_writeBins _ _ _ k _ (hk.trans_eq sX.symm) (hk.trans_eq sH.symm)
  have e5 : (updateAverages s).gamma2.getD k 0 = (averagedBin s k).g2 :=
    getD_writeBins _ _ _ k 0 (hk.trans_eq sX.symm) (hk.trans_eq sg.symm)
  have eb : averagedBin s k =
      averageBin s.averagingAlpha ⟨1, 0⟩ (cexUnit k) c c (Cplx.smul c (cexUnit k)) := by
    unfold averagedBin
    rw [hX k hk, hY k hk, (hG k hk).1, (hG k hk).2.1, (hG k hk).2.2]
  rw [e1, e2, e3, e4, e5, eb]
  exact averageBin_unit s.averagingAlpha c (cexUnit k) (cexUnit_norm k)

theorem averagingStep_cex (s : TFState ℝ) (c : ℝ) (hs : Sized s 420) (hc0 : 0 ≤ c) (hc1 : c ≤ 1)
    (hdt : s.frameDt = 209 / 419)
    (hal : s.averagingAlpha = Real.exp (-(209 / 419) / (3 / 2)))
    (hX : ∀ k, k < 420 → s.X.getD k Cplx.zero = ⟨1, 0⟩)
    (hY : ∀ k, k < 420 → s.Y.getD k Cplx.zero = cexUnit k)
    (hG : ∀ k, k < 420 →
      s.Gxx.getD k 0 = c ∧ s.Gyy.getD k 0 = c ∧ s.Gxy.getD k Cplx.zero = Cplx.smul c (cexUnit k)) :
    ∃ c1 : ℝ, 1 / 5 ≤ c1 ∧ c1 ≤ 1 ∧ ∀ k, k < 420 →
      (averagingStep realLibm s).Gxx.getD k 0 = c1 ∧
      (averagingStep realLibm s).Gyy.getD k 0 = c1 ∧
      (averagingStep realLibm s).Gxy.getD k Cplx.zero = Cplx.smul c1 (cexUnit k) ∧
      (averagingStep realLibm s).H.getD k Cplx.zero =
        Cplx.divR (Cplx.smul c1 (cexUnit k)) (c1 + eps) ∧
      (averagingStep realLibm s).gamma2.getD k 0 = c1 ^ 2 / (c1 ^ 2 + eps) := by
  have hbound : ∀ a : ℝ, 0 ≤ a → a ≤ 4 / 5 →
      1 / 5 ≤ a * c + (1 - a) ∧ a * c + (1 - a) ≤ 1 := by
    intro a h0 h1
    constructor
    · nlinarith [mul_nonneg h0 hc0]
    · nlinarith [mul_nonneg h0 (sub_nonneg.mpr hc1)]
  unfold averagingStep
  split_ifs with hfc
  · have hfast : realLibm.exp (-s.frameDt / (3 / 10)) = Real.exp (-(209 / 419) / (3 / 10)) := by
      rw [hdt]
      rfl
    obtain ⟨a0, a1⟩ := cex_alpha_bounds _ (Or.inl hfast)
    refine ⟨_, (hbound _ a0 a1).1, (hbound _ a0 a1).2, fun k hk => ?_⟩
    exact updateAverages_cex { s with averagingAlpha := realLibm.exp (-s.frameDt / (3 / 10)) } c
      hs hX hY hG k hk
  · obtain ⟨a0, a1⟩ := cex_alpha_bounds _ (Or.inr hal)
    refine ⟨_, (hbound _ a0 a1).1, (hbound _ a0 a1).2, fun k hk => ?_⟩
    exact updateAverages_cex s c hs hX hY hG k hk

theorem cex_gamma2_bound (c1 : ℝ) (h : 1 / 5 ≤ c1) : c1 ^ 2 / (c1 ^ 2 + eps) > cohMinMath := by
  have he : (0 : ℝ) < eps := eps_pos
  have hsq : (1 : ℝ) / 25 ≤ c1 ^ 2 := by nlinarith
  have hle : (eps : ℝ) ≤ 1 / 100 := by
    unfold eps
    norm_num
  show cohMinMath < c1 ^ 2 / (c1 ^ 2 + eps)
  unfold cohMinMath
  rw [lt_div_iff₀ (by linarith)]
  linarith

theorem compensationStep_smoothedDelay (M : Libm ℝ) (s : TFState ℝ)
    (h : |s.estimatedDelay| ≤ 1 / 10) :
    (compensationStep M s).smoothedDelay = s.smoothedDelay := by
  have hn : ¬ (|s.estimatedDelay| > 1 / 10) := not_lt.mpr h
  have hd : decide (|s.estimatedDelay| > 1 / 10) = false := decide_eq_false hn
  unfold compensationStep
  split_ifs
  · simp only [applyDelayCompensation, hd, Bool.false_eq_true, if_false]
  · rfl

theorem delayStep_cex (u : TFState ℝ) (n : Nat) (hphat : u.phatFFT = false)
    (hlock : u.delayLocked = false) (hcnt : u.delayUpdateCounter = ((n % 2 : Nat) : Int))
    (hest : u.estimatedDelay = 25 / 266 * (1 - (4 / 5) ^ (n / 2)))
    (hsm : u.smoothedDelay = u.estimatedDelay) (hH : u.H.length = 420)
    (hf : ∀ k, k < 420 → u.frequencies.getD k 0 = (k : ℝ) * 419 / 838)
    (hg : ∀ k, 400 ≤ k → k < 420 → u.gamma2.getD k 0 > cohMinMath)
    (hp : ∀ k, 400 ≤ k → k < 420 → carg realLibm (u.H.getD k Cplx.zero) = cexLevel k) :
    (delayStep realLibm exactCollab u).delayLocked = false ∧
    (delayStep realLibm exactCollab u).delayUpdateCounter = (((n + 1) % 2 : Nat) : Int) ∧
    (delayStep realLibm exactCollab u).estimatedDelay =
      25 / 266 * (1 - (4 / 5) ^ ((n + 1) / 2)) ∧
    (delayStep realLibm exactCollab u).smoothedDelay =
      (delayStep realLibm exactCollab u).estimatedDelay := by
  have hper : (if u.delayLocked = true then (20 : Int) else 2) = 2 := by
    rw [hlock]
    rfl
  rcases Nat.mod_two_eq_zero_or_one n with h0 | h1
  · have hnd : ¬ u.delayUpdateCounter + 1 ≥ (if u.delayLocked = true then 20 else 2) := by
      rw [hper, hcnt, h0]
      decide
    rw [delayStep_not_due realLibm exactCollab u hnd]
    have e1 : (n + 1) % 2 = 1 := by omega
    have e2 : (n + 1) / 2 = n / 2 := by omega
    rw [e1, e2]
    refine ⟨hlock, ?_, hest, hsm⟩
    show u.delayUpdateCounter + 1 = _
    rw [hcnt, h0]
    rfl
  · have hdue : u.delayUpdateCounter + 1 ≥ (if u.delayLocked = true then 20 else 2) := by
      rw [hper, hcnt, h1]
      decide
    rw [delayStep_due realLibm exactCollab u hdue]
    have e0 : estimateDelay realLibm exactCollab { u with delayUpdateCounter := 0 } =
        estimateDelayPhaseBased realLibm { u with delayUpdateCounter := 0 } := by
      unfold estimateDelay
      exact if_pos hphat
    rw [e0, estimateDelayPhaseBased_cex { u with delayUpdateCounter := 0 }
      (selectBins_cex { u with delayUpdateCounter := 0 } hH hf hg hp)]
    have e1 : (n + 1) % 2 = 0 := by omega
    have e2 : (n + 1) / 2 = n / 2 + 1 := by omega
    rw [e1, e2]
    refine ⟨hlock, rfl, ?_, rfl⟩
    show 4 / 5 * u.smoothedDelay + 1 / 5 * (25 / 266) = _
    rw [hsm, hest, pow_succ]
    ring

theorem cex_estimate_bound (m : Nat) : |(25 / 266 : ℝ) * (1 - (4 / 5) ^ m)| ≤ 1 / 10 := by
  have h0 : (0 : ℝ) < (4 / 5) ^ m := by positivity
  have h1 : ((4 : ℝ) / 5) ^ m ≤ 1 := pow_le_one₀ (by norm_num) (by norm_num)
  rw [abs_le]
  constructor <;> nlinarith

theorem cexInv_step (s : TFState ℝ) (n : Nat) (h : CexInv s n) :
    CexInv (processSpectra realLibm exactCollab s cexX cexY) (n + 1) := by
  obtain ⟨hs, hphat, hlock, hdt, hal, hfr, hcnt, hest, hsm, hready, c, hc0, hc1, hG⟩ := h
  have hsz := sized_processSpectra realLibm exactCollab s cexX cexY 420 hs
  obtain ⟨_, _, _, _, k5, _, k7, k8, _, _, k11, k12, _, _⟩ :=
    sameConfig_processFrame realLibm exactCollab (acceptSpectra s cexX cexY)
  have hacc := sized_acceptSpectra s cexX cexY 420 hs
  obtain ⟨c1, hc1a, hc1b, hbins⟩ := averagingStep_cex
    { acceptSpectra s cexX cexY with frameCount := (acceptSpectra s cexX cexY).frameCount + 1 }
    c hacc hc0 hc1 hdt hal
    (fun k hk => (acceptSpectra_cex s hs k hk).1) (fun k hk => (acceptSpectra_cex s hs k hk).2) hG
  obtain ⟨q1, q2, _, _⟩ := sameDelay_averagingStep realLibm
    { acceptSpectra s cexX cexY with frameCount := (acceptSpectra s cexX cexY).frameCount + 1 }
  obtain ⟨_, _, _, _, _, _, _, _, _, _, r11, r12, _, _⟩ := sameConfig_averagingStep realLibm
    { acceptSpectra s cexX cexY with frameCount := (acceptSpectra s cexX cexY).frameCount + 1 }
  have hszA := sized_averagingStep realLibm
    { acceptSpectra s cexX cexY with frameCount := (acceptSpectra s cexX cexY).frameCount + 1 }
    420 hacc
  have c1pos : 0 < c1 := by linarith
  obtain ⟨d1, d2, d3, d4⟩ := delayStep_cex
    (averagingStep realLibm
      { acceptSpectra s cexX cexY with frameCount := (acceptSpectra s cexX cexY).frameCount + 1 })
    n (r12.trans hphat) ((congrArg DelayCore.locked q1).trans hlock)
    ((congrArg DelayCore.counter q1).trans hcnt) ((congrArg DelayCore.est q1).trans hest)
    (q2.trans (hsm.trans (congrArg DelayCore.est q1).symm)) hszA.2.2.2.2.2.1
    (fun k hk => by rw [r11]; exact hfr k hk)
    (fun k _ hk => by rw [(hbins k hk).2.2.2.2]; exact cex_gamma2_bound c1 hc1a)
    (fun k _ hk => by
      rw [(hbins k hk).2.2.2.1]
      exact carg_scaled_unit c1 (c1 + eps) c1pos (add_pos c1pos eps_pos) k)
  have hb : |(delayStep realLibm exactCollab (averagingStep realLibm
      { acceptSpectra s cexX cexY with
        frameCount := (acceptSpectra s cexX cexY).frameCount + 1 })).estimatedDelay| ≤ 1 / 10 := by
    rw [d3]
    exact cex_estimate_bound _
  have p := delayCore_compensationStep realLibm _ hb
  have p2 := compensationStep_smoothedDelay realLibm _ hb
  obtain ⟨t1, t2, _, _⟩ := sameDelay_after_compensation realLibm exactCollab
    (acceptSpectra s cexX cexY)
  have tc := t1.trans p
  obtain ⟨g1, g2, g3, _, _⟩ := sameAverages_processFrame realLibm exactCollab
    (acceptSpectra s cexX cexY)
  have m3 : (processSpectra realLibm exactCollab s cexX cexY).estimatedDelay =
      25 / 266 * (1 - (4 / 5) ^ ((n + 1) / 2)) := (congrArg DelayCore.est tc).trans d3
  refine ⟨hsz, k12.trans hphat, (congrArg DelayCore.locked tc).trans d1, k7.trans hdt,
    k8.trans hal, ?_, (congrArg DelayCore.counter tc).trans d2, m3, ?_, k5.trans hready,
    c1, by linarith, hc1b, ?_⟩
  · intro k hk
    show (processFrame realLibm exactCollab (acceptSpectra s cexX cexY)).frequencies.getD k 0 = _
    rw [k11]
    exact hfr k hk
  · exact (t2.trans (p2.trans d4)).trans ((congrArg DelayCore.est tc).symm)
  · intro k hk
    show (processFrame realLibm exactCollab (acceptSpectra s cexX cexY)).Gxx.getD k 0 = c1 ∧
      (processFrame realLibm exactCollab (acceptSpectra s cexX cexY)).Gyy.getD k 0 = c1 ∧
      (processFrame realLibm exactCollab (acceptSpectra s cexX cexY)).Gxy.getD k Cplx.zero =
        Cplx.smul c1 (cexUnit k)
    rw [g1, g2, g3]
    exact ⟨(hbins k hk).1, (hbins k hk).2.1, (hbins k hk).2.2.1⟩

end FallbackExampleFrame

section FallbackExampleRun

theorem two_pow_ne_838 (a : Nat) : (2 : Int) ^ a ≠ 838 := by
  intro h
  rcases Nat.lt_or_ge a 10 with h1 | h1
  · interval_cases a <;> norm_num at h
  · have h2 : (2 : Int) ^ 10 ≤ 2 ^ a := pow_le_pow_right₀ (by norm_num) h1
    rw [h] at h2
    norm_num at h2

theorem cexStart_phat : cexStart.phatFFT = false := by
  have h : cexStart.phatFFT =
      decide ((2 : Int) ^ (cRound (Real.logb 2 (((838 : Int) : ℝ)))).toNat = 838) := rfl
  rw [h]
  exact decide_eq_false (two_pow_ne_838 _)

theorem cexStart_sized : Sized cexStart 420 := by
  have h := sized_prepare realLibm exactCollab (initial : TFState ℝ) 838 419
  have e : (Int.tdiv ((exactCollab : Collab ℝ).analyzerSize 838 419) 2 + 1).toNat = 420 := by
    show (Int.tdiv 838 2 + 1).toNat = 420
    decide
  rw [e] at h
  exact h

theorem cexStart_frameDt : cexStart.frameDt = 209 / 419 := by
  show ((truncToInt (((838 : Int) : ℝ) * (1 - overlap)) : Int) : ℝ) / 419 = 209 / 419
  have h : truncToInt (((838 : Int) : ℝ) * (1 - overlap)) = 209 := by
    unfold truncToInt overlap
    rw [if_pos (by norm_num), Int.floor_eq_iff]
    constructor <;> norm_num
  rw [h]
  norm_num

theorem cexStart_alpha : cexStart.averagingAlpha = Real.exp (-(209 / 419) / (3 / 2)) := by
  have e : cexStart.averagingAlpha = Real.exp (-cexStart.frameDt / (3 / 2)) := rfl
  rw [e, cexStart_frameDt]

theorem prepare_frequencies_getD {K : Type} [LinearOrderedField K] [FloorRing K]
    (M : Libm K) (J : Collab K) (s : TFState K) (n : Int) (fs : K) (k : Nat)
    (hk : k < (Int.tdiv (J.analyzerSize n fs) 2 + 1).toNat) :
    (prepare M J s n fs).frequencies.getD k 0 =
      (k : K) * fs / ((J.analyzerSize n fs : Int) : K) := by
  have e : (if J.analyzerSize n fs ≠ n then J.analyzerSize n fs else n) = J.analyzerSize n fs := by
    split_ifs with h
    · rfl
    · exact (not_not.mp h).symm
  rw [← e] at hk ⊢
  exact getD_writeBins _ _ _ k 0 hk (by rw [length_resize]; exact hk)

theorem cexStart_frequencies (k : Nat) (hk : k < 420) :
    cexStart.frequencies.getD k 0 = (k : ℝ) * 419 / 838 := by
  have e : (Int.tdiv ((exactCollab : Collab ℝ).analyzerSize 838 419) 2 + 1).toNat = 420 := by
    show (Int.tdiv 838 2 + 1).toNat = 420
    decide
  have h := prepare_frequencies_getD realLibm exactCollab (initial : TFState ℝ) 838 419 k
    (hk.trans_eq e.symm)
  have h2 : cexStart.frequencies.getD k 0 = (k : ℝ) * 419 / ((838 : Int) : ℝ) := h
  rw [h2]
  norm_num

theorem cexInv_start : CexInv cexStart 0 := by
  have z1 : ∀ (k : Nat) (l : List ℝ), (fill l (0 : ℝ)).getD k 0 = 0 := by
    intro k l
    rw [fill_eq_replicate, List.getD_eq_getElem?_getD, List.getElem?_replicate]
    split_ifs <;> rfl
  have z2 : ∀ (k : Nat) (l : List (Cplx ℝ)),
      (fill l (Cplx.zero : Cplx ℝ)).getD k Cplx.zero = Cplx.zero := by
    intro k l
    rw [fill_eq_replicate, List.getD_eq_getElem?_getD, List.getElem?_replicate]
    split_ifs <;> rfl
  refine ⟨cexStart_sized, cexStart_phat, rfl, cexStart_frameDt, cexStart_alpha,
    cexStart_frequencies, rfl, ?_, rfl, rfl, 0, le_refl _, by norm_num, fun k _ => ?_⟩
  · show (0 : ℝ) = _
    norm_num
  · have e1 : cexStart.Gxx.getD k 0 = 0 := z1 k _
    have e2 : cexStart.Gyy.getD k 0 = 0 := z1 k _
    have e3 : cexStart.Gxy.getD k Cplx.zero = Cplx.zero := z2 k _
    refine ⟨e1, e2, e3.trans ?_⟩
    simp [Cplx.smul, Cplx.zero]

theorem cexInv_run (m : Nat) :
    ∀ (s : TFState ℝ) (n : Nat), CexInv s n →
      CexInv (runSpectra realLibm exactCollab s (List.replicate m (cexX, cexY))) (n + m) := by
  induction m with
  | zero =>
    intro s n h
    exact h
  | succ m ih =>
    intro s n h
    have h1 := ih (processSpectra realLibm exactCollab s cexX cexY) (n + 1) (cexInv_step s n h)
    have e : n + 1 + m = n + (m + 1) := by omega
    rw [e] at h1
    exact h1

theorem reachable_runSpectra {K : Type} [LinearOrderedField K] [FloorRing K]
    (M : Libm K) (J : Collab K) (frames : List (List (Cplx K) × List (Cplx K))) :
    ∀ s : TFState K, Reachable M J s → s.ready = true →
      Reachable M J (runSpectra M J s frames) := by
  induction frames with
  | nil =>
    intro s h _
    exact h
  | cons f fs ih =>
    intro s h hr
    obtain ⟨_, _, _, _, k5, _⟩ := sameConfig_processFrame M J (acceptSpectra s f.1 f.2)
    exact ih (processSpectra M J s f.1 f.2) (Reachable.frame s f.1 f.2 h hr) (k5.trans hr)

/-- C5 (counterexample): a processor prepared with 838 points at 419 Hz uses the regression
fallback; after eight frames whose measurement spectrum has a falling phase in the bins of
200 Hz and above, the state is reachable and `estimatedDelay = 369 / 6650` s, about 55.5 ms,
which exceeds the 50 ms of the claim. -/
theorem fallback_delay_exceeds_fifty_ms :
    Reachable realLibm exactCollab cexState ∧ cexState.phatFFT = false ∧
      cexState.estimatedDelay = 369 / 6650 ∧ ¬ |cexState.estimatedDelay| ≤ 1 / 20 := by
  have hinv : CexInv cexState (0 + 8) := cexInv_run 8 cexStart 0 cexInv_start
  obtain ⟨_, hphat, _, _, _, _, _, hest, _⟩ := hinv
  have he : cexState.estimatedDelay = 369 / 6650 := by
    rw [hest]
    norm_num
  refine ⟨?_, hphat, he, ?_⟩
  · exact reachable_runSpectra realLibm exactCollab _ cexStart
      (Reachable.prepare _ _ _ Reachable.init) rfl
  · rw [he]
    norm_num [abs_of_pos]

/-- Witness of C5 (amended): after one frame of silence on a processor prepared with four
points at 48 kHz, the state is reachable and both bounds hold. -/
theorem estimated_delay_bounds_witness :
    Reachable realLibm exactCollab
      (processSpectra realLibm exactCollab preparedFour silentSpectrum silentSpectrum) ∧
    ((processSpectra realLibm exactCollab preparedFour silentSpectrum silentSpectrum).phatFFT
        = true →
      |(processSpectra realLibm exactCollab preparedFour silentSpectrum
        silentSpectrum).estimatedDelay| ≤ 1 / 20) ∧
    ((processSpectra realLibm exactCollab preparedFour silentSpectrum silentSpectrum).phatFFT
        = false →
      |(processSpectra realLibm exactCollab preparedFour silentSpectrum
        silentSpectrum).estimatedDelay| ≤ 1 / 10) :=
  ⟨Reachable.frame _ _ _ (Reachable.prepare _ _ _ Reachable.init) rfl,
    estimated_delay_bounds realLibm exactCollab _
      (Reachable.frame _ _ _ (Reachable.prepare _ _ _ Reachable.init) rfl)⟩

end FallbackExampleRun

section AveragingFormula

variable {K : Type} [LinearOrderedField K] [FloorRing K]

/-- C11: one call of `updateAverages` with coefficient `alpha = averagingAlpha` maps every bin
`k` to `Gxx' = alpha * Gxx + (1 - alpha) * |X|^2`, `Gyy' = alpha * Gyy + (1 - alpha) * |Y|^2`,
`Gxy' = alpha * Gxy + (1 - alpha) * Y * conj X`, and then stores `H = Gxy' / (Gxx' + eps)` and
`gamma2 = |Gxy'|^2 / (Gxx' * Gyy' + eps)`, both computed from the updated averages, with
`eps = 1e-12`. -/
theorem updateAverages_bin (s : TFState K) (n k : Nat) (hs : Sized s n) (hk : k < n) :
    (updateAverages s).Gxx.getD k 0 =
      s.averagingAlpha * s.Gxx.getD k 0 +
        (1 - s.averagingAlpha) * Cplx.norm (s.X.getD k Cplx.zero) ∧
    (updateAverages s).Gyy.getD k 0 =
      s.averagingAlpha * s.Gyy.getD k 0 +
        (1 - s.averagingAlpha) * Cplx.norm (s.Y.getD k Cplx.zero) ∧
    (updateAverages s).Gxy.getD k Cplx.zero =
      Cplx.add (Cplx.smul s.averagingAlpha (s.Gxy.getD k Cplx.zero))
        (Cplx.smul (1 - s.averagingAlpha)
          (Cplx.mul (s.Y.getD k Cplx.zero) (Cplx.conj (s.X.getD k Cplx.zero)))) ∧
    (updateAverages s).H.getD k Cplx.zero =
      Cplx.divR ((updateAverages s).Gxy.getD k Cplx.zero)
        ((updateAverages s).Gxx.getD k 0 + eps) ∧
    (updateAverages s).gamma2.getD k 0 =
      Cplx.norm ((updateAverages s).Gxy.getD k Cplx.zero) /
        ((updateAverages s).Gxx.getD k 0 * (updateAverages s).Gyy.getD k 0 + eps) ∧
    (eps : K) = 1 / 10 ^ 12 := by
  obtain ⟨sX, _, sxx, syy, sxy, sH, _, _, sg, _⟩ := hs
  have e1 : (updateAverages s).Gxx.getD k 0 = (averagedBin s k).gxx :=
    getD_writeBins _ _ _ k 0 (hk.trans_eq sX.symm) (hk.trans_eq sxx.symm)
  have e2 : (updateAverages s).Gyy.getD k 0 = (averagedBin s k).gyy :=
    getD_writeBins _ _ _ k 0 (hk.trans_eq sX.symm) (hk.trans_eq syy.symm)
  have e3 : (updateAverages s).Gxy.getD k Cplx.zero = (averagedBin s k).gxy :=
    getD_writeBins _ _ _ k _ (hk.trans_eq sX.symm) (hk.trans_eq sxy.symm)
  have e4 : (updateAverages s).H.getD k Cplx.zero = (averagedBin s k).h :=
    getD_writeBins _ _ _ k _ (hk.trans_eq sX.symm) (hk.trans_eq sH.symm)
  have e5 : (updateAverages s).gamma2.getD k 0 = (averagedBin s k).g2 :=
    getD_writeBins _ _ _ k 0 (hk.trans_eq sX.symm) (hk.trans_eq sg.symm)
  rw [e1, e2, e3, e4, e5]
  exact ⟨rfl, rfl, rfl, rfl, rfl, rfl⟩

end AveragingFormula

section AveragingFormulaWitness

theorem updateAverages_bin_witness :
    (updateAverages preparedFour).H.getD 1 Cplx.zero =
      Cplx.divR ((updateAverages preparedFour).Gxy.getD 1 Cplx.zero)
        ((updateAverages preparedFour).Gxx.getD 1 0 + eps) :=
  (updateAverages_bin preparedFour 3 1 preparedFour_sized (by decide)).2.2.2.1

end AveragingFormulaWitness

section FrameCounter

variable {K : Type} [LinearOrderedField K] [FloorRing K]

theorem frameCount_averagingStep (M : Libm K) (s : TFState K) :
    (averagingStep M s).frameCount = s.frameCount := by
  unfold averagingStep
  split_ifs <;> rfl

theorem frameCount_smoothAndLock (s : TFState K) (d : K) :
    (smoothAndLock s d).frameCount = s.frameCount := by
  simp only [smoothAndLock]
  split_ifs <;> rfl

theorem frameCount_estimateDelayPhaseBased (M : Libm K) (s : TFState K) :
    (estimateDelayPhaseBased M s).frameCount = s.frameCount := by
  simp only [estimateDelayPhaseBased]
  split_ifs <;> rfl

theorem frameCount_estimateDelay (M : Libm K) (J : Collab K) (s : TFState K) :
    (estimateDelay M J s).frameCount = s.frameCount := by
  simp only [estimateDelay]
  split_ifs
  · exact frameCount_estimateDelayPhaseBased M s
  · exact frameCount_smoothAndLock _ _

theorem frameCount_delayStep (M : Libm K) (J : Collab K) (s : TFState K) :
    (delayStep M J s).frameCount = s.frameCount := by
  simp only [delayStep]
  split_ifs
  all_goals
    first
    | exact frameCount_estimateDelay M J _
    | rfl

theorem frameCount_compensationStep (M : Libm K) (s : TFState K) :
    (compensationStep M s).frameCount = s.frameCount := by
  simp only [compensationStep, applyDelayCompensation]
  split_ifs <;> rfl

theorem frameCount_applySmoothing (M : Libm K) (s : TFState K) :
    (applySmoothing M s).frameCount = s.frameCount := by
  simp only [applySmoothing]
  split_ifs <;> rfl

theorem frameCount_unwrapPhase (M : Libm K) (s : TFState K) :
    (unwrapPhase M s).frameCount = s.frameCount := by
  simp only [unwrapPhase]
  split_ifs <;> rfl

theorem frameCount_processFrame (M : Libm K) (J : Collab K) (s : TFState K) :
    (processFrame M J s).frameCount = s.frameCount + 1 := by
  have e : (processFrame M J s).frameCount =
      (unwrapPhase M (applySmoothing M (compensationStep M (delayStep M J
        (averagingStep M { s with frameCount := s.frameCount + 1 }))))).frameCount := rfl
  rw [e, frameCount_unwrapPhase, frameCount_applySmoothing, frameCount_compensationStep,
    frameCount_delayStep, frameCount_averagingStep]

theorem frameCount_processSpectra (M : Libm K) (J : Collab K) (s : TFState K)
    (Xs Ys : List (Cplx K)) :
    (processSpectra M J s Xs Ys).frameCount = s.frameCount + 1 :=
  frameCount_processFrame M J (acceptSpectra s Xs Ys)

theorem frameCount_runSpectra (M : Libm K) (J : Collab K)
    (frames : List (List (Cplx K) × List (Cplx K))) :
    ∀ s : TFState K, (runSpectra M J s frames).frameCount = s.frameCount + (frames.length : Int) := by
  induction frames with
  | nil =>
    intro s
    simp [runSpectra]
  | cons f fs ih =>
    intro s
    have e : runSpectra M J s (f :: fs) = runSpectra M J (processSpectra M J s f.1 f.2) fs := rfl
    rw [e, ih, frameCount_processSpectra, List.length_cons]
    push_cast
    ring

theorem config_runSpectra (M : Libm K) (J : Collab K)
    (frames : List (List (Cplx K) × List (Cplx K))) :
    ∀ s : TFState K, (runSpectra M J s frames).frameDt = s.frameDt ∧
      (runSpectra M J s frames).averagingAlpha = s.averagingAlpha ∧
      (runSpectra M J s frames).averagingTime = s.averagingTime := by
  induction frames with
  | nil =>
    intro s
    exact ⟨rfl, rfl, rfl⟩
  | cons f fs ih =>
    intro s
    have e : runSpectra M J s (f :: fs) = runSpectra M J (processSpectra M J s f.1 f.2) fs := rfl
    obtain ⟨_, _, _, _, _, _, k7, k8, k9, _⟩ := sameConfig_processFrame M J (acceptSpectra s f.1 f.2)
    obtain ⟨i1, i2, i3⟩ := ih (processSpectra M J s f.1 f.2)
    rw [e]
    exact ⟨i1.trans k7, i2.trans k8, i3.trans k9⟩

/-- The averages left by one processed frame are those of `updateAverages` run with the
coefficient `frameAlpha`. -/
theorem processSpectra_alpha (M : Libm K) (J : Collab K) (s : TFState K)
    (Xs Ys : List (Cplx K)) :
    SameAverages
      (updateAverages
        { acceptSpectra s Xs Ys with
          frameCount := s.frameCount + 1
          averagingAlpha := frameAlpha M s })
      (processSpectra M J s Xs Ys) := by
  refine sameAverages_trans ?_ (sameAverages_processFrame M J (acceptSpectra s Xs Ys))
  unfold frameAlpha averagingStep
  by_cases h : s.frameCount + 1 ≤ fastAveragingFrames
  · have h2 : ({ acceptSpectra s Xs Ys with
        frameCount := (acceptSpectra s Xs Ys).frameCount + 1 } : TFState K).frameCount ≤
        fastAveragingFrames := h
    rw [if_pos h, if_pos h2]
    exact ⟨rfl, rfl, rfl, rfl, rfl⟩
  · have h2 : ¬ ({ acceptSpectra s Xs Ys with
        frameCount := (acceptSpectra s Xs Ys).frameCount + 1 } : TFState K).frameCount ≤
        fastAveragingFrames := h
    rw [if_neg h, if_neg h2]
    exact ⟨rfl, rfl, rfl, rfl, rfl⟩

end FrameCounter

section AveragingSchedule

/-- C12: counting the frames processed after `prepare` or `reset` from 1, frame `m + 1` is
averaged with `alpha = exp(-frameDt / 0.3)` when `m + 1 ≤ 30` and with the stored
`averagingAlpha` when `m + 1 > 30`; the stored coefficient is not changed by the frames nor
by `reset`, and `prepare` sets it to `exp(-frameDt / Tavg)` with `frameDt = hopSize /
sampleRate` and `Tavg` the averaging time it reads. When `hopSize ≥ 1`, `sampleRate > 0` and
`Tavg > 0`, both coefficients lie strictly between 0 and 1. -/
theorem averaging_coefficient_schedule (J : Collab ℝ) (s s0 : TFState ℝ) (nreq : Int) (fs : ℝ)
    (frames : List (List (Cplx ℝ) × List (Cplx ℝ))) (m : Nat)
    (hstart : s0 = reset s ∨ s0 = prepare realLibm J s nreq fs) (hm : m < frames.length) :
    SameAverages
      (updateAverages
        { acceptSpectra (runSpectra realLibm J s0 (frames.take m)) (frames.get ⟨m, hm⟩).1
            (frames.get ⟨m, hm⟩).2 with
          frameCount := (m : Int) + 1
          averagingAlpha :=
            if m + 1 ≤ 30 then Real.exp (-s0.frameDt / (3 / 10)) else s0.averagingAlpha })
      (runSpectra realLibm J s0 (frames.take (m + 1))) ∧
    (runSpectra realLibm J s0 (frames.take (m + 1))).averagingAlpha = s0.averagingAlpha ∧
    (reset s).averagingAlpha = s.averagingAlpha ∧ (reset s).frameDt = s.frameDt ∧
    (prepare realLibm J s nreq fs).frameDt = ((prepare realLibm J s nreq fs).hopSize : ℝ) / fs ∧
    (prepare realLibm J s nreq fs).averagingAlpha =
      Real.exp (-(prepare realLibm J s nreq fs).frameDt / s.averagingTime) ∧
    (1 ≤ (prepare realLibm J s nreq fs).hopSize → 0 < fs → 0 < s.averagingTime →
      0 < Real.exp (-(prepare realLibm J s nreq fs).frameDt / (3 / 10)) ∧
      Real.exp (-(prepare realLibm J s nreq fs).frameDt / (3 / 10)) < 1 ∧
      0 < (prepare realLibm J s nreq fs).averagingAlpha ∧
      (prepare realLibm J s nreq fs).averagingAlpha < 1) := by
  have hzero : s0.frameCount = 0 := by
    rcases hstart with h | h <;> rw [h] <;> rfl
  have hlen : (frames.take m).length = m := by
    rw [List.length_take]
    exact min_eq_left hm.le
  have hfc : (runSpectra realLibm J s0 (frames.take m)).frameCount = (m : Int) := by
    rw [frameCount_runSpectra, hzero, hlen, zero_add]
  obtain ⟨hdt, hal, _⟩ := config_runSpectra realLibm J (frames.take m) s0
  obtain ⟨_, hal1, _⟩ := config_runSpectra realLibm J (frames.take (m + 1)) s0
  have hfa : frameAlpha realLibm (runSpectra realLibm J s0 (frames.take m)) =
      if m + 1 ≤ 30 then Real.exp (-s0.frameDt / (3 / 10)) else s0.averagingAlpha := by
    unfold frameAlpha
    rw [hfc, hdt, hal]
    by_cases h : m + 1 ≤ 30
    · rw [if_pos h, if_pos]
      · rfl
      · unfold fastAveragingFrames
        omega
    · rw [if_neg h, if_neg]
      unfold fastAveragingFrames
      omega
  have hstep := processSpectra_alpha realLibm J (runSpectra realLibm J s0 (frames.take m))
    (frames.get ⟨m, hm⟩).1 (frames.get ⟨m, hm⟩).2
  rw [hfc, hfa, ← runSpectra_take_succ realLibm J s0 frames m hm] at hstep
  have hprep : (prepare realLibm J s nreq fs).averagingAlpha =
      Real.exp (-(prepare realLibm J s nreq fs).frameDt / s.averagingTime) := rfl
  refine ⟨hstep, hal1, rfl, rfl, rfl, hprep, ?_⟩
  intro hhop hfs hT
  have hdtpos : 0 < (prepare realLibm J s nreq fs).frameDt := by
    rw [prepare_frameDt]
    have : (1 : ℝ) ≤ ((prepare realLibm J s nreq fs).hopSize : ℝ) := by exact_mod_cast hhop
    exact div_pos (by linarith) hfs
  have hneg1 : -(prepare realLibm J s nreq fs).frameDt / (3 / 10) < 0 := by
    rw [neg_div]
    exact neg_lt_zero.mpr (div_pos hdtpos (by norm_num))
  have hneg2 : -(prepare realLibm J s nreq fs).frameDt / s.averagingTime < 0 := by
    rw [neg_div]
    exact neg_lt_zero.mpr (div_pos hdtpos hT)
  rw [hprep]
  exact ⟨Real.exp_pos _, Real.exp_lt_one_iff.mpr hneg1, Real.exp_pos _, Real.exp_lt_one_iff.mpr hneg2⟩

theorem averaging_coefficient_schedule_witness :
    0 < preparedFour.averagingAlpha ∧ preparedFour.averagingAlpha < 1 :=
  ((averaging_coefficient_schedule exactCollab initial preparedFour 4 48000
      [(silentSpectrum, silentSpectrum)] 0 (Or.inr rfl) Nat.zero_lt_one).2.2.2.2.2.2
    (le_of_eq preparedFour_config.2.1.symm) (by norm_num)
    (by show (0 : ℝ) < 3 / 2; norm_num)).2.2

end AveragingSchedule

section Retuning

/-- C13: `setAveragingTime` stores the time constant and leaves `averagingAlpha` as it is.
On a processor prepared with four points at 48 kHz and the default `Tavg = 1.5 s`, after
`setAveragingTime(3.0)` and the thirty frames of the fast window, frame 31 is averaged with
`exp(-frameDt / 1.5)`, the coefficient computed by `prepare`, which differs from
`exp(-frameDt / 3.0)`. -/
theorem setAveragingTime_leaves_alpha (s : TFState ℝ) (T : ℝ) (Xs Ys : List (Cplx ℝ)) :
    (setAveragingTime s T).averagingAlpha = s.averagingAlpha ∧
    (setAveragingTime s T).averagingTime = T ∧
    tunedRun.averagingTime = 3 ∧ tunedRun.frameDt = 1 / 48000 ∧ tunedRun.frameCount = 30 ∧
    SameAverages
      (updateAverages
        { acceptSpectra tunedRun Xs Ys with
          frameCount := 31
          averagingAlpha := Real.exp (-(1 / 48000) / (3 / 2)) })
      (processSpectra realLibm exactCollab tunedRun Xs Ys) ∧
    Real.exp (-(1 / 48000) / (3 / 2)) ≠ Real.exp (-tunedRun.frameDt / tunedRun.averagingTime) := by
  obtain ⟨hdt, hal, hT⟩ := config_runSpectra realLibm exactCollab
    (List.replicate 30 (silentSpectrum, silentSpectrum)) tunedFour
  have hdt1 : tunedRun.frameDt = 1 / 48000 := hdt.trans preparedFour_frameDt
  have hT1 : tunedRun.averagingTime = 3 := hT
  have hal0 : preparedFour.averagingAlpha = Real.exp (-preparedFour.frameDt / (3 / 2)) := rfl
  have hal1 : tunedRun.averagingAlpha = Real.exp (-(1 / 48000) / (3 / 2)) := by
    rw [← preparedFour_frameDt, ← hal0]
    exact hal
  have hfc : tunedRun.frameCount = 30 := by
    have h := frameCount_runSpectra realLibm exactCollab
      (List.replicate 30 (silentSpectrum, silentSpectrum)) tunedFour
    rw [List.length_replicate] at h
    have h0 : tunedFour.frameCount = 0 := rfl
    rw [h0] at h
    exact h.trans (by norm_num)
  have hfa : frameAlpha realLibm tunedRun = Real.exp (-(1 / 48000) / (3 / 2)) := by
    unfold frameAlpha
    rw [hfc, if_neg (by unfold fastAveragingFrames; decide), hal1]
  have hstep := processSpectra_alpha realLibm exactCollab tunedRun Xs Ys
  rw [hfa, hfc] at hstep
  refine ⟨rfl, rfl, hT1, hdt1, hfc, hstep, ?_⟩
  rw [hdt1, hT1]
  intro h
  have h2 := Real.exp_injective h
  norm_num at h2

end Retuning

section LoopInvariants

variable {K : Type} [LinearOrderedField K] [FloorRing K]

/-- A property kept by every iteration of the frame loop holds when the loop returns. -/
theorem tryProcess_invariant (M : Libm K) (J : Collab K) (P : TFState K → Prop)
    (hstep : ∀ s, P s → P (frameIteration M J s).2) :
    ∀ (fuel : Nat) (s t : TFState K) (frames : List (List K × List K)),
      P s → tryProcessSynchronizedFrames M J fuel s = some (frames, t) → P t := by
  intro fuel
  induction fuel with
  | zero =>
    intro s t frames hb h
    by_cases hav : framesAvailable s = true
    · simp [tryProcessSynchronizedFrames, hav] at h
    · simp only [tryProcessSynchronizedFrames, hav, Bool.false_eq_true, if_false,
        Option.some.injEq, Prod.mk.injEq] at h
      rw [← h.2]
      exact hb
  | succ fuel ih =>
    intro s t frames hb h
    by_cases hav : framesAvailable s = true
    · rw [tryProcessSynchronizedFrames] at h
      simp only [hav, if_true] at h
      cases hr : tryProcessSynchronizedFrames M J fuel (frameIteration M J s).2 with
      | none => simp [hr] at h
      | some q =>
        rw [hr] at h
        simp only [Option.some.injEq, Prod.mk.injEq] at h
        have hq : q = (q.1, t) := by rw [← h.2]
        rw [hq] at hr
        exact ih _ t q.1 (hstep s hb) hr
    · rw [tryProcessSynchronizedFrames] at h
      simp only [hav, Bool.false_eq_true, if_false, Option.some.injEq, Prod.mk.injEq] at h
      rw [← h.2]
      exact hb

/-- A property that does not depend on the sample buffers and is kept by every iteration of
the frame loop holds after every `processBlock` call that returns. -/
theorem processBlock_invariant (M : Libm K) (J : Collab K) (P : TFState K → Prop)
    (hbuf : ∀ (s : TFState K) (r m : List K),
      P s → P { s with referenceBuffer := r, measurementBuffer := m })
    (hstep : ∀ s, P s → P (frameIteration M J s).2)
    (fuel : Nat) (s t : TFState K) (ref meas : List K) (n : Int)
    (frames : List (List K × List K)) (hs : P s)
    (hrun : processBlock M J fuel s ref meas n = some (frames, t)) : P t := by
  unfold processBlock at hrun
  split_ifs at hrun
  · simp only [Option.some.injEq, Prod.mk.injEq] at hrun
    rw [← hrun.2]
    exact hs
  · exact tryProcess_invariant M J P hstep fuel _ t frames (hbuf s _ _ hs) hrun

theorem delayLocked_estimateDelayPhaseBased (M : Libm K) (s : TFState K) :
    (estimateDelayPhaseBased M s).delayLocked = s.delayLocked := by
  simp only [estimateDelayPhaseBased]
  split_ifs <;> rfl

theorem estimateDelay_fallback (M : Libm K) (J : Collab K) (s : TFState K)
    (hf : s.phatFFT = false) : estimateDelay M J s = estimateDelayPhaseBased M s := by
  unfold estimateDelay
  exact if_pos hf

theorem delayLocked_delayStep_fallback (M : Libm K) (J : Collab K) (s : TFState K)
    (hf : s.phatFFT = false) : (delayStep M J s).delayLocked = s.delayLocked := by
  by_cases h : s.delayUpdateCounter + 1 ≥ (if s.delayLocked = true then 20 else 2)
  · rw [delayStep_due M J s h,
      estimateDelay_fallback M J { s with delayUpdateCounter := 0 } hf,
      delayLocked_estimateDelayPhaseBased]
  · rw [delayStep_not_due M J s h]

theorem delayLocked_compensationStep (M : Libm K) (s : TFState K) :
    (compensationStep M s).delayLocked = s.delayLocked := by
  simp only [compensationStep, applyDelayCompensation]
  split_ifs <;> rfl

theorem delayLocked_processFrame_fallback (M : Libm K) (J : Collab K) (s : TFState K)
    (hf : s.phatFFT = false) :
    (processFrame M J s).phatFFT = false ∧ (processFrame M J s).delayLocked = s.delayLocked := by
  obtain ⟨_, _, _, _, _, _, _, _, _, _, _, k12, _, _⟩ := sameConfig_processFrame M J s
  obtain ⟨t1, _⟩ := sameDelay_after_compensation M J s
  obtain ⟨q1, _⟩ := sameDelay_averagingStep M { s with frameCount := s.frameCount + 1 }
  obtain ⟨_, _, _, _, _, _, _, _, _, _, _, r12, _, _⟩ :=
    sameConfig_averagingStep M { s with frameCount := s.frameCount + 1 }
  refine ⟨k12.trans hf, ?_⟩
  have e1 := congrArg DelayCore.locked t1
  have e2 := congrArg DelayCore.locked q1
  exact e1.trans ((delayLocked_compensationStep M _).trans
    ((delayLocked_delayStep_fallback M J _ (r12.trans hf)).trans e2))

/-- On the fallback path no call other than `prepare` changes the lock flag. -/
theorem fallback_afterCalls (M : Libm K) (J : Collab K) (s0 : TFState K)
    (hf : s0.phatFFT = false) (hl : s0.delayLocked = false) :
    ∀ t, AfterCalls M J s0 t → t.phatFFT = false ∧ t.delayLocked = false := by
  intro t h
  induction h with
  | start => exact ⟨hf, hl⟩
  | reset s _ ih => exact ih
  | averagingTime s x _ ih => exact ih
  | smoothingOctaves s x _ ih => exact ih
  | block s t fuel ref meas n frames _ hrun ih =>
    refine processBlock_invariant M J (fun u => u.phatFFT = false ∧ u.delayLocked = false)
      (fun _ _ _ h => h) ?_ fuel s t ref meas n frames ih hrun
    intro u hu
    obtain ⟨a, b⟩ := delayLocked_processFrame_fallback M J
      { acceptSpectra u (J.analyze (u.referenceBuffer.take u.fftSize.toNat))
          (J.analyze (u.measurementBuffer.take u.fftSize.toNat)) with
        referenceBuffer := u.referenceBuffer.drop u.hopSize.toNat
        measurementBuffer := u.measurementBuffer.drop u.hopSize.toNat } hu.1
    exact ⟨a, b.trans hu.2⟩

end LoopInvariants

section FastPathSelection

theorem prepare_phatFFT {K : Type} [LinearOrderedField K] [FloorRing K] (M : Libm K)
    (J : Collab K) (s : TFState K) (n : Int) (fs : K) :
    (prepare M J s n fs).phatFFT =
      decide ((2 : Int) ^ (cRound (M.log2 ((J.analyzerSize n fs : Int) : K))).toNat =
        J.analyzerSize n fs) ∧
    (prepare M J s n fs).phatFftOrder = cRound (M.log2 ((J.analyzerSize n fs : Int) : K)) ∧
    (prepare M J s n fs).delayLocked = false := by
  have e : (if J.analyzerSize n fs ≠ n then J.analyzerSize n fs else n) = J.analyzerSize n fs := by
    split_ifs with h
    · rfl
    · exact (not_not.mp h).symm
  rw [← e]
  exact ⟨rfl, rfl, rfl⟩

theorem cRound_natCast (a : Nat) : cRound ((a : ℝ)) = (a : Int) := by
  unfold cRound
  rw [if_pos (Nat.cast_nonneg a), Int.floor_eq_iff]
  constructor
  · push_cast
    linarith
  · push_cast
    linarith

theorem logb_two_pow (a : Nat) : Real.logb 2 ((((2 : Int) ^ a : Int)) : ℝ) = (a : ℝ) := by
  have e : ((((2 : Int) ^ a : Int)) : ℝ) = (2 : ℝ) ^ a := by push_cast; rfl
  rw [e, Real.logb_pow, Real.logb_self_eq_one (by norm_num), mul_one]

theorem cRound_logb_bounds (N : Int) (h1 : 1 ≤ N) (h2 : N ≤ 2 ^ 30) :
    0 ≤ cRound (Real.logb 2 ((N : Int) : ℝ)) ∧ cRound (Real.logb 2 ((N : Int) : ℝ)) ≤ 30 := by
  have hN1 : (1 : ℝ) ≤ (N : ℝ) := by exact_mod_cast h1
  have hN2 : (N : ℝ) ≤ (2 : ℝ) ^ (30 : ℕ) := by exact_mod_cast h2
  have h0 : 0 ≤ Real.logb 2 (N : ℝ) := Real.logb_nonneg (by norm_num) hN1
  have h30 : Real.logb 2 (N : ℝ) ≤ 30 := by
    have h := Real.logb_le_logb_of_le (by norm_num : (1 : ℝ) < 2) (by linarith) hN2
    rw [Real.logb_pow, Real.logb_self_eq_one (by norm_num)] at h
    simpa using h
  unfold cRound
  rw [if_pos h0]
  constructor
  · exact Int.floor_nonneg.mpr (by linarith)
  · have : Int.floor (Real.logb 2 (N : ℝ) + 1 / 2) < 31 := by
      rw [Int.floor_lt]
      push_cast
      linarith
    omega

/-- C14: for an effective transform size `N` with `1 ≤ N ≤ 2^30`, `prepare` enables the fast
path exactly when `N` is a power of two (the order it computes lies in `0 .. 30`, so the
shift `1 << order` does not overflow); when the fast path is not enabled, in every state
produced from the prepared one by `processBlock`, `reset` and the setters the delay update
is the regression fallback and the lock flag is `false`. -/
theorem fast_path_iff_power_of_two (J : Collab ℝ) (s : TFState ℝ) (nreq : Int) (fs : ℝ)
    (h1 : 1 ≤ J.analyzerSize nreq fs) (h2 : J.analyzerSize nreq fs ≤ 2 ^ 30) :
    ((prepare realLibm J s nreq fs).phatFFT = true ↔
      ∃ a : Nat, J.analyzerSize nreq fs = 2 ^ a) ∧
    0 ≤ (prepare realLibm J s nreq fs).phatFftOrder ∧
    (prepare realLibm J s nreq fs).phatFftOrder ≤ 30 ∧
    ((prepare realLibm J s nreq fs).phatFFT = false →
      ∀ t, AfterCalls realLibm J (prepare realLibm J s nreq fs) t →
        t.phatFFT = false ∧ t.delayLocked = false ∧
        ∀ u : TFState ℝ, u.phatFFT = t.phatFFT →
          estimateDelay realLibm J u = estimateDelayPhaseBased realLibm u) := by
  obtain ⟨p1, p2, p3⟩ := prepare_phatFFT realLibm J s nreq fs
  have hlog : ∀ x : ℝ, realLibm.log2 x = Real.logb 2 x := fun _ => rfl
  rw [hlog] at p1 p2
  obtain ⟨b0, b30⟩ := cRound_logb_bounds _ h1 h2
  refine ⟨?_, p2 ▸ b0, p2 ▸ b30, ?_⟩
  · rw [p1, decide_eq_true_iff]
    constructor
    · intro h
      exact ⟨_, h.symm⟩
    · rintro ⟨a, ha⟩
      rw [ha, logb_two_pow, cRound_natCast, Int.toNat_ofNat]
  · intro hf t ht
    obtain ⟨a, b⟩ := fallback_afterCalls realLibm J _ hf p3 t ht
    exact ⟨a, b, fun u hu => estimateDelay_fallback realLibm J u (hu.trans a)⟩

theorem fast_path_iff_power_of_two_witness :
    (preparedFour.phatFFT = true ↔ ∃ a : Nat, (4 : Int) = 2 ^ a) ∧
    ((prepare realLibm exactCollab initial 838 419).phatFFT = false →
      ∀ t, AfterCalls realLibm exactCollab (prepare realLibm exactCollab initial 838 419) t →
        t.phatFFT = false ∧ t.delayLocked = false ∧
        ∀ u : TFState ℝ, u.phatFFT = t.phatFFT →
          estimateDelay realLibm exactCollab u = estimateDelayPhaseBased realLibm u) :=
  ⟨(fast_path_iff_power_of_two exactCollab initial 4 48000 (by decide) (by decide)).1,
    (fast_path_iff_power_of_two exactCollab initial 838 419 (by decide) (by decide)).2.2.2⟩

end FastPathSelection

section Compensation

variable {K : Type} [LinearOrderedField K] [FloorRing K]

theorem hCompensated_applySmoothing (M : Libm K) (s : TFState K) :
    (applySmoothing M s).H_compensated = s.H_compensated := by
  simp only [applySmoothing]
  split_ifs <;> rfl

theorem hCompensated_unwrapPhase (M : Libm K) (s : TFState K) :
    (unwrapPhase M s).H_compensated = s.H_compensated := by
  simp only [unwrapPhase]
  split_ifs <;> rfl

theorem processFrame_stages (M : Libm K) (J : Collab K) (s : TFState K) :
    (processFrame M J s).H_compensated =
      (compensationStep M (delayedStage M J s)).H_compensated ∧
    (processFrame M J s).H = (delayedStage M J s).H ∧
    (processFrame M J s).frequencies = s.frequencies ∧
    (delayedStage M J s).frequencies = s.frequencies := by
  have e : (processFrame M J s).H_compensated =
      (unwrapPhase M (applySmoothing M
        (compensationStep M (delayedStage M J s)))).H_compensated := rfl
  obtain ⟨_, _, _, a4, _⟩ := sameAverages_processFrame M J s
  obtain ⟨_, _, _, b4, _⟩ := sameAverages_delayStep M J
    (averagingStep M { s with frameCount := s.frameCount + 1 })
  obtain ⟨_, _, _, _, _, _, _, _, _, _, k11, _⟩ := sameConfig_processFrame M J s
  obtain ⟨_, _, _, _, _, _, _, _, _, _, d11, _⟩ := sameConfig_delayStep M J
    (averagingStep M { s with frameCount := s.frameCount + 1 })
  obtain ⟨_, _, _, _, _, _, _, _, _, _, v11, _⟩ := sameConfig_averagingStep M
    { s with frameCount := s.frameCount + 1 }
  refine ⟨?_, a4.trans b4.symm, k11, d11.trans v11⟩
  rw [e, hCompensated_unwrapPhase, hCompensated_applySmoothing]

theorem sized_delayedStage (M : Libm K) (J : Collab K) (s : TFState K) (n : Nat)
    (hs : Sized s n) : Sized (delayedStage M J s) n :=
  sized_delayStep M J _ n (sized_averagingStep M _ n hs)

theorem compensationStep_small (M : Libm K) (s : TFState K)
    (h : |s.estimatedDelay| ≤ 1 / 10 ^ 6) :
    (compensationStep M s).H_compensated = s.H := by
  unfold compensationStep
  rw [if_neg (not_lt.mpr h)]

theorem compensationStep_bin (M : Libm K) (s : TFState K) (n k : Nat) (hs : Sized s n)
    (hk : k < n) (h1 : 1 / 10 ^ 6 < |s.estimatedDelay|) (h2 : |s.estimatedDelay| ≤ 1 / 10) :
    (compensationStep M s).H_compensated.getD k Cplx.zero =
      Cplx.mul (s.H.getD k Cplx.zero)
        (cexpI M (2 * M.pi * s.frequencies.getD k 0 * s.estimatedDelay)) := by
  obtain ⟨_, _, _, _, _, sH, sHc, _⟩ := hs
  have hd : decide (|s.estimatedDelay| > 1 / 10) = false := decide_eq_false (not_lt.mpr h2)
  unfold compensationStep
  rw [if_pos h1]
  simp only [applyDelayCompensation, hd, Bool.false_eq_true, if_false]
  exact getD_writeBins _ _ _ k _ (hk.trans_eq sH.symm) (hk.trans_eq sHc.symm)

end Compensation

section CompensationReal

theorem cexpI_real (phi : ℝ) : cexpI realLibm phi = ⟨Real.cos phi, Real.sin phi⟩ := by
  show (⟨Real.exp 0 * Real.cos phi, Real.exp 0 * Real.sin phi⟩ : Cplx ℝ) = _
  rw [Real.exp_zero, one_mul, one_mul]

theorem norm_mul_cexpI (h : Cplx ℝ) (phi : ℝ) :
    Cplx.norm (Cplx.mul h (cexpI realLibm phi)) = Cplx.norm h := by
  rw [cexpI_real]
  simp only [Cplx.norm, Cplx.mul]
  have hcs := Real.cos_sq_add_sin_sq phi
  nlinarith [hcs]

theorem mul_cexpI_cancel (A : Cplx ℝ) (phi : ℝ) :
    Cplx.mul (Cplx.mul A (cexpI realLibm (-phi))) (cexpI realLibm phi) = A := by
  rw [cexpI_real, cexpI_real, Real.cos_neg, Real.sin_neg]
  have hcs := Real.cos_sq_add_sin_sq phi
  ext
  · simp only [Cplx.mul]
    linear_combination A.re * hcs
  · simp only [Cplx.mul]
    linear_combination A.im * hcs

/-- C15: in `processFrame`, with `tau` the estimated delay after the delay update: when
`1e-6 < |tau| ≤ 0.1`, every bin has `H_compensated[k] = H[k] * exp(j * 2 * pi * f_k * tau)`,
so `|H_compensated[k]| = |H[k]|`, a pure-delay response `H[k] = A * exp(-j * 2 * pi * f_k *
tau)` is mapped to `A`, and `tau` is the delay the frame leaves; when `|tau| ≤ 1e-6`,
`H_compensated` is a copy of `H`. -/
theorem delay_compensation_rotates (J : Collab ℝ) (s : TFState ℝ) (n k : Nat) (hs : Sized s n)
    (hk : k < n) :
    (1 / 10 ^ 6 < |(delayedStage realLibm J s).estimatedDelay| →
      |(delayedStage realLibm J s).estimatedDelay| ≤ 1 / 10 →
      (processFrame realLibm J s).H_compensated.getD k Cplx.zero =
        Cplx.mul ((processFrame realLibm J s).H.getD k Cplx.zero)
          (cexpI realLibm (2 * Real.pi * (processFrame realLibm J s).frequencies.getD k 0 *
            (delayedStage realLibm J s).estimatedDelay)) ∧
      cabs realLibm ((processFrame realLibm J s).H_compensated.getD k Cplx.zero) =
        cabs realLibm ((processFrame realLibm J s).H.getD k Cplx.zero) ∧
      (∀ A : Cplx ℝ,
        (processFrame realLibm J s).H.getD k Cplx.zero =
          Cplx.mul A (cexpI realLibm
            (-(2 * Real.pi * (processFrame realLibm J s).frequencies.getD k 0 *
              (delayedStage realLibm J s).estimatedDelay))) →
        (processFrame realLibm J s).H_compensated.getD k Cplx.zero = A) ∧
      (processFrame realLibm J s).estimatedDelay = (delayedStage realLibm J s).estimatedDelay) ∧
    (|(delayedStage realLibm J s).estimatedDelay| ≤ 1 / 10 ^ 6 →
      (processFrame realLibm J s).H_compensated = (processFrame realLibm J s).H) := by
  obtain ⟨e1, e2, e3, e4⟩ := processFrame_stages realLibm J s
  constructor
  · intro h1 h2
    have hbin := compensationStep_bin realLibm (delayedStage realLibm J s) n k
      (sized_delayedStage realLibm J s n hs) hk h1 h2
    rw [← e1, ← e2, e4, ← e3] at hbin
    have hpi : realLibm.pi = Real.pi := rfl
    rw [hpi] at hbin
    refine ⟨hbin, ?_, ?_, ?_⟩
    · unfold cabs
      rw [hbin, norm_mul_cexpI]
    · intro A hA
      rw [hbin, hA, mul_cexpI_cancel]
    · obtain ⟨t1, _⟩ := sameDelay_after_compensation realLibm J s
      have hc := delayCore_compensationStep realLibm (delayedStage realLibm J s) h2
      exact congrArg DelayCore.est (t1.trans hc)
  · intro h
    rw [e1, e2]
    exact compensationStep_small realLibm _ h

theorem delay_compensation_rotates_witness :
    (processFrame realLibm exactCollab preparedFour).H_compensated =
      (processFrame realLibm exactCollab preparedFour).H ∧
    cabs realLibm ((processFrame realLibm exactCollab
        { preparedFour with estimatedDelay := 1 / 100 }).H_compensated.getD 1 Cplx.zero) =
      cabs realLibm ((processFrame realLibm exactCollab
        { preparedFour with estimatedDelay := 1 / 100 }).H.getD 1 Cplx.zero) :=
  have h0 : (delayedStage realLibm exactCollab preparedFour).estimatedDelay = 0 := rfl
  have h1 : (delayedStage realLibm exactCollab
      { preparedFour with estimatedDelay := 1 / 100 }).estimatedDelay = 1 / 100 := rfl
  ⟨(delay_compensation_rotates exactCollab preparedFour 3 1 preparedFour_sized (by decide)).2
      (by rw [h0]; norm_num),
    ((delay_compensation_rotates exactCollab { preparedFour with estimatedDelay := 1 / 100 } 3 1
      preparedFour_sized (by decide)).1 (by rw [h1]; norm_num [abs_of_pos])
      (by rw [h1]; norm_num [abs_of_pos])).2.1⟩

end CompensationReal

section SmoothingRefinement

variable {K : Type} [LinearOrderedField K] [FloorRing K]

theorem writeBins_eq_map {α : Type} (n : Nat) (f : Nat → α) (xs : List α)
    (h : xs.length = n) : writeBins n f xs = (List.range n).map f := by
  apply List.ext_getElem?
  intro i
  simp only [writeBins, List.getElem?_mapIdx, List.getElem?_map]
  by_cases hi : i < n
  · rw [List.getElem?_range hi, List.getElem?_eq_getElem (hi.trans_eq h.symm)]
    simp [hi]
  · have h1 : xs[i]? = none := List.getElem?_eq_none_iff.mpr (by omega)
    have h2 : (List.range n)[i]? = none :=
      List.getElem?_eq_none_iff.mpr (by rw [List.length_range]; omega)
    rw [h1, h2]
    rfl

theorem foldl_ite_eq_filter {α β : Type} (p : α → Prop) [DecidablePred p] (g : β → α → β) :
    ∀ (l : List α) (b : β),
      l.foldl (fun acc i => if p i then g acc i else acc) b =
        (l.filter (fun i => decide (p i))).foldl g b := by
  intro l
  induction l with
  | nil =>
    intro b
    rfl
  | cons a l ih =>
    intro b
    by_cases h : p a
    · simp only [List.foldl_cons, if_pos h, List.filter_cons, decide_eq_true h, if_true, ih]
    · simp only [List.foldl_cons, if_neg h, List.filter_cons, decide_eq_false h,
        Bool.false_eq_true, if_false, ih]

theorem cplx_add_assoc (a b c : Cplx K) :
    Cplx.add (Cplx.add a b) c = Cplx.add a (Cplx.add b c) := by
  ext
  · exact add_assoc _ _ _
  · exact add_assoc _ _ _

theorem cplx_add_zero (a : Cplx K) : Cplx.add a Cplx.zero = a := by
  ext
  · exact add_zero _
  · exact add_zero _

theorem cplx_zero_add (a : Cplx K) : Cplx.add Cplx.zero a = a := by
  ext
  · exact zero_add _
  · exact zero_add _

theorem foldl_band (h : Nat → Cplx K) (w : Nat → K) :
    ∀ (l : List Nat) (a : Cplx K) (b : K) (c : Int),
      l.foldl (fun (acc : Cplx K × K × Int) i => (Cplx.add acc.1 (h i), acc.2.1 + w i, acc.2.2 + 1))
          (a, b, c) =
        (Cplx.add a (Cplx.sum (l.map h)), b + (l.map w).sum, c + (l.length : Int)) := by
  intro l
  induction l with
  | nil =>
    intro a b c
    simp [Cplx.sum, cplx_add_zero]
  | cons i l ih =>
    intro a b c
    rw [List.foldl_cons, ih]
    have e1 : Cplx.sum ((i :: l).map h) = Cplx.add (h i) (Cplx.sum (l.map h)) := rfl
    rw [e1, cplx_add_assoc, List.map_cons, List.sum_cons, List.length_cons]
    push_cast
    refine Prod.ext rfl (Prod.ext ?_ ?_)
    · exact add_assoc _ _ _
    · show c + 1 + (l.length : Int) = c + ((l.length : Int) + 1)
      ring

theorem bandSums_eq (s : TFState K) (f1 f2 : K) :
    bandSums s f1 f2 =
      (Cplx.sum (((List.range s.H_compensated.length).filter (fun i =>
          decide (f1 ≤ s.frequencies.getD i 0 ∧ s.frequencies.getD i 0 ≤ f2))).map
          (fun i => Cplx.smul (max 0 (min 1 (s.gamma2.getD i 0)))
            (s.H_compensated.getD i Cplx.zero))),
        (((List.range s.H_compensated.length).filter (fun i =>
          decide (f1 ≤ s.frequencies.getD i 0 ∧ s.frequencies.getD i 0 ≤ f2))).map
          (fun i => max 0 (min 1 (s.gamma2.getD i 0)))).sum,
        ((((List.range s.H_compensated.length).filter (fun i =>
          decide (f1 ≤ s.frequencies.getD i 0 ∧ s.frequencies.getD i 0 ≤ f2))).length : Nat) :
          Int)) := by
  have h1 := foldl_ite_eq_filter
    (fun i => f1 ≤ s.frequencies.getD i 0 ∧ s.frequencies.getD i 0 ≤ f2)
    (fun (acc : Cplx K × K × Int) i =>
      (Cplx.add acc.1 (Cplx.smul (max 0 (min 1 (s.gamma2.getD i 0)))
        (s.H_compensated.getD i Cplx.zero)),
        acc.2.1 + max 0 (min 1 (s.gamma2.getD i 0)), acc.2.2 + 1))
    (List.range s.H_compensated.length) (Cplx.zero, 0, 0)
  have h2 := foldl_band
    (fun i => Cplx.smul (max 0 (min 1 (s.gamma2.getD i 0))) (s.H_compensated.getD i Cplx.zero))
    (fun i => max 0 (min 1 (s.gamma2.getD i 0)))
    ((List.range s.H_compensated.length).filter (fun i =>
      decide (f1 ≤ s.frequencies.getD i 0 ∧ s.frequencies.getD i 0 ≤ f2))) Cplx.zero 0 0
  rw [cplx_zero_add, zero_add, zero_add] at h2
  exact h1.trans h2

theorem smoothBin_eq_reference (M : Libm K) (s : TFState K) (k : Nat) :
    smoothBin M s s.smoothingOctaves k =
      smoothingReferenceBin M s.smoothingOctaves s.frequencies s.gamma2 s.H_compensated k := by
  simp only [smoothBin, smoothingReferenceBin]
  by_cases h : s.frequencies.getD k 0 < 20 ∨ s.frequencies.getD k 0 > 20000
  · rw [if_pos h, if_pos h]
  · rw [if_neg h, if_neg h, bandSums_eq]
    have hc : ∀ m : Nat, ((m : Int) ≥ 3) ↔ 3 ≤ m := by
      intro m
      omega
    simp only [hc]

/-- C16: the `H_smoothed` written by `applySmoothing` is the reference smoothing of
`H_compensated`: the identity when the bandwidth is below 1/96 octave; otherwise each bin is
kept when its frequency is outside `[20, 20000]`, and else replaced by the coherence-weighted
mean over the bins of its band when the weights sum to more than `eps` and the band holds at
least 3 bins, and kept otherwise. -/
theorem applySmoothing_refines (M : Libm K) (s : TFState K) (n : Nat) (hs : Sized s n) :
    (applySmoothing M s).H_smoothed =
      smoothingReference M s.smoothingOctaves s.frequencies s.gamma2 s.H_compensated := by
  obtain ⟨_, _, _, _, _, _, sHc, sHs, _⟩ := hs
  unfold applySmoothing smoothingReference
  by_cases h : s.smoothingOctaves < 1 / 96
  · simp only [h, if_true]
  · simp only [h, if_false]
    rw [writeBins_eq_map _ _ _ (sHs.trans sHc.symm)]
    exact List.map_congr_left (fun k _ => smoothBin_eq_reference M s k)

end SmoothingRefinement

section SmoothingRefinementWitness

theorem applySmoothing_refines_witness :
    (applySmoothing realLibm preparedFour).H_smoothed =
      smoothingReference realLibm preparedFour.smoothingOctaves preparedFour.frequencies
        preparedFour.gamma2 preparedFour.H_compensated :=
  applySmoothing_refines realLibm preparedFour 3 preparedFour_sized

end SmoothingRefinementWitness

section UnwrapEvaluation

end UnwrapEvaluation

section SparseBands

end SparseBands

section PublishedPhase

variable {K : Type} [LinearOrderedField K] [FloorRing K]

/-- The phase and coherence that `processFrame` publishes for bin `k` are computed from
`H_smoothed` and `gamma2` as the unwrapping stage leaves them: the phase is the principal
argument `atan2(im, re)` in degrees. -/
theorem processFrame_published (M : Libm K) (J : Collab K) (s : TFState K) (n k : Nat)
    (hs : Sized s n) (hk : k < n) :
    (processFrame M J s).phaseDegreesBuffer.getD k 0 =
      M.atan2 ((unwrappedStage M J s).H_smoothed.getD k Cplx.zero).im
        ((unwrappedStage M J s).H_smoothed.getD k Cplx.zero).re * 180 / M.pi ∧
    (processFrame M J s).coherenceBuffer.getD k 0 =
      max 0 (min 1 ((unwrappedStage M J s).gamma2.getD k 0)) ∧
    (unwrappedStage M J s).gamma2 =
      (averagingStep M { s with frameCount := s.frameCount + 1 }).gamma2 := by
  obtain ⟨_, _, _, _, _, _, _, u8, _, _, u11, u12, _⟩ := sized_unwrappedStage M J s n hs
  refine ⟨getD_writeBins _ _ _ k 0 (hk.trans_eq u8.symm) (hk.trans_eq u11.symm),
    getD_writeBins _ _ _ k 0 (hk.trans_eq u8.symm) (hk.trans_eq u12.symm), ?_⟩
  obtain ⟨_, _, _, _, a5⟩ := sameAverages_unwrapPhase M (applySmoothing M (compensationStep M
    (delayStep M J (averagingStep M { s with frameCount := s.frameCount + 1 }))))
  obtain ⟨_, _, _, _, b5⟩ := sameAverages_applySmoothing M (compensationStep M
    (delayStep M J (averagingStep M { s with frameCount := s.frameCount + 1 })))
  obtain ⟨_, _, _, _, c5⟩ := sameAverages_compensationStep M
    (delayStep M J (averagingStep M { s with frameCount := s.frameCount + 1 }))
  obtain ⟨_, _, _, _, d5⟩ := sameAverages_delayStep M J
    (averagingStep M { s with frameCount := s.frameCount + 1 })
  exact a5.trans (b5.trans (c5.trans d5))

end PublishedPhase

section PublishedPhaseReal

theorem carg_neg_real (x : ℝ) (hx : x < 0) : carg realLibm ⟨x, 0⟩ = Real.pi := by
  show Complex.arg ⟨x, 0⟩ = Real.pi
  rw [Complex.arg_eq_pi_iff]
  exact ⟨hx, rfl⟩

theorem carg_neg_imag (y : ℝ) (hy : y < 0) : carg realLibm ⟨0, y⟩ = -(Real.pi / 2) := by
  show Complex.arg ⟨0, y⟩ = -(Real.pi / 2)
  rw [Complex.arg_eq_neg_pi_div_two_iff]
  exact ⟨rfl, hy⟩

end PublishedPhaseReal

section FirstFrame

end FirstFrame

section WrappedFrame

end WrappedFrame

section WrappedPhaseExample

theorem acceptSpectra_getD {K : Type} [LinearOrderedField K] [FloorRing K] (s : TFState K)
    (Xs Ys : List (Cplx K)) (n k : Nat) (hs : Sized s n) (hX : Xs.length = n)
    (hY : Ys.length = n) (hk : k < n) :
    (acceptSpectra s Xs Ys).X.getD k Cplx.zero = Xs.getD k Cplx.zero ∧
    (acceptSpectra s Xs Ys).Y.getD k Cplx.zero = Ys.getD k Cplx.zero := by
  obtain ⟨sX, sY, _⟩ := hs
  have hm : min s.X.length (min Xs.length Ys.length) = n := by
    rw [sX, hX, hY, min_self, min_self]
  constructor
  · exact getD_writeBins _ (fun i => Xs.getD i Cplx.zero) s.X k _
      (hk.trans_eq hm.symm) (hk.trans_eq sX.symm)
  · exact getD_writeBins _ (fun i => Ys.getD i Cplx.zero) s.Y k _
      (hk.trans_eq hm.symm) (hk.trans_eq sY.symm)

end WrappedPhaseExample

section WrappedPhaseClaim

end WrappedPhaseClaim

section PrepareLayout

variable {K : Type} [LinearOrderedField K] [FloorRing K]

/-- C18: after `prepare` with effective transform size `N ≥ 1` and sample rate `fs > 0`, with
`spectrumSize = N / 2 + 1` (integer division): every per-bin sequence (spectra, averages,
transfer-function stages, coherence, results, published buffers, frequency axis) has length
`spectrumSize`, `frequencies[i] = i * fs / N` in every bin, and the frequencies increase
strictly with the bin index. For `prepare(16384, 48000)` with an analyzer that keeps the
size: `spectrumSize = 8193`, `frequencies[0] = 0` and `frequencies[8192] = 24000`. -/
theorem prepare_layout (M : Libm K) (J : Collab K) (s : TFState K) (nreq : Int) (fs : K)
    (hN : 1 ≤ J.analyzerSize nreq fs) (hfs : 0 < fs) :
    (prepare M J s nreq fs).fftSize = J.analyzerSize nreq fs ∧
    Sized (prepare M J s nreq fs) (Int.tdiv (J.analyzerSize nreq fs) 2 + 1).toNat ∧
    (∀ i, i < (Int.tdiv (J.analyzerSize nreq fs) 2 + 1).toNat →
      (prepare M J s nreq fs).frequencies.getD i 0 =
        (i : K) * fs / ((J.analyzerSize nreq fs : Int) : K)) ∧
    (∀ i j, i < j → j < (Int.tdiv (J.analyzerSize nreq fs) 2 + 1).toNat →
      (prepare M J s nreq fs).frequencies.getD i 0 <
        (prepare M J s nreq fs).frequencies.getD j 0) ∧
    Sized (prepare M exactCollab s 16384 48000) 8193 ∧
    (prepare M exactCollab s 16384 48000).frequencies.getD 0 0 = 0 ∧
    (prepare M exactCollab s 16384 48000).frequencies.getD 8192 0 = 24000 := by
  have hNpos : (0 : K) < ((J.analyzerSize nreq fs : Int) : K) := by
    have : (1 : K) ≤ ((J.analyzerSize nreq fs : Int) : K) := by exact_mod_cast hN
    linarith
  have e : (Int.tdiv ((exactCollab : Collab K).analyzerSize 16384 48000) 2 + 1).toNat = 8193 := by
    show (Int.tdiv 16384 2 + 1).toNat = 8193
    decide
  have hex := sized_prepare M (exactCollab : Collab K) s 16384 48000
  rw [e] at hex
  have h0 := prepare_frequencies_getD M (exactCollab : Collab K) s 16384 48000 0
    (by rw [e]; decide)
  have h1 := prepare_frequencies_getD M (exactCollab : Collab K) s 16384 48000 8192
    (by rw [e]; decide)
  refine ⟨prepare_fftSize M J s nreq fs, sized_prepare M J s nreq fs,
    fun i hi => prepare_frequencies_getD M J s nreq fs i hi, ?_, hex, ?_, ?_⟩
  · intro i j hij hj
    rw [prepare_frequencies_getD M J s nreq fs i (hij.trans hj),
      prepare_frequencies_getD M J s nreq fs j hj]
    have hc : (i : K) < (j : K) := by exact_mod_cast hij
    exact div_lt_div_of_pos_right (mul_lt_mul_of_pos_right hc hfs) hNpos
  · rw [h0]
    simp
  · rw [h1]
    show ((8192 : Nat) : K) * 48000 / (((16384 : Int)) : K) = 24000
    norm_num

end PrepareLayout

section PrepareLayoutWitness

theorem prepare_layout_witness :
    Sized (prepare realLibm exactCollab initial 16384 48000) 8193 ∧
    (prepare realLibm exactCollab initial 16384 48000).frequencies.getD 8192 0 = 24000 :=
  ⟨(prepare_layout realLibm exactCollab initial 16384 48000 (by decide) (by norm_num)).2.2.2.2.1,
    (prepare_layout realLibm exactCollab initial 16384 48000 (by decide)
      (by norm_num)).2.2.2.2.2.2⟩

end PrepareLayoutWitness

section Readiness

variable {K : Type} [LinearOrderedField K] [FloorRing K]

/-- C19: when the processor is not ready or the sample count is not positive, `processBlock`
returns at once with no frame and the whole state unchanged. The ready flag is `false` on a
fresh processor, stays `false` under every sequence of `reset`, `processBlock` and setter
calls, and is `true` after `prepare`. -/
theorem processBlock_noop_unready (M : Libm K) (J : Collab K) (fuel : Nat) (s : TFState K)
    (ref meas : List K) (n : Int) (h : s.ready = false ∨ n ≤ 0) :
    processBlock M J fuel s ref meas n = some ([], s) ∧
    (initial : TFState K).ready = false ∧
    (∀ t, AfterCalls M J initial t → t.ready = false) ∧
    (∀ (t : TFState K) (nreq : Int) (fs : K), (prepare M J t nreq fs).ready = true) := by
  refine ⟨?_, rfl, ?_, fun t nreq fs => rfl⟩
  · unfold processBlock
    exact if_pos h
  · intro t ht
    induction ht with
    | start => rfl
    | reset u _ ih => exact ih
    | averagingTime u x _ ih => exact ih
    | smoothingOctaves u x _ ih => exact ih
    | block u v fuel2 r m c frames _ hrun ih =>
      unfold processBlock at hrun
      rw [if_pos (Or.inl ih)] at hrun
      simp only [Option.some.injEq, Prod.mk.injEq] at hrun
      rw [← hrun.2]
      exact ih

end Readiness

section ReadinessWitness

theorem processBlock_noop_unready_witness :
    processBlock realLibm exactCollab 0 initial [1, 2] [3, 4] 2 = some ([], initial) ∧
    processBlock realLibm exactCollab 0 preparedFour [1, 2] [3, 4] 0 = some ([], preparedFour) :=
  ⟨(processBlock_noop_unready realLibm exactCollab 0 initial [1, 2] [3, 4] 2 (Or.inl rfl)).1,
    (processBlock_noop_unready realLibm exactCollab 0 preparedFour [1, 2] [3, 4] 0
      (Or.inr (le_refl 0))).1⟩

end ReadinessWitness

section SearchingUpdate

variable {K : Type} [LinearOrderedField K] [FloorRing K]

/-- C22 (amended): a Searching-state update with raw delay `d`, where `e` is
`estimatedDelay` before the update, computes `0.5 * e + 0.5 * d`, stores it unclamped in
`lastDelaySec` and clamped to ±50 ms in `estimatedDelay`; the stability counter is
incremented when the computed value differs from the stored `lastDelaySec` (the unclamped
value of the previous Searching update) by less than 0.1 ms, and reset to zero otherwise; the
state is Locked after the update exactly when the counter has reached 3. When `lastDelaySec`
equals `e`, the change tested is `|0.5 * e + 0.5 * d - e|`. -/
theorem searching_update (s : TFState K) (d : K) (h : s.delayLocked = false) :
    (smoothAndLock s d).estimatedDelay =
      jlimit (-(1 / 20)) (1 / 20) (1 / 2 * s.estimatedDelay + 1 / 2 * d) ∧
    (smoothAndLock s d).lastDelaySec = 1 / 2 * s.estimatedDelay + 1 / 2 * d ∧
    (smoothAndLock s d).stableDelayCount =
      (if |1 / 2 * s.estimatedDelay + 1 / 2 * d - s.lastDelaySec| < 1 / 10000 then
        s.stableDelayCount + 1 else 0) ∧
    ((smoothAndLock s d).delayLocked = true ↔ (smoothAndLock s d).stableDelayCount ≥ 3) ∧
    (s.lastDelaySec = s.estimatedDelay →
      (smoothAndLock s d).stableDelayCount =
        (if |1 / 2 * s.estimatedDelay + 1 / 2 * d - s.estimatedDelay| < 1 / 10000 then
          s.stableDelayCount + 1 else 0)) := by
  have hc := delayCore_smoothAndLock s d
  rw [coreUpdate_searching (delayCore s) d h] at hc
  have half : (1 : K) - 1 / 2 = 1 / 2 := by norm_num
  have e1 := congrArg DelayCore.est hc
  have e2 := congrArg DelayCore.last hc
  have e3 := congrArg DelayCore.cnt hc
  have e4 := congrArg DelayCore.locked hc
  simp only [delayCore, half, delayStabilityThreshold, delayStabilityCount] at e1 e2 e3 e4
  refine ⟨e1, e2, e3, ?_, ?_⟩
  · rw [e4, e3]
    generalize (if |1 / 2 * s.estimatedDelay + 1 / 2 * d - s.lastDelaySec| < 1 / 10000 then
      s.stableDelayCount + 1 else 0) = q
    by_cases hq : q ≥ 3
    · simp [hq]
    · simp [hq, h]
  · intro hl
    rw [e3, hl]

end SearchingUpdate

section SearchingUpdateExamples

/-- C22 (counterexample): after a Searching update that measured 160 ms the estimate is
clamped to 50 ms while `lastDelaySec` keeps 80 ms. A second Searching update measuring 50 ms
computes 50 ms again: the change from the previous estimate is zero, below 0.1 ms, yet the
stability counter is reset to zero, not incremented. -/
theorem stability_uses_unclamped_estimate :
    clampedSearch.delayLocked = false ∧ clampedSearch.estimatedDelay = 1 / 20 ∧
    clampedSearch.stableDelayCount = 0 ∧
    |1 / 2 * clampedSearch.estimatedDelay + 1 / 2 * (1 / 20) - clampedSearch.estimatedDelay| <
      1 / 10000 ∧
    (smoothAndLock clampedSearch (1 / 20)).stableDelayCount = 0 ∧
    (smoothAndLock clampedSearch (1 / 20)).stableDelayCount ≠
      clampedSearch.stableDelayCount + 1 := by
  have h0 : delayCore (prepare realLibm exactCollab (initial : TFState ℝ) 16384 48000) =
      ⟨0, 0, 0, false, 0⟩ := rfl
  have h1 : delayCore clampedSearch = ⟨1 / 20, 2 / 25, 0, false, 0⟩ := by
    unfold clampedSearch
    rw [delayCore_smoothAndLock, h0, coreUpdate_searching _ _ rfl]
    have ha : |(2 : ℝ) / 25| = 2 / 25 := abs_of_pos (by norm_num)
    simp only [delayStabilityThreshold, delayStabilityCount, jlimit]
    norm_num [ha]
  have h2 : delayCore (smoothAndLock clampedSearch (1 / 20)) =
      ⟨1 / 20, 1 / 20, 0, false, 0⟩ := by
    rw [delayCore_smoothAndLock, h1, coreUpdate_searching _ _ rfl]
    have ha : |(3 : ℝ) / 100| = 3 / 100 := abs_of_pos (by norm_num)
    simp only [delayStabilityThreshold, delayStabilityCount, jlimit]
    norm_num [abs_neg, ha]
  have a1 : clampedSearch.delayLocked = false := congrArg DelayCore.locked h1
  have a2 : clampedSearch.estimatedDelay = 1 / 20 := congrArg DelayCore.est h1
  have a3 : clampedSearch.stableDelayCount = 0 := congrArg DelayCore.cnt h1
  have a4 : (smoothAndLock clampedSearch (1 / 20)).stableDelayCount = 0 :=
    congrArg DelayCore.cnt h2
  refine ⟨a1, a2, a3, ?_, a4, ?_⟩
  · rw [a2]
    norm_num
  · rw [a4, a3]
    norm_num

theorem searching_update_witness :
    (smoothAndLock preparedFour 0).lastDelaySec = 1 / 2 * preparedFour.estimatedDelay + 1 / 2 * 0 :=
  (searching_update preparedFour 0 rfl).2.1

end SearchingUpdateExamples

section Cadence

variable {K : Type} [LinearOrderedField K] [FloorRing K]

end Cadence

section CadenceRun

variable {K : Type} [LinearOrderedField K] [FloorRing K]

end CadenceRun

section SelfHealing

variable {K : Type} [LinearOrderedField K] [FloorRing K]

theorem applyDelayCompensation_plain (M : Libm K) (d : TFState K)
    (h : ¬ |d.estimatedDelay| > 1 / 10) :
    applyDelayCompensation M d =
      { d with
        H_compensated :=
          writeBins d.H.length (fun k =>
            Cplx.mul (d.H.getD k Cplx.zero)
              (cexpI M (2 * M.pi * d.frequencies.getD k 0 * d.estimatedDelay)))
            d.H_compensated } := by
  simp only [applyDelayCompensation, h, decide_False, Bool.false_eq_true, if_false]

/-- C29 (amended): in exact arithmetic, in every state reachable from a fresh processor
through `prepare`, `reset`, the setters and processed frames or blocks (fast path or
fallback), `|estimatedDelay| ≤ 0.1 s` and `|smoothedDelay| ≤ 0.1 s`; hence, for every state
`t` that enters `processFrame` with the delay fields and the path of such a state, the test
`|tau| > 0.1` that step 3 applies to the delay left by step 2 is false, and
`applyDelayCompensation` on that state only writes `H_compensated`, without its reset
branch. -/
theorem reset_branch_unreachable (M : Libm K) (J : Collab K) (s : TFState K)
    (h : Reachable M J s) :
    |s.estimatedDelay| ≤ 1 / 10 ∧ |s.smoothedDelay| ≤ 1 / 10 ∧
    ∀ t : TFState K, SameDelay s t → t.phatFFT = s.phatFFT →
      ¬ |(delayedStage M J t).estimatedDelay| > 1 / 10 ∧
      applyDelayCompensation M (delayedStage M J t) =
        { delayedStage M J t with
          H_compensated :=
            writeBins (delayedStage M J t).H.length (fun k =>
              Cplx.mul ((delayedStage M J t).H.getD k Cplx.zero)
                (cexpI M (2 * M.pi * (delayedStage M J t).frequencies.getD k 0 *
                  (delayedStage M J t).estimatedDelay)))
              (delayedStage M J t).H_compensated } := by
  have hb := delayBounded_reachable M J s h
  refine ⟨hb.2.1, hb.2.2, ?_⟩
  intro t ht hf
  have h0 : DelayBounded t := delayBounded_of_same s t ht hf hb
  have h1 : DelayBounded (averagingStep M { t with frameCount := t.frameCount + 1 }) :=
    delayBounded_of_same _ _ (sameDelay_averagingStep M _)
      (sameConfig_averagingStep M _).2.2.2.2.2.2.2.2.2.2.2.1 h0
  have h2 : DelayBounded (delayedStage M J t) := delayBounded_delayStep M J _ h1
  have h3 : ¬ |(delayedStage M J t).estimatedDelay| > 1 / 10 := not_lt.mpr h2.2.1
  exact ⟨h3, applyDelayCompensation_plain M _ h3⟩

/-- C29 (instance): after `prepare(4, 48000)` and one processed frame both delays are
within 0.1 s, and the test `|tau| > 0.1` of the next frame is false. -/
theorem reset_branch_unreachable_witness :
    |(processSpectra realLibm exactCollab (prepare realLibm exactCollab initial 4 48000)
      silentSpectrum silentSpectrum).estimatedDelay| ≤ 1 / 10 ∧
    |(processSpectra realLibm exactCollab (prepare realLibm exactCollab initial 4 48000)
      silentSpectrum silentSpectrum).smoothedDelay| ≤ 1 / 10 ∧
    ¬ |(delayedStage realLibm exactCollab
      (processSpectra realLibm exactCollab (prepare realLibm exactCollab initial 4 48000)
        silentSpectrum silentSpectrum)).estimatedDelay| > 1 / 10 :=
  have h := reset_branch_unreachable realLibm exactCollab _
    (Reachable.frame (prepare realLibm exactCollab initial 4 48000) silentSpectrum
      silentSpectrum (Reachable.prepare initial 4 48000 Reachable.init) rfl)
  ⟨h.1, h.2.1, (h.2.2 _ ⟨rfl, rfl, rfl, rfl⟩ rfl).1⟩

end SelfHealing

section WrapSpec

variable {K : Type} [LinearOrderedField K] [FloorRing K]

theorem wrapDown_spec (pi : K) :
    ∀ (fuel : Nat) (curr d : K), d ≤ pi + 2 * pi * fuel →
      ∃ n : Nat, wrapDown pi fuel curr d = (curr - 2 * pi * n, d - 2 * pi * n) ∧
        d - 2 * pi * n ≤ pi ∧ (n = 0 ∨ -pi < d - 2 * pi * n) := by
  intro fuel
  induction fuel with
  | zero =>
    intro curr d h
    refine ⟨0, ?_, ?_, Or.inl rfl⟩
    · simp [wrapDown]
    · simpa using h
  | succ f ih =>
    intro curr d h
    by_cases hd : d > pi
    · obtain ⟨n, e, b1, b2⟩ := ih (curr - 2 * pi) (d - 2 * pi) (by push_cast at h; linarith)
      refine ⟨n + 1, ?_, ?_, Or.inr ?_⟩
      · rw [wrapDown, if_pos hd, e]
        simp only [Prod.mk.injEq]
        constructor <;> (push_cast; ring)
      · push_cast
        linarith
      · push_cast
        rcases b2 with b2 | b2
        · subst b2
          simp only [Nat.cast_zero, mul_zero, sub_zero] at b1 ⊢
          linarith
        · linarith
    · refine ⟨0, ?_, ?_, Or.inl rfl⟩
      · rw [wrapDown, if_neg hd]
        simp
      · simpa using not_lt.mp hd

theorem wrapUp_spec (pi : K) :
    ∀ (fuel : Nat) (curr d : K), -pi - 2 * pi * fuel ≤ d →
      ∃ n : Nat, wrapUp pi fuel curr d = (curr + 2 * pi * n, d + 2 * pi * n) ∧
        -pi ≤ d + 2 * pi * n ∧ (n = 0 ∨ d + 2 * pi * n < pi) := by
  intro fuel
  induction fuel with
  | zero =>
    intro curr d h
    refine ⟨0, ?_, ?_, Or.inl rfl⟩
    · simp [wrapUp]
    · simpa using h
  | succ f ih =>
    intro curr d h
    by_cases hd : d < -pi
    · obtain ⟨n, e, b1, b2⟩ := ih (curr + 2 * pi) (d + 2 * pi) (by push_cast at h; linarith)
      refine ⟨n + 1, ?_, ?_, Or.inr ?_⟩
      · rw [wrapUp, if_pos hd, e]
        simp only [Prod.mk.injEq]
        constructor <;> (push_cast; ring)
      · push_cast
        linarith
      · push_cast
        rcases b2 with b2 | b2
        · subst b2
          simp only [Nat.cast_zero, mul_zero, add_zero] at b1 ⊢
          linarith
        · linarith
    · refine ⟨0, ?_, ?_, Or.inl rfl⟩
      · rw [wrapUp, if_neg hd]
        simp
      · simpa using not_lt.mp hd

theorem wrapFuel_enough (pi d : K) (hpi : 0 < pi) : |d| ≤ 2 * pi * (wrapFuel pi d : Nat) := by
  unfold wrapFuel
  have h := Nat.le_ceil (|d| / (2 * pi))
  have h2 : |d| ≤ 2 * pi * (Nat.ceil (|d| / (2 * pi)) : K) := by
    rw [div_le_iff₀ (by linarith)] at h
    linarith
  push_cast
  linarith

/-- The two wrapping loops terminate within their fuel: they add one integer multiple of
`2 pi` to both the phase and the difference, and leave the difference in `[-pi, pi]`. -/
theorem wrapPhase_spec (pi curr d : K) (hpi : 0 < pi) :
    ∃ n : Int, wrapPhase pi curr d = (curr + 2 * pi * n, d + 2 * pi * n) ∧
      -pi ≤ d + 2 * pi * n ∧ d + 2 * pi * n ≤ pi := by
  obtain ⟨n1, e1, a1, a2⟩ := wrapDown_spec pi (wrapFuel pi d) curr d (by
    have := wrapFuel_enough pi d hpi
    have := le_abs_self d
    linarith)
  obtain ⟨n2, e2, b1, b2⟩ := wrapUp_spec pi (wrapFuel pi (d - 2 * pi * n1))
    (curr - 2 * pi * n1) (d - 2 * pi * n1) (by
    have := wrapFuel_enough pi (d - 2 * pi * n1) hpi
    have := neg_abs_le (d - 2 * pi * n1)
    linarith)
  refine ⟨(n2 : Int) - (n1 : Int), ?_, ?_, ?_⟩
  · unfold wrapPhase
    rw [e1]
    dsimp only
    rw [e2]
    simp only [Prod.mk.injEq]
    constructor <;> (push_cast; ring)
  · push_cast
    linarith
  · push_cast
    rcases b2 with b2 | b2
    · subst b2
      simp only [Nat.cast_zero, mul_zero, add_zero] at b1 ⊢
      linarith
    · linarith

end WrapSpec
section ForwardInvariant

variable {K : Type} [LinearOrderedField K] [FloorRing K]

theorem getD_set_eq {α : Type} (l : List α) (i : Nat) (x d : α) (h : i < l.length) :
    (l.set i x).getD i d = x := by
  simp [List.getD_eq_getElem?_getD, h]

theorem getD_set_ne {α : Type} (l : List α) (i j : Nat) (x d : α) (h : i ≠ j) :
    (l.set i x).getD j d = l.getD j d := by
  simp [List.getD_eq_getElem?_getD, List.getElem?_set_ne h]

theorem foldl_fixed {α β : Type} (f : α → β → α) (a : α) :
    ∀ l : List β, (∀ k, k ∈ l → f a k = a) → l.foldl f a = a := by
  intro l
  induction l with
  | nil => intro _; rfl
  | cons x xs ih =>
    intro h
    rw [List.foldl_cons, h x (List.mem_cons_self x xs)]
    exact ih (fun k hk => h k (List.mem_cons_of_mem x hk))

theorem unwrapForwardStep_accept (M : Libm K) (g : List K) (a : UnwrapAcc K) (k : Nat)
    (hg : g.getD k 0 ≥ cohMinMath) :
    unwrapForwardStep M g a k =
      ⟨correctedPhase M a k, a.phases.set k (correctedPhase M a k),
        a.hs.set k (polar M (cabs M (a.hs.getD k Cplx.zero)) (correctedPhase M a k))⟩ := by
  unfold unwrapForwardStep correctedPhase
  dsimp only
  rw [if_pos hg]

theorem unwrapForwardStep_reject (M : Libm K) (g : List K) (a : UnwrapAcc K) (k : Nat)
    (hg : ¬ g.getD k 0 ≥ cohMinMath) :
    unwrapForwardStep M g a k =
      ⟨a.prev, a.phases.set k a.prev,
        a.hs.set k (polar M (cabs M (a.hs.getD k Cplx.zero)) a.prev)⟩ := by
  unfold unwrapForwardStep
  dsimp only
  rw [if_neg hg]

theorem correctedPhase_spec (M : Libm K) (hpi : 0 < M.pi) (a : UnwrapAcc K) (k : Nat) :
    ∃ n : Int, correctedPhase M a k = carg M (a.hs.getD k Cplx.zero) + 2 * M.pi * n ∧
      -M.pi ≤ correctedPhase M a k - a.prev ∧ correctedPhase M a k - a.prev ≤ M.pi := by
  obtain ⟨n, e, b1, b2⟩ := wrapPhase_spec M.pi (carg M (a.hs.getD k Cplx.zero))
    (carg M (a.hs.getD k Cplx.zero) - a.prev) hpi
  have e1 : correctedPhase M a k = carg M (a.hs.getD k Cplx.zero) + 2 * M.pi * n := by
    unfold correctedPhase
    rw [e]
  refine ⟨n, e1, ?_, ?_⟩
  · rw [e1]
    linarith
  · rw [e1]
    linarith

theorem forwardDone_write (M : Libm K) (s : TFState K) (a : UnwrapAcc K) (j : Nat) (q : K)
    (h : ForwardDone M s a j) (hj : 1 ≤ j) (hlt : j + 1 < s.H_smoothed.length)
    (hq1 : s.gamma2.getD (j + 1) 0 ≥ cohMinMath →
      ∃ n : Int, q = carg M (s.H_smoothed.getD (j + 1) Cplx.zero) + 2 * M.pi * n ∧
        -M.pi ≤ q - a.prev ∧ q - a.prev ≤ M.pi)
    (hq2 : ¬ s.gamma2.getD (j + 1) 0 ≥ cohMinMath → q = a.prev) :
    ForwardDone M s
      ⟨q, a.phases.set (j + 1) q,
        a.hs.set (j + 1) (polar M (cabs M (s.H_smoothed.getD (j + 1) Cplx.zero)) q)⟩
      (j + 1) := by
  obtain ⟨l1, l2, p, p1, hin, hout⟩ := h
  have hprev : (a.phases.set (j + 1) q).getD j 0 = a.prev := by
    rw [getD_set_ne _ _ _ _ _ (by omega), p]
  refine ⟨?_, ?_, ?_, ?_, ?_, ?_⟩
  · show (a.phases.set (j + 1) q).length = _
    rw [List.length_set]
    exact l1
  · show (a.hs.set (j + 1) _).length = _
    rw [List.length_set]
    exact l2
  · show q = (a.phases.set (j + 1) q).getD (j + 1) 0
    rw [getD_set_eq _ _ _ _ (by omega)]
  · show (a.phases.set (j + 1) q).getD 1 0 = _
    rw [getD_set_ne _ _ _ _ _ (by omega)]
    exact p1
  · intro i i2 ij
    show (a.hs.set (j + 1) _).getD i Cplx.zero =
        polar M _ ((a.phases.set (j + 1) q).getD i 0) ∧
      (_ → ∃ n : Int, (a.phases.set (j + 1) q).getD i 0 = _ ∧
        -M.pi ≤ (a.phases.set (j + 1) q).getD i 0 - (a.phases.set (j + 1) q).getD (i - 1) 0 ∧
        (a.phases.set (j + 1) q).getD i 0 - (a.phases.set (j + 1) q).getD (i - 1) 0 ≤ M.pi) ∧
      (_ → (a.phases.set (j + 1) q).getD i 0 = (a.phases.set (j + 1) q).getD (i - 1) 0)
    by_cases hi : i = j + 1
    · subst hi
      rw [getD_set_eq _ _ _ _ (by omega), getD_set_eq _ _ _ _ (by omega), Nat.add_sub_cancel,
        hprev]
      exact ⟨rfl, hq1, hq2⟩
    · rw [getD_set_ne _ _ _ _ _ (by omega), getD_set_ne _ _ _ _ _ (by omega),
        getD_set_ne _ _ _ _ _ (by omega)]
      exact hin i i2 (by omega)
  · intro i hi
    show (a.hs.set (j + 1) _).getD i Cplx.zero = _
    rw [getD_set_ne _ _ _ _ _ (by omega)]
    exact hout i (by omega)

theorem forwardDone_step (M : Libm K) (hpi : 0 < M.pi) (s : TFState K) (a : UnwrapAcc K)
    (j : Nat) (h : ForwardDone M s a j) (hj : 1 ≤ j) (hlt : j + 1 < s.H_smoothed.length) :
    ForwardDone M s (unwrapForwardStep M s.gamma2 a (j + 1)) (j + 1) := by
  have hk : a.hs.getD (j + 1) Cplx.zero = s.H_smoothed.getD (j + 1) Cplx.zero :=
    h.2.2.2.2.2 (j + 1) (Or.inr (Nat.lt_succ_self j))
  by_cases hg : s.gamma2.getD (j + 1) 0 ≥ cohMinMath
  · rw [unwrapForwardStep_accept M _ a _ hg, hk]
    refine forwardDone_write M s a j _ h hj hlt ?_ (fun hn => absurd hg hn)
    intro _
    have hc := correctedPhase_spec M hpi a (j + 1)
    rw [hk] at hc
    exact hc
  · rw [unwrapForwardStep_reject M _ a _ hg, hk]
    exact forwardDone_write M s a j _ h hj hlt (fun hn => absurd hn hg) (fun _ => rfl)

theorem forwardDone_foldl (M : Libm K) (hpi : 0 < M.pi) (s : TFState K) :
    ∀ (c : Nat) (a : UnwrapAcc K) (j : Nat), ForwardDone M s a j → 1 ≤ j →
      j + c < s.H_smoothed.length →
      ForwardDone M s ((List.range' (j + 1) c).foldl (unwrapForwardStep M s.gamma2) a)
        (j + c) := by
  intro c
  induction c with
  | zero =>
    intro a j h _ _
    exact h
  | succ c ih =>
    intro a j h hj hlt
    have e : j + (c + 1) = j + 1 + c := by omega
    rw [List.range'_succ, List.foldl_cons, e]
    exact ih _ (j + 1) (forwardDone_step M hpi s a j h hj (by omega)) (by omega) (by omega)

/-- State of the local variables of `unwrapPhase` at the end of the forward loop. -/
theorem forwardDone_unwrapForward (M : Libm K) (hpi : 0 < M.pi) (s : TFState K)
    (h2 : 2 ≤ s.H_smoothed.length) :
    ForwardDone M s (unwrapForward M s) (s.H_smoothed.length - 1) := by
  have h0 : ForwardDone M s
      ⟨carg M (s.H_smoothed.getD 1 Cplx.zero),
        (List.replicate s.H_smoothed.length 0).set 1 (carg M (s.H_smoothed.getD 1 Cplx.zero)),
        s.H_smoothed⟩ 1 := by
    refine ⟨?_, rfl, ?_, ?_, ?_, fun _ _ => rfl⟩
    · show ((List.replicate s.H_smoothed.length (0 : K)).set 1 _).length = _
      rw [List.length_set, List.length_replicate]
    · show _ = ((List.replicate s.H_smoothed.length (0 : K)).set 1 _).getD 1 0
      rw [getD_set_eq _ _ _ _ (by rw [List.length_replicate]; omega)]
    · show ((List.replicate s.H_smoothed.length (0 : K)).set 1 _).getD 1 0 = _
      rw [getD_set_eq _ _ _ _ (by rw [List.length_replicate]; omega)]
    · intro i i2 i1
      omega
  have h := forwardDone_foldl M hpi s (s.H_smoothed.length - 2) _ 1 h0 (le_refl 1) (by omega)
  have e : 1 + (s.H_smoothed.length - 2) = s.H_smoothed.length - 1 := by omega
  rw [e] at h
  exact h

theorem forward_adjacent (M : Libm K) (hpi : 0 < M.pi) (s : TFState K) (i : Nat)
    (h1 : 1 ≤ i) (hlt : i + 1 < s.H_smoothed.length) :
    |(unwrapForward M s).phases.getD (i + 1) 0 - (unwrapForward M s).phases.getD i 0| ≤
      M.pi := by
  obtain ⟨_, _, _, _, hin, _⟩ := forwardDone_unwrapForward M hpi s (by omega)
  obtain ⟨_, ha, hr⟩ := hin (i + 1) (by omega) (by omega)
  rw [Nat.add_sub_cancel] at ha hr
  by_cases hg : s.gamma2.getD (i + 1) 0 ≥ cohMinMath
  · obtain ⟨_, _, b1, b2⟩ := ha hg
    exact abs_le.mpr ⟨b1, b2⟩
  · rw [hr hg, sub_self, abs_zero]
    exact le_of_lt hpi

theorem backward_noop (M : Libm K) (hpi : 0 < M.pi) (s : TFState K) :
    (List.range' 1 (s.H_smoothed.length - 2)).reverse.foldl (unwrapBackwardStep M)
      (unwrapForward M s) = unwrapForward M s := by
  refine foldl_fixed _ _ _ ?_
  intro k hk
  rw [List.mem_reverse, List.mem_range'_1] at hk
  have hb := forward_adjacent M hpi s k hk.1 (by omega)
  unfold unwrapBackwardStep
  dsimp only
  rw [if_neg (not_lt.mpr hb)]

theorem unwrapPhase_eq_forward (M : Libm K) (hpi : 0 < M.pi) (s : TFState K) :
    unwrapPhase M s =
      if s.H_smoothed.length < 2 then s else { s with H_smoothed := (unwrapForward M s).hs } := by
  unfold unwrapPhase
  dsimp only
  rw [backward_noop M hpi s]

end ForwardInvariant
section RealPolar

theorem cabs_real (z : Cplx ℝ) : cabs realLibm z = Complex.abs ⟨z.re, z.im⟩ := by
  show Real.sqrt (z.re * z.re + z.im * z.im) = _
  rw [Complex.abs_apply, Complex.normSq_apply]

theorem cabs_ge_zero (z : Cplx ℝ) : 0 ≤ cabs realLibm z := Real.sqrt_nonneg _

theorem carg_real_mem (z : Cplx ℝ) : -Real.pi < carg realLibm z ∧ carg realLibm z ≤ Real.pi :=
  ⟨Complex.neg_pi_lt_arg _, Complex.arg_le_pi _⟩

theorem polar_real_period (r theta : ℝ) (n : Int) :
    polar realLibm r (theta + 2 * Real.pi * n) = polar realLibm r theta := by
  have e : theta + 2 * Real.pi * n = theta + n * (2 * Real.pi) := by ring
  show (⟨r * Real.cos (theta + 2 * Real.pi * n), r * Real.sin (theta + 2 * Real.pi * n)⟩ :
    Cplx ℝ) = ⟨r * Real.cos theta, r * Real.sin theta⟩
  rw [e, Real.cos_add_int_mul_two_pi, Real.sin_add_int_mul_two_pi]

/-- Rebuilding a value from its modulus and its phase plus a multiple of `2 pi` gives the
value back. -/
theorem polar_cabs_carg (z : Cplx ℝ) (n : Int) :
    polar realLibm (cabs realLibm z) (carg realLibm z + 2 * Real.pi * n) = z := by
  rw [polar_real_period, cabs_real]
  show (⟨Complex.abs ⟨z.re, z.im⟩ * Real.cos (Complex.arg ⟨z.re, z.im⟩),
    Complex.abs ⟨z.re, z.im⟩ * Real.sin (Complex.arg ⟨z.re, z.im⟩)⟩ : Cplx ℝ) = z
  by_cases hw : (⟨z.re, z.im⟩ : ℂ) = 0
  · have h1 : z.re = 0 := congrArg Complex.re hw
    have h2 : z.im = 0 := congrArg Complex.im hw
    rw [hw, map_zero, zero_mul, zero_mul]
    ext
    · exact h1.symm
    · exact h2.symm
  · have ha : Complex.abs ⟨z.re, z.im⟩ ≠ 0 := (map_ne_zero Complex.abs).mpr hw
    rw [Complex.cos_arg hw, Complex.sin_arg, mul_div_cancel₀ _ ha, mul_div_cancel₀ _ ha]

theorem cabs_polar (r theta : ℝ) (hr : 0 ≤ r) : cabs realLibm (polar realLibm r theta) = r := by
  show Real.sqrt (r * Real.cos theta * (r * Real.cos theta) +
    r * Real.sin theta * (r * Real.sin theta)) = r
  have e : r * Real.cos theta * (r * Real.cos theta) +
      r * Real.sin theta * (r * Real.sin theta) = r * r := by
    have := Real.cos_sq_add_sin_sq theta
    linear_combination r * r * this
  rw [e, Real.sqrt_mul_self hr]

theorem polar_zero_modulus (theta : ℝ) : polar realLibm 0 theta = Cplx.zero := by
  show (⟨0 * Real.cos theta, 0 * Real.sin theta⟩ : Cplx ℝ) = ⟨0, 0⟩
  rw [zero_mul, zero_mul]

theorem carg_polar (r theta : ℝ) (hr : 0 < r) (h1 : -Real.pi < theta) (h2 : theta ≤ Real.pi)
    (n : Int) : carg realLibm (polar realLibm r (theta + 2 * Real.pi * n)) = theta := by
  rw [polar_real_period]
  show Complex.arg ⟨r * Real.cos theta, r * Real.sin theta⟩ = theta
  have e : (⟨r * Real.cos theta, r * Real.sin theta⟩ : ℂ) =
      (r : ℂ) * (Complex.cos theta + Complex.sin theta * Complex.I) := by
    apply Complex.ext
    · simp [← Complex.ofReal_cos, ← Complex.ofReal_sin]
    · simp [← Complex.ofReal_cos, ← Complex.ofReal_sin]
  rw [e]
  exact Complex.arg_mul_cos_add_sin_mul_I hr ⟨h1, h2⟩

theorem carg_zero : carg realLibm (Cplx.zero : Cplx ℝ) = 0 := by
  show Complex.arg ⟨0, 0⟩ = 0
  exact Complex.arg_zero

theorem carg_one : carg realLibm (⟨1, 0⟩ : Cplx ℝ) = 0 := by
  show Complex.arg ⟨1, 0⟩ = 0
  exact Complex.arg_one

end RealPolar
section UnwrapClaims

theorem unwrapPhase_bin (s : TFState ℝ) (h2 : 2 ≤ s.H_smoothed.length) (k : Nat) :
    (unwrapPhase realLibm s).H_smoothed.getD k Cplx.zero =
      (unwrapForward realLibm s).hs.getD k Cplx.zero := by
  rw [unwrapPhase_eq_forward realLibm Real.pi_pos s, if_neg (by omega)]

theorem unwrapPhase_short (s : TFState ℝ) (h2 : s.H_smoothed.length < 2) :
    unwrapPhase realLibm s = s := by
  rw [unwrapPhase_eq_forward realLibm Real.pi_pos s, if_pos h2]

/-- Bins that `unwrapPhase` gives back unchanged: bin 0, bin 1, the bins past the end and
every bin that passes the coherence test. -/
theorem unwrapPhase_unchanged (s : TFState ℝ) (k : Nat)
    (h : k < 2 ∨ s.gamma2.getD k 0 ≥ cohMinMath) :
    (unwrapPhase realLibm s).H_smoothed.getD k Cplx.zero = s.H_smoothed.getD k Cplx.zero := by
  by_cases h2 : s.H_smoothed.length < 2
  · rw [unwrapPhase_short s h2]
  · rw [unwrapPhase_bin s (by omega)]
    obtain ⟨_, _, _, _, hin, hout⟩ :=
      forwardDone_unwrapForward realLibm Real.pi_pos s (by omega)
    by_cases hk : k < 2 ∨ s.H_smoothed.length - 1 < k
    · exact hout k hk
    · rcases h with h | h
      · exact absurd (Or.inl h) hk
      · obtain ⟨e, ha, _⟩ := hin k (by omega) (by omega)
        obtain ⟨n, en, _, _⟩ := ha h
        rw [e, en]
        exact polar_cabs_carg _ n

/-- Value that `unwrapPhase` leaves in a processed bin: the modulus of the bin with the
phase stored for it by the forward loop. -/
theorem unwrapPhase_processed (s : TFState ℝ) (k : Nat) (h2 : 2 ≤ k)
    (hk : k < s.H_smoothed.length) :
    (unwrapPhase realLibm s).H_smoothed.getD k Cplx.zero =
      polar realLibm (cabs realLibm (s.H_smoothed.getD k Cplx.zero))
        ((unwrapForward realLibm s).phases.getD k 0) := by
  rw [unwrapPhase_bin s (by omega)]
  obtain ⟨_, _, _, _, hin, _⟩ := forwardDone_unwrapForward realLibm Real.pi_pos s (by omega)
  exact (hin k h2 (by omega)).1

theorem unwrapPhase_modulus (s : TFState ℝ) (k : Nat) :
    cabs realLibm ((unwrapPhase realLibm s).H_smoothed.getD k Cplx.zero) =
      cabs realLibm (s.H_smoothed.getD k Cplx.zero) := by
  by_cases hk : 2 ≤ k ∧ k < s.H_smoothed.length
  · rw [unwrapPhase_processed s k hk.1 hk.2]
    exact cabs_polar _ _ (cabs_ge_zero _)
  · by_cases h2 : k < 2
    · rw [unwrapPhase_unchanged s k (Or.inl h2)]
    · have hge : s.H_smoothed.length ≤ k := by omega
      by_cases hs : s.H_smoothed.length < 2
      · rw [unwrapPhase_short s hs]
      · rw [unwrapPhase_bin s (by omega)]
        obtain ⟨_, _, _, _, _, hout⟩ :=
          forwardDone_unwrapForward realLibm Real.pi_pos s (by omega)
        rw [hout k (Or.inr (by omega))]

/-- Phase stored by the forward loop for the bin `j + d`, when the bins `j + 1 .. j + d`
all fail the coherence test: the phase stored for bin `j`. -/
theorem forward_carried (s : TFState ℝ) (j : Nat) (hj : 1 ≤ j) :
    ∀ d, j + d < s.H_smoothed.length →
      (∀ i, j < i → i ≤ j + d → s.gamma2.getD i 0 < cohMinMath) →
      (unwrapForward realLibm s).phases.getD (j + d) 0 =
        (unwrapForward realLibm s).phases.getD j 0 := by
  intro d
  induction d with
  | zero => intro _ _; rfl
  | succ d ih =>
    intro hlt hlow
    obtain ⟨_, _, _, _, hin, _⟩ := forwardDone_unwrapForward realLibm Real.pi_pos s (by omega)
    obtain ⟨_, _, hr⟩ := hin (j + (d + 1)) (by omega) (by omega)
    rw [hr (not_le.mpr (hlow _ (by omega) (le_refl _)))]
    have e : j + (d + 1) - 1 = j + d := by omega
    rw [e]
    exact ih (by omega) (fun i h1 h2 => hlow i h1 (by omega))

/-- Phase stored by the forward loop for bin 1 or for a bin that passes the coherence
test: the bin's own phase plus a multiple of `2 pi`. -/
theorem forward_accepted (s : TFState ℝ) (j : Nat) (hj : 1 ≤ j)
    (hlt : j < s.H_smoothed.length) (ha : j = 1 ∨ s.gamma2.getD j 0 ≥ cohMinMath) :
    ∃ n : Int, (unwrapForward realLibm s).phases.getD j 0 =
      carg realLibm (s.H_smoothed.getD j Cplx.zero) + 2 * Real.pi * n := by
  obtain ⟨_, _, _, p1, hin, _⟩ := forwardDone_unwrapForward realLibm Real.pi_pos s (by omega)
  by_cases h1 : j = 1
  · subst h1
    exact ⟨0, by rw [p1]; simp⟩
  · rcases ha with ha | ha
    · exact absurd ha h1
    · obtain ⟨n, en, _, _⟩ := (hin j (by omega) (by omega)).2.1 ha
      exact ⟨n, en⟩

/-- C24 (amended): in the forward pass of `unwrapPhase`, for every bin `k` and every
previous accepted phase `a.prev`, the corrected phase differs from the bin's wrapped phase
`arg(H_smoothed[k])` by an integer multiple of `2 pi`, and its delta from the previous
accepted phase lies in the closed interval `[-pi, pi]`; the corrected phase is the one the
loop body stores when the bin passes the coherence test. -/
theorem corrected_phase_wraps (g : List ℝ) (a : UnwrapAcc ℝ) (k : Nat) :
    (∃ n : Int, correctedPhase realLibm a k =
      carg realLibm (a.hs.getD k Cplx.zero) + 2 * Real.pi * n) ∧
    -Real.pi ≤ correctedPhase realLibm a k - a.prev ∧
    correctedPhase realLibm a k - a.prev ≤ Real.pi ∧
    (g.getD k 0 ≥ cohMinMath →
      (unwrapForwardStep realLibm g a k).prev = correctedPhase realLibm a k ∧
      (unwrapForwardStep realLibm g a k).phases = a.phases.set k (correctedPhase realLibm a k)) := by
  obtain ⟨n, e, b1, b2⟩ := correctedPhase_spec realLibm Real.pi_pos a k
  refine ⟨⟨n, e⟩, b1, b2, ?_⟩
  intro hg
  rw [unwrapForwardStep_accept realLibm g a k hg]
  exact ⟨rfl, rfl⟩

theorem halfTurn_forward :
    unwrapForward realLibm halfTurn =
      ⟨0, [0, Real.pi, 0], [Cplx.zero, ⟨-1, 0⟩, polar realLibm (cabs realLibm ⟨1, 0⟩) 0]⟩ := by
  have c1 : carg realLibm (⟨-1, 0⟩ : Cplx ℝ) = Real.pi := carg_neg_real (-1) (by norm_num)
  have hpi := Real.pi_pos
  have hw : wrapPhase Real.pi 0 (0 - Real.pi) = (0, 0 - Real.pi) :=
    wrapPhase_of_mem Real.pi 0 (0 - Real.pi) (by linarith) (by linarith)
  have hg : ([1, 1, 1] : List ℝ).getD 2 0 ≥ cohMinMath := by
    show (1 : ℝ) ≥ 2 / 5
    norm_num
  have e0 : unwrapForward realLibm halfTurn =
      unwrapForwardStep realLibm [1, 1, 1]
        ⟨carg realLibm ⟨-1, 0⟩, [0, carg realLibm ⟨-1, 0⟩, 0],
          [Cplx.zero, ⟨-1, 0⟩, ⟨1, 0⟩]⟩ 2 := rfl
  rw [e0, c1, unwrapForwardStep_accept realLibm _ _ 2 hg]
  have ec : correctedPhase realLibm
      ⟨Real.pi, [0, Real.pi, 0], [Cplx.zero, ⟨-1, 0⟩, ⟨1, 0⟩]⟩ 2 = 0 := by
    show (wrapPhase Real.pi (carg realLibm ⟨1, 0⟩) (carg realLibm ⟨1, 0⟩ - Real.pi)).1 = 0
    rw [carg_one, hw]
  rw [ec]
  rfl

/-- C24 (counterexample): on the three-bin response `[0, -1, 1]` with full coherence the
previous accepted phase at bin 2 is `pi` and the bin's wrapped phase is `0`; neither
wrapping loop runs, the corrected phase is `0` and its delta from the previous accepted
phase is exactly `-pi`, outside the half-open interval `(-pi, pi]`. -/
theorem forward_delta_minus_pi :
    carg realLibm (halfTurn.H_smoothed.getD 1 Cplx.zero) = Real.pi ∧
    (unwrapForward realLibm halfTurn).phases = [0, Real.pi, 0] ∧
    (unwrapForward realLibm halfTurn).prev = 0 ∧
    (unwrapForward realLibm halfTurn).prev -
      carg realLibm (halfTurn.H_smoothed.getD 1 Cplx.zero) = -Real.pi ∧
    ¬ (-Real.pi < (unwrapForward realLibm halfTurn).prev -
      carg realLibm (halfTurn.H_smoothed.getD 1 Cplx.zero)) := by
  have c1 : carg realLibm (halfTurn.H_smoothed.getD 1 Cplx.zero) = Real.pi :=
    carg_neg_real (-1) (by norm_num)
  rw [halfTurn_forward, c1]
  refine ⟨rfl, rfl, rfl, ?_, ?_⟩
  · show (0 : ℝ) - Real.pi = -Real.pi
    ring
  · show ¬ (-Real.pi < (0 : ℝ) - Real.pi)
    rw [zero_sub]
    exact lt_irrefl _

/-- C27 (amended): in exact arithmetic, for every input, after the forward pass of
`unwrapPhase` the unwrapped phases of adjacent bins `k`, `k + 1` with `k ≥ 1` differ by at
most `pi` in absolute value, so the body of the backward loop leaves the forward result as
it is at every bin it visits, and `unwrapPhase` equals its forward pass alone. -/
theorem backward_pass_noop (s : TFState ℝ) :
    (∀ k, 1 ≤ k → k + 1 < s.H_smoothed.length →
      |(unwrapForward realLibm s).phases.getD (k + 1) 0 -
        (unwrapForward realLibm s).phases.getD k 0| ≤ Real.pi) ∧
    (∀ k, 1 ≤ k → k + 1 < s.H_smoothed.length →
      unwrapBackwardStep realLibm (unwrapForward realLibm s) k = unwrapForward realLibm s) ∧
    (List.range' 1 (s.H_smoothed.length - 2)).reverse.foldl (unwrapBackwardStep realLibm)
      (unwrapForward realLibm s) = unwrapForward realLibm s ∧
    unwrapPhase realLibm s =
      (if s.H_smoothed.length < 2 then s
        else { s with H_smoothed := (unwrapForward realLibm s).hs }) := by
  refine ⟨fun k h1 h2 => forward_adjacent realLibm Real.pi_pos s k h1 h2, ?_,
    backward_noop realLibm Real.pi_pos s, unwrapPhase_eq_forward realLibm Real.pi_pos s⟩
  intro k h1 h2
  have hb := forward_adjacent realLibm Real.pi_pos s k h1 h2
  unfold unwrapBackwardStep
  dsimp only
  rw [if_neg (not_lt.mpr hb)]

/-- C27 (instance): on the three-bin response `[0, -1, 1]` the backward loop body at bin 1
returns the forward result. -/
theorem backward_pass_noop_witness :
    unwrapBackwardStep realLibm (unwrapForward realLibm halfTurn) 1 =
      unwrapForward realLibm halfTurn :=
  (backward_pass_noop halfTurn).2.1 1 (le_refl 1) (by show 2 < 3; decide)

/-- C28: in exact arithmetic `unwrapPhase` leaves `H_smoothed[k]` unchanged as a complex
number at bin 0, at bin 1 and at every bin whose coherence is at least 0.4; a bin that
changes is a bin `k ≥ 2` with coherence below 0.4. For a state `s` with `n` bins entering
`processFrame`, the published `phaseDegrees[k]` is the principal argument of the unwrapped
`H_smoothed[k]` in degrees, which lies in `(-180, 180]`. -/
theorem unwrapPhase_keeps_accepted (J : Collab ℝ) (s : TFState ℝ) (n : Nat)
    (hs : Sized s n) :
    (∀ (u : TFState ℝ) (k : Nat), k < 2 ∨ u.gamma2.getD k 0 ≥ cohMinMath →
      (unwrapPhase realLibm u).H_smoothed.getD k Cplx.zero = u.H_smoothed.getD k Cplx.zero) ∧
    (∀ (u : TFState ℝ) (k : Nat),
      (unwrapPhase realLibm u).H_smoothed.getD k Cplx.zero ≠ u.H_smoothed.getD k Cplx.zero →
      2 ≤ k ∧ u.gamma2.getD k 0 < cohMinMath) ∧
    (∀ k, k < n →
      (processFrame realLibm J s).phaseDegreesBuffer.getD k 0 =
        carg realLibm ((unwrappedStage realLibm J s).H_smoothed.getD k Cplx.zero) * 180 /
          Real.pi ∧
      -180 < (processFrame realLibm J s).phaseDegreesBuffer.getD k 0 ∧
      (processFrame realLibm J s).phaseDegreesBuffer.getD k 0 ≤ 180) := by
  refine ⟨unwrapPhase_unchanged, ?_, ?_⟩
  · intro u k hne
    by_contra hc
    refine hne (unwrapPhase_unchanged u k ?_)
    by_cases h2 : k < 2
    · exact Or.inl h2
    · right
      by_contra hg
      exact hc ⟨by omega, not_le.mp hg⟩
  · intro k hk
    have e := (processFrame_published realLibm J s n k hs hk).1
    have e2 : (processFrame realLibm J s).phaseDegreesBuffer.getD k 0 =
        carg realLibm ((unwrappedStage realLibm J s).H_smoothed.getD k Cplx.zero) * 180 /
          Real.pi := e
    obtain ⟨b1, b2⟩ := carg_real_mem ((unwrappedStage realLibm J s).H_smoothed.getD k Cplx.zero)
    have hpi := Real.pi_pos
    refine ⟨e2, ?_, ?_⟩
    · rw [e2, lt_div_iff₀ hpi]
      linarith
    · rw [e2, div_le_iff₀ hpi]
      linarith

/-- C28 (instance): bin 0 of the first frame published after `prepare(4, 48000)`. -/
theorem unwrapPhase_keeps_accepted_witness :
    -180 < (processFrame realLibm exactCollab preparedFour).phaseDegreesBuffer.getD 0 0 ∧
    (processFrame realLibm exactCollab preparedFour).phaseDegreesBuffer.getD 0 0 ≤ 180 :=
  ((unwrapPhase_keeps_accepted exactCollab preparedFour 3 preparedFour_sized).2.2 0
    (by decide)).2

/-- C25 (amended): `unwrapPhase` preserves `|H_smoothed[k]|` for every bin, and for every
bin `k ≥ 2` whose coherence is below 0.4 and whose modulus `|H_smoothed[k]|` is not zero,
the resulting phase of `H_smoothed[k]` equals the phase of the nearest lower bin `j` in
`1 .. k-1` that is bin 1 or has coherence at least 0.4 (the phase of that bin is the same
before and after the call). -/
theorem unwrapPhase_carries_phase (s : TFState ℝ) (k j : Nat) (h2 : 2 ≤ k)
    (hk : k < s.H_smoothed.length) (hlow : s.gamma2.getD k 0 < cohMinMath)
    (hmod : cabs realLibm (s.H_smoothed.getD k Cplx.zero) ≠ 0) (hj : 1 ≤ j) (hjk : j < k)
    (hacc : j = 1 ∨ s.gamma2.getD j 0 ≥ cohMinMath)
    (hbetween : ∀ i, j < i → i < k → s.gamma2.getD i 0 < cohMinMath) :
    (∀ i, cabs realLibm ((unwrapPhase realLibm s).H_smoothed.getD i Cplx.zero) =
      cabs realLibm (s.H_smoothed.getD i Cplx.zero)) ∧
    carg realLibm ((unwrapPhase realLibm s).H_smoothed.getD k Cplx.zero) =
      carg realLibm ((unwrapPhase realLibm s).H_smoothed.getD j Cplx.zero) ∧
    carg realLibm ((unwrapPhase realLibm s).H_smoothed.getD j Cplx.zero) =
      carg realLibm (s.H_smoothed.getD j Cplx.zero) := by
  have hu : (unwrapPhase realLibm s).H_smoothed.getD j Cplx.zero =
      s.H_smoothed.getD j Cplx.zero := by
    refine unwrapPhase_unchanged s j ?_
    rcases hacc with h | h
    · exact Or.inl (by omega)
    · exact Or.inr h
  refine ⟨unwrapPhase_modulus s, ?_, by rw [hu]⟩
  rw [hu, unwrapPhase_processed s k h2 hk]
  have hc := forward_carried s j hj (k - j) (by omega) (by
    intro i i1 i2
    by_cases hik : i = k
    · rw [hik]
      exact hlow
    · exact hbetween i i1 (by omega))
  have e : j + (k - j) = k := by omega
  rw [e] at hc
  obtain ⟨n, en⟩ := forward_accepted s j hj (by omega) hacc
  rw [hc, en]
  obtain ⟨b1, b2⟩ := carg_real_mem (s.H_smoothed.getD j Cplx.zero)
  exact carg_polar _ _ (lt_of_le_of_ne (cabs_ge_zero _) (Ne.symm hmod)) b1 b2 n

/-- C25 (counterexample): on the three-bin response `[0, -j, 0]` with coherence
`[0, 1, 0]`, bin 2 has coherence below 0.4 and the nearest lower accepted bin is bin 1,
of phase `-pi/2`; `unwrapPhase` writes `polar(0, -pi/2) = 0` into bin 2, whose phase is 0. -/
theorem carried_phase_lost_at_zero :
    nullBin.gamma2.getD 2 0 < cohMinMath ∧
    (unwrapPhase realLibm nullBin).H_smoothed.getD 2 Cplx.zero = Cplx.zero ∧
    carg realLibm ((unwrapPhase realLibm nullBin).H_smoothed.getD 2 Cplx.zero) = 0 ∧
    carg realLibm ((unwrapPhase realLibm nullBin).H_smoothed.getD 1 Cplx.zero) =
      -(Real.pi / 2) ∧
    carg realLibm ((unwrapPhase realLibm nullBin).H_smoothed.getD 2 Cplx.zero) ≠
      carg realLibm ((unwrapPhase realLibm nullBin).H_smoothed.getD 1 Cplx.zero) := by
  have hlow : nullBin.gamma2.getD 2 0 < cohMinMath := by
    show (0 : ℝ) < 2 / 5
    norm_num
  have hlen : 2 < nullBin.H_smoothed.length := by
    show 2 < 3
    decide
  have e2 : (unwrapPhase realLibm nullBin).H_smoothed.getD 2 Cplx.zero = Cplx.zero := by
    rw [unwrapPhase_processed nullBin 2 (le_refl 2) hlen]
    have hz : cabs realLibm (nullBin.H_smoothed.getD 2 Cplx.zero) = 0 := by
      show Real.sqrt (0 * 0 + 0 * 0) = 0
      simp
    rw [hz]
    exact polar_zero_modulus _
  have e1 : (unwrapPhase realLibm nullBin).H_smoothed.getD 1 Cplx.zero = ⟨0, -1⟩ :=
    unwrapPhase_unchanged nullBin 1 (Or.inl (by decide))
  have c1 : carg realLibm (⟨0, -1⟩ : Cplx ℝ) = -(Real.pi / 2) := carg_neg_imag (-1) (by norm_num)
  rw [e2, e1, carg_zero, c1]
  refine ⟨hlow, rfl, rfl, rfl, ?_⟩
  have hpi := Real.pi_pos
  intro h
  linarith

/-- C25 (instance): on the three-bin response `[0, -j, 1]` with coherence `[0, 1, 0]`, the
phase of bin 2 after `unwrapPhase` is the phase of bin 1. -/
theorem unwrapPhase_carries_phase_witness :
    carg realLibm ((unwrapPhase realLibm carriedBin).H_smoothed.getD 2 Cplx.zero) =
      carg realLibm ((unwrapPhase realLibm carriedBin).H_smoothed.getD 1 Cplx.zero) :=
  (unwrapPhase_carries_phase carriedBin 2 1 (le_refl 2) (by show 2 < 3; decide)
    (by show (0 : ℝ) < 2 / 5; norm_num)
    (by show Real.sqrt (1 * 1 + 0 * 0) ≠ 0; norm_num) (le_refl 1) (by decide) (Or.inl rfl)
    (fun i h1 h2 => absurd h2 (by omega))).2.1

end UnwrapClaims

section WrapInstance

/-- C24 (instance): at bin 2 of the three-bin response `[0, -1, 1]`, with previous accepted
phase `pi`, the delta of the corrected phase is at least `-pi`. -/
theorem corrected_phase_wraps_witness :
    -Real.pi ≤
      correctedPhase realLibm ⟨Real.pi, [0, Real.pi, 0], halfTurn.H_smoothed⟩ 2 - Real.pi :=
  (corrected_phase_wraps [1, 1, 1] ⟨Real.pi, [0, Real.pi, 0], halfTurn.H_smoothed⟩ 2).2.1

end WrapInstance
section Regression

variable {K : Type} [LinearOrderedField K] [FloorRing K]

theorem fitSums_foldl_linear (b m : K) :
    ∀ (l : List K) (acc : K × K × K × K),
      (l.zip (l.map (fun f => b + m * f))).foldl
        (fun acc fp =>
          (acc.1 + fp.1, acc.2.1 + fp.2, acc.2.2.1 + fp.1 * fp.1, acc.2.2.2 + fp.1 * fp.2))
        acc =
      (acc.1 + l.sum, acc.2.1 + ((l.length : K) * b + m * l.sum),
        acc.2.2.1 + (l.map (fun f => f * f)).sum,
        acc.2.2.2 + (b * l.sum + m * (l.map (fun f => f * f)).sum)) := by
  intro l
  induction l with
  | nil =>
    intro acc
    simp
  | cons x xs ih =>
    intro acc
    rw [List.map_cons, List.zip_cons_cons, List.foldl_cons, ih]
    simp only [List.sum_cons, List.map_cons, List.length_cons, Nat.cast_succ, Prod.mk.injEq]
    refine ⟨by ring, by ring, by ring, by ring⟩

theorem fitSums_linear (l : List K) (b m : K) :
    fitSums (l.zip (l.map (fun f => b + m * f))) =
      (l.sum, (l.length : K) * b + m * l.sum, (l.map (fun f => f * f)).sum,
        b * l.sum + m * (l.map (fun f => f * f)).sum) := by
  unfold fitSums
  rw [fitSums_foldl_linear]
  simp

theorem sum_sq_diff (x : K) :
    ∀ l : List K, (l.map (fun y => (x - y) ^ 2)).sum =
      (l.length : K) * x ^ 2 - 2 * x * l.sum + (l.map (fun f => f * f)).sum := by
  intro l
  induction l with
  | nil => simp
  | cons y ys ih =>
    simp only [List.map_cons, List.sum_cons, List.length_cons, Nat.cast_succ, ih]
    ring

theorem spread_cons (x : K) (l : List K) :
    ((x :: l).length : K) * ((x :: l).map (fun f => f * f)).sum - (x :: l).sum * (x :: l).sum =
      ((l.length : K) * (l.map (fun f => f * f)).sum - l.sum * l.sum) +
        (l.map (fun y => (x - y) ^ 2)).sum := by
  rw [sum_sq_diff]
  simp only [List.map_cons, List.sum_cons, List.length_cons, Nat.cast_succ]
  ring

theorem sq_diffs_nonneg (x : K) (l : List K) : 0 ≤ (l.map (fun y => (x - y) ^ 2)).sum := by
  refine List.sum_nonneg ?_
  intro a ha
  obtain ⟨y, _, e⟩ := List.mem_map.mp ha
  rw [← e]
  exact sq_nonneg _

theorem spread_nonneg :
    ∀ l : List K, 0 ≤ (l.length : K) * (l.map (fun f => f * f)).sum - l.sum * l.sum := by
  intro l
  induction l with
  | nil => simp
  | cons x xs ih =>
    rw [spread_cons]
    exact add_nonneg ih (sq_diffs_nonneg x xs)

/-- The denominator of the fit is at least the squared distance between the first
frequency and any later one. -/
theorem spread_ge (x y : K) (l : List K) (hy : y ∈ l) :
    (x - y) ^ 2 ≤
      ((x :: l).length : K) * ((x :: l).map (fun f => f * f)).sum -
        (x :: l).sum * (x :: l).sum := by
  rw [spread_cons]
  have h1 := spread_nonneg l
  have h2 : (x - y) ^ 2 ≤ (l.map (fun y => (x - y) ^ 2)).sum := by
    refine List.single_le_sum ?_ _ (List.mem_map.mpr ⟨y, hy, rfl⟩)
    intro a ha
    obtain ⟨z, _, e⟩ := List.mem_map.mp ha
    rw [← e]
    exact sq_nonneg _
  linarith

theorem increasing_reach :
    ∀ (l : List Nat) (k : Nat), List.Pairwise (fun a b => a < b) (k :: l) → l ≠ [] →
      ∃ y, y ∈ l ∧ k + l.length ≤ y := by
  intro l
  induction l with
  | nil => intro k _ h; exact absurd rfl h
  | cons y ys ih =>
    intro k hp _
    have hky : k < y := (List.pairwise_cons.mp hp).1 y (List.mem_cons_self y ys)
    by_cases hys : ys = []
    · subst hys
      exact ⟨y, List.mem_cons_self y [], by simp; omega⟩
    · obtain ⟨z, hz, hle⟩ := ih y (List.pairwise_cons.mp hp).2 hys
      refine ⟨z, List.mem_cons_of_mem y hz, ?_⟩
      rw [List.length_cons]
      omega

theorem filterMap_ite {α β : Type} (p : α → Prop) [DecidablePred p] (h : α → β) :
    ∀ l : List α, l.filterMap (fun k => if p k then some (h k) else none) =
      (l.filter (fun k => decide (p k))).map h := by
  intro l
  induction l with
  | nil => rfl
  | cons x xs ih =>
    by_cases hx : p x
    · simp [List.filterMap_cons, List.filter_cons, hx, ih]
    · simp [List.filterMap_cons, List.filter_cons, hx, ih]

/-- The selection loop of `estimateDelayPhaseBased` keeps, in increasing order, the bins
`k ≥ 1` with coherence above 0.4 and frequency in `[200, 8000]`. -/
theorem selectBins_eq (M : Libm K) (s : TFState K) :
    selectBins M s =
      ((List.range' 1 (s.H.length - 1)).filter (fun k =>
        decide (s.gamma2.getD k 0 > cohMinMath ∧
          (s.frequencies.getD k 0 ≥ 200 ∧ s.frequencies.getD k 0 ≤ 8000)))).map
        (fun k => (s.frequencies.getD k 0, carg M (s.H.getD k Cplx.zero))) := by
  rw [← filterMap_ite]
  unfold selectBins
  congr 1
  funext k
  dsimp only
  by_cases h1 : s.gamma2.getD k 0 > cohMinMath
  · by_cases h2 : s.frequencies.getD k 0 ≥ 200 ∧ s.frequencies.getD k 0 ≤ 8000
    · rw [if_pos h1, if_pos h2, if_pos ⟨h1, h2⟩]
    · rw [if_pos h1, if_neg h2, if_neg (fun h => h2 h.2)]
  · rw [if_neg h1, if_neg (fun h => h1 h.1)]

end Regression
section RegressionClaim

variable {K : Type} [LinearOrderedField K] [FloorRing K]

/-- On the frequency axis `k * delta` with at most `2^30` bins, twenty selected bins make
the denominator of the fit exceed `eps`: the first and the last selected bin are at least
19 bins apart and the bin spacing is above `200 / 2^30`. -/
theorem selected_spread (M : Libm K) (s : TFState K) (delta : K)
    (hax : ∀ k, k < s.H.length → s.frequencies.getD k 0 = (k : K) * delta)
    (hbins : s.H.length ≤ 2 ^ 30) (h20 : 20 ≤ (selectBins M s).length) :
    0 < delta ∧
    eps < (((selectBins M s).map Prod.fst).length : K) *
        (((selectBins M s).map Prod.fst).map (fun f => f * f)).sum -
      ((selectBins M s).map Prod.fst).sum * ((selectBins M s).map Prod.fst).sum := by
  rw [selectBins_eq M s] at h20 ⊢
  rw [List.length_map] at h20
  rw [List.map_map]
  have hp : List.Pairwise (fun a b => a < b)
      ((List.range' 1 (s.H.length - 1)).filter (fun k =>
        decide (s.gamma2.getD k 0 > cohMinMath ∧
          (s.frequencies.getD k 0 ≥ 200 ∧ s.frequencies.getD k 0 ≤ 8000)))) :=
    (List.pairwise_lt_range' 1 (s.H.length - 1)).sublist (List.filter_sublist _)
  have hmem : ∀ k, k ∈ (List.range' 1 (s.H.length - 1)).filter (fun k =>
        decide (s.gamma2.getD k 0 > cohMinMath ∧
          (s.frequencies.getD k 0 ≥ 200 ∧ s.frequencies.getD k 0 ≤ 8000))) →
      1 ≤ k ∧ k < s.H.length ∧ s.frequencies.getD k 0 ≥ 200 := by
    intro k hk
    rw [List.mem_filter, List.mem_range'_1] at hk
    have hq := of_decide_eq_true hk.2
    exact ⟨hk.1.1, by omega, hq.2.1⟩
  generalize (List.range' 1 (s.H.length - 1)).filter (fun k =>
        decide (s.gamma2.getD k 0 > cohMinMath ∧
          (s.frequencies.getD k 0 ≥ 200 ∧ s.frequencies.getD k 0 ≤ 8000))) = ks
    at h20 hp hmem ⊢
  cases ks with
  | nil => exact absurd h20 (by simp)
  | cons k1 l =>
    have hl : 19 ≤ l.length := by
      rw [List.length_cons] at h20
      omega
    obtain ⟨y, hy, hle⟩ := increasing_reach l k1 hp (by
      intro h
      rw [h] at hl
      exact absurd hl (by simp))
    obtain ⟨a1, a2, a3⟩ := hmem k1 (List.mem_cons_self k1 l)
    obtain ⟨_, b2, _⟩ := hmem y (List.mem_cons_of_mem k1 hy)
    rw [hax k1 a2] at a3
    have hk1 : (0 : K) < (k1 : K) := by exact_mod_cast a1
    have hd : 0 < delta := by
      by_contra hneg
      have : (k1 : K) * delta ≤ 0 := mul_nonpos_of_nonneg_of_nonpos hk1.le (not_lt.mp hneg)
      linarith
    have hk2 : (k1 : K) < 2 ^ 30 := by
      have : k1 < 2 ^ 30 := by omega
      exact_mod_cast this
    have hd2 : 200 < delta * 2 ^ 30 := by
      have : delta * (k1 : K) < delta * 2 ^ 30 := mul_lt_mul_of_pos_left hk2 hd
      linarith
    have hy2 : (k1 : K) + 19 ≤ (y : K) := by
      have : k1 + 19 ≤ y := by omega
      exact_mod_cast this
    have ht : 1 / 10 ^ 6 < (y : K) * delta - (k1 : K) * delta := by
      have e1 : 19 * delta ≤ (y : K) * delta - (k1 : K) * delta := by
        have := mul_le_mul_of_nonneg_right hy2 hd.le
        linarith
      have e2 : (1 : K) / 10 ^ 6 < 19 * delta := by
        rw [div_lt_iff₀ (by norm_num)]
        have e3 : (2 : K) ^ 30 < 3800 * 10 ^ 6 := by norm_num
        nlinarith
      linarith
    have hsq : eps < ((k1 : K) * delta - (y : K) * delta) ^ 2 := by
      have e4 : (eps : K) = (1 / 10 ^ 6) ^ 2 := by
        unfold eps
        norm_num
      rw [e4]
      nlinarith
    refine ⟨hd, ?_⟩
    have hge := spread_ge (s.frequencies.getD k1 0) (s.frequencies.getD y 0)
      (l.map (fun k => s.frequencies.getD k 0)) (List.mem_map.mpr ⟨y, hy, rfl⟩)
    rw [hax k1 a2, hax y b2] at hge
    have hform : (List.map (Prod.fst ∘ fun k => (s.frequencies.getD k 0,
        carg M (s.H.getD k Cplx.zero))) (k1 :: l)) =
        (k1 : K) * delta :: l.map (fun k => s.frequencies.getD k 0) := by
      rw [List.map_cons]
      show s.frequencies.getD k1 0 :: _ = _
      rw [hax k1 a2]
      rfl
    rw [hform]
    exact lt_of_lt_of_le hsq hge

/-- C26: on the regression fallback path (`estimateDelayPhaseBased`), a bin qualifies when
its index is at least 1, its coherence is above 0.4 and its frequency lies in
`[200, 8000]`. If fewer than 20 bins qualify, the call changes nothing, so
`estimatedDelay` and `smoothedDelay` are unchanged. If at least 20 bins qualify and their
unwrapped phases are exactly `b + m * f_i`, the least-squares slope computed is `m`,
`smoothedDelay' = 0.8 * smoothedDelay + 0.2 * clamp(-m / (2 pi), -0.1, 0.1)` and
`estimatedDelay' = smoothedDelay'`. The frequency axis is the one `prepare` writes, bin `k`
at `k * delta`, with at most `2^30` bins (a 32-bit frame length); the spacing `delta` is
then positive, so the qualifying bins are at distinct frequencies. -/
theorem regression_fallback (M : Libm K) (s : TFState K) (b m delta : K)
    (hax : ∀ k, k < s.H.length → s.frequencies.getD k 0 = (k : K) * delta)
    (hbins : s.H.length ≤ 2 ^ 30) :
    selectBins M s =
      ((List.range' 1 (s.H.length - 1)).filter (fun k =>
        decide (s.gamma2.getD k 0 > cohMinMath ∧
          (s.frequencies.getD k 0 ≥ 200 ∧ s.frequencies.getD k 0 ≤ 8000)))).map
        (fun k => (s.frequencies.getD k 0, carg M (s.H.getD k Cplx.zero))) ∧
    ((selectBins M s).length < 20 → estimateDelayPhaseBased M s = s) ∧
    (20 ≤ (selectBins M s).length →
      unwrapPhases M.pi ((selectBins M s).map Prod.snd) =
        ((selectBins M s).map Prod.fst).map (fun f => b + m * f) →
      0 < delta ∧ regressionSlope M s = m ∧
      (estimateDelayPhaseBased M s).smoothedDelay =
        4 / 5 * s.smoothedDelay + 1 / 5 * max (-(1 / 10)) (min (1 / 10) (-m / (2 * M.pi))) ∧
      (estimateDelayPhaseBased M s).estimatedDelay =
        (estimateDelayPhaseBased M s).smoothedDelay) := by
  refine ⟨selectBins_eq M s, ?_, ?_⟩
  · intro h
    unfold estimateDelayPhaseBased
    dsimp only
    rw [if_pos (by rw [List.length_map]; exact h)]
  · intro h20 hlin
    obtain ⟨hd, hsp⟩ := selected_spread M s delta hax hbins h20
    have hslope : regressionSlope M s = m := by
      unfold regressionSlope
      dsimp only
      rw [hlin, fitSums_linear]
      dsimp only
      rw [div_eq_iff (by linarith [eps_pos (K := K)])]
      ring
    have hden : |(((selectBins M s).map Prod.fst).length : K) *
        (fitSums (((selectBins M s).map Prod.fst).zip
          (unwrapPhases M.pi ((selectBins M s).map Prod.snd)))).2.2.1 -
        (fitSums (((selectBins M s).map Prod.fst).zip
          (unwrapPhases M.pi ((selectBins M s).map Prod.snd)))).1 *
        (fitSums (((selectBins M s).map Prod.fst).zip
          (unwrapPhases M.pi ((selectBins M s).map Prod.snd)))).1| > eps := by
      rw [hlin, fitSums_linear]
      dsimp only
      rw [abs_of_pos (lt_trans eps_pos hsp)]
      exact hsp
    have hupd : estimateDelayPhaseBased M s =
        { s with
          smoothedDelay := 4 / 5 * s.smoothedDelay +
            1 / 5 * max (-(1 / 10)) (min (1 / 10) (-(regressionSlope M s) / (2 * M.pi)))
          estimatedDelay := 4 / 5 * s.smoothedDelay +
            1 / 5 * max (-(1 / 10)) (min (1 / 10) (-(regressionSlope M s) / (2 * M.pi))) } := by
      unfold estimateDelayPhaseBased
      dsimp only
      rw [if_neg (by rw [List.length_map]; omega), if_pos hden]
      rfl
    refine ⟨hd, hslope, ?_, ?_⟩
    · rw [hupd, hslope]
    · rw [hupd]

end RegressionClaim
section RegressionWitness

theorem unwrapFrom_const (pi c : ℝ) (hpi : 0 < pi) :
    ∀ n : Nat, unwrapFrom pi c (List.replicate n c) = List.replicate n c := by
  intro n
  induction n with
  | zero => rfl
  | succ n ih =>
    rw [List.replicate_succ, unwrapFrom]
    rw [wrapPhase_of_mem pi c (c - c) (by rw [sub_self]; linarith) (by rw [sub_self]; linarith),
      ih]

theorem getD_replicate_lt {α : Type} (n k : Nat) (x d : α) (h : k < n) :
    (List.replicate n x).getD k d = x := by
  simp [List.getD_eq_getElem?_getD, List.getElem?_replicate, h]

theorem unwrapPhases_const (pi c : ℝ) (hpi : 0 < pi) (n : Nat) :
    unwrapPhases pi (List.replicate n c) = List.replicate n c := by
  cases n with
  | zero => rfl
  | succ n =>
    rw [List.replicate_succ, unwrapPhases, unwrapFrom_const pi c hpi n]

theorem flatResponse_axis (k : Nat) (hk : k < flatResponse.H.length) :
    flatResponse.frequencies.getD k 0 = (k : ℝ) * 400 := by
  have hk2 : k < 21 := by
    have e : flatResponse.H.length = 21 := by
      show (List.replicate 21 (⟨1, 0⟩ : Cplx ℝ)).length = 21
      rw [List.length_replicate]
    omega
  show ((List.range 21).map (fun (k : Nat) => (k : ℝ) * 400)).getD k 0 = _
  simp [List.getD_eq_getElem?_getD, List.getElem?_range hk2]

theorem flatResponse_selected :
    selectBins realLibm flatResponse =
      (List.range' 1 20).map (fun k =>
        (flatResponse.frequencies.getD k 0, carg realLibm (flatResponse.H.getD k Cplx.zero))) := by
  rw [selectBins_eq]
  have e : flatResponse.H.length - 1 = 20 := by
    show (List.replicate 21 (⟨1, 0⟩ : Cplx ℝ)).length - 1 = 20
    rw [List.length_replicate]
  rw [e]
  congr 1
  rw [List.filter_eq_self]
  intro k hk
  rw [List.mem_range'_1] at hk
  have hk1 : (1 : ℝ) ≤ (k : ℝ) := by exact_mod_cast hk.1
  have hk2 : (k : ℝ) ≤ 20 := by
    have : k ≤ 20 := by omega
    exact_mod_cast this
  have hf := flatResponse_axis k (by
    show k < (List.replicate 21 (⟨1, 0⟩ : Cplx ℝ)).length
    rw [List.length_replicate]
    omega)
  have hg : flatResponse.gamma2.getD k 0 = 1 := by
    exact getD_replicate_lt 21 k 1 0 (by omega)
  rw [decide_eq_true_iff, hf, hg]
  refine ⟨?_, ?_, ?_⟩
  · show (2 : ℝ) / 5 < 1
    norm_num
  · linarith
  · linarith

theorem flatResponse_phases :
    unwrapPhases realLibm.pi ((selectBins realLibm flatResponse).map Prod.snd) =
      ((selectBins realLibm flatResponse).map Prod.fst).map (fun f => 0 + 0 * f) := by
  rw [flatResponse_selected, List.map_map, List.map_map, List.map_map]
  have e1 : (List.range' 1 20).map (Prod.snd ∘ fun k =>
      (flatResponse.frequencies.getD k 0, carg realLibm (flatResponse.H.getD k Cplx.zero))) =
      List.replicate 20 0 := by
    rw [List.eq_replicate_iff]
    refine ⟨by simp, ?_⟩
    intro x hx
    obtain ⟨k, hk, e⟩ := List.mem_map.mp hx
    rw [List.mem_range'_1] at hk
    rw [← e]
    show carg realLibm ((List.replicate 21 (⟨1, 0⟩ : Cplx ℝ)).getD k Cplx.zero) = 0
    have : (List.replicate 21 (⟨1, 0⟩ : Cplx ℝ)).getD k Cplx.zero = ⟨1, 0⟩ :=
      getD_replicate_lt 21 k _ _ (by omega)
    rw [this]
    exact carg_one
  have e2 : (List.range' 1 20).map (((fun f : ℝ => 0 + 0 * f) ∘ Prod.fst) ∘ fun k =>
      (flatResponse.frequencies.getD k 0, carg realLibm (flatResponse.H.getD k Cplx.zero))) =
      List.replicate 20 0 := by
    rw [List.eq_replicate_iff]
    refine ⟨by simp, ?_⟩
    intro x hx
    obtain ⟨k, _, e⟩ := List.mem_map.mp hx
    rw [← e]
    simp
  rw [e1, e2]
  exact unwrapPhases_const Real.pi 0 Real.pi_pos 20

/-- C26 (instance): 21 bins 400 Hz apart with response 1 and coherence 1; the bins 1 to
20 qualify, their phases are `0 + 0 * f`, and the computed slope is 0. -/
theorem regression_fallback_witness :
    regressionSlope realLibm flatResponse = 0 ∧
    (estimateDelayPhaseBased realLibm flatResponse).smoothedDelay =
      4 / 5 * flatResponse.smoothedDelay +
        1 / 5 * max (-(1 / 10)) (min (1 / 10) (-0 / (2 * realLibm.pi))) :=
  ⟨((regression_fallback realLibm flatResponse 0 0 400 flatResponse_axis
      (by show (List.replicate 21 (⟨1, 0⟩ : Cplx ℝ)).length ≤ 2 ^ 30
          rw [List.length_replicate]; norm_num)).2.2
      (by rw [flatResponse_selected]; simp) flatResponse_phases).2.1,
    ((regression_fallback realLibm flatResponse 0 0 400 flatResponse_axis
      (by show (List.replicate 21 (⟨1, 0⟩ : Cplx ℝ)).length ≤ 2 ^ 30
          rw [List.length_replicate]; norm_num)).2.2
      (by rw [flatResponse_selected]; simp) flatResponse_phases).2.2.1⟩

end RegressionWitness

section SilentFrame

theorem getD_writeBins_same {α : Type} (n : Nat) (f : Nat → α) (xs : List α) (k : Nat) (d : α)
    (hf : f k = d) (hx : xs.getD k d = d) : (writeBins n f xs).getD k d = d := by
  by_cases hk : k < n
  · exact getD_writeBins_const n f xs k d hk hf
  · rw [getD_writeBins_ge n f xs k d (not_lt.mp hk)]
    exact hx

theorem getD_beyond {α : Type} (xs : List α) (k : Nat) (d : α) (h : xs.length ≤ k) :
    xs.getD k d = d := by
  rw [List.getD_eq_getElem?_getD, List.getElem?_eq_none_iff.mpr h]
  rfl

theorem averageBin_silent (a : ℝ) :
    averageBin a Cplx.zero Cplx.zero 0 0 Cplx.zero = ⟨0, 0, Cplx.zero, Cplx.zero, 0⟩ := by
  simp [averageBin, Cplx.norm, Cplx.add, Cplx.smul, Cplx.mul, Cplx.conj, Cplx.zero, Cplx.divR]

theorem silentAverages_updateAverages (s : TFState ℝ)
    (hX : ∀ k, s.X.getD k Cplx.zero = Cplx.zero) (hY : ∀ k, s.Y.getD k Cplx.zero = Cplx.zero)
    (h : SilentAverages s) : SilentAverages (updateAverages s) := by
  intro k
  obtain ⟨c1, c2, c3, c4, c5⟩ := h k
  have hb : averagedBin s k = ⟨0, 0, Cplx.zero, Cplx.zero, 0⟩ := by
    unfold averagedBin
    rw [hX k, hY k, c1, c2, c3]
    exact averageBin_silent _
  refine ⟨?_, ?_, ?_, ?_, ?_⟩
  · exact getD_writeBins_same _ (fun k => (averagedBin s k).gxx) s.Gxx k 0
      (by show (averagedBin s k).gxx = 0; rw [hb]) c1
  · exact getD_writeBins_same _ (fun k => (averagedBin s k).gyy) s.Gyy k 0
      (by show (averagedBin s k).gyy = 0; rw [hb]) c2
  · exact getD_writeBins_same _ (fun k => (averagedBin s k).gxy) s.Gxy k Cplx.zero
      (by show (averagedBin s k).gxy = Cplx.zero; rw [hb]) c3
  · exact getD_writeBins_same _ (fun k => (averagedBin s k).h) s.H k Cplx.zero
      (by show (averagedBin s k).h = Cplx.zero; rw [hb]) c4
  · exact getD_writeBins_same _ (fun k => (averagedBin s k).g2) s.gamma2 k 0
      (by show (averagedBin s k).g2 = 0; rw [hb]) c5

theorem silentAverages_of_same (s t : TFState ℝ) (h : SameAverages s t)
    (hc : SilentAverages s) : SilentAverages t := by
  obtain ⟨a1, a2, a3, a4, a5⟩ := h
  intro k
  rw [a1, a2, a3, a4, a5]
  exact hc k

theorem silentAverages_averagingStep (M : Libm ℝ) (s : TFState ℝ)
    (hX : ∀ k, s.X.getD k Cplx.zero = Cplx.zero) (hY : ∀ k, s.Y.getD k Cplx.zero = Cplx.zero)
    (h : SilentAverages s) : SilentAverages (averagingStep M s) := by
  unfold averagingStep
  split_ifs
  · have h1 := silentAverages_updateAverages
      { s with averagingAlpha := M.exp (-s.frameDt / (3 / 10)) } hX hY (fun k => h k)
    exact silentAverages_of_same _ _ (by simp [SameAverages]) h1
  · exact silentAverages_updateAverages s hX hY h

theorem accept_silent (u : TFState ℝ) (n : Nat) (hs : Sized u n) (k : Nat) :
    (acceptSpectra u (List.replicate n Cplx.zero) (List.replicate n Cplx.zero)).X.getD k
      Cplx.zero = Cplx.zero ∧
    (acceptSpectra u (List.replicate n Cplx.zero) (List.replicate n Cplx.zero)).Y.getD k
      Cplx.zero = Cplx.zero := by
  by_cases hk : k < n
  · obtain ⟨e1, e2⟩ := acceptSpectra_getD u (List.replicate n Cplx.zero)
      (List.replicate n Cplx.zero) n k hs (List.length_replicate _ _)
      (List.length_replicate _ _) hk
    rw [e1, e2]
    exact ⟨getD_replicate_lt n k _ _ hk, getD_replicate_lt n k _ _ hk⟩
  · obtain ⟨sX, sY, _⟩ := sized_acceptSpectra u (List.replicate n Cplx.zero)
      (List.replicate n Cplx.zero) n hs
    exact ⟨getD_beyond _ _ _ (le_of_eq_of_le sX (not_lt.mp hk)),
      getD_beyond _ _ _ (le_of_eq_of_le sY (not_lt.mp hk))⟩

/-- With silent spectra and an `N`-point inverse transform that maps zero input to zero
real parts, the fast path measures a raw delay of zero. -/
theorem rawDelay_silent_frame (J : Collab ℝ) (s : TFState ℝ)
    (hJ : ∀ l : List (Cplx ℝ), (∀ k, k < s.fftSize.toNat → l.getD k Cplx.zero = Cplx.zero) →
      ∀ k, k < s.fftSize.toNat → ((J.ifft l).getD k Cplx.zero).re = 0)
    (hX : ∀ k, s.X.getD k Cplx.zero = Cplx.zero) (hY : ∀ k, s.Y.getD k Cplx.zero = Cplx.zero)
    (hN : 0 ≤ s.fftSize) : rawDelay realLibm J s = 0 := by
  have hpeak : peakIndex
      (writeBins s.fftSize.toNat
        (fun n => ((J.ifft (writeBins s.fftSize.toNat
          (hermitianBin (phatSpectrum realLibm s) s.fftSize ((s.X.length : Int) - 1))
          s.phatFftBuffer)).getD n Cplx.zero).re / (s.fftSize : ℝ)) s.phatTime)
      s.fftSize.toNat = 0 := by
    apply peakIndex_zero
    intro n hn
    apply getD_writeBins_const _ _ _ _ _ hn
    rw [hJ _ (fun k hk => getD_writeBins_const _ _ _ _ _ hk
      (hermitianBin_zero _ _ _ _ (phatSpectrum_silent realLibm s Real.sqrt_zero hX hY))) n hn]
    exact zero_div _
  have htd : ¬ (0 : Int) > Int.tdiv s.fftSize 2 := by
    have := Int.tdiv_nonneg hN (by norm_num : (0 : Int) ≤ 2)
    omega
  simp only [rawDelay, gccPhat, hpeak, Nat.cast_zero, htd, if_false, Int.cast_zero, zero_div]

theorem silentCore_step (m : Nat) (c : DelayCore ℝ) (h : SilentCore m c) :
    SilentCore (m + 1) (coreFrame c 0) := by
  obtain ⟨est, last, cnt, locked, counter⟩ := c
  obtain ⟨h1, h2, h3, h4⟩ := h
  simp only at h1 h2 h3 h4
  subst h1 h2
  have hj : jlimit (-(1 / 20 : ℝ)) (1 / 20) 0 = 0 := by
    unfold jlimit
    norm_num
  by_cases hm : m < 6
  · obtain ⟨l1, l2, l3⟩ := h3 hm
    subst l1 l2 l3
    interval_cases m
    all_goals
      simp only [coreFrame, coreUpdate, SilentCore, delayStabilityThreshold, delayStabilityCount]
      norm_num [hj]
  · obtain ⟨l1, l2⟩ := h4 (not_lt.mp hm)
    subst l1 l2
    by_cases hd : (DelayCore.mk (0 : ℝ) 0 3 true counter).counter + 1 ≥
        (if (DelayCore.mk (0 : ℝ) 0 3 true counter).locked = true then 20 else 2)
    · rw [coreFrame_due _ _ hd, coreUpdate_locked _ _ rfl]
      refine ⟨?_, rfl, fun h => absurd h (by omega), fun _ => ⟨rfl, rfl⟩⟩
      show jlimit (-(1 / 20 : ℝ)) (1 / 20) (9 / 10 * 0 + (1 - 9 / 10) * 0) = 0
      norm_num [hj]
    · rw [coreFrame_not_due _ _ hd]
      exact ⟨rfl, rfl, fun h => absurd h (by omega), fun _ => ⟨rfl, rfl⟩⟩

end SilentFrame

section SilentPublished

theorem cabs_zero : cabs realLibm (Cplx.zero : Cplx ℝ) = 0 := by
  show Real.sqrt (0 * 0 + 0 * 0) = 0
  simp

theorem cabs_eq_zero (z : Cplx ℝ) (h : cabs realLibm z = 0) : z = Cplx.zero := by
  have h1 : z.re * z.re + z.im * z.im ≤ 0 := Real.sqrt_eq_zero'.mp h
  have h2 : z.re = 0 := by nlinarith [mul_self_nonneg z.re, mul_self_nonneg z.im]
  have h3 : z.im = 0 := by nlinarith [mul_self_nonneg z.re, mul_self_nonneg z.im]
  ext
  · exact h2
  · exact h3

theorem log10_eps : 20 * realLibm.log10 (eps : ℝ) = -240 := by
  have h10 : (0 : ℝ) < Real.log 10 := Real.log_pos (by norm_num)
  have he : Real.log (eps : ℝ) = -(12 * Real.log 10) := by
    unfold eps
    rw [one_div, Real.log_inv, Real.log_pow]
    norm_num
  show 20 * (Real.log (eps : ℝ) / Real.log 10) = -240
  rw [he]
  field_simp
  ring

theorem bandSums_weight_silent (s : TFState ℝ) (f1 f2 : ℝ)
    (hg : ∀ i, s.gamma2.getD i 0 = 0) : (bandSums s f1 f2).2.1 = 0 := by
  rw [bandSums_eq]
  show (List.map (fun i => max 0 (min 1 (s.gamma2.getD i 0))) _).sum = 0
  refine List.sum_eq_zero ?_
  intro x hx
  obtain ⟨i, _, e⟩ := List.mem_map.mp hx
  rw [← e, hg i]
  norm_num

theorem smoothBin_silent (M : Libm ℝ) (s : TFState ℝ) (oct : ℝ) (k : Nat)
    (hH : ∀ k, s.H_compensated.getD k Cplx.zero = Cplx.zero)
    (hg : ∀ i, s.gamma2.getD i 0 = 0) : smoothBin M s oct k = Cplx.zero := by
  unfold smoothBin
  dsimp only
  split_ifs with h1 h2
  · exact hH k
  · exfalso
    have h3 := h2.1
    rw [bandSums_weight_silent s _ _ hg] at h3
    exact absurd h3 (not_lt.mpr eps_pos.le)
  · exact hH k

theorem applySmoothing_silent (M : Libm ℝ) (s : TFState ℝ) (n : Nat) (hs : Sized s n)
    (hH : ∀ k, s.H_compensated.getD k Cplx.zero = Cplx.zero)
    (hg : ∀ i, s.gamma2.getD i 0 = 0) (k : Nat) :
    (applySmoothing M s).H_smoothed.getD k Cplx.zero = Cplx.zero := by
  obtain ⟨_, _, _, _, _, _, sHc, sHs, _⟩ := hs
  unfold applySmoothing
  dsimp only
  split_ifs
  · exact hH k
  · show (writeBins s.H_compensated.length (smoothBin M s s.smoothingOctaves)
      s.H_smoothed).getD k Cplx.zero = Cplx.zero
    by_cases hk : k < n
    · exact getD_writeBins_const _ _ _ k _ (hk.trans_eq sHc.symm)
        (smoothBin_silent M s _ k hH hg)
    · exact getD_beyond _ _ _ (by rw [length_writeBins, sHs]; exact not_lt.mp hk)

theorem unwrapPhase_silent (s : TFState ℝ)
    (hH : ∀ k, s.H_smoothed.getD k Cplx.zero = Cplx.zero) (k : Nat) :
    (unwrapPhase realLibm s).H_smoothed.getD k Cplx.zero = Cplx.zero := by
  refine cabs_eq_zero _ ?_
  rw [unwrapPhase_modulus s k, hH k]
  exact cabs_zero

theorem published_magnitude (J : Collab ℝ) (s : TFState ℝ) (n k : Nat) (hs : Sized s n)
    (hk : k < n) :
    (processFrame realLibm J s).magnitudeDbBuffer.getD k 0 =
      20 * realLibm.log10
        (max (cabs realLibm ((unwrappedStage realLibm J s).H_smoothed.getD k Cplx.zero)) eps) := by
  obtain ⟨_, _, _, _, _, _, _, u8, _, u10, _⟩ := sized_unwrappedStage realLibm J s n hs
  exact getD_writeBins _ _ _ k 0 (hk.trans_eq u8.symm) (hk.trans_eq u10.symm)

theorem coreFrame_est_silent (m : Nat) (c : DelayCore ℝ) (h : SilentCore m c) :
    (coreFrame c 0).est = 0 := (silentCore_step m c h).1

/-- One silent frame on the fast path: the averages stay zero, the delay-estimator fields
advance by one frame with a raw delay of zero, and the published values are -240 dB,
phase 0 and coherence 0 in every bin. -/
theorem silent_frame (J : Collab ℝ) (u : TFState ℝ) (n m : Nat) (hs : Sized u n)
    (ha : SilentAverages u) (hf : u.phatFFT = true) (hN : 0 ≤ u.fftSize)
    (hJ : ∀ l : List (Cplx ℝ), (∀ k, k < u.fftSize.toNat → l.getD k Cplx.zero = Cplx.zero) →
      ∀ k, k < u.fftSize.toNat → ((J.ifft l).getD k Cplx.zero).re = 0)
    (hb : DelayBounded u) (hc : SilentCore m (delayCore u)) :
    SilentAverages (processSpectra realLibm J u (List.replicate n Cplx.zero)
      (List.replicate n Cplx.zero)) ∧
    SilentCore (m + 1) (delayCore (processSpectra realLibm J u (List.replicate n Cplx.zero)
      (List.replicate n Cplx.zero))) ∧
    (∀ k, k < n →
      (processSpectra realLibm J u (List.replicate n Cplx.zero)
        (List.replicate n Cplx.zero)).magnitudeDbBuffer.getD k 0 = -240 ∧
      (processSpectra realLibm J u (List.replicate n Cplx.zero)
        (List.replicate n Cplx.zero)).phaseDegreesBuffer.getD k 0 = 0 ∧
      (processSpectra realLibm J u (List.replicate n Cplx.zero)
        (List.replicate n Cplx.zero)).coherenceBuffer.getD k 0 = 0) := by
  have hsa : Sized (acceptSpectra u (List.replicate n Cplx.zero) (List.replicate n Cplx.zero)) n :=
    sized_acceptSpectra u _ _ n hs
  have hX := fun k => (accept_silent u n hs k).1
  have hY := fun k => (accept_silent u n hs k).2
  generalize hau : acceptSpectra u (List.replicate n Cplx.zero) (List.replicate n Cplx.zero) = a0
    at hsa hX hY
  have hcfg : a0.phatFFT = u.phatFFT ∧ a0.fftSize = u.fftSize ∧ delayCore a0 = delayCore u ∧
      a0.smoothedDelay = u.smoothedDelay ∧ a0.Gxx = u.Gxx ∧ a0.Gyy = u.Gyy ∧ a0.Gxy = u.Gxy ∧
      a0.H = u.H ∧ a0.gamma2 = u.gamma2 := by
    rw [← hau]
    exact ⟨rfl, rfl, rfl, rfl, rfl, rfl, rfl, rfl, rfl⟩
  obtain ⟨g1, g2, g3, g4, g5, g6, g7, g8, g9⟩ := hcfg
  have ha0 : SilentAverages a0 := by
    intro k
    rw [g5, g6, g7, g8, g9]
    exact ha k
  have hav : SilentAverages (averagingStep realLibm { a0 with frameCount := a0.frameCount + 1 }) :=
    silentAverages_averagingStep realLibm _ hX hY (fun k => ha0 k)
  have hraw : rawDelay realLibm J a0 = 0 :=
    rawDelay_silent_frame J a0 (by rw [g2]; exact hJ) hX hY (by rw [g2]; exact hN)
  have hcore : delayCore (processFrame realLibm J a0) = coreFrame (delayCore u) 0 := by
    have h := delayCore_processSpectra realLibm J u (List.replicate n Cplx.zero)
      (List.replicate n Cplx.zero) hf (hb.1 hf)
    rw [hau, hraw] at h
    rw [← h]
    unfold processSpectra
    rw [hau]
  have hsc : SilentCore (m + 1) (delayCore (processFrame realLibm J a0)) := by
    rw [hcore]
    exact silentCore_step m _ hc
  have hfin : SilentAverages (processFrame realLibm J a0) :=
    silentAverages_of_same _ _ (sameAverages_processFrame realLibm J a0) hav
  have hb0 : DelayBounded a0 := by
    unfold DelayBounded
    have e : a0.estimatedDelay = u.estimatedDelay := congrArg DelayCore.est g3
    rw [g1, e, g4]
    exact hb
  have hb1 : DelayBounded (averagingStep realLibm { a0 with frameCount := a0.frameCount + 1 }) :=
    delayBounded_of_same _ _ (sameDelay_averagingStep realLibm _)
      (sameConfig_averagingStep realLibm _).2.2.2.2.2.2.2.2.2.2.2.1 hb0
  have hb2 : DelayBounded (delayedStage realLibm J a0) := delayBounded_delayStep realLibm J _ hb1
  have hcd := delayCore_compensationStep realLibm (delayedStage realLibm J a0) hb2.2.1
  have hpc := (sameDelay_after_compensation realLibm J a0).1
  have hd0 : (delayedStage realLibm J a0).estimatedDelay = 0 := by
    have e := congrArg DelayCore.est (hpc.trans hcd)
    have e2 : (processFrame realLibm J a0).estimatedDelay =
        (delayedStage realLibm J a0).estimatedDelay := e
    rw [← e2]
    exact hsc.1
  have hHd : (delayedStage realLibm J a0).H =
      (averagingStep realLibm { a0 with frameCount := a0.frameCount + 1 }).H :=
    (sameAverages_delayStep realLibm J _).2.2.2.1
  have hgd : (delayedStage realLibm J a0).gamma2 =
      (averagingStep realLibm { a0 with frameCount := a0.frameCount + 1 }).gamma2 :=
    (sameAverages_delayStep realLibm J _).2.2.2.2
  have hHc : ∀ k, (compensationStep realLibm (delayedStage realLibm J a0)).H_compensated.getD k
      Cplx.zero = Cplx.zero := by
    intro k
    rw [compensationStep_small realLibm _ (by rw [hd0]; norm_num), hHd]
    exact (hav k).2.2.2.1
  have hgc : ∀ k, (compensationStep realLibm (delayedStage realLibm J a0)).gamma2.getD k 0 = 0 := by
    intro k
    rw [(sameAverages_compensationStep realLibm _).2.2.2.2, hgd]
    exact (hav k).2.2.2.2
  have hsc2 : Sized (compensationStep realLibm (delayedStage realLibm J a0)) n := by
    apply sized_compensationStep
    apply sized_delayStep
    apply sized_averagingStep
    simpa [Sized] using hsa
  have huw : ∀ k, (unwrappedStage realLibm J a0).H_smoothed.getD k Cplx.zero = Cplx.zero :=
    fun k => unwrapPhase_silent _ (applySmoothing_silent realLibm _ n hsc2 hHc hgc) k
  have hpf : processSpectra realLibm J u (List.replicate n Cplx.zero)
      (List.replicate n Cplx.zero) = processFrame realLibm J a0 := by
    unfold processSpectra
    rw [hau]
  rw [hpf]
  refine ⟨hfin, hsc, ?_⟩
  intro k hk
  have pm := published_magnitude J a0 n k hsa hk
  obtain ⟨pp, pc, pg⟩ := processFrame_published realLibm J a0 n k hsa hk
  refine ⟨?_, ?_, ?_⟩
  · rw [pm, huw k, cabs_zero, max_eq_right eps_pos.le]
    exact log10_eps
  · rw [pp, huw k]
    show Complex.arg ⟨0, 0⟩ * 180 / Real.pi = 0
    have e : (⟨0, 0⟩ : ℂ) = 0 := rfl
    rw [e, Complex.arg_zero]
    simp
  · rw [pc, pg, (hav k).2.2.2.2]
    norm_num

end SilentPublished

section SilentRun

theorem silentAverages_prepare (M : Libm ℝ) (J : Collab ℝ) (s : TFState ℝ) (n : Int) (fs : ℝ) :
    SilentAverages (prepare M J s n fs) := by
  intro k
  have z1 : ∀ (l : List ℝ), (fill l (0 : ℝ)).getD k 0 = 0 := by
    intro l
    rw [fill_eq_replicate, List.getD_eq_getElem?_getD, List.getElem?_replicate]
    split_ifs <;> rfl
  have z2 : ∀ (l : List (Cplx ℝ)), (fill l (Cplx.zero : Cplx ℝ)).getD k Cplx.zero = Cplx.zero := by
    intro l
    rw [fill_eq_replicate, List.getD_eq_getElem?_getD, List.getElem?_replicate]
    split_ifs <;> rfl
  exact ⟨z1 _, z1 _, z2 _, z2 _, z1 _⟩

theorem silent_run_invariant (J : Collab ℝ) (P : TFState ℝ) (n : Nat)
    (frames : List (List (Cplx ℝ) × List (Cplx ℝ))) (hs : Sized P n) (ha : SilentAverages P)
    (hf : P.phatFFT = true) (hN : 0 ≤ P.fftSize)
    (hJ : ∀ l : List (Cplx ℝ), (∀ k, k < P.fftSize.toNat → l.getD k Cplx.zero = Cplx.zero) →
      ∀ k, k < P.fftSize.toNat → ((J.ifft l).getD k Cplx.zero).re = 0)
    (hb : DelayBounded P) (hc : SilentCore 0 (delayCore P))
    (hsil : ∀ f ∈ frames, f = (List.replicate n Cplx.zero, List.replicate n Cplx.zero)) :
    ∀ m, m ≤ frames.length →
      Sized (runSpectra realLibm J P (frames.take m)) n ∧
      SilentAverages (runSpectra realLibm J P (frames.take m)) ∧
      (runSpectra realLibm J P (frames.take m)).phatFFT = true ∧
      (runSpectra realLibm J P (frames.take m)).fftSize = P.fftSize ∧
      DelayBounded (runSpectra realLibm J P (frames.take m)) ∧
      SilentCore m (delayCore (runSpectra realLibm J P (frames.take m))) ∧
      (1 ≤ m → ∀ k, k < n →
        (runSpectra realLibm J P (frames.take m)).magnitudeDbBuffer.getD k 0 = -240 ∧
        (runSpectra realLibm J P (frames.take m)).phaseDegreesBuffer.getD k 0 = 0 ∧
        (runSpectra realLibm J P (frames.take m)).coherenceBuffer.getD k 0 = 0) := by
  intro m
  induction m with
  | zero =>
    intro _
    exact ⟨hs, ha, hf, rfl, hb, hc, fun h => absurd h (by omega)⟩
  | succ m ih =>
    intro hm
    obtain ⟨i1, i2, i3, i4, i5, i6, _⟩ := ih (by omega)
    have hlt : m < frames.length := hm
    have hfr : frames.get ⟨m, hlt⟩ = (List.replicate n Cplx.zero, List.replicate n Cplx.zero) :=
      hsil _ (List.get_mem frames m hlt)
    rw [runSpectra_take_succ realLibm J P frames m hlt, hfr]
    obtain ⟨r1, r2, r3⟩ := silent_frame J (runSpectra realLibm J P (frames.take m)) n m i1 i2 i3
      (by rw [i4]; exact hN) (by rw [i4]; exact hJ) i5 i6
    obtain ⟨_, _, c3, _, c5⟩ := sameConfig_processSpectra realLibm J
      (runSpectra realLibm J P (frames.take m)) (List.replicate n Cplx.zero)
      (List.replicate n Cplx.zero)
    exact ⟨sized_processSpectra realLibm J _ _ _ n i1, r1, c3.trans i3, c5.trans i4,
      delayBounded_processFrame realLibm J _ i5, r2, fun _ => r3⟩

/-- C30: from the state left by `prepare` on the fast path, with both spectra zero in every
frame (silent input) and an inverse transform that maps a zero buffer to zero real parts,
after every frame `m ≥ 1`: `H_k = 0` and `gamma2_k = 0` in every bin; the published values
are magnitude -240 dB (the value after `prepare` was -60 dB), phase 0 and coherence 0;
`estimatedDelay` is 0; the stability counter is `min(m / 2, 3)`, one more at each of the
updates of frames 2, 4 and 6; and the estimator is Locked exactly from frame 6 on, which
is its third delay update. -/
theorem silent_input_run (J : Collab ℝ) (s : TFState ℝ) (n : Int) (fs : ℝ)
    (frames : List (List (Cplx ℝ) × List (Cplx ℝ))) (m : Nat)
    (hfast : (prepare realLibm J s n fs).phatFFT = true)
    (hJ : ∀ l : List (Cplx ℝ),
      (∀ k, k < (prepare realLibm J s n fs).fftSize.toNat → l.getD k Cplx.zero = Cplx.zero) →
      ∀ k, k < (prepare realLibm J s n fs).fftSize.toNat →
        ((J.ifft l).getD k Cplx.zero).re = 0)
    (hsil : ∀ f ∈ frames,
      f = (List.replicate (prepare realLibm J s n fs).X.length Cplx.zero,
        List.replicate (prepare realLibm J s n fs).X.length Cplx.zero))
    (hm1 : 1 ≤ m) (hm : m ≤ frames.length) :
    (∀ k, (runSpectra realLibm J (prepare realLibm J s n fs) (frames.take m)).H.getD k
        Cplx.zero = Cplx.zero ∧
      (runSpectra realLibm J (prepare realLibm J s n fs) (frames.take m)).gamma2.getD k 0 = 0) ∧
    (∀ k, k < (prepare realLibm J s n fs).X.length →
      (prepare realLibm J s n fs).magnitudeDbBuffer.getD k 0 = -60 ∧
      (runSpectra realLibm J (prepare realLibm J s n fs)
        (frames.take m)).magnitudeDbBuffer.getD k 0 = -240 ∧
      (runSpectra realLibm J (prepare realLibm J s n fs)
        (frames.take m)).phaseDegreesBuffer.getD k 0 = 0 ∧
      (runSpectra realLibm J (prepare realLibm J s n fs)
        (frames.take m)).coherenceBuffer.getD k 0 = 0) ∧
    (runSpectra realLibm J (prepare realLibm J s n fs) (frames.take m)).estimatedDelay = 0 ∧
    ((runSpectra realLibm J (prepare realLibm J s n fs) (frames.take m)).delayLocked = true ↔
      6 ≤ m) ∧
    (runSpectra realLibm J (prepare realLibm J s n fs) (frames.take m)).stableDelayCount =
      ((min (m / 2) 3 : Nat) : Int) ∧
    (m < 6 →
      (runSpectra realLibm J (prepare realLibm J s n fs) (frames.take m)).delayUpdateCounter =
        ((m % 2 : Nat) : Int)) := by
  have hsz := sized_prepare realLibm J s n fs
  have hX : (prepare realLibm J s n fs).X.length =
      (Int.tdiv (J.analyzerSize n fs) 2 + 1).toNat := hsz.1
  rw [hX] at hsil ⊢
  have hN : 0 ≤ (prepare realLibm J s n fs).fftSize := by
    have h1 := (prepare_phatFFT realLibm J s n fs).1
    rw [hfast] at h1
    have h2 := of_decide_eq_true h1.symm
    rw [prepare_fftSize, ← h2]
    positivity
  have h0 : SilentCore 0 (delayCore (prepare realLibm J s n fs)) := by
    have e : delayCore (prepare realLibm J s n fs) = ⟨0, 0, 0, false, 0⟩ := rfl
    rw [e]
    exact ⟨rfl, rfl, fun _ => ⟨rfl, rfl, rfl⟩, fun h => absurd h (by omega)⟩
  obtain ⟨_, i2, _, _, _, i6, i7⟩ := silent_run_invariant J (prepare realLibm J s n fs) _ frames
    hsz (silentAverages_prepare realLibm J s n fs) hfast hN hJ (delayBounded_zero _ rfl rfl)
    h0 hsil m hm
  obtain ⟨c1, _, c3, c4⟩ := i6
  have c1e : (runSpectra realLibm J (prepare realLibm J s n fs) (frames.take m)).estimatedDelay =
      0 := c1
  refine ⟨fun k => ⟨(i2 k).2.2.2.1, (i2 k).2.2.2.2⟩, ?_, c1e, ?_, ?_, ?_⟩
  · intro k hk
    refine ⟨?_, i7 hm1 k hk⟩
    have e : (prepare realLibm J s n fs).magnitudeDbBuffer = List.replicate _ (-60) :=
      fill_eq_replicate _ _
    have hlen := hsz.2.2.2.2.2.2.2.2.2.2.2.2.2.1
    rw [e, List.length_replicate] at hlen
    rw [e]
    exact getD_replicate_lt _ k _ _ (by rw [hlen]; exact hk)
  · constructor
    · intro hl
      by_contra h6
      have := (c3 (not_le.mp h6)).1
      have hl2 : (delayCore (runSpectra realLibm J (prepare realLibm J s n fs)
        (frames.take m))).locked = true := hl
      rw [this] at hl2
      exact absurd hl2 (by decide)
    · intro h6
      exact (c4 h6).1
  · by_cases h6 : m < 6
    · have e := (c3 h6).2.1
      have e2 : (runSpectra realLibm J (prepare realLibm J s n fs)
        (frames.take m)).stableDelayCount = ((m / 2 : Nat) : Int) := e
      rw [e2]
      congr 1
      omega
    · have e := (c4 (not_lt.mp h6)).2
      have e2 : (runSpectra realLibm J (prepare realLibm J s n fs)
        (frames.take m)).stableDelayCount = 3 := e
      rw [e2]
      have : min (m / 2) 3 = 3 := by omega
      rw [this]
      rfl
  · intro h6
    exact (c3 h6).2.2

/-- C30 (instance): six silent frames after `prepare(4, 48000)`, with an inverse transform
that returns its input: the estimator is Locked after the sixth frame. -/
theorem silent_input_run_witness :
    (runSpectra realLibm exactCollab (prepare realLibm exactCollab initial 4 48000)
      ((List.replicate 6 (silentSpectrum, silentSpectrum)).take 6)).delayLocked = true :=
  (silent_input_run exactCollab initial 4 48000 (List.replicate 6 (silentSpectrum, silentSpectrum))
    6 preparedFour_fast
    (fun l h k hk => by
      have e : (exactCollab : Collab ℝ).ifft l = l := rfl
      rw [e, h k hk]
      rfl)
    (fun f hf => by
      have e : (prepare realLibm exactCollab (initial : TFState ℝ) 4 48000).X.length = 3 :=
        preparedFour_sized.1
      rw [List.eq_of_mem_replicate hf, e]
      rfl)
    (by decide) (by simp)).2.2.2.1.mpr (le_refl 6)

end SilentRun

section RootsOfUnity

theorem list_sum_range (f : ℕ → ℝ) :
    ∀ n, ((List.range n).map f).sum = Finset.sum (Finset.range n) f := by
  intro n
  induction n with
  | zero => simp
  | succ n ih => simp [List.range_succ, Finset.sum_range_succ, ih]

theorem cos_sum_root (N : ℕ) (hN : 0 < N) (j : ℤ) :
    Finset.sum (Finset.range N) (fun k => Real.cos (2 * Real.pi * (k : ℝ) * (j : ℝ) / (N : ℝ))) =
      if (N : ℤ) ∣ j then (N : ℝ) else 0 := by
  have hN0 : (N : ℝ) ≠ 0 := by exact_mod_cast hN.ne'
  by_cases hd : (N : ℤ) ∣ j
  · rw [if_pos hd]
    obtain ⟨m, rfl⟩ := hd
    have : ∀ k : ℕ, Real.cos (2 * Real.pi * (k : ℝ) * (((N : ℤ) * m : ℤ) : ℝ) / (N : ℝ)) = 1 := by
      intro k
      have e : 2 * Real.pi * (k : ℝ) * (((N : ℤ) * m : ℤ) : ℝ) / (N : ℝ) =
          (((k : ℤ) * m : ℤ) : ℝ) * (2 * Real.pi) := by
        push_cast
        field_simp
        ring
      rw [e, Real.cos_int_mul_two_pi]
    rw [Finset.sum_congr rfl (fun k _ => this k)]
    simp
  · rw [if_neg hd]
    have hNc : (N : ℂ) ≠ 0 := by exact_mod_cast hN.ne'
    have hz1 : Complex.exp (2 * Real.pi * Complex.I * (j : ℂ) / (N : ℂ)) ^ N = 1 := by
      rw [← Complex.exp_nat_mul]
      have e : (N : ℂ) * (2 * Real.pi * Complex.I * (j : ℂ) / (N : ℂ)) =
          (j : ℂ) * (2 * Real.pi * Complex.I) := by
        field_simp
        ring
      rw [e, Complex.exp_int_mul_two_pi_mul_I]
    have hz2 : Complex.exp (2 * Real.pi * Complex.I * (j : ℂ) / (N : ℂ)) ≠ 1 := by
      intro h
      rw [Complex.exp_eq_one_iff] at h
      obtain ⟨m, hm⟩ := h
      apply hd
      refine ⟨m, ?_⟩
      have hpi : (2 * Real.pi * Complex.I : ℂ) ≠ 0 := by
        simp [Real.pi_ne_zero, Complex.I_ne_zero]
      have e2 : (j : ℂ) = (N : ℂ) * (m : ℂ) := by
        field_simp at hm
        have : (2 * Real.pi * Complex.I : ℂ) * (j : ℂ) = (2 * Real.pi * Complex.I) * ((N : ℂ) * m) := by
          linear_combination hm
        exact mul_left_cancel₀ hpi this
      exact_mod_cast e2
    have hs : Finset.sum (Finset.range N)
        (fun k => Complex.exp (2 * Real.pi * Complex.I * (j : ℂ) / (N : ℂ)) ^ k) = 0 := by
      have h := geom_sum_mul (Complex.exp (2 * Real.pi * Complex.I * (j : ℂ) / (N : ℂ))) N
      rw [hz1, sub_self] at h
      rcases mul_eq_zero.mp h with h | h
      · exact h
      · exact absurd (sub_eq_zero.mp h) hz2
    have hre := congrArg Complex.re hs
    rw [Complex.re_sum, Complex.zero_re] at hre
    rw [← hre]
    refine Finset.sum_congr rfl ?_
    intro k _
    rw [← Complex.exp_nat_mul]
    have e : (k : ℂ) * (2 * Real.pi * Complex.I * (j : ℂ) / (N : ℂ)) =
        ((2 * Real.pi * (k : ℝ) * (j : ℝ) / (N : ℝ) : ℝ) : ℂ) * Complex.I := by
      push_cast
      ring
    rw [e, Complex.exp_ofReal_mul_I_re]

end RootsOfUnity
section PureDelay

theorem norm_cexpI_real (phi : ℝ) : Cplx.norm (cexpI realLibm phi) = 1 := by
  rw [cexpI_real]
  show Real.cos phi * Real.cos phi + Real.sin phi * Real.sin phi = 1
  have := Real.cos_sq_add_sin_sq phi
  linear_combination this

/-- Step 1 of `estimateDelay` on a bin with `Y = X * e`, `|e| = 1` and `|X|^2 > eps`:
the phase-only value is `e`. -/
theorem phat_bin_unit (x e : Cplx ℝ) (he : Cplx.norm e = 1) (hx : Cplx.norm x > eps) :
    (if cabs realLibm (Cplx.mul (Cplx.mul x e) (Cplx.conj x)) > eps then
      Cplx.divR (Cplx.mul (Cplx.mul x e) (Cplx.conj x))
        (cabs realLibm (Cplx.mul (Cplx.mul x e) (Cplx.conj x)))
      else Cplx.zero) = e := by
  have hC : Cplx.mul (Cplx.mul x e) (Cplx.conj x) = Cplx.smul (Cplx.norm x) e := by
    ext
    · simp only [Cplx.mul, Cplx.conj, Cplx.smul, Cplx.norm]
      ring
    · simp only [Cplx.mul, Cplx.conj, Cplx.smul, Cplx.norm]
      ring
  have hpos : 0 < Cplx.norm x := lt_trans eps_pos hx
  have he2 : e.re * e.re + e.im * e.im = 1 := he
  have hcabs : cabs realLibm (Cplx.smul (Cplx.norm x) e) = Cplx.norm x := by
    show Real.sqrt (Cplx.norm x * e.re * (Cplx.norm x * e.re) +
      Cplx.norm x * e.im * (Cplx.norm x * e.im)) = Cplx.norm x
    have e3 : Cplx.norm x * e.re * (Cplx.norm x * e.re) +
        Cplx.norm x * e.im * (Cplx.norm x * e.im) = Cplx.norm x * Cplx.norm x := by
      linear_combination (Cplx.norm x * Cplx.norm x) * he2
    rw [e3, Real.sqrt_mul_self hpos.le]
  rw [hC, hcabs, if_pos hx]
  ext
  · show Cplx.norm x * e.re / Cplx.norm x = e.re
    field_simp
  · show Cplx.norm x * e.im / Cplx.norm x = e.im
    field_simp

theorem phatSpectrum_getD (s : TFState ℝ) (k : Nat) (hk : k < s.X.length) :
    (phatSpectrum realLibm s).getD k Cplx.zero =
      (if cabs realLibm (Cplx.mul (s.Y.getD k Cplx.zero) (Cplx.conj (s.X.getD k Cplx.zero))) > eps
        then Cplx.divR (Cplx.mul (s.Y.getD k Cplx.zero) (Cplx.conj (s.X.getD k Cplx.zero)))
          (cabs realLibm (Cplx.mul (s.Y.getD k Cplx.zero) (Cplx.conj (s.X.getD k Cplx.zero))))
        else Cplx.zero) := by
  unfold phatSpectrum
  rw [List.getD_eq_getElem?_getD, List.getElem?_map, List.getElem?_range hk]
  rfl

theorem conj_mirror (N k : Nat) (D : Int) (hN : 0 < N) (hk : k ≤ N) :
    Cplx.conj (cexpI realLibm (-(2 * Real.pi * ((N - k : Nat) : ℝ) * (D : ℝ) / (N : ℝ)))) =
      cexpI realLibm (-(2 * Real.pi * (k : ℝ) * (D : ℝ) / (N : ℝ))) := by
  have hN0 : (N : ℝ) ≠ 0 := by exact_mod_cast hN.ne'
  have eA : 2 * Real.pi * ((N - k : Nat) : ℝ) * (D : ℝ) / (N : ℝ) =
      (D : ℝ) * (2 * Real.pi) - 2 * Real.pi * (k : ℝ) * (D : ℝ) / (N : ℝ) := by
    rw [Nat.cast_sub hk]
    field_simp
    ring
  rw [cexpI_real, cexpI_real, eA]
  ext
  · show Real.cos (-((D : ℝ) * (2 * Real.pi) - 2 * Real.pi * (k : ℝ) * (D : ℝ) / (N : ℝ))) =
      Real.cos (-(2 * Real.pi * (k : ℝ) * (D : ℝ) / (N : ℝ)))
    rw [Real.cos_neg, Real.cos_neg, Real.cos_int_mul_two_pi_sub]
  · show -Real.sin (-((D : ℝ) * (2 * Real.pi) - 2 * Real.pi * (k : ℝ) * (D : ℝ) / (N : ℝ))) =
      Real.sin (-(2 * Real.pi * (k : ℝ) * (D : ℝ) / (N : ℝ)))
    rw [Real.sin_neg, Real.sin_neg, Real.sin_int_mul_two_pi_sub]
    ring

/-- Steps 1 and 2 of `estimateDelay` for a pure delay of `D` samples: the value written to
`phatFftBuffer[k]` is `exp(-2 pi i k D / N)` for every `k < N`. -/
theorem hermitian_pure_delay (s : TFState ℝ) (N H : Nat) (D : Int) (hNH : N = 2 * H)
    (hH : 1 ≤ H) (hfft : s.fftSize = (N : Int)) (hXl : s.X.length = H + 1)
    (hX : ∀ k, k ≤ H → Cplx.norm (s.X.getD k Cplx.zero) > eps)
    (hY : ∀ k, k ≤ H → s.Y.getD k Cplx.zero =
      Cplx.mul (s.X.getD k Cplx.zero)
        (cexpI realLibm (-(2 * Real.pi * (k : ℝ) * (D : ℝ) / (N : ℝ)))))
    (k : Nat) (hk : k < N) :
    hermitianBin (phatSpectrum realLibm s) s.fftSize ((s.X.length : Int) - 1) k =
      cexpI realLibm (-(2 * Real.pi * (k : ℝ) * (D : ℝ) / (N : ℝ))) := by
  have hphat : ∀ i, i ≤ H → (phatSpectrum realLibm s).getD i Cplx.zero =
      cexpI realLibm (-(2 * Real.pi * (i : ℝ) * (D : ℝ) / (N : ℝ))) := by
    intro i hi
    rw [phatSpectrum_getD s i (by omega), hY i hi]
    exact phat_bin_unit _ _ (norm_cexpI_real _) (hX i hi)
  have hNh : (s.X.length : Int) - 1 = (H : Int) := by
    rw [hXl]
    push_cast
    ring
  unfold hermitianBin
  rw [hNh, hfft]
  dsimp only
  by_cases hkH : k ≤ H
  · rw [if_pos (by exact_mod_cast hkH)]
    exact hphat k hkH
  · rw [if_neg (by exact_mod_cast hkH), if_pos (by omega)]
    have e : ((N : Int) - (k : Int)).toNat = N - k := Int.toNat_sub N k
    rw [e, hphat (N - k) (by omega)]
    exact conj_mirror N k D (by omega) (by omega)

theorem cplx_sum_re (zs : List (Cplx ℝ)) :
    (Cplx.sum zs).re = (zs.map (fun z => z.re)).sum := by
  induction zs with
  | nil => rfl
  | cons z zs ih =>
    show z.re + (Cplx.sum zs).re = _
    rw [ih]
    rfl

/-- Real part of the exact inverse DFT of the spectrum `exp(-2 pi i k D / N)`: `1` at the
indices congruent to `D` modulo `N` and `0` elsewhere. -/
theorem idft_pure_delay (buf : List (Cplx ℝ)) (N : Nat) (D : Int) (hN : 0 < N)
    (hlen : buf.length = N)
    (hE : ∀ k, k < N → buf.getD k Cplx.zero =
      cexpI realLibm (-(2 * Real.pi * (k : ℝ) * (D : ℝ) / (N : ℝ))))
    (n : Nat) (hn : n < N) :
    ((inverseDFT realLibm buf).getD n Cplx.zero).re =
      if (N : Int) ∣ (n : Int) - D then 1 else 0 := by
  have hN0 : (N : ℝ) ≠ 0 := by exact_mod_cast hN.ne'
  unfold inverseDFT
  rw [hlen, List.getD_eq_getElem?_getD, List.getElem?_map, List.getElem?_range hn]
  show (Cplx.sum ((List.range N).map (fun (k : Nat) =>
    Cplx.mul (buf.getD k Cplx.zero)
      (cexpI realLibm (2 * Real.pi * (k : ℝ) * (n : ℝ) / (N : ℝ)))))).re / (N : ℝ) = _
  rw [cplx_sum_re, List.map_map]
  have hterm : (List.range N).map ((fun z : Cplx ℝ => z.re) ∘ fun (k : Nat) =>
      Cplx.mul (buf.getD k Cplx.zero)
        (cexpI realLibm (2 * Real.pi * (k : ℝ) * (n : ℝ) / (N : ℝ)))) =
      (List.range N).map (fun (k : Nat) =>
        Real.cos (2 * Real.pi * (k : ℝ) * (((n : Int) - D : Int) : ℝ) / (N : ℝ))) := by
    refine List.map_congr_left ?_
    intro k hk
    rw [List.mem_range] at hk
    show (Cplx.mul (buf.getD k Cplx.zero)
      (cexpI realLibm (2 * Real.pi * (k : ℝ) * (n : ℝ) / (N : ℝ)))).re = _
    rw [hE k hk, cexpI_real, cexpI_real]
    show Real.cos (-(2 * Real.pi * (k : ℝ) * (D : ℝ) / (N : ℝ))) *
        Real.cos (2 * Real.pi * (k : ℝ) * (n : ℝ) / (N : ℝ)) -
      Real.sin (-(2 * Real.pi * (k : ℝ) * (D : ℝ) / (N : ℝ))) *
        Real.sin (2 * Real.pi * (k : ℝ) * (n : ℝ) / (N : ℝ)) = _
    rw [← Real.cos_add]
    congr 1
    push_cast
    field_simp
    ring
  rw [hterm, list_sum_range, cos_sum_root N hN]
  split_ifs
  · exact div_self hN0
  · exact zero_div _

theorem peak_foldl_keep (time : List ℝ) :
    ∀ (l : List Nat) (acc : Nat × ℝ), (∀ n ∈ l, |time.getD n 0| ≤ acc.2) →
      l.foldl (fun (acc : Nat × ℝ) n =>
        if |time.getD n 0| > acc.2 then (n, |time.getD n 0|) else acc) acc = acc := by
  intro l
  induction l with
  | nil => intro acc _; rfl
  | cons n l ih =>
    intro acc h
    rw [List.foldl_cons, if_neg (not_lt.mpr (h n (List.mem_cons_self _ _)))]
    exact ih acc (fun k hk => h k (List.mem_cons_of_mem _ hk))

/-- Step 5 of `estimateDelay` on a sequence with a single positive value at index `p`. -/
theorem peakIndex_impulse (time : List ℝ) (N p : Nat) (v : ℝ) (hp : p < N) (hv : 0 < v)
    (htp : time.getD p 0 = v) (hz : ∀ n, n < N → n ≠ p → time.getD n 0 = 0) :
    peakIndex time N = p := by
  unfold peakIndex
  by_cases h0 : p = 0
  · subst h0
    rw [peak_foldl_keep time _ _ (by
      intro n hn
      rw [List.mem_range'_1] at hn
      rw [hz n (by omega) (by omega), htp, abs_zero]
      exact abs_nonneg _)]
  · have hsplit : List.range' 1 (N - 1) =
        List.range' 1 (p - 1) ++ p :: List.range' (p + 1) (N - 1 - p) := by
      have e1 : N - 1 = (N - p) + (p - 1) := by omega
      have e2 : 1 + (p - 1) = p := by omega
      have e3 : N - p = (N - 1 - p) + 1 := by omega
      have a1 := List.range'_append_1 1 (p - 1) (N - p)
      rw [e2, ← e1] at a1
      rw [e3, List.range'_succ] at a1
      exact a1.symm
    rw [hsplit, List.foldl_append, List.foldl_cons]
    have ht0 : time.getD 0 0 = 0 := hz 0 (by omega) (fun h => h0 h.symm)
    rw [ht0, abs_zero]
    rw [peak_foldl_keep time (List.range' 1 (p - 1)) (0, 0) (by
      intro n hn
      rw [List.mem_range'_1] at hn
      rw [hz n (by omega) (by omega), abs_zero])]
    rw [htp, if_pos (by rw [abs_of_pos hv]; exact hv)]
    rw [peak_foldl_keep time _ _ (by
      intro n hn
      rw [List.mem_range'_1] at hn
      rw [hz n (by omega) (by omega), abs_zero]
      exact abs_nonneg _)]

end PureDelay
section PureDelayClaim

theorem dvd_sub_iff_emod (N n : Nat) (D : Int) (hn : n < N) :
    (N : Int) ∣ (n : Int) - D ↔ (n : Int) = D % (N : Int) := by
  have hN : (0 : Int) < (N : Int) := by
    have : 0 < N := by omega
    exact_mod_cast this
  have hnn : (n : Int) % (N : Int) = (n : Int) :=
    Int.emod_eq_of_lt (by positivity) (by exact_mod_cast hn)
  constructor
  · intro h
    have h1 : ((n : Int) - D) % (N : Int) = 0 := Int.emod_eq_zero_of_dvd h
    have h2 := Int.emod_eq_emod_iff_emod_sub_eq_zero.mpr h1
    rw [hnn] at h2
    exact h2
  · intro h
    refine ⟨-(D / (N : Int)), ?_⟩
    rw [h, Int.emod_def]
    ring

/-- Steps 1 to 7 of `estimateDelay` for a measurement that is the reference delayed by `D`
samples, on a frame of `N = 2 H` points with the exact inverse DFT. -/
theorem gcc_pure_delay (J : Collab ℝ) (s : TFState ℝ) (N H : Nat) (D : Int)
    (hNH : N = 2 * H) (hH : 1 ≤ H) (hfft : s.fftSize = (N : Int)) (hXl : s.X.length = H + 1)
    (hbuf : s.phatFftBuffer.length = N) (htime : s.phatTime.length = N)
    (hJ : ∀ l, J.ifft l = inverseDFT realLibm l) (hD1 : -(H : Int) < D) (hD2 : D ≤ (H : Int))
    (hX : ∀ k, k ≤ H → Cplx.norm (s.X.getD k Cplx.zero) > eps)
    (hY : ∀ k, k ≤ H → s.Y.getD k Cplx.zero =
      Cplx.mul (s.X.getD k Cplx.zero)
        (cexpI realLibm (-(2 * Real.pi * (k : ℝ) * (D : ℝ) / (N : ℝ))))) :
    (∀ n, n < N → (gccPhat realLibm J s).2.1.getD n 0 =
      if (n : Int) = D % (N : Int) then 1 / (N : ℝ) else 0) ∧
    peakIndex (gccPhat realLibm J s).2.1 s.fftSize.toNat = (D % (N : Int)).toNat ∧
    (if ((peakIndex (gccPhat realLibm J s).2.1 s.fftSize.toNat : Nat) : Int) >
        Int.tdiv s.fftSize 2 then
      ((peakIndex (gccPhat realLibm J s).2.1 s.fftSize.toNat : Nat) : Int) - s.fftSize
      else ((peakIndex (gccPhat realLibm J s).2.1 s.fftSize.toNat : Nat) : Int)) = D ∧
    rawDelay realLibm J s = (D : ℝ) / s.sampleRate := by
  have hN : 0 < N := by omega
  have hNz : (0 : Int) < (N : Int) := by exact_mod_cast hN
  have hN0 : (N : ℝ) ≠ 0 := by exact_mod_cast hN.ne'
  have htn : s.fftSize.toNat = N := by
    rw [hfft]
    exact Int.toNat_natCast N
  have hbufE : ∀ k, k < N →
      (writeBins s.fftSize.toNat
        (hermitianBin (phatSpectrum realLibm s) s.fftSize ((s.X.length : Int) - 1))
        s.phatFftBuffer).getD k Cplx.zero =
      cexpI realLibm (-(2 * Real.pi * (k : ℝ) * (D : ℝ) / (N : ℝ))) := by
    intro k hk
    rw [getD_writeBins _ _ _ k _ (by rw [htn]; exact hk) (by rw [hbuf]; exact hk)]
    exact hermitian_pure_delay s N H D hNH hH hfft hXl hX hY k hk
  have hre : ∀ n, n < N →
      ((J.ifft (writeBins s.fftSize.toNat
        (hermitianBin (phatSpectrum realLibm s) s.fftSize ((s.X.length : Int) - 1))
        s.phatFftBuffer)).getD n Cplx.zero).re =
      if (N : Int) ∣ (n : Int) - D then 1 else 0 := by
    intro n hn
    rw [hJ]
    exact idft_pure_delay _ N D hN (by rw [length_writeBins]; exact hbuf) hbufE n hn
  have hT : ∀ n, n < N → (gccPhat realLibm J s).2.1.getD n 0 =
      if (n : Int) = D % (N : Int) then 1 / (N : ℝ) else 0 := by
    intro n hn
    show (writeBins s.fftSize.toNat
      (fun n => ((J.ifft (writeBins s.fftSize.toNat
        (hermitianBin (phatSpectrum realLibm s) s.fftSize ((s.X.length : Int) - 1))
        s.phatFftBuffer)).getD n Cplx.zero).re / (s.fftSize : ℝ)) s.phatTime).getD n 0 = _
    rw [getD_writeBins _ _ _ n _ (by rw [htn]; exact hn) (by rw [htime]; exact hn), hre n hn,
      hfft, Int.cast_natCast]
    by_cases hc : (N : Int) ∣ (n : Int) - D
    · rw [if_pos hc, if_pos ((dvd_sub_iff_emod N n D hn).mp hc)]
    · rw [if_neg hc, if_neg (fun h => hc ((dvd_sub_iff_emod N n D hn).mpr h)), zero_div]
  have hm0 : 0 ≤ D % (N : Int) := Int.emod_nonneg D (ne_of_gt hNz)
  have hm1 : D % (N : Int) < (N : Int) := Int.emod_lt_of_pos D hNz
  have hpc : (((D % (N : Int)).toNat : Nat) : Int) = D % (N : Int) := Int.toNat_of_nonneg hm0
  have hpN : (D % (N : Int)).toNat < N := by
    have : (((D % (N : Int)).toNat : Nat) : Int) < (N : Int) := by rw [hpc]; exact hm1
    exact_mod_cast this
  have hpeak : peakIndex (gccPhat realLibm J s).2.1 s.fftSize.toNat = (D % (N : Int)).toNat := by
    rw [htn]
    refine peakIndex_impulse _ N _ (1 / (N : ℝ)) hpN (by positivity) ?_ ?_
    · rw [hT _ hpN, if_pos hpc]
    · intro n hn hne
      rw [hT n hn, if_neg]
      intro h
      apply hne
      have : ((n : Nat) : Int) = (((D % (N : Int)).toNat : Nat) : Int) := by rw [hpc]; exact h
      exact_mod_cast this
  have hhalf : Int.tdiv s.fftSize 2 = (H : Int) := by
    rw [hfft, hNH]
    push_cast
    exact Int.mul_tdiv_cancel_left _ (by norm_num)
  have hNHz : (N : Int) = 2 * (H : Int) := by
    rw [hNH]
    push_cast
    ring
  have hlag : (if ((peakIndex (gccPhat realLibm J s).2.1 s.fftSize.toNat : Nat) : Int) >
        Int.tdiv s.fftSize 2 then
      ((peakIndex (gccPhat realLibm J s).2.1 s.fftSize.toNat : Nat) : Int) - s.fftSize
      else ((peakIndex (gccPhat realLibm J s).2.1 s.fftSize.toNat : Nat) : Int)) = D := by
    rw [hpeak, hpc, hhalf, hfft]
    by_cases hneg : D < 0
    · have e : D % (N : Int) = D + (N : Int) := by
        rw [← Int.add_emod_self]
        exact Int.emod_eq_of_lt (by omega) (by omega)
      rw [e, if_pos (by omega)]
      ring
    · have e : D % (N : Int) = D := Int.emod_eq_of_lt (by omega) (by omega)
      rw [e, if_neg (by omega)]
  refine ⟨hT, hpeak, hlag, ?_⟩
  show (((if ((peakIndex (gccPhat realLibm J s).2.1 s.fftSize.toNat : Nat) : Int) >
        Int.tdiv s.fftSize 2 then
      ((peakIndex (gccPhat realLibm J s).2.1 s.fftSize.toNat : Nat) : Int) - s.fftSize
      else ((peakIndex (gccPhat realLibm J s).2.1 s.fftSize.toNat : Nat) : Int) : Int)) : ℝ) /
    s.sampleRate = _
  rw [hlag]

/-- C21: on the fast path with `N = 2^a ≥ 2` and the inverse transform taken as the exact
inverse DFT, for every integer `D` with `-N/2 < D ≤ N/2`: if every half-spectrum bin
`k ≤ N/2` satisfies `|X_k|^2 > eps` and `Y_k = X_k * exp(-2 pi i k D / N)`, then the
Hermitian-reconstructed phase-only spectrum equals `exp(-2 pi i k D / N)` for every
`k < N`, the correlation sequence is a single impulse (value `1 / N`) at index `D mod N`
and zero elsewhere, the signed circular lag computed from the peak index is exactly `D`,
and the raw delay is `D / sampleRate`. -/
theorem gcc_phat_pure_delay (J : Collab ℝ) (s : TFState ℝ) (a : Nat) (D : Int) (ha : 1 ≤ a)
    (hfft : s.fftSize = ((2 ^ a : Nat) : Int)) (hXl : s.X.length = 2 ^ (a - 1) + 1)
    (hbuf : s.phatFftBuffer.length = 2 ^ a) (htime : s.phatTime.length = 2 ^ a)
    (hJ : ∀ l, J.ifft l = inverseDFT realLibm l)
    (hD1 : -((2 ^ (a - 1) : Nat) : Int) < D) (hD2 : D ≤ ((2 ^ (a - 1) : Nat) : Int))
    (hX : ∀ k, k ≤ 2 ^ (a - 1) → Cplx.norm (s.X.getD k Cplx.zero) > eps)
    (hY : ∀ k, k ≤ 2 ^ (a - 1) → s.Y.getD k Cplx.zero =
      Cplx.mul (s.X.getD k Cplx.zero)
        (cexpI realLibm (-(2 * Real.pi * (k : ℝ) * (D : ℝ) / ((2 ^ a : Nat) : ℝ))))) :
    (∀ k, k < 2 ^ a →
      hermitianBin (phatSpectrum realLibm s) s.fftSize ((s.X.length : Int) - 1) k =
        cexpI realLibm (-(2 * Real.pi * (k : ℝ) * (D : ℝ) / ((2 ^ a : Nat) : ℝ)))) ∧
    (∀ n, n < 2 ^ a → (gccPhat realLibm J s).2.1.getD n 0 =
      if (n : Int) = D % ((2 ^ a : Nat) : Int) then 1 / ((2 ^ a : Nat) : ℝ) else 0) ∧
    peakIndex (gccPhat realLibm J s).2.1 s.fftSize.toNat = (D % ((2 ^ a : Nat) : Int)).toNat ∧
    (if ((peakIndex (gccPhat realLibm J s).2.1 s.fftSize.toNat : Nat) : Int) >
        Int.tdiv s.fftSize 2 then
      ((peakIndex (gccPhat realLibm J s).2.1 s.fftSize.toNat : Nat) : Int) - s.fftSize
      else ((peakIndex (gccPhat realLibm J s).2.1 s.fftSize.toNat : Nat) : Int)) = D ∧
    rawDelay realLibm J s = (D : ℝ) / s.sampleRate := by
  have hNH : 2 ^ a = 2 * 2 ^ (a - 1) := by
    have e : a = (a - 1) + 1 := by omega
    conv_lhs => rw [e, pow_succ]
    ring
  have hH : 1 ≤ 2 ^ (a - 1) := Nat.one_le_two_pow
  obtain ⟨h1, h2, h3, h4⟩ := gcc_pure_delay J s (2 ^ a) (2 ^ (a - 1)) D hNH hH hfft hXl hbuf
    htime hJ hD1 hD2 hX hY
  exact ⟨fun k hk => hermitian_pure_delay s (2 ^ a) (2 ^ (a - 1)) D hNH hH hfft hXl hX hY k hk,
    h1, h2, h3, h4⟩

/-- C21 (instance): frame length 2 at 48 kHz, `X = [1, 1]`, `Y = [1, -1]`, a delay of
`D = 1` sample: the raw delay is `1 / 48000` seconds. -/
theorem gcc_phat_pure_delay_witness :
    rawDelay realLibm dftCollab pureDelayExample = ((1 : Int) : ℝ) / pureDelayExample.sampleRate :=
  (gcc_phat_pure_delay dftCollab pureDelayExample 1 1 (le_refl 1) rfl rfl rfl rfl (fun _ => rfl)
    (by decide) (by decide)
    (by
      intro k hk
      have hk2 : k = 0 ∨ k = 1 := by
        have : k ≤ 1 := hk
        omega
      rcases hk2 with rfl | rfl
      · show Cplx.norm (⟨1, 0⟩ : Cplx ℝ) > eps
        unfold Cplx.norm eps
        norm_num
      · show Cplx.norm (⟨1, 0⟩ : Cplx ℝ) > eps
        unfold Cplx.norm eps
        norm_num)
    (by
      intro k hk
      have hk2 : k = 0 ∨ k = 1 := by
        have : k ≤ 1 := hk
        omega
      rcases hk2 with rfl | rfl
      · show (⟨1, 0⟩ : Cplx ℝ) = Cplx.mul ⟨1, 0⟩ (cexpI realLibm _)
        rw [cexpI_real]
        have e : -(2 * Real.pi * ((0 : Nat) : ℝ) * ((1 : Int) : ℝ) / ((2 ^ 1 : Nat) : ℝ)) = 0 := by
          push_cast
          ring
        rw [e, Real.cos_zero, Real.sin_zero]
        ext <;> simp [Cplx.mul]
      · show (⟨-1, 0⟩ : Cplx ℝ) = Cplx.mul ⟨1, 0⟩ (cexpI realLibm _)
        rw [cexpI_real]
        have e : -(2 * Real.pi * ((1 : Nat) : ℝ) * ((1 : Int) : ℝ) / ((2 ^ 1 : Nat) : ℝ)) =
            -Real.pi := by
          push_cast
          ring
        rw [e, Real.cos_neg, Real.sin_neg, Real.cos_pi, Real.sin_pi]
        ext <;> simp [Cplx.mul])).2.2.2.2

end PureDelayClaim

section Binary64Runs

/-- C2 (counterexample): in binary64 the stored coherence of the first frame after
`prepare(4096, 48000.0)` exceeds 1 for the bin values `X = 18 + 48j`, `Y = -6 + 45j`,
whichever of the seven `double`s around `exp(-frameDt / 0.3)` the coefficient is (all of
them in `[0, 1]`); so it does for `X = -784 - 402j`, `Y = 658 - 895j` after
`prepare(2048, 48000.0)`. The stored value is `1.0000000000000002`. -/
theorem coherence_exceeds_one_binary64 :
    (∀ j : Fin 7,
      0 ≤ (alphaFast4096 (((j : Nat) : Int) - 3)).units ∧
      (alphaFast4096 (((j : Nat) : Int) - 3)).units ≤ (F64.ofInt 1).units ∧
      (F64.ofInt 1).units <
        (firstFrameF64 (alphaFast4096 (((j : Nat) : Int) - 3)) ⟨F64.ofInt 18, F64.ofInt 48⟩
          ⟨F64.ofInt (-6), F64.ofInt 45⟩).g2.units) ∧
    (firstFrameF64 alphaFast2048 ⟨F64.ofInt (-784), F64.ofInt (-402)⟩
      ⟨F64.ofInt 658, F64.ofInt (-895)⟩).g2.units = (F64.scaled 4503599627370497 52).units ∧
    (F64.ofInt 1).units < (F64.scaled 4503599627370497 52).units := by
  decide

/-- C4 (counterexample): in binary64, with every delay update measuring the raw delay
`64 / 40000` (1.6 ms, `|d| ≤ 50 ms`) from the state left by `prepare`, the stability test
`abs(estimatedDelay - lastDelaySec) < 0.0001` already passes at update 4 (in exact
arithmetic the change there is exactly 0.1 ms and the test fails), the estimator is
Searching after update 5 and Locked after update 6, and at that locking update
`|estimatedDelay - d|` is not below 0.025 ms: the exact difference of the two `double`s is at
least `1 / 40000`, and so is the difference computed in binary64. -/
theorem early_lock_binary64 :
    (delayUpdatesF64 delay64at40k 3 searchingStartF64).count = 0 ∧
    (delayUpdatesF64 delay64at40k 4 searchingStartF64).count = 1 ∧
    (delayUpdatesF64 delay64at40k 5 searchingStartF64).locked = false ∧
    (delayUpdatesF64 delay64at40k 6 searchingStartF64).locked = true ∧
    ((1 <<< 1074 : Nat) : Int) ≤
      40000 * (delay64at40k.units -
        (delayUpdatesF64 delay64at40k 6 searchingStartF64).est.units) ∧
    F64.lt (F64.abs (F64.sub (delayUpdatesF64 delay64at40k 6 searchingStartF64).est delay64at40k))
      (F64.lit 25 1000000) = false := by
  decide

/-- C27 (counterexample): in binary64, on `H_smoothed = [0, -2 - j, 1 + j, -1 - 2j, 1 + 2j]`
with every bin coherent, the forward pass of `unwrapPhase` ends with
`unwrapped_phases[3] = -8.31762924297529` and `unwrapped_phases[4] = -5.176036589385496`,
whose difference recomputed by the backward loop is `3.141592653589794 > pi`: the jump
test is true at bin 3, and the backward pass rewrites the bins 3, 2 and 1. -/
theorem backward_pass_rewrites_binary64 :
    (unwrapForwardF64 3 (examplePhasesF64.getD 0 (F64.ofInt 0))
      ((examplePhasesF64.drop 1).map (fun p => (p, true)))).map (List.map F64.units) =
      some (exampleForwardF64.map F64.units) ∧
    backwardJumpF64 exampleForwardF64 2 = true ∧
    (F64.sub (exampleForwardF64.getD 3 (F64.ofInt 0))
      (exampleForwardF64.getD 2 (F64.ofInt 0))).units = piF64.units + (1 <<< 1024 : Nat) ∧
    (unwrapBackwardF64 exampleForwardF64).map F64.units ≠ exampleForwardF64.map F64.units ∧
    (unwrapBackwardF64 exampleForwardF64).map F64.units =
      [F64.scaled 8118279351592066 51, F64.scaled 7074237752028440 53,
        F64.scaled (-4581160475577848) 51, F64.scaled (-5827699113803143) 50].map
        F64.units := by
  decide

end Binary64Runs

section Binary64Fallback

set_option maxRecDepth 8000

theorem fallbackUpdatesF64_add (m : F64) (a b : Nat) :
    ∀ s, fallbackUpdatesF64 m (a + b) s = fallbackUpdatesF64 m b (fallbackUpdatesF64 m a s) := by
  induction a with
  | zero =>
    intro s
    rw [Nat.zero_add]
    rfl
  | succ a ih =>
    intro s
    rw [Nat.succ_add]
    exact ih (fallbackSmoothF64 s m)

theorem fallback_updates_20 :
    fallbackUpdatesF64 (F64.ofInt (-1)) 20 (F64.ofInt 0) =
      F64.scaled 7122682654056239 56 :=
  congrArg F64.mk
    (by decide :
      (fallbackUpdatesF64 (F64.ofInt (-1)) 20 (F64.ofInt 0)).units =
        (F64.scaled 7122682654056239 56).units)

theorem fallback_updates_40 :
    fallbackUpdatesF64 (F64.ofInt (-1)) 20 (F64.scaled 7122682654056239 56) =
      F64.scaled 7204801594079755 56 :=
  congrArg F64.mk
    (by decide :
      (fallbackUpdatesF64 (F64.ofInt (-1)) 20 (F64.scaled 7122682654056239 56)).units =
        (F64.scaled 7204801594079755 56).units)

theorem fallback_updates_60 :
    fallbackUpdatesF64 (F64.ofInt (-1)) 20 (F64.scaled 7204801594079755 56) =
      F64.scaled 7205748360998642 56 :=
  congrArg F64.mk
    (by decide :
      (fallbackUpdatesF64 (F64.ofInt (-1)) 20 (F64.scaled 7204801594079755 56)).units =
        (F64.scaled 7205748360998642 56).units)

theorem fallback_updates_80 :
    fallbackUpdatesF64 (F64.ofInt (-1)) 20 (F64.scaled 7205748360998642 56) =
      F64.scaled 7205759276478049 56 :=
  congrArg F64.mk
    (by decide :
      (fallbackUpdatesF64 (F64.ofInt (-1)) 20 (F64.scaled 7205748360998642 56)).units =
        (F64.scaled 7205759276478049 56).units)

theorem fallback_updates_100 :
    fallbackUpdatesF64 (F64.ofInt (-1)) 20 (F64.scaled 7205759276478049 56) =
      F64.scaled 7205759402324958 56 :=
  congrArg F64.mk
    (by decide :
      (fallbackUpdatesF64 (F64.ofInt (-1)) 20 (F64.scaled 7205759276478049 56)).units =
        (F64.scaled 7205759402324958 56).units)

theorem fallback_updates_120 :
    fallbackUpdatesF64 (F64.ofInt (-1)) 20 (F64.scaled 7205759402324958 56) =
      F64.scaled 7205759403775874 56 :=
  congrArg F64.mk
    (by decide :
      (fallbackUpdatesF64 (F64.ofInt (-1)) 20 (F64.scaled 7205759402324958 56)).units =
        (F64.scaled 7205759403775874 56).units)

theorem fallback_updates_140 :
    fallbackUpdatesF64 (F64.ofInt (-1)) 20 (F64.scaled 7205759403775874 56) =
      F64.scaled 7205759403792602 56 :=
  congrArg F64.mk
    (by decide :
      (fallbackUpdatesF64 (F64.ofInt (-1)) 20 (F64.scaled 7205759403775874 56)).units =
        (F64.scaled 7205759403792602 56).units)

theorem fallback_updates_159 :
    fallbackUpdatesF64 (F64.ofInt (-1)) 19 (F64.scaled 7205759403792602 56) =
      F64.scaled 7205759403792794 56 :=
  congrArg F64.mk
    (by decide :
      (fallbackUpdatesF64 (F64.ofInt (-1)) 19 (F64.scaled 7205759403792602 56)).units =
        (F64.scaled 7205759403792794 56).units)

theorem fallback_updates_run :
    fallbackUpdatesF64 (F64.ofInt (-1)) 159 (F64.ofInt 0) = F64.scaled 7205759403792794 56 := by
  have e : (159 : Nat) = 20 + (20 + (20 + (20 + (20 + (20 + (20 + 19)))))) := rfl
  rw [e, fallbackUpdatesF64_add, fallback_updates_20, fallbackUpdatesF64_add,
    fallback_updates_40, fallbackUpdatesF64_add, fallback_updates_60, fallbackUpdatesF64_add,
    fallback_updates_80, fallbackUpdatesF64_add, fallback_updates_100, fallbackUpdatesF64_add,
    fallback_updates_120, fallbackUpdatesF64_add, fallback_updates_140, fallback_updates_159]

/-- C29 (counterexample): in binary64, on the fallback path with a fitted slope of
`-1 rad/Hz` at every update (`tau_new = 1 / (2 pi)` s, clamped to `0.1`), the recurrence
`smoothedDelay = 0.8 * smoothedDelay + 0.2 * tau_new` started at 0 by `prepare` gives
`0.1` exactly after 159 updates and `0.10000000000000002` after 160 updates, one unit in
the last place above the `double` `0.1`; the test `std::abs(tau) > 0.1` of
`applyDelayCompensation` is then true and the reset branch runs. -/
theorem reset_branch_reached_binary64 :
    suspiciousF64 (fallbackUpdatesF64 (F64.ofInt (-1)) 159 (F64.ofInt 0)) = false ∧
    (fallbackUpdatesF64 (F64.ofInt (-1)) 160 (F64.ofInt 0)).units =
      (F64.lit 1 10).units + (1 <<< 1018 : Nat) ∧
    suspiciousF64 (fallbackUpdatesF64 (F64.ofInt (-1)) 160 (F64.ofInt 0)) = true := by
  have e : (160 : Nat) = 159 + 1 := rfl
  rw [e, fallbackUpdatesF64_add, fallback_updates_run]
  decide

end Binary64Fallback

section PublishedPhase

end PublishedPhase

section SelfMeasurementRun

variable {K : Type} [LinearOrderedField K] [FloorRing K]

theorem processSpectra_bin (M : Libm K) (J : Collab K) (s : TFState K)
    (Xs Ys : List (Cplx K)) (n k : Nat) (hs : Sized s n) (hX : Xs.length = n)
    (hY : Ys.length = n) (hk : k < n) :
    (processSpectra M J s Xs Ys).Gxx.getD k 0 =
      (averageBin (frameAlpha M s) (Xs.getD k Cplx.zero) (Ys.getD k Cplx.zero)
        (s.Gxx.getD k 0) (s.Gyy.getD k 0) (s.Gxy.getD k Cplx.zero)).gxx ∧
    (processSpectra M J s Xs Ys).H.getD k Cplx.zero =
      (averageBin (frameAlpha M s) (Xs.getD k Cplx.zero) (Ys.getD k Cplx.zero)
        (s.Gxx.getD k 0) (s.Gyy.getD k 0) (s.Gxy.getD k Cplx.zero)).h := by
  obtain ⟨a1, _, _, a4, _⟩ := processSpectra_alpha M J s Xs Ys
  obtain ⟨sX, _, sxx, _, _, sH, _⟩ := sized_acceptSpectra s Xs Ys n hs
  obtain ⟨x1, x2⟩ := acceptSpectra_getD s Xs Ys n k hs hX hY hk
  have e : averagedBin
      { acceptSpectra s Xs Ys with
        frameCount := s.frameCount + 1
        averagingAlpha := frameAlpha M s } k =
      averageBin (frameAlpha M s) (Xs.getD k Cplx.zero) (Ys.getD k Cplx.zero)
        (s.Gxx.getD k 0) (s.Gyy.getD k 0) (s.Gxy.getD k Cplx.zero) := by
    show averageBin (frameAlpha M s) ((acceptSpectra s Xs Ys).X.getD k Cplx.zero)
      ((acceptSpectra s Xs Ys).Y.getD k Cplx.zero) (s.Gxx.getD k 0) (s.Gyy.getD k 0)
      (s.Gxy.getD k Cplx.zero) = _
    rw [x1, x2]
  rw [a1, a4, ← e]
  exact ⟨getD_writeBins _ _ _ k 0 (hk.trans_eq sX.symm) (hk.trans_eq sxx.symm),
    getD_writeBins _ _ _ k _ (hk.trans_eq sX.symm) (hk.trans_eq sH.symm)⟩

theorem sized_runSpectra (M : Libm K) (J : Collab K) (n : Nat)
    (frames : List (List (Cplx K) × List (Cplx K))) :
    ∀ s : TFState K, Sized s n → Sized (runSpectra M J s frames) n := by
  induction frames with
  | nil => intro s hs; exact hs
  | cons f fs ih =>
    intro s hs
    exact ih (processSpectra M J s f.1 f.2) (sized_processSpectra M J s _ _ n hs)

theorem runSpectra_append_one (M : Libm K) (J : Collab K) (s : TFState K)
    (frames : List (List (Cplx K) × List (Cplx K))) (f : List (Cplx K) × List (Cplx K)) :
    runSpectra M J s (frames ++ [f]) = processSpectra M J (runSpectra M J s frames) f.1 f.2 := by
  unfold runSpectra
  rw [List.foldl_append]
  rfl

end SelfMeasurementRun

section SelfMeasurementConfig

theorem frameAlpha_unit (s : TFState ℝ) (hdt : 0 ≤ s.frameDt) (h0 : 0 < s.averagingAlpha)
    (h1 : s.averagingAlpha ≤ 1) :
    0 < frameAlpha realLibm s ∧ frameAlpha realLibm s ≤ 1 := by
  unfold frameAlpha
  split_ifs
  · show 0 < Real.exp (-s.frameDt / (3 / 10)) ∧ Real.exp (-s.frameDt / (3 / 10)) ≤ 1
    refine ⟨Real.exp_pos _, Real.exp_le_one_iff.mpr ?_⟩
    rw [neg_div]
    exact neg_nonpos.mpr (div_nonneg hdt (by norm_num))
  · exact ⟨h0, h1⟩

theorem alphasInUnit_of_config (J : Collab ℝ)
    (frames : List (List (Cplx ℝ) × List (Cplx ℝ))) :
    ∀ s : TFState ℝ, 0 ≤ s.frameDt → 0 < s.averagingAlpha → s.averagingAlpha ≤ 1 →
      AlphasInUnit realLibm J s frames := by
  induction frames with
  | nil => intro s _ _ _; trivial
  | cons f fs ih =>
    intro s hdt h0 h1
    obtain ⟨c1, c2, _⟩ := sameConfig_processSpectra realLibm J s f.1 f.2
    obtain ⟨u1, u2⟩ := frameAlpha_unit s hdt h0 h1
    exact ⟨⟨u1.le, u2⟩, ih _ (c1 ▸ hdt) (c2 ▸ h0) (c2 ▸ h1)⟩

theorem prepare_valid (J : Collab ℝ) (s : TFState ℝ) (nreq : Int) (fs : ℝ) (hfs : 0 < fs)
    (hn : 0 ≤ nreq) (hT : 0 < s.averagingTime) :
    0 ≤ (prepare realLibm J s nreq fs).frameDt ∧
    0 < (prepare realLibm J s nreq fs).averagingAlpha ∧
    (prepare realLibm J s nreq fs).averagingAlpha ≤ 1 := by
  have hx : (0 : ℝ) ≤ (nreq : ℝ) * (1 - overlap) := by
    have : (0 : ℝ) ≤ (nreq : ℝ) := by exact_mod_cast hn
    unfold overlap
    nlinarith
  have hhop : 0 ≤ (prepare realLibm J s nreq fs).hopSize := by
    rw [prepare_hopSize]
    unfold truncToInt
    rw [if_pos hx]
    exact Int.floor_nonneg.mpr hx
  have hdt : 0 ≤ (prepare realLibm J s nreq fs).frameDt := by
    rw [prepare_frameDt]
    exact div_nonneg (by exact_mod_cast hhop) hfs.le
  have hal : (prepare realLibm J s nreq fs).averagingAlpha =
      Real.exp (-(prepare realLibm J s nreq fs).frameDt / s.averagingTime) := rfl
  refine ⟨hdt, ?_, ?_⟩
  · rw [hal]
    exact Real.exp_pos _
  · rw [hal, neg_div]
    exact Real.exp_le_one_iff.mpr (neg_nonpos.mpr (div_nonneg hdt hT.le))

theorem start_valid (J : Collab ℝ) (s s0 : TFState ℝ) (nreq : Int) (fs : ℝ)
    (pre : List (List (Cplx ℝ) × List (Cplx ℝ))) (hfs : 0 < fs) (hn : 0 ≤ nreq)
    (hT : 0 < s.averagingTime)
    (hstart : s0 = prepare realLibm J s nreq fs ∨
      s0 = reset (runSpectra realLibm J (prepare realLibm J s nreq fs) pre)) :
    0 ≤ s0.frameDt ∧ 0 < s0.averagingAlpha ∧ s0.averagingAlpha ≤ 1 := by
  obtain ⟨p1, p2, p3⟩ := prepare_valid J s nreq fs hfs hn hT
  rcases hstart with h | h
  · rw [h]
    exact ⟨p1, p2, p3⟩
  · obtain ⟨c1, c2, _⟩ := config_runSpectra realLibm J pre (prepare realLibm J s nreq fs)
    have e1 : s0.frameDt = (prepare realLibm J s nreq fs).frameDt := by
      rw [h]
      exact c1
    have e2 : s0.averagingAlpha = (prepare realLibm J s nreq fs).averagingAlpha := by
      rw [h]
      exact c2
    rw [e1, e2]
    exact ⟨p1, p2, p3⟩

theorem start_selfAveraged (J : Collab ℝ) (s s0 : TFState ℝ) (nreq : Int) (fs : ℝ)
    (pre : List (List (Cplx ℝ) × List (Cplx ℝ)))
    (hstart : s0 = prepare realLibm J s nreq fs ∨
      s0 = reset (runSpectra realLibm J (prepare realLibm J s nreq fs) pre)) :
    SelfAveraged s0 := by
  rcases hstart with h | h
  · rw [h]
    exact fun k => selfAveraged_reset _ k
  · rw [h]
    exact selfAveraged_reset _

theorem self_response (g c : ℝ) (h : Cplx ℝ) (hg : 0 ≤ g) (hh : h = ⟨g / (g + eps), 0⟩)
    (hc : c = g ^ 2 / (g ^ 2 + eps)) :
    0 ≤ h.re ∧ h.re < 1 ∧ carg realLibm h = 0 ∧ 1 - cabs realLibm h = eps / (g + eps) ∧
    1 - c = eps / (g ^ 2 + eps) ∧
    (∀ B : ℝ, 0 < B → B ≤ g →
      1 - eps / (B + eps) ≤ h.re ∧ 1 - eps / (B ^ 2 + eps) ≤ c) := by
  have he : (0 : ℝ) < eps := eps_pos
  have hd : 0 < g + eps := by linarith
  have hd2 : 0 < g ^ 2 + eps := by positivity
  have hq : 0 ≤ g / (g + eps) := div_nonneg hg hd.le
  have hq1 : g / (g + eps) < 1 := by
    rw [div_lt_one hd]
    linarith
  have e1 : g / (g + eps) = 1 - eps / (g + eps) := by
    field_simp
  have e2 : g ^ 2 / (g ^ 2 + eps) = 1 - eps / (g ^ 2 + eps) := by
    field_simp
  subst hh
  subst hc
  refine ⟨hq, hq1, carg_real_nonneg _ hq, ?_, ?_, ?_⟩
  · rw [cabs_real_nonneg _ hq, e1]
    ring
  · rw [e2]
    ring
  · intro B hB hBg
    have hB1 : 0 < B + eps := by linarith
    have hB2 : 0 < B ^ 2 + eps := by positivity
    have hsq : B ^ 2 ≤ g ^ 2 := by nlinarith
    constructor
    · show 1 - eps / (B + eps) ≤ g / (g + eps)
      rw [e1]
      have : eps / (g + eps) ≤ eps / (B + eps) :=
        div_le_div_of_nonneg_left he.le hB1 (by linarith)
      linarith
    · rw [e2]
      have : eps / (g ^ 2 + eps) ≤ eps / (B ^ 2 + eps) :=
        div_le_div_of_nonneg_left he.le hB2 (by linarith)
      linarith

/-- C3 (amended): in exact arithmetic, for a processor prepared with a positive sample rate,
a non-negative requested size and a positive averaging time, if the measurement spectrum
equals the reference spectrum in every frame processed since `prepare` or since a later
`reset`, then in every bin `k`, with `g` the averaged reference power `Gxx[k]` after the
frames: `g ≥ 0`; `H = g / (g + eps)` is real with `0 ≤ H < 1`, its phase is exactly `0`,
`1 - |H| = eps / (g + eps)`; the coherence is `g^2 / (g^2 + eps)`, i.e.
`1 - gamma2 = eps / (g^2 + eps)`. The averaged power is the exponential average of the
reference power: the last frame `Xs` leaves
`g = alpha * g_before + (1 - alpha) * |Xs[k]|^2` with the frame coefficient `alpha` in
`(0, 1]`. Whenever `g` is at least `B > 0`, `H ≥ 1 - eps / (B + eps)` and
`gamma2 ≥ 1 - eps / (B^2 + eps)`; both `g / (g + eps)` and `g^2 / (g^2 + eps)` tend to `1`
as `g` grows. -/
theorem identical_channels_response (J : Collab ℝ) (s s0 : TFState ℝ) (nreq : Int) (fs : ℝ)
    (n : Nat) (pre : List (List (Cplx ℝ) × List (Cplx ℝ))) (frames : List (List (Cplx ℝ)))
    (k : Nat) (hfs : 0 < fs) (hn : 0 ≤ nreq) (hT : 0 < s.averagingTime)
    (hstart : s0 = prepare realLibm J s nreq fs ∨
      s0 = reset (runSpectra realLibm J (prepare realLibm J s nreq fs) pre))
    (hsz : Sized s0 n) (hl : ∀ Xs ∈ frames, Xs.length = n) :
    0 ≤ (runSpectra realLibm J s0 (frames.map (fun Xs => (Xs, Xs)))).Gxx.getD k 0 ∧
    (runSpectra realLibm J s0 (frames.map (fun Xs => (Xs, Xs)))).H.getD k Cplx.zero =
      ⟨(runSpectra realLibm J s0 (frames.map (fun Xs => (Xs, Xs)))).Gxx.getD k 0 /
        ((runSpectra realLibm J s0 (frames.map (fun Xs => (Xs, Xs)))).Gxx.getD k 0 + eps), 0⟩ ∧
    0 ≤ ((runSpectra realLibm J s0 (frames.map (fun Xs => (Xs, Xs)))).H.getD k Cplx.zero).re ∧
    ((runSpectra realLibm J s0 (frames.map (fun Xs => (Xs, Xs)))).H.getD k Cplx.zero).re < 1 ∧
    carg realLibm
      ((runSpectra realLibm J s0 (frames.map (fun Xs => (Xs, Xs)))).H.getD k Cplx.zero) = 0 ∧
    1 - cabs realLibm
        ((runSpectra realLibm J s0 (frames.map (fun Xs => (Xs, Xs)))).H.getD k Cplx.zero) =
      eps / ((runSpectra realLibm J s0 (frames.map (fun Xs => (Xs, Xs)))).Gxx.getD k 0 + eps) ∧
    (runSpectra realLibm J s0 (frames.map (fun Xs => (Xs, Xs)))).gamma2.getD k 0 =
      (runSpectra realLibm J s0 (frames.map (fun Xs => (Xs, Xs)))).Gxx.getD k 0 ^ 2 /
        ((runSpectra realLibm J s0 (frames.map (fun Xs => (Xs, Xs)))).Gxx.getD k 0 ^ 2 + eps) ∧
    1 - (runSpectra realLibm J s0 (frames.map (fun Xs => (Xs, Xs)))).gamma2.getD k 0 =
      eps /
        ((runSpectra realLibm J s0 (frames.map (fun Xs => (Xs, Xs)))).Gxx.getD k 0 ^ 2 + eps) ∧
    (∀ (init : List (List (Cplx ℝ))) (Xs : List (Cplx ℝ)), frames = init ++ [Xs] → k < n →
      0 < frameAlpha realLibm (runSpectra realLibm J s0 (init.map (fun Xs => (Xs, Xs)))) ∧
      frameAlpha realLibm (runSpectra realLibm J s0 (init.map (fun Xs => (Xs, Xs)))) ≤ 1 ∧
      (runSpectra realLibm J s0 (frames.map (fun Xs => (Xs, Xs)))).Gxx.getD k 0 =
        frameAlpha realLibm (runSpectra realLibm J s0 (init.map (fun Xs => (Xs, Xs)))) *
            (runSpectra realLibm J s0 (init.map (fun Xs => (Xs, Xs)))).Gxx.getD k 0 +
          (1 - frameAlpha realLibm
              (runSpectra realLibm J s0 (init.map (fun Xs => (Xs, Xs))))) *
            Cplx.norm (Xs.getD k Cplx.zero)) ∧
    (∀ B : ℝ, 0 < B →
      B ≤ (runSpectra realLibm J s0 (frames.map (fun Xs => (Xs, Xs)))).Gxx.getD k 0 →
      1 - eps / (B + eps) ≤
          ((runSpectra realLibm J s0 (frames.map (fun Xs => (Xs, Xs)))).H.getD k
            Cplx.zero).re ∧
        1 - eps / (B ^ 2 + eps) ≤
          (runSpectra realLibm J s0 (frames.map (fun Xs => (Xs, Xs)))).gamma2.getD k 0) ∧
    Filter.Tendsto (fun g : ℝ => g / (g + eps)) Filter.atTop (nhds 1) ∧
    Filter.Tendsto (fun g : ℝ => g ^ 2 / (g ^ 2 + eps)) Filter.atTop (nhds 1) := by
  obtain ⟨v1, v2, v3⟩ := start_valid J s s0 nreq fs pre hfs hn hT hstart
  have h0 : SelfAveraged s0 := start_selfAveraged J s s0 nreq fs pre hstart
  have ha : AlphasInUnit realLibm J s0 (frames.map (fun Xs => (Xs, Xs))) :=
    alphasInUnit_of_config J _ s0 v1 v2 v3
  have hrec : ∀ (init : List (List (Cplx ℝ))) (Xs : List (Cplx ℝ)), frames = init ++ [Xs] →
      k < n →
      0 < frameAlpha realLibm (runSpectra realLibm J s0 (init.map (fun Xs => (Xs, Xs)))) ∧
      frameAlpha realLibm (runSpectra realLibm J s0 (init.map (fun Xs => (Xs, Xs)))) ≤ 1 ∧
      (runSpectra realLibm J s0 (frames.map (fun Xs => (Xs, Xs)))).Gxx.getD k 0 =
        frameAlpha realLibm (runSpectra realLibm J s0 (init.map (fun Xs => (Xs, Xs)))) *
            (runSpectra realLibm J s0 (init.map (fun Xs => (Xs, Xs)))).Gxx.getD k 0 +
          (1 - frameAlpha realLibm
              (runSpectra realLibm J s0 (init.map (fun Xs => (Xs, Xs))))) *
            Cplx.norm (Xs.getD k Cplx.zero) := by
    intro init Xs hfr hk
    obtain ⟨c1, c2, _⟩ := config_runSpectra realLibm J (init.map (fun Xs => (Xs, Xs))) s0
    obtain ⟨u1, u2⟩ := frameAlpha_unit
      (runSpectra realLibm J s0 (init.map (fun Xs => (Xs, Xs)))) (c1 ▸ v1) (c2 ▸ v2) (c2 ▸ v3)
    have hXs : Xs.length = n := hl Xs (by rw [hfr]; simp)
    have hrun : runSpectra realLibm J s0 (frames.map (fun Xs => (Xs, Xs))) =
        processSpectra realLibm J (runSpectra realLibm J s0 (init.map (fun Xs => (Xs, Xs))))
          Xs Xs := by
      rw [hfr, List.map_append]
      exact runSpectra_append_one realLibm J s0 _ (Xs, Xs)
    refine ⟨u1, u2, ?_⟩
    rw [hrun]
    exact (processSpectra_bin realLibm J _ Xs Xs n k
      (sized_runSpectra realLibm J n _ s0 hsz) hXs hXs hk).1
  obtain ⟨c1, _, _, c4, c5⟩ := selfAveraged_runSpectra realLibm J n frames s0 hsz hl ha h0 k
  obtain ⟨r1, r2, r3, r4, r5, r6⟩ := self_response _ _ _ c1 c4 c5
  exact ⟨c1, c4, r1, r2, r3, r4, c5, r5, hrec, r6, tendsto_ratio_one,
    tendsto_square_ratio_one⟩

/-- C3 (instance): on the processor prepared with four points at 48 kHz, after one frame
with `Y = X = [1, j, 1 + j]` the response of bin 1 has phase 0 and real part below 1, and the
averaged power of the bin is `alpha * 0 + (1 - alpha) * |j|^2` with the frame coefficient
`alpha` in `(0, 1]`. -/
theorem identical_channels_response_witness :
    carg realLibm
      ((runSpectra realLibm exactCollab preparedFour
        ([[⟨1, 0⟩, ⟨0, 1⟩, ⟨1, 1⟩]].map (fun Xs => (Xs, Xs)))).H.getD 1 Cplx.zero) = 0 ∧
    ((runSpectra realLibm exactCollab preparedFour
        ([[⟨1, 0⟩, ⟨0, 1⟩, ⟨1, 1⟩]].map (fun Xs => (Xs, Xs)))).H.getD 1 Cplx.zero).re < 1 ∧
    0 < frameAlpha realLibm (runSpectra realLibm exactCollab preparedFour
        (([] : List (List (Cplx ℝ))).map (fun Xs => (Xs, Xs)))) ∧
    frameAlpha realLibm (runSpectra realLibm exactCollab preparedFour
        (([] : List (List (Cplx ℝ))).map (fun Xs => (Xs, Xs)))) ≤ 1 ∧
    (runSpectra realLibm exactCollab preparedFour
        ([[⟨1, 0⟩, ⟨0, 1⟩, ⟨1, 1⟩]].map (fun Xs => (Xs, Xs)))).Gxx.getD 1 0 =
      frameAlpha realLibm (runSpectra realLibm exactCollab preparedFour
          (([] : List (List (Cplx ℝ))).map (fun Xs => (Xs, Xs)))) *
          (runSpectra realLibm exactCollab preparedFour
            (([] : List (List (Cplx ℝ))).map (fun Xs => (Xs, Xs)))).Gxx.getD 1 0 +
        (1 - frameAlpha realLibm (runSpectra realLibm exactCollab preparedFour
          (([] : List (List (Cplx ℝ))).map (fun Xs => (Xs, Xs))))) *
          Cplx.norm (([⟨1, 0⟩, ⟨0, 1⟩, ⟨1, 1⟩] : List (Cplx ℝ)).getD 1 Cplx.zero) :=
  have h := identical_channels_response exactCollab initial preparedFour 4 48000 3 []
    [[⟨1, 0⟩, ⟨0, 1⟩, ⟨1, 1⟩]] 1 (by norm_num) (by decide)
    (by show (0 : ℝ) < 3 / 2; norm_num) (Or.inl rfl) preparedFour_sized (by simp)
  ⟨h.2.2.2.2.1, h.2.2.2.1,
    h.2.2.2.2.2.2.2.2.1 [] [⟨1, 0⟩, ⟨0, 1⟩, ⟨1, 1⟩] rfl (by decide)⟩

end SelfMeasurementConfig

section SelfMeasurementLimits

theorem negativeRate_sized :
    Sized (prepare realLibm exactCollab (initial : TFState ℝ) 4 (-48000)) 3 := by
  have h := sized_prepare realLibm exactCollab (initial : TFState ℝ) 4 (-48000)
  have e : (Int.tdiv ((exactCollab : Collab ℝ).analyzerSize 4 (-48000)) 2 + 1).toNat = 3 := by
    show (Int.tdiv 4 2 + 1).toNat = 3
    decide
  rw [e] at h
  exact h

theorem negativeRate_alpha :
    frameAlpha realLibm (prepare realLibm exactCollab (initial : TFState ℝ) 4 (-48000)) =
      Real.exp (1 / 14400) := by
  have hfc : (prepare realLibm exactCollab (initial : TFState ℝ) 4 (-48000)).frameCount = 0 :=
    rfl
  have hdt : (prepare realLibm exactCollab (initial : TFState ℝ) 4 (-48000)).frameDt =
      1 / (-48000) := by
    show ((truncToInt (((4 : Int) : ℝ) * (1 - overlap)) : Int) : ℝ) / (-48000) = 1 / (-48000)
    have h : truncToInt (((4 : Int) : ℝ) * (1 - overlap)) = 1 := by
      simp only [truncToInt, overlap]
      norm_num
    rw [h]
    norm_num
  unfold frameAlpha
  rw [hfc, if_pos (by decide), hdt]
  show Real.exp (-(1 / (-48000)) / (3 / 10)) = Real.exp (1 / 14400)
  norm_num

theorem negativeRate_gain :
    1 < ((processSpectra realLibm exactCollab
      (prepare realLibm exactCollab (initial : TFState ℝ) 4 (-48000))
      [⟨1, 0⟩, ⟨1, 0⟩, ⟨1, 0⟩] [⟨1, 0⟩, ⟨1, 0⟩, ⟨1, 0⟩]).H.getD 1 Cplx.zero).re := by
  have z1 : ∀ (l : List ℝ), (fill l (0 : ℝ)).getD 1 0 = 0 := by
    intro l
    rw [fill_eq_replicate, List.getD_eq_getElem?_getD, List.getElem?_replicate]
    split_ifs <;> rfl
  have z2 : ∀ (l : List (Cplx ℝ)),
      (fill l (Cplx.zero : Cplx ℝ)).getD 1 Cplx.zero = Cplx.zero := by
    intro l
    rw [fill_eq_replicate, List.getD_eq_getElem?_getD, List.getElem?_replicate]
    split_ifs <;> rfl
  have e1 : (prepare realLibm exactCollab (initial : TFState ℝ) 4 (-48000)).Gxx.getD 1 0 = 0 :=
    z1 _
  have e2 : (prepare realLibm exactCollab (initial : TFState ℝ) 4 (-48000)).Gyy.getD 1 0 = 0 :=
    z1 _
  have e3 : (prepare realLibm exactCollab (initial : TFState ℝ) 4 (-48000)).Gxy.getD 1
      Cplx.zero = Cplx.zero := z2 _
  have hb := (processSpectra_bin realLibm exactCollab _ [⟨1, 0⟩, ⟨1, 0⟩, ⟨1, 0⟩]
    [⟨1, 0⟩, ⟨1, 0⟩, ⟨1, 0⟩] 3 1 negativeRate_sized rfl rfl (by decide)).2
  rw [hb, e1, e2, e3, negativeRate_alpha]
  have hx : (1 : ℝ) / 14400 + 1 ≤ Real.exp (1 / 14400) := Real.add_one_le_exp _
  have he : (eps : ℝ) = 1 / 10 ^ 12 := rfl
  have hval : (averageBin (Real.exp (1 / 14400)) (⟨1, 0⟩ : Cplx ℝ) ⟨1, 0⟩ 0 0 Cplx.zero).h.re =
      (1 - Real.exp (1 / 14400)) / ((1 - Real.exp (1 / 14400)) + eps) := by
    simp [averageBin, Cplx.divR, Cplx.add, Cplx.smul, Cplx.mul, Cplx.conj, Cplx.norm,
      Cplx.zero]
  have hv : (([⟨1, 0⟩, ⟨1, 0⟩, ⟨1, 0⟩] : List (Cplx ℝ)).getD 1 Cplx.zero) = ⟨1, 0⟩ := rfl
  rw [hv, hval]
  have hneg : (1 - Real.exp (1 / 14400)) + eps < 0 := by
    rw [he]
    norm_num at hx ⊢
    linarith
  rw [one_lt_div_of_neg hneg]
  linarith [eps_pos (K := ℝ)]

end SelfMeasurementLimits

section SelfMeasurementCounterexample

/-- C3 (counterexample): in binary64, with `Y = X = 1000` in a bin, the first frame after
`prepare(4096, 48000.0)` stores `Gxx = 68641.59788864799` and `H = 1.0` exactly, whichever of
the three `double`s around `exp(-frameDt / 0.3)` the coefficient is: `H < 1` fails. And in
exact arithmetic, on a processor prepared with four points and the sample rate `-48000`,
the first frame with `Y = X = 1` is averaged with the coefficient `exp(1 / 14400) > 1` and
leaves `H > 1` in bin 1. -/
theorem identical_channels_gain_reaches_one :
    (∀ j : Fin 3,
      (firstFrameF64 (alphaFast4096 (((j : Nat) : Int) - 1)) ⟨F64.ofInt 1000, F64.ofInt 0⟩
        ⟨F64.ofInt 1000, F64.ofInt 0⟩).h.re.units = (F64.ofInt 1).units ∧
      (firstFrameF64 (alphaFast4096 (((j : Nat) : Int) - 1)) ⟨F64.ofInt 1000, F64.ofInt 0⟩
        ⟨F64.ofInt 1000, F64.ofInt 0⟩).h.im.units = 0 ∧
      (F64.ofInt 68641).units <
        (firstFrameF64 (alphaFast4096 (((j : Nat) : Int) - 1)) ⟨F64.ofInt 1000, F64.ofInt 0⟩
          ⟨F64.ofInt 1000, F64.ofInt 0⟩).gxx.units) ∧
    1 < ((processSpectra realLibm exactCollab
      (prepare realLibm exactCollab (initial : TFState ℝ) 4 (-48000))
      [⟨1, 0⟩, ⟨1, 0⟩, ⟨1, 0⟩] [⟨1, 0⟩, ⟨1, 0⟩, ⟨1, 0⟩]).H.getD 1 Cplx.zero).re :=
  ⟨by decide, negativeRate_gain⟩

end SelfMeasurementCounterexample

section CorrelationBuffers

variable {K : Type} [LinearOrderedField K] [FloorRing K]

theorem buffers_smoothAndLock (s : TFState K) (d : K) :
    (smoothAndLock s d).phatFftBuffer = s.phatFftBuffer ∧
    (smoothAndLock s d).phatTime = s.phatTime := by
  unfold smoothAndLock
  split_ifs <;> exact ⟨rfl, rfl⟩

theorem buffers_compensationStep (M : Libm K) (s : TFState K) :
    (compensationStep M s).phatFftBuffer = s.phatFftBuffer ∧
    (compensationStep M s).phatTime = s.phatTime := by
  unfold compensationStep
  split_ifs
  · simp only [applyDelayCompensation]
    split_ifs <;> exact ⟨rfl, rfl⟩
  · exact ⟨rfl, rfl⟩

theorem buffers_delayStep (M : Libm K) (J : Collab K) (s : TFState K) (hf : s.phatFFT = true)
    (hJ : ∀ l, (J.ifft l).length = l.length) :
    (delayStep M J s).phatFftBuffer.length = s.phatFftBuffer.length ∧
    (delayStep M J s).phatTime.length = s.phatTime.length := by
  by_cases h : s.delayUpdateCounter + 1 ≥ (if s.delayLocked = true then 20 else 2)
  · rw [delayStep_due M J s h, estimateDelay_fast M J { s with delayUpdateCounter := 0 } hf]
    obtain ⟨b1, b2⟩ := buffers_smoothAndLock
      { ({ s with delayUpdateCounter := 0 } : TFState K) with
        phatFftBuffer := (gccPhat M J { s with delayUpdateCounter := 0 }).1
        phatTime := (gccPhat M J { s with delayUpdateCounter := 0 }).2.1 }
      (gccPhat M J { s with delayUpdateCounter := 0 }).2.2
    rw [b1, b2]
    constructor
    · show (J.ifft _).length = _
      rw [hJ, length_writeBins]
    · show (writeBins _ _ _).length = _
      rw [length_writeBins]
  · rw [delayStep_not_due M J s h]
    exact ⟨rfl, rfl⟩

theorem buffers_processSpectra (M : Libm K) (J : Collab K) (s : TFState K)
    (Xs Ys : List (Cplx K)) (hf : s.phatFFT = true)
    (hJ : ∀ l, (J.ifft l).length = l.length) :
    (processSpectra M J s Xs Ys).phatFftBuffer.length = s.phatFftBuffer.length ∧
    (processSpectra M J s Xs Ys).phatTime.length = s.phatTime.length := by
  unfold processSpectra
  obtain ⟨_, _, p3, p4⟩ := sameDelay_after_compensation M J (acceptSpectra s Xs Ys)
  obtain ⟨c3, c4⟩ := buffers_compensationStep M
    (delayStep M J (averagingStep M
      { acceptSpectra s Xs Ys with frameCount := (acceptSpectra s Xs Ys).frameCount + 1 }))
  obtain ⟨_, _, q3, q4⟩ := sameDelay_averagingStep M
    { acceptSpectra s Xs Ys with frameCount := (acceptSpectra s Xs Ys).frameCount + 1 }
  obtain ⟨_, _, _, _, _, _, _, _, _, _, _, r12, _⟩ := sameConfig_averagingStep M
    { acceptSpectra s Xs Ys with frameCount := (acceptSpectra s Xs Ys).frameCount + 1 }
  have hf2 : (averagingStep M
      { acceptSpectra s Xs Ys with
        frameCount := (acceptSpectra s Xs Ys).frameCount + 1 }).phatFFT = true :=
    r12.trans hf
  obtain ⟨d1, d2⟩ := buffers_delayStep M J _ hf2 hJ
  rw [p3, p4, c3, c4, d1, d2, q3, q4]
  exact ⟨rfl, rfl⟩

end CorrelationBuffers

section DelayedPairRun

theorem inverseDFT_length (l : List (Cplx ℝ)) : (inverseDFT realLibm l).length = l.length := by
  unfold inverseDFT
  rw [List.length_map, List.length_range]

theorem preparedDelay_fast : preparedDelay.phatFFT = true := by
  have h : preparedDelay.phatFFT =
      decide ((2 : Int) ^ (cRound (Real.logb 2 (((128 : Int) : ℝ)))).toNat = 128) := rfl
  have hl : Real.logb 2 (((128 : Int) : ℝ)) = ((7 : Nat) : ℝ) := by
    have e : (((128 : Int) : ℝ)) = ((((2 : Int) ^ 7 : Int)) : ℝ) := by norm_num
    rw [e, logb_two_pow]
  rw [h, hl, cRound_natCast]
  decide

theorem preparedDelay_sized : Sized preparedDelay 65 := by
  have h := sized_prepare realLibm dftCollab (initial : TFState ℝ) 128 40000
  have e : (Int.tdiv ((dftCollab : Collab ℝ).analyzerSize 128 40000) 2 + 1).toNat = 65 := by
    show (Int.tdiv 128 2 + 1).toNat = 65
    decide
  rw [e] at h
  exact h

theorem delayedPair_raw (u : TFState ℝ) (h1 : u.fftSize = 128) (h2 : Sized u 65)
    (h3 : u.phatFftBuffer.length = 128) (h4 : u.phatTime.length = 128)
    (h5 : u.sampleRate = 40000) :
    rawDelay realLibm dftCollab (acceptSpectra u delayedPair.1 delayedPair.2) =
      64 / 40000 := by
  have hX : delayedPair.1.length = 65 := List.length_replicate _ _
  have hY : delayedPair.2.length = 65 := by
    show ((List.range 65).map _).length = 65
    rw [List.length_map, List.length_range]
  have hs := sized_acceptSpectra u delayedPair.1 delayedPair.2 65 h2
  have h := (gcc_pure_delay dftCollab (acceptSpectra u delayedPair.1 delayedPair.2) 128 64 64
    rfl (by decide) h1 hs.1 h3 h4 (fun _ => rfl) (by decide) (by decide) ?_ ?_).2.2.2
  · rw [h]
    have e : (acceptSpectra u delayedPair.1 delayedPair.2).sampleRate = 40000 := h5
    rw [e]
    norm_num
  · intro k hk
    rw [(acceptSpectra_getD u _ _ 65 k h2 hX hY (by omega)).1]
    have e : delayedPair.1.getD k Cplx.zero = ⟨1, 0⟩ :=
      getD_replicate_lt 65 k _ _ (by omega)
    rw [e]
    show (1 : ℝ) * 1 + 0 * 0 > eps
    have he : (eps : ℝ) = 1 / 10 ^ 12 := rfl
    rw [he]
    norm_num
  · intro k hk
    obtain ⟨x1, x2⟩ := acceptSpectra_getD u _ _ 65 k h2 hX hY (by omega)
    rw [x1, x2]
    have e : delayedPair.1.getD k Cplx.zero = ⟨1, 0⟩ :=
      getD_replicate_lt 65 k _ _ (by omega)
    rw [e]
    have e2 : delayedPair.2 =
        (List.range 65).map (fun (k : Nat) =>
          Cplx.mul ⟨1, 0⟩
            (cexpI realLibm
              (-(2 * Real.pi * (k : ℝ) * ((64 : Int) : ℝ) / ((128 : Nat) : ℝ))))) := rfl
    rw [e2, List.getD_eq_getElem?_getD, List.getElem?_map, List.getElem?_range (by omega)]
    rfl

theorem delayedPair_constant (m : Nat) :
    ∀ u : TFState ℝ, u.phatFFT = true → u.fftSize = 128 → Sized u 65 →
      u.phatFftBuffer.length = 128 → u.phatTime.length = 128 → u.sampleRate = 40000 →
      ConstantRawDelay realLibm dftCollab (64 / 40000) u (List.replicate m delayedPair) := by
  induction m with
  | zero =>
    intro u _ _ _ _ _ _
    trivial
  | succ m ih =>
    intro u h0 h1 h2 h3 h4 h5
    obtain ⟨_, _, c3, c4, c5⟩ :=
      sameConfig_processSpectra realLibm dftCollab u delayedPair.1 delayedPair.2
    obtain ⟨b1, b2⟩ := buffers_processSpectra realLibm dftCollab u delayedPair.1 delayedPair.2
      h0 inverseDFT_length
    exact ⟨delayedPair_raw u h1 h2 h3 h4 h5,
      ih _ (c3.trans h0) (c5.trans h1) (sized_processSpectra realLibm dftCollab u _ _ 65 h2)
        (b1.trans h3) (b2.trans h4) (c4.trans h5)⟩

theorem preparedDelay_constant (m : Nat) :
    ConstantRawDelay realLibm dftCollab (64 / 40000) preparedDelay
      (List.replicate m delayedPair) := by
  refine delayedPair_constant m preparedDelay preparedDelay_fast ?_ preparedDelay_sized ?_ ?_
    rfl
  · unfold preparedDelay
    rw [prepare_fftSize]
    rfl
  · have h : preparedDelay.phatFftBuffer =
        if preparedDelay.phatFFT then List.replicate preparedDelay.fftSize.toNat Cplx.zero
        else [] := rfl
    have hN : preparedDelay.fftSize = 128 := by
      unfold preparedDelay
      rw [prepare_fftSize]
      rfl
    rw [h, preparedDelay_fast, hN]
    rfl
  · have h : preparedDelay.phatTime =
        if preparedDelay.phatFFT then List.replicate preparedDelay.fftSize.toNat 0
        else [] := rfl
    have hN : preparedDelay.fftSize = 128 := by
      unfold preparedDelay
      rw [prepare_fftSize]
      rfl
    rw [h, preparedDelay_fast, hN]
    rfl

/-- C4 (instance): on the processor prepared with 128 points at 40 kHz, with the exact
inverse DFT, 22 frames whose measurement is the reference delayed by 64 samples (1.6 ms):
every frame measures the raw delay `64 / 40000`, after the 22 frames the estimator is
Locked and the estimate is within 0.025 ms of 1.6 ms. -/
theorem delay_converges_and_locks_witness :
    preparedDelay.phatFFT = true ∧ |((64 : ℝ) / 40000)| ≤ 1 / 20 ∧
    ConstantRawDelay realLibm dftCollab (64 / 40000) preparedDelay
      (List.replicate 22 delayedPair) ∧
    (runSpectra realLibm dftCollab preparedDelay
      ((List.replicate 22 delayedPair).take 22)).delayLocked = true ∧
    |(runSpectra realLibm dftCollab preparedDelay
      ((List.replicate 22 delayedPair).take 22)).estimatedDelay - 64 / 40000| < 1 / 40000 :=
  have hd : |((64 : ℝ) / 40000)| ≤ 1 / 20 := by
    rw [abs_of_nonneg (by norm_num)]
    norm_num
  have h := delay_converges_and_locks realLibm dftCollab initial 128 40000 (64 / 40000)
    (List.replicate 22 delayedPair) 22 preparedDelay_fast hd (preparedDelay_constant 22)
    (by rw [List.length_replicate])
  ⟨preparedDelay_fast, hd, preparedDelay_constant 22, h.2.2.2 (le_refl 22),
    h.2.2.1 (h.2.2.2 (le_refl 22))⟩

end DelayedPairRun

end TFProcessor
